import Mathlib

/-!
# vpacker64: a shallow embedding of `vpacker64.hpp`

The codec packs arrays of unsigned 64-bit integers.  The embedding follows the
C++ source function by function.

* A buffer reached through a pointer is a *memory* `Nat → Nat` together with an
  offset; a store is `Mem.write`.  A `char` cell holds the unsigned value of the
  byte (`0 … 255`); every expression of the source that reads a `char` masks it
  (`& 0xff`, `& 0x07`, …), so the signed and the unsigned reading agree.
* `uint64_t`, `uint32_t` and `uint16_t` arithmetic is arithmetic on `Nat` with an
  explicit `% 2 ^ w` wherever the C++ expression can leave the range.
* Element counts and pointer offsets (`size_t`, `int`) are unbounded `Nat`; the
  `int` results that can be `-1` are `Int`.
* A `for` loop that runs `n` times is `forLoop n body init`.
-/

namespace vpacker64

/-! ## Memory and loops -/

/-- A memory maps addresses (or element indices) to cell contents. -/
abbrev Mem := Nat → Nat

/-- The store `m[a] = v`. -/
def Mem.write (m : Mem) (a v : Nat) : Mem := fun x => if x = a then v else m x

/-- The loop `for (i = 0; i < n; i++) s = body i s`, started from `init`. -/
def forLoop {σ : Type} : Nat → (Nat → σ → σ) → σ → σ
  | 0, _, init => init
  | k + 1, body, init => body k (forLoop k body init)

/-- The macro `VP64_DIV_ROUNDUP(x, y)`, that is `(x + y - 1) / y`. -/
def VP64_DIV_ROUNDUP (x y : Nat) : Nat := (x + y - 1) / y

/-- The portable `VP64_MSB64`: the number of leading zero bits of a 64-bit value. -/
def VP64_MSB64 (x : Nat) : Nat :=
  let pos := 64
  let temp := x >>> 32
  let (pos, x) := if temp ≠ 0 then (pos - 32, temp) else (pos, x)
  let temp := x >>> 16
  let (pos, x) := if temp ≠ 0 then (pos - 16, temp) else (pos, x)
  let temp := x >>> 8
  let (pos, x) := if temp ≠ 0 then (pos - 8, temp) else (pos, x)
  let temp := x >>> 4
  let (pos, x) := if temp ≠ 0 then (pos - 4, temp) else (pos, x)
  let temp := x >>> 2
  let (pos, x) := if temp ≠ 0 then (pos - 2, temp) else (pos, x)
  let temp := x >>> 1
  if temp ≠ 0 then pos - 2 else pos - x

/-- The constant `VP64_MAGICNUM`. -/
def VP64_MAGICNUM : Nat := 0x08b5a7033f4cbc3d

/-! ## Tables -/

/-- The table `bits_length[]`: the widths integers are packed with. -/
def bits_length : List Nat :=
  [0, 1, 2, 3, 4, 5, 6, 7, 8, 9, 10,
   11, 12, 16, 32, 64]

/-- The table `roundup_bits[]`: from an actual bit length to a packed width. -/
def roundup_bits : List Nat :=
  [0, 1, 2, 3, 4, 5, 6, 7, 8, 9, 10,
   11, 12, 16, 16, 16, 16,
   32, 32, 32, 32, 32, 32, 32, 32,
   32, 32, 32, 32, 32, 32, 32, 32,
   64, 64, 64, 64, 64, 64, 64, 64,
   64, 64, 64, 64, 64, 64, 64, 64,
   64, 64, 64, 64, 64, 64, 64, 64,
   64, 64, 64, 64, 64, 64, 64, 64]

/-- The table `partition_length[]`: the lengths a partition may have. -/
def partition_length : List Nat :=
  [1, 2, 3, 4, 5, 6, 7, 8, 9, 10,
   11, 12, 16, 32, 64, 128]

/-- The table `ctrl_bit[]` (as unsigned bytes): from a width to the low nibble
of the control byte. -/
def ctrl_bit : List Nat :=
  [0x00, 0x01, 0x02, 0x03,
   0x04, 0x05, 0x06, 0x07,
   0x08, 0x09, 0x0a, 0x0b,
   0x0c, 0xff, 0xff, 0xff,
   0x0d, 0xff, 0xff, 0xff,
   0xff, 0xff, 0xff, 0xff,
   0xff, 0xff, 0xff, 0xff,
   0xff, 0xff, 0xff, 0xff,
   0x0e, 0xff, 0xff, 0xff,
   0xff, 0xff, 0xff, 0xff,
   0xff, 0xff, 0xff, 0xff,
   0xff, 0xff, 0xff, 0xff,
   0xff, 0xff, 0xff, 0xff,
   0xff, 0xff, 0xff, 0xff,
   0xff, 0xff, 0xff, 0xff,
   0xff, 0xff, 0xff, 0xff,
   0x0f]

/-- The table `ctrl_partition[]` (as unsigned bytes): from a partition length to
the high nibble of the control byte. -/
def ctrl_partition : List Nat :=
  [0xff, 0x00, 0x10, 0x20,
   0x30, 0x40, 0x50, 0x60,
   0x70, 0x80, 0x90, 0xa0,
   0xb0, 0xff, 0xff, 0xff,
   0xc0, 0xff, 0xff, 0xff,
   0xff, 0xff, 0xff, 0xff,
   0xff, 0xff, 0xff, 0xff,
   0xff, 0xff, 0xff, 0xff,
   0xd0, 0xff, 0xff, 0xff,
   0xff, 0xff, 0xff, 0xff,
   0xff, 0xff, 0xff, 0xff,
   0xff, 0xff, 0xff, 0xff,
   0xff, 0xff, 0xff, 0xff,
   0xff, 0xff, 0xff, 0xff,
   0xff, 0xff, 0xff, 0xff,
   0xff, 0xff, 0xff, 0xff,
   0xe0, 0xff, 0xff, 0xff,
   0xff, 0xff, 0xff, 0xff,
   0xff, 0xff, 0xff, 0xff,
   0xff, 0xff, 0xff, 0xff,
   0xff, 0xff, 0xff, 0xff,
   0xff, 0xff, 0xff, 0xff,
   0xff, 0xff, 0xff, 0xff,
   0xff, 0xff, 0xff, 0xff,
   0xff, 0xff, 0xff, 0xff,
   0xff, 0xff, 0xff, 0xff,
   0xff, 0xff, 0xff, 0xff,
   0xff, 0xff, 0xff, 0xff,
   0xff, 0xff, 0xff, 0xff,
   0xff, 0xff, 0xff, 0xff,
   0xff, 0xff, 0xff, 0xff,
   0xff, 0xff, 0xff, 0xff,
   0xf0]

/-- The constant `block_num`: the number of integers of a full block. -/
def block_num : Nat := 65536

/-- The constant `MAX_UNPACK_OVERRUN_NUM`. -/
def MAX_UNPACK_OVERRUN_NUM : Nat := 16

/-- The local constant `max_partition`, the last entry of `partition_length[]`. -/
def max_partition : Nat := partition_length.getD (partition_length.length - 1) 0

/-! ## Byte order -/

/-- The writer `SetUint32(out + p, v)`. -/
def SetUint32 (out : Mem) (p v : Nat) : Mem :=
  let out := out.write p ((v >>> 24) &&& 0xff)
  let out := out.write (p + 1) ((v >>> 16) &&& 0xff)
  let out := out.write (p + 2) ((v >>> 8) &&& 0xff)
  out.write (p + 3) (v &&& 0xff)

/-- The writer `SetUint64(out + p, v)`. -/
def SetUint64 (out : Mem) (p v : Nat) : Mem :=
  let out := out.write p ((v >>> 56) &&& 0xff)
  let out := out.write (p + 1) ((v >>> 48) &&& 0xff)
  let out := out.write (p + 2) ((v >>> 40) &&& 0xff)
  let out := out.write (p + 3) ((v >>> 32) &&& 0xff)
  let out := out.write (p + 4) ((v >>> 24) &&& 0xff)
  let out := out.write (p + 5) ((v >>> 16) &&& 0xff)
  let out := out.write (p + 6) ((v >>> 8) &&& 0xff)
  out.write (p + 7) (v &&& 0xff)

/-- The reader `DecodeUint16(in + p)`. -/
def DecodeUint16 (src : Mem) (p : Nat) : Nat :=
  let v := src p &&& 0xff
  ((v <<< 8) ||| (src (p + 1) &&& 0xff)) % 2 ^ 16

/-- The reader `DecodeUint32(in + p)`. -/
def DecodeUint32 (src : Mem) (p : Nat) : Nat :=
  let v := src p &&& 0xff
  forLoop 3 (fun k v => ((v <<< 8) ||| (src (p + (k + 1)) &&& 0xff)) % 2 ^ 32) v

/-- The reader `DecodeUint64(in + p)`. -/
def DecodeUint64 (src : Mem) (p : Nat) : Nat :=
  let v := src p &&& 0xff
  forLoop 7 (fun k v => ((v <<< 8) ||| (src (p + (k + 1)) &&& 0xff)) % 2 ^ 64) v

/-! ## The bit writer -/

/-- The local variables of the packing loop of `WriteBits`. -/
structure WBState where
  /-- The memory `dst` points into. -/
  mem : Mem
  /-- The offset of the moving pointer `dst`. -/
  dp : Nat
  /-- The number of buffered bits, `nused`. -/
  nused : Nat
  /-- The 64-bit bit buffer, `buf`. -/
  buf : Nat

/-- One iteration of the packing loop of `WriteBits`, for the element `src[i]`. -/
def WriteBits.step (src : Nat → Nat) (nbits : Nat) (i : Nat) (st : WBState) : WBState :=
  let buf := ((st.buf <<< nbits) % 2 ^ 64) ||| (src i &&& ((1 <<< nbits) - 1))
  let nused := st.nused + nbits
  if nused ≥ 32 then
    let w := (buf >>> (nused - 32)) &&& ((1 <<< 32) - 1)
    { mem := SetUint32 st.mem st.dp w, dp := st.dp + 4, nused := nused - 32, buf := buf }
  else
    { mem := st.mem, dp := st.dp, nused := nused, buf := buf }

/-- The final flush of `WriteBits`: the `switch (nc)` with its fall-through
cases.  For `nused > 32` the shift count `32 - nused` of the source is negative;
then `nc > 4`, no case is taken and `w` is not used. -/
def WriteBits.flush (st : WBState) : Mem :=
  if st.nused > 0 then
    let w := ((st.buf <<< (32 - st.nused)) % 2 ^ 64) &&& ((1 <<< 32) - 1)
    let nc := VP64_DIV_ROUNDUP st.nused 8
    let m := st.mem
    let m := if nc = 4 then m.write (st.dp + 3) (w &&& 0xff) else m
    let m := if nc = 4 ∨ nc = 3 then m.write (st.dp + 2) ((w >>> 8) &&& 0xff) else m
    let m := if nc = 4 ∨ nc = 3 ∨ nc = 2 then m.write (st.dp + 1) ((w >>> 16) &&& 0xff) else m
    if nc = 4 ∨ nc = 3 ∨ nc = 2 ∨ nc = 1 then m.write st.dp ((w >>> 24) &&& 0xff) else m
  else st.mem

/-- The function `WriteBits(src, nbits, n, dst + dp, dst + dlimit)`: the result
(`-1` on failure) and the destination memory afterwards. -/
def WriteBits (src : Nat → Nat) (nbits n : Nat) (dst : Mem) (dp dlimit : Nat) : Int × Mem :=
  let nwritten := VP64_DIV_ROUNDUP (nbits * n) 8
  if dp + nwritten > dlimit then (-1, dst)
  else if nbits = 0 then (0, dst)
  else if nbits = 64 then
    (((n * 8 : Nat) : Int), forLoop n (fun i m => SetUint64 m (dp + i * 8) (src i)) dst)
  else
    let st := forLoop n (WriteBits.step src nbits) { mem := dst, dp := dp, nused := 0, buf := 0 }
    ((nwritten : Int), WriteBits.flush st)

/-! ## The partitioner -/

/-- A `while (cond) body` loop run with a bound on the number of iterations;
`none` when the bound is reached with the condition still true. -/
def whileLoop {σ : Type} : Nat → (σ → Bool) → (σ → σ) → σ → Option σ
  | 0, cond, _, s => if cond s then none else some s
  | k + 1, cond, body, s => if cond s then whileLoop k cond body (body s) else some s

/-- The conversion of an `int64_t` to `size_t`. -/
def toSizeT (r : Int) : Nat := if r < 0 then (r + 2 ^ 64).toNat else r.toNat

/-- The arrays `refs[]` and `costs[]` of `ComputePartition`. -/
structure DPState where
  /-- The back references `refs[]`. -/
  refs : Nat → Int
  /-- The costs `costs[]`. -/
  costs : Nat → Nat

/-- The used bit length of an element, `64 - VP64_MSB64(x)`. -/
def usedBits (x : Nat) : Nat := 64 - VP64_MSB64 x

/-- The first loop of `ComputePartition`: `refs[i] = -1` and `costs[i] = 0` for
`i ≤ n`. -/
def ComputePartition.init (n : Nat) : DPState :=
  forLoop (n + 1)
    (fun i t => { refs := fun x => if x = i then -1 else t.refs x,
                  costs := fun x => if x = i then 0 else t.costs x })
    { refs := fun _ => 0, costs := fun _ => 0 }

/-- The seeding of `ComputePartition`: `costs[0]`, then `refs[i]` and `costs[i]`
for `1 ≤ i < max_partition`. -/
def ComputePartition.seed (src : Nat → Nat) (t : DPState) : DPState :=
  let t : DPState :=
    { t with costs := fun x => if x = 0 then VP64_DIV_ROUNDUP (usedBits (src 0)) 8 else t.costs x }
  forLoop (max_partition - 1)
    (fun k t =>
      let i := k + 1
      { refs := fun x => if x = i then ((i - 1 : Nat) : Int) else t.refs x,
        costs := fun x => if x = i
          then t.costs (i - 1) + VP64_DIV_ROUNDUP (usedBits (src i)) 8 else t.costs x })
    t

/-- The body of the inner loop of `ComputePartition` at position `i`, for the
candidate `partition_length[j]`; the state is `maxb` and the two arrays. -/
def ComputePartition.inner (src : Nat → Nat) (i j : Nat) (st : Nat × DPState) : Nat × DPState :=
  let maxb := st.1
  let t := st.2
  let bp := i - partition_length.getD j 0
  let b := roundup_bits.getD (usedBits (src bp)) 0
  let maxb := if maxb < b then b else maxb
  let c := t.costs bp + VP64_DIV_ROUNDUP ((i - bp) * maxb) 8
  if t.refs i = -1 ∨ c ≤ t.costs i then
    (maxb, { refs := fun x => if x = i then (bp : Int) else t.refs x,
             costs := fun x => if x = i then c else t.costs x })
  else (maxb, t)

/-- The body of the main loop of `ComputePartition` at position `i`. -/
def ComputePartition.outer (src : Nat → Nat) (i : Nat) (t : DPState) : DPState :=
  (forLoop partition_length.length (ComputePartition.inner src i) (0, t)).2

/-- The arrays `refs[]` and `costs[]` after the loops that fill them; the main
loop runs over `i = max_partition, …, n`. -/
def ComputePartition.table (src : Nat → Nat) (n : Nat) : DPState :=
  forLoop (n + 1 - max_partition)
    (fun k t => ComputePartition.outer src (max_partition + k) t)
    (ComputePartition.seed src (ComputePartition.init n))

/-- The function `ComputePartition(src, n, parts)`: the number of partitions and
the array `parts[]` afterwards.  Each of the two backtracking loops is bounded
by `n` iterations. -/
def ComputePartition (src : Nat → Nat) (n : Nat) (parts : Mem) : Option (Nat × Mem) :=
  let t := ComputePartition.table src n
  match whileLoop n (fun (st : Nat × Nat) => st.2 ≠ 0)
      (fun st => (st.1 + 1, toSizeT (t.refs st.2))) (0, n) with
  | none => none
  | some (pnum, _) =>
    match whileLoop n (fun (st : Mem × Nat × Nat) => st.2.2 ≠ 0)
        (fun st => (st.1.write st.2.1 st.2.2, st.2.1 - 1, toSizeT (t.refs st.2.2)))
        (parts, pnum, n) with
    | none => none
    | some (parts, _, _) => some (pnum, parts.write 0 0)

/-! ## The unpackers

Every unpacker is `UnpackW(src + sp, src + slimit, dst + dp, dst + dlimit, n)`;
the result is the `int` of the source (`-1` on failure) and the destination
memory afterwards.  An assignment `dst[k] = a;` followed by `dst[k] |= b;` is the
single store of `a ||| b`.  The count `n` and the `int` expressions built from it
are evaluated as natural numbers: this is the value the source computes while none
of them reaches `2 ^ 31` (`unpackExact` below), the range the statements about a
single call are made for; the calls of `UncompressBlock` pass at most 128. -/

/-- The stores `m[a] = v₀; m[a + 1] = v₁; …` for a list of values. -/
def Mem.writeList (m : Mem) (a : Nat) : List Nat → Mem
  | [] => m
  | v :: vs => (m.write a v).writeList (a + 1) vs

/-- The function `Unpack0`: `memset` of `n` elements. -/
def Unpack0 (_src : Mem) (_sp _slimit : Nat) (dst : Mem) (dp dlimit : Nat) (n : Nat) :
    Int × Mem :=
  if dp + n > dlimit then (-1, dst)
  else (0, forLoop n (fun i m => m.write (dp + i) 0x00) dst)

/-- The function `Unpack1`. -/
def Unpack1 (src : Mem) (sp slimit : Nat) (dst : Mem) (dp dlimit : Nat) (n : Nat) :
    Int × Mem :=
  let nloop := VP64_DIV_ROUNDUP n 8
  if sp + nloop > slimit ∨ dp + 8 * nloop > dlimit then (-1, dst)
  else
    ((nloop : Int), forLoop nloop (fun i m =>
      forLoop 8 (fun j m => m.write (dp + 8 * i + j) ((src (sp + i) >>> (7 - j)) &&& 0x01)) m)
      dst)

/-- The function `Unpack2`. -/
def Unpack2 (src : Mem) (sp slimit : Nat) (dst : Mem) (dp dlimit : Nat) (n : Nat) :
    Int × Mem :=
  let nloop := VP64_DIV_ROUNDUP n 4
  if sp + nloop > slimit ∨ dp + 4 * nloop > dlimit then (-1, dst)
  else
    ((nloop : Int), forLoop nloop (fun i m =>
      forLoop 4 (fun j m => m.write (dp + 4 * i + j) ((src (sp + i) >>> (6 - 2 * j)) &&& 0x03)) m)
      dst)

/-- The values one round of `Unpack3` stores, from the 3 bytes at `src + s`. -/
def Unpack3.group (src : Mem) (s : Nat) : List Nat :=
  [(src s >>> 5) &&& 0x07,
   (src s >>> 2) &&& 0x07,
   ((src s <<< 1) &&& 0x07) ||| ((src (s + 1) >>> 7) &&& 0x01),
   (src (s + 1) >>> 4) &&& 0x07,
   (src (s + 1) >>> 1) &&& 0x07,
   ((src (s + 1) <<< 2) &&& 0x07) ||| ((src (s + 2) >>> 6) &&& 0x03),
   (src (s + 2) >>> 3) &&& 0x07,
   src (s + 2) &&& 0x07]

/-- The function `Unpack3`. -/
def Unpack3 (src : Mem) (sp slimit : Nat) (dst : Mem) (dp dlimit : Nat) (n : Nat) :
    Int × Mem :=
  let nloop := VP64_DIV_ROUNDUP n 8
  if sp + 3 * nloop > slimit ∨ dp + 8 * nloop > dlimit then (-1, dst)
  else
    (((VP64_DIV_ROUNDUP (3 * n) 8 : Nat) : Int), forLoop nloop (fun i m =>
      m.writeList (dp + 8 * i) (Unpack3.group src (sp + 3 * i))) dst)

/-- The function `Unpack4`. -/
def Unpack4 (src : Mem) (sp slimit : Nat) (dst : Mem) (dp dlimit : Nat) (n : Nat) :
    Int × Mem :=
  let nloop := VP64_DIV_ROUNDUP n 2
  if sp + nloop > slimit ∨ dp + 2 * nloop > dlimit then (-1, dst)
  else
    ((nloop : Int), forLoop nloop (fun i m =>
      forLoop 2 (fun j m => m.write (dp + 2 * i + j) ((src (sp + i) >>> (4 - 4 * j)) &&& 0x0f)) m)
      dst)

/-- The values one round of `Unpack5` stores, from the 5 bytes at `src + s`. -/
def Unpack5.group (src : Mem) (s : Nat) : List Nat :=
  [(src s >>> 3) &&& 0x1f,
   ((src s <<< 2) &&& 0x1f) ||| ((src (s + 1) >>> 6) &&& 0x03),
   (src (s + 1) >>> 1) &&& 0x1f,
   ((src (s + 1) <<< 4) &&& 0x1f) ||| ((src (s + 2) >>> 4) &&& 0x0f),
   ((src (s + 2) <<< 1) &&& 0x1f) ||| ((src (s + 3) >>> 7) &&& 0x01),
   (src (s + 3) >>> 2) &&& 0x1f,
   ((src (s + 3) <<< 3) &&& 0x1f) ||| ((src (s + 4) >>> 5) &&& 0x07),
   src (s + 4) &&& 0x1f]

/-- The function `Unpack5`. -/
def Unpack5 (src : Mem) (sp slimit : Nat) (dst : Mem) (dp dlimit : Nat) (n : Nat) :
    Int × Mem :=
  let nloop := VP64_DIV_ROUNDUP n 8
  if sp + 5 * nloop > slimit ∨ dp + 8 * nloop > dlimit then (-1, dst)
  else
    (((VP64_DIV_ROUNDUP (5 * n) 8 : Nat) : Int), forLoop nloop (fun i m =>
      m.writeList (dp + 8 * i) (Unpack5.group src (sp + 5 * i))) dst)

/-- The values one round of `Unpack6` stores, from the 3 bytes at `src + s`. -/
def Unpack6.group (src : Mem) (s : Nat) : List Nat :=
  [(src s >>> 2) &&& 0x3f,
   ((src s <<< 4) &&& 0x3f) ||| ((src (s + 1) >>> 4) &&& 0x0f),
   ((src (s + 1) <<< 2) &&& 0x3f) ||| ((src (s + 2) >>> 6) &&& 0x03),
   src (s + 2) &&& 0x3f]

/-- The function `Unpack6`. -/
def Unpack6 (src : Mem) (sp slimit : Nat) (dst : Mem) (dp dlimit : Nat) (n : Nat) :
    Int × Mem :=
  let nloop := VP64_DIV_ROUNDUP n 4
  if sp + 3 * nloop > slimit ∨ dp + 4 * nloop > dlimit then (-1, dst)
  else
    (((VP64_DIV_ROUNDUP (3 * n) 4 : Nat) : Int), forLoop nloop (fun i m =>
      m.writeList (dp + 4 * i) (Unpack6.group src (sp + 3 * i))) dst)

/-- The values one round of `Unpack7` stores, from the 7 bytes at `src + s`. -/
def Unpack7.group (src : Mem) (s : Nat) : List Nat :=
  [(src s >>> 1) &&& 0x7f,
   ((src s <<< 6) &&& 0x7f) ||| ((src (s + 1) >>> 2) &&& 0x3f),
   ((src (s + 1) <<< 5) &&& 0x7f) ||| ((src (s + 2) >>> 3) &&& 0x1f),
   ((src (s + 2) <<< 4) &&& 0x7f) ||| ((src (s + 3) >>> 4) &&& 0x0f),
   ((src (s + 3) <<< 3) &&& 0x7f) ||| ((src (s + 4) >>> 5) &&& 0x07),
   ((src (s + 4) <<< 2) &&& 0x7f) ||| ((src (s + 5) >>> 6) &&& 0x03),
   ((src (s + 5) <<< 1) &&& 0x7f) ||| ((src (s + 6) >>> 7) &&& 0x01),
   src (s + 6) &&& 0x7f]

/-- The function `Unpack7`. -/
def Unpack7 (src : Mem) (sp slimit : Nat) (dst : Mem) (dp dlimit : Nat) (n : Nat) :
    Int × Mem :=
  let nloop := VP64_DIV_ROUNDUP n 8
  if sp + 7 * nloop > slimit ∨ dp + 8 * nloop > dlimit then (-1, dst)
  else
    (((VP64_DIV_ROUNDUP (7 * n) 8 : Nat) : Int), forLoop nloop (fun i m =>
      m.writeList (dp + 8 * i) (Unpack7.group src (sp + 7 * i))) dst)

/-- The function `Unpack8`. -/
def Unpack8 (src : Mem) (sp slimit : Nat) (dst : Mem) (dp dlimit : Nat) (n : Nat) :
    Int × Mem :=
  if sp + n > slimit ∨ dp + n > dlimit then (-1, dst)
  else ((n : Int), forLoop n (fun i m => m.write (dp + i) (src (sp + i) &&& 0xff)) dst)

/-- The values one round of `Unpack9` stores, from the 9 16-bit chunks `v[]`
gathered at `src + s`. -/
def Unpack9.group (src : Mem) (s : Nat) : List Nat :=
  let v := fun j => DecodeUint16 src (s + 2 * j)
  [((v 0) >>> 7) &&& 0x01ff,
   (((v 0) <<< 2) &&& 0x01ff) ||| ((v 1) >>> 14),
   ((v 1) >>> 5) &&& 0x01ff,
   (((v 1) <<< 4) &&& 0x01ff) ||| ((v 2) >>> 12),
   ((v 2) >>> 3) &&& 0x01ff,
   (((v 2) <<< 6) &&& 0x01ff) ||| ((v 3) >>> 10),
   ((v 3) >>> 1) &&& 0x01ff,
   (((v 3) <<< 8) &&& 0x01ff) ||| ((v 4) >>> 8),
   (((v 4) <<< 1) &&& 0x01ff) ||| ((v 5) >>> 15),
   ((v 5) >>> 6) &&& 0x01ff,
   (((v 5) <<< 3) &&& 0x01ff) ||| ((v 6) >>> 13),
   ((v 6) >>> 4) &&& 0x01ff,
   (((v 6) <<< 5) &&& 0x01ff) ||| ((v 7) >>> 11),
   ((v 7) >>> 2) &&& 0x01ff,
   (((v 7) <<< 7) &&& 0x01ff) ||| ((v 8) >>> 9),
   (v 8) &&& 0x01ff]

/-- The function `Unpack9`. -/
def Unpack9 (src : Mem) (sp slimit : Nat) (dst : Mem) (dp dlimit : Nat) (n : Nat) :
    Int × Mem :=
  let nloop := VP64_DIV_ROUNDUP n 16
  if sp + 18 * nloop > slimit ∨ dp + 16 * nloop > dlimit then (-1, dst)
  else
    (((VP64_DIV_ROUNDUP (9 * n) 8 : Nat) : Int), forLoop nloop (fun i m =>
      m.writeList (dp + 16 * i) (Unpack9.group src (sp + 18 * i))) dst)

/-- The values one round of `Unpack10` stores, from the 5 16-bit chunks `v[]`
gathered at `src + s`. -/
def Unpack10.group (src : Mem) (s : Nat) : List Nat :=
  let v := fun j => DecodeUint16 src (s + 2 * j)
  [((v 0) >>> 6) &&& 0x03ff,
   (((v 0) <<< 4) &&& 0x03ff) ||| ((v 1) >>> 12),
   ((v 1) >>> 2) &&& 0x03ff,
   (((v 1) <<< 8) &&& 0x03ff) ||| ((v 2) >>> 8),
   (((v 2) <<< 2) &&& 0x03ff) ||| ((v 3) >>> 14),
   ((v 3) >>> 4) &&& 0x03ff,
   (((v 3) <<< 6) &&& 0x03ff) ||| ((v 4) >>> 10),
   (v 4) &&& 0x03ff]

/-- The function `Unpack10`. -/
def Unpack10 (src : Mem) (sp slimit : Nat) (dst : Mem) (dp dlimit : Nat) (n : Nat) :
    Int × Mem :=
  let nloop := VP64_DIV_ROUNDUP n 8
  if sp + 10 * nloop > slimit ∨ dp + 8 * nloop > dlimit then (-1, dst)
  else
    (((VP64_DIV_ROUNDUP (5 * n) 4 : Nat) : Int), forLoop nloop (fun i m =>
      m.writeList (dp + 8 * i) (Unpack10.group src (sp + 10 * i))) dst)

/-- The values one round of `Unpack11` stores, from the 11 16-bit chunks `v[]`
gathered at `src + s`. -/
def Unpack11.group (src : Mem) (s : Nat) : List Nat :=
  let v := fun j => DecodeUint16 src (s + 2 * j)
  [((v 0) >>> 5) &&& 0x07ff,
   (((v 0) <<< 6) &&& 0x07ff) ||| ((v 1) >>> 10),
   (((v 1) <<< 1) &&& 0x07ff) ||| ((v 2) >>> 15),
   ((v 2) >>> 4) &&& 0x07ff,
   (((v 2) <<< 7) &&& 0x07ff) ||| ((v 3) >>> 9),
   (((v 3) <<< 2) &&& 0x07ff) ||| ((v 4) >>> 14),
   ((v 4) >>> 3) &&& 0x07ff,
   (((v 4) <<< 8) &&& 0x07ff) ||| ((v 5) >>> 8),
   (((v 5) <<< 3) &&& 0x07ff) ||| ((v 6) >>> 13),
   ((v 6) >>> 2) &&& 0x07ff,
   (((v 6) <<< 9) &&& 0x07ff) ||| ((v 7) >>> 7),
   (((v 7) <<< 4) &&& 0x07ff) ||| ((v 8) >>> 12),
   ((v 8) >>> 1) &&& 0x07ff,
   (((v 8) <<< 10) &&& 0x07ff) ||| ((v 9) >>> 6),
   (((v 9) <<< 5) &&& 0x07ff) ||| ((v 10) >>> 11),
   (v 10) &&& 0x07ff]

/-- The function `Unpack11`. -/
def Unpack11 (src : Mem) (sp slimit : Nat) (dst : Mem) (dp dlimit : Nat) (n : Nat) :
    Int × Mem :=
  let nloop := VP64_DIV_ROUNDUP n 16
  if sp + 22 * nloop > slimit ∨ dp + 16 * nloop > dlimit then (-1, dst)
  else
    (((VP64_DIV_ROUNDUP (11 * n) 8 : Nat) : Int), forLoop nloop (fun i m =>
      m.writeList (dp + 16 * i) (Unpack11.group src (sp + 22 * i))) dst)

/-- The values one round of `Unpack12` stores, from the 3 16-bit chunks `v[]`
gathered at `src + s`. -/
def Unpack12.group (src : Mem) (s : Nat) : List Nat :=
  let v := fun j => DecodeUint16 src (s + 2 * j)
  [((v 0) >>> 4) &&& 0x0fff,
   (((v 0) <<< 8) &&& 0x0fff) ||| ((v 1) >>> 8),
   (((v 1) <<< 4) &&& 0x0fff) ||| ((v 2) >>> 12),
   (v 2) &&& 0x0fff]

/-- The function `Unpack12`. -/
def Unpack12 (src : Mem) (sp slimit : Nat) (dst : Mem) (dp dlimit : Nat) (n : Nat) :
    Int × Mem :=
  let nloop := VP64_DIV_ROUNDUP n 4
  if sp + 6 * nloop > slimit ∨ dp + 4 * nloop > dlimit then (-1, dst)
  else
    (((VP64_DIV_ROUNDUP (3 * n) 2 : Nat) : Int), forLoop nloop (fun i m =>
      m.writeList (dp + 4 * i) (Unpack12.group src (sp + 6 * i))) dst)

/-- The function `Unpack16`. -/
def Unpack16 (src : Mem) (sp slimit : Nat) (dst : Mem) (dp dlimit : Nat) (n : Nat) :
    Int × Mem :=
  if sp + 2 * n > slimit ∨ dp + n > dlimit then (-1, dst)
  else
    (((2 * n : Nat) : Int),
      forLoop n (fun i m => m.write (dp + i) (DecodeUint16 src (sp + 2 * i))) dst)

/-- The function `Unpack32`. -/
def Unpack32 (src : Mem) (sp slimit : Nat) (dst : Mem) (dp dlimit : Nat) (n : Nat) :
    Int × Mem :=
  if sp + 4 * n > slimit ∨ dp + n > dlimit then (-1, dst)
  else
    (((4 * n : Nat) : Int),
      forLoop n (fun i m => m.write (dp + i) (DecodeUint32 src (sp + 4 * i))) dst)

/-- The function `Unpack64`. -/
def Unpack64 (src : Mem) (sp slimit : Nat) (dst : Mem) (dp dlimit : Nat) (n : Nat) :
    Int × Mem :=
  if sp + 8 * n > slimit ∨ dp + n > dlimit then (-1, dst)
  else
    (((8 * n : Nat) : Int),
      forLoop n (fun i m => m.write (dp + i) (DecodeUint64 src (sp + 8 * i))) dst)

/-! ## The block codec -/

/-- The conversion of a pointer difference to `int`. -/
def toInt32 (x : Int) : Int := (x + 2 ^ 31) % 2 ^ 32 - 2 ^ 31

/-- The local variables of the partition loop of `CompressBlock`; `ok` is
false once the loop has been left through `return 0`. -/
structure CBState where
  /-- Whether no `WriteBits` has failed so far. -/
  ok : Bool
  /-- The memory `dst` points into. -/
  mem : Mem
  /-- The offset of the moving pointer `src`. -/
  sp : Nat
  /-- The offset of the pointer `data`. -/
  data : Nat
  /-- The offset of the pointer `ctrl`. -/
  ctrl : Nat
  /-- The `uint32_t` variable `block_size`. -/
  block_size : Nat

/-- The width `maxb` computed by `CompressBlock` for the `plen` elements at
`src + sp`. -/
def CompressBlock.maxb (src : Nat → Nat) (sp plen : Nat) : Nat :=
  forLoop plen (fun j maxb =>
    let b := roundup_bits.getD (usedBits (src (sp + j))) 0
    if maxb < b then b else maxb) 0

/-- One iteration of the partition loop of `CompressBlock`. -/
def CompressBlock.step (src : Nat → Nat) (parts : Mem) (dlimit : Nat) (i : Nat)
    (st : CBState) : CBState :=
  if st.ok then
    let plen := parts (i + 1) - parts i
    let maxb := CompressBlock.maxb src st.sp plen
    let r := WriteBits (fun j => src (st.sp + j)) maxb plen st.mem st.data dlimit
    let nwrite := r.1
    if nwrite < 0 then { st with ok := false, mem := r.2 }
    else
      { ok := true,
        mem := r.2.write st.ctrl (ctrl_bit.getD maxb 0 ||| ctrl_partition.getD plen 0),
        sp := st.sp + plen,
        data := st.data + nwrite.toNat,
        ctrl := st.ctrl + 1,
        block_size := (st.block_size + nwrite.toNat) % 2 ^ 32 }
  else st

/-- The function `CompressBlock(src, n, dst + dp, dst + dlimit)`: the `uint32_t`
result (`0` on failure) and the destination memory afterwards; `none` only if a
loop of `ComputePartition` does not finish. -/
def CompressBlock (src : Nat → Nat) (n : Nat) (dst : Mem) (dp dlimit : Nat) :
    Option (Nat × Mem) :=
  if max_partition + MAX_UNPACK_OVERRUN_NUM > n then
    some ((n * 8) % 2 ^ 32, forLoop n (fun i m => SetUint64 m (dp + 8 * i) (src i)) dst)
  else
    let n := n - MAX_UNPACK_OVERRUN_NUM
    match ComputePartition src n (fun _ => 0) with
    | none => none
    | some (np, parts) =>
      let offset := (np + 8) % 2 ^ 32
      let m := SetUint32 dst (dp + 4) offset
      let st := forLoop np (CompressBlock.step src parts dlimit)
        { ok := true, mem := m, sp := 0, data := dp + offset, ctrl := dp + 8,
          block_size := offset }
      if st.ok then
        let m := forLoop MAX_UNPACK_OVERRUN_NUM
          (fun i m => SetUint64 m (st.data + i * 8) (src (st.sp + i))) st.mem
        let block_size := (st.block_size + 8 * MAX_UNPACK_OVERRUN_NUM) % 2 ^ 32
        some (block_size, SetUint32 m dp block_size)
      else some (0, st.mem)

/-- The table `vpacker64[16]` of `UncompressBlock`. -/
def unpackers : List (Mem → Nat → Nat → Mem → Nat → Nat → Nat → Int × Mem) :=
  [Unpack0, Unpack1, Unpack2, Unpack3,
   Unpack4, Unpack5, Unpack6, Unpack7,
   Unpack8, Unpack9, Unpack10, Unpack11,
   Unpack12, Unpack16, Unpack32, Unpack64]

/-- The local variables of the partition loop of `UncompressBlock`; `ok` is
false once the loop has been left through `return 0`. -/
structure UBState where
  /-- Whether no unpacker has failed so far. -/
  ok : Bool
  /-- The memory `dst` points into. -/
  mem : Mem
  /-- The offset of the pointer `data`. -/
  data : Nat
  /-- The offset of the moving pointer `dst`. -/
  dp : Nat
  /-- The offset of the pointer `ctrl`. -/
  ctrl : Nat

/-- One iteration of the partition loop of `UncompressBlock`. -/
def UncompressBlock.step (src : Mem) (slimit dlimit : Nat) (_i : Nat) (st : UBState) :
    UBState :=
  if st.ok then
    let k := partition_length.getD ((src st.ctrl >>> 4) &&& 0x0f) 0
    let b := src st.ctrl &&& 0x0f
    let r := (unpackers.getD b Unpack0) src st.data slimit st.mem st.dp dlimit k
    let nread := r.1
    if nread < 0 then { st with ok := false, mem := r.2 }
    else
      { ok := true, mem := r.2, data := st.data + nread.toNat, dp := st.dp + k,
        ctrl := st.ctrl + 1 }
  else st

/-- The function `UncompressBlock(src + sp, dst + dp, n)`: the `uint32_t` result
(`0` on failure) and the destination memory afterwards. -/
def UncompressBlock (src : Mem) (sp : Nat) (dst : Mem) (dp : Nat) (n : Nat) : Nat × Mem :=
  if max_partition + MAX_UNPACK_OVERRUN_NUM > n then
    ((n * 8) % 2 ^ 32, forLoop n (fun i m => m.write (dp + i) (DecodeUint64 src (sp + 8 * i))) dst)
  else
    let block_size := DecodeUint32 src sp
    let offset := DecodeUint32 src (sp + 4)
    let slimit := sp + block_size
    let dlimit := dp + n
    let ctrl := sp + 8
    let data := sp + offset
    let nloop := toInt32 ((data : Int) - (ctrl : Int))
    let st := forLoop nloop.toNat (UncompressBlock.step src slimit dlimit)
      { ok := true, mem := dst, data := data, dp := dp, ctrl := ctrl }
    if st.ok then
      (block_size, forLoop MAX_UNPACK_OVERRUN_NUM
        (fun i m => m.write (st.dp + i) (DecodeUint64 src (st.data + 8 * i))) st.mem)
    else (0, st.mem)

/-! ## The frame driver -/

/-- The function `CompressBound(n)`. -/
def CompressBound (n : Nat) : Nat :=
  let nblock := VP64_DIV_ROUNDUP n block_num
  8 + 8 * nblock + 9 * n

/-- The local variables of the block loop of `Compress`; `ok` is false once
`return 0` has been taken. -/
structure CState where
  /-- Whether no block has failed so far. -/
  ok : Bool
  /-- The memory `dst` points into. -/
  mem : Mem
  /-- The offset of the moving pointer `src`. -/
  sp : Nat
  /-- The offset of the moving pointer `dst`. -/
  dp : Nat
  /-- The variable `wsize`. -/
  wsize : Nat

/-- The compression of one block of `k` elements inside `Compress`. -/
def Compress.block (src : Nat → Nat) (k dlimit : Nat) (st : Option CState) : Option CState :=
  match st with
  | none => none
  | some st =>
    if st.ok then
      match CompressBlock (fun j => src (st.sp + j)) k st.mem st.dp dlimit with
      | none => none
      | some (nwrite, m) =>
        if nwrite = 0 then some { st with ok := false, mem := m }
        else some { ok := true, mem := m, sp := st.sp + k, dp := st.dp + nwrite,
                    wsize := st.wsize + nwrite }
    else some st

/-- The function `Compress(src, dst, n)` for non-null pointers, the destination
pointer being offset `0` of `dst`: the result (`0` on failure) and the
destination memory afterwards; `none` only if a loop of `ComputePartition` does
not finish. -/
def Compress (src : Nat → Nat) (dst : Mem) (n : Nat) : Option (Nat × Mem) :=
  let nblock := n / block_num
  let rblock := n % block_num
  let dlimit := CompressBound n
  let m := SetUint64 dst 0 VP64_MAGICNUM
  let st := forLoop nblock (fun _ st => Compress.block src block_num dlimit st)
    (some { ok := true, mem := m, sp := 0, dp := 8, wsize := 8 })
  let st := if rblock ≠ 0 then Compress.block src rblock dlimit st else st
  match st with
  | none => none
  | some st => if st.ok then some (st.wsize, st.mem) else some (0, st.mem)

/-- The local variables of the block loop of `Uncompress`; `ok` is false once
`return 0` has been taken. -/
structure UState where
  /-- Whether no block has failed so far. -/
  ok : Bool
  /-- The memory `dst` points into. -/
  mem : Mem
  /-- The offset of the moving pointer `src`. -/
  sp : Nat
  /-- The offset of the moving pointer `dst`. -/
  dp : Nat
  /-- The variable `rsize`. -/
  rsize : Nat

/-- The decompression of one block of `k` elements inside `Uncompress`. -/
def Uncompress.block (src : Mem) (k : Nat) (st : UState) : UState :=
  if st.ok then
    let r := UncompressBlock src st.sp st.mem st.dp k
    let nread := r.1
    if nread = 0 then { st with ok := false, mem := r.2 }
    else { ok := true, mem := r.2, sp := st.sp + nread, dp := st.dp + k,
           rsize := st.rsize + nread }
  else st

/-- The function `Uncompress(src, dst, n)` for non-null pointers, both pointers
being offset `0` of their memory: the result (`0` on failure) and the
destination memory afterwards. -/
def Uncompress (src : Mem) (dst : Mem) (n : Nat) : Nat × Mem :=
  if VP64_MAGICNUM ≠ DecodeUint64 src 0 then (0, dst)
  else
    let nblock := n / block_num
    let rblock := n % block_num
    let st := forLoop nblock (fun _ st => Uncompress.block src block_num st)
      { ok := true, mem := dst, sp := 8, dp := 0, rsize := 8 }
    let st := if rblock ≠ 0 then Uncompress.block src rblock st else st
    if st.ok then (st.rsize, st.mem) else (0, st.mem)

/-! ## Test data of the source -/

/-- The input of the partitioner test of the source: 128 zeros, then runs of
8, 4, 6, 7 and 2 ones, each preceded by the all-ones value. -/
def goldenInput : List Nat :=
  List.replicate 128 0 ++ [2 ^ 64 - 1] ++ List.replicate 8 1 ++ [2 ^ 64 - 1] ++
  List.replicate 4 1 ++ [2 ^ 64 - 1] ++ List.replicate 6 1 ++ [2 ^ 64 - 1] ++
  List.replicate 7 1 ++ [2 ^ 64 - 1] ++ List.replicate 2 1

/-- The source bytes of the `Unpack3` test of the source. -/
def unpack3Input : Mem := fun i => [0x3a, 0x94, 0xff, 0x0a, 0xd3, 0x22].getD i 0

/-- The source bytes of the `Unpack9` test of the source. -/
def unpack9Input : Mem := fun i =>
  [0xab, 0x82, 0x33, 0x24, 0x32, 0xac, 0x8d, 0x8a,
   0x00, 0xd8, 0xf0, 0xf8, 0x22, 0x67, 0x26, 0xd7,
   0x83, 0xaa, 0x02, 0xc8, 0x2a, 0xca, 0x28, 0x82,
   0x64, 0xca, 0x83, 0x1a, 0x00, 0x00, 0x1a, 0xf1,
   0x23, 0xab, 0xff, 0x32].getD i 0

/-! ## Reference notions of the specification -/

/-- The big-endian value of the `k` bytes of `m` that start at address `a`; the
byte of a cell is its low 8 bits. -/
def beValue (m : Mem) (a : Nat) : Nat → Nat
  | 0 => 0
  | k + 1 => beValue m a k * 256 + m (a + k) % 256

/-- The number `⌈x / 8⌉` of bytes that hold `x` bits. -/
def bytesFor (x : Nat) : Nat := (x + 7) / 8

/-- The bits `[pos, pos + len)` of a number `x` of `total` bits, the bit `0` being
the most significant one. -/
def field (x total pos len : Nat) : Nat := (x / 2 ^ (total - pos - len)) % 2 ^ len

/-- The unsigned value of the bits `[pos, pos + len)` of the byte stream that
starts at address `a` of `m`, the bit `0` being the most significant bit of the
first byte: a field of the bytes that hold these bits. -/
def getBits (m : Mem) (a pos len : Nat) : Nat :=
  field (beValue m (a + pos / 8) (bytesFor (pos % 8 + len))) (8 * bytesFor (pos % 8 + len))
    (pos % 8) len

/-- The values the inner loop of one round of `Unpack1` stores, from the byte
at `src + s`. -/
def Unpack1.group (src : Mem) (s : Nat) : List Nat :=
  (List.range 8).map (fun j => (src s >>> (7 - j)) &&& 0x01)

/-- The values the inner loop of one round of `Unpack2` stores, from the byte
at `src + s`. -/
def Unpack2.group (src : Mem) (s : Nat) : List Nat :=
  (List.range 4).map (fun j => (src s >>> (6 - 2 * j)) &&& 0x03)

/-- The values the inner loop of one round of `Unpack4` stores, from the byte
at `src + s`. -/
def Unpack4.group (src : Mem) (s : Nat) : List Nat :=
  (List.range 2).map (fun j => (src s >>> (4 - 4 * j)) &&& 0x0f)

/-- The loop of an unpacker that handles `G` elements and `gb` bytes in a round,
storing the values `group src s` of the round that starts at `src + s`. -/
def groupLoop (G gb : Nat) (group : Mem → Nat → List Nat) (src : Mem) (sp : Nat) (dst : Mem)
    (dp nloop : Nat) : Mem :=
  forLoop nloop (fun i m => m.writeList (dp + G * i) (group src (sp + gb * i))) dst

/-- The bytes and the elements one round of the unpacker for the width `w`
handles (the table of the specification). -/
def unpackGroup (w : Nat) : Nat × Nat :=
  match w with
  | 1 => (1, 8)
  | 2 => (1, 4)
  | 3 => (3, 8)
  | 4 => (1, 2)
  | 5 => (5, 8)
  | 6 => (3, 4)
  | 7 => (7, 8)
  | 8 => (1, 1)
  | 9 => (18, 16)
  | 10 => (10, 8)
  | 11 => (22, 16)
  | 12 => (6, 4)
  | 16 => (2, 1)
  | 32 => (4, 1)
  | 64 => (8, 1)
  | _ => (0, 1)

/-- The unpacker `UncompressBlock` runs for the width `w`: the entry of the table
`vpacker64[]` at the index `ctrl_bit[w]`. -/
def unpackerFor (w : Nat) : Mem → Nat → Nat → Mem → Nat → Nat → Nat → Int × Mem :=
  unpackers.getD (ctrl_bit.getD w 0) Unpack0

/-- The number whose binary digits are the low `w` bits of `v 0, …, v (n - 1)`,
in this order, each most significant bit first. -/
def catValue (v : Nat → Nat) (w : Nat) : Nat → Nat
  | 0 => 0
  | n + 1 => catValue v w n * 2 ^ w + v n % 2 ^ w

/-- The byte `k` of the bit string the specification gives for `WriteBits`: the
low `w` bits of `v 0, …, v (n - 1)`, each most significant bit first, padded
with zero bits up to the next byte boundary. -/
def packedByte (v : Nat → Nat) (w n k : Nat) : Nat :=
  (catValue v w n * 2 ^ (8 * bytesFor (n * w) - n * w)) / 2 ^ (8 * (bytesFor (n * w) - 1 - k)) % 256

/-- An input of 128 elements that are all zero except for `src[100] = 2 ^ 63`. -/
def spikeInput : Nat → Nat := fun i => if i = 100 then 2 ^ 63 else 0

/-! ## Reference notions for the partitioner -/

/-- The positions visited by the backtracking loops of `ComputePartition`, in the
order they are visited: `i, f i, f (f i), …` down to the last non-zero one,
where `f` follows `refs[]`; at most `fuel` positions. -/
def chain (f : Nat → Nat) : Nat → Nat → List Nat
  | 0, _ => []
  | k + 1, i => if i = 0 then [] else i :: chain f k (f i)

/-- The width `round_up(max bits_needed)` of the sub-run `src[a .. b)`. -/
def runWidth (src : Nat → Nat) (a b : Nat) : Nat :=
  roundup_bits.getD (((List.range (b - a)).map (fun j => usedBits (src (a + j)))).foldl max 0) 0

/-- The number of bytes `Σ ⌈ℓᵢ · wᵢ / 8⌉` that the sub-runs with the boundaries
`bs = [b₀, b₁, …]` take, `wᵢ` being the width of the sub-run `src[bᵢ .. bᵢ₊₁)`. -/
def partitionCost (src : Nat → Nat) : List Nat → Nat
  | a :: b :: rest => bytesFor ((b - a) * runWidth src a b) + partitionCost src (b :: rest)
  | _ => 0

/-- Whether consecutive entries of `bs` increase by a member of
`partition_length[]`. -/
def stepsInPset : List Nat → Bool
  | a :: b :: rest => decide (a < b) && decide ((b - a) ∈ partition_length) && stepsInPset (b :: rest)
  | _ => true

/-- Whether `bs` splits `[0, n)` into consecutive sub-runs with lengths in
`partition_length[]`. -/
def validSplit (n : Nat) (bs : List Nat) : Prop :=
  bs.head? = some 0 ∧ bs.getLast? = some n ∧ stepsInPset bs = true

instance (n : Nat) (bs : List Nat) : Decidable (validSplit n bs) :=
  inferInstanceAs (Decidable (bs.head? = some 0 ∧ bs.getLast? = some n ∧ stepsInPset bs = true))

/-- One halving step of the portable `VP64_MSB64`: if the upper part `x >> k` is
not zero, go on with it. -/
def msbStep (k : Nat) (st : Nat × Nat) : Nat × Nat :=
  if st.2 >>> k ≠ 0 then (st.1 - k, st.2 >>> k) else (st.1, st.2)

/-! ## The layout of a block -/

/-- The length of the `i`-th partition. -/
def partLen (parts : Mem) (i : Nat) : Nat := parts (i + 1) - parts i

/-- The width `CompressBlock` packs the `i`-th partition with. -/
def partWidth (x : Nat → Nat) (parts : Mem) (i : Nat) : Nat :=
  CompressBlock.maxb x (parts i) (partLen parts i)

/-- The number of packed bytes of the first `i` partitions. -/
def dataOff (x : Nat → Nat) (parts : Mem) : Nat → Nat
  | 0 => 0
  | i + 1 => dataOff x parts i + bytesFor (partLen parts i * partWidth x parts i)

/-- The control byte of the `i`-th partition. -/
def ctrlByte (x : Nat → Nat) (parts : Mem) (i : Nat) : Nat :=
  ctrl_bit.getD (partWidth x parts i) 0 ||| ctrl_partition.getD (partLen parts i) 0

/-- The boundaries `parts[0..np]` split `[0, n)` into `np ≥ 1` partitions whose
lengths are partition lengths. -/
def PartShape (n np : Nat) (parts : Mem) : Prop :=
  1 ≤ np ∧ parts 0 = 0 ∧ parts np = n ∧ (∀ i, i < np → parts i < parts (i + 1)) ∧
  (∀ i, i < np → parts (i + 1) - parts i ∈ partition_length)

/-- The bytes of `m` from address `a` on are a block of `R` bytes that holds the
`n` elements `x`: for `n < 144` the elements as big-endian 64-bit values; else
the block size, the data offset, one control byte for each partition, the
partitions packed with their widths, and the last 16 elements as big-endian
64-bit values. -/
def BlockLayout (m : Mem) (a : Nat) (x : Nat → Nat) (n R : Nat) : Prop :=
  if n < 144 then R = 8 * n ∧ ∀ i, i < n → DecodeUint64 m (a + 8 * i) = x i
  else ∃ np parts, PartShape (n - 16) np parts ∧
    R = 8 + np + dataOff x parts np + 128 ∧
    DecodeUint32 m a = R ∧ DecodeUint32 m (a + 4) = np + 8 ∧
    (∀ i, i < np → m (a + 8 + i) = ctrlByte x parts i) ∧
    (∀ i, i < np → ∀ e, e < partLen parts i →
      getBits m (a + 8 + np + dataOff x parts i) (e * partWidth x parts i) (partWidth x parts i)
        = x (parts i + e)) ∧
    (∀ t, t < 16 → DecodeUint64 m (a + 8 + np + dataOff x parts np + 8 * t) = x (n - 16 + t))

/-! ## Loop invariants -/

/-- The invariant of the packing loop of `WriteBits` after `k` elements: `f`
words have been written, and the written bytes followed by the buffered bits are
the concatenation of the first `k` values. -/
def WriteBits.Inv (src : Nat → Nat) (w : Nat) (dst : Mem) (dp : Nat) (k : Nat) (st : WBState) :
    Prop :=
  ∃ f, st.dp = dp + 4 * f ∧ st.nused < 32 ∧ 32 * f + st.nused = k * w ∧
    beValue st.mem dp (4 * f) * 2 ^ st.nused + st.buf % 2 ^ st.nused = catValue src w k ∧
    (∀ x, x < dp ∨ dp + 4 * f ≤ x → st.mem x = dst x)

/-- The invariant of the partition loop of `CompressBlock` after `i` partitions,
`m0` being the memory the loop starts with. -/
def CompressBlock.Inv (x : Nat → Nat) (parts : Mem) (m0 : Mem) (dp np : Nat) (i : Nat)
    (st : CBState) : Prop :=
  st.ok = true ∧ st.sp = parts i ∧ st.ctrl = dp + 8 + i ∧
  st.data = dp + 8 + np + dataOff x parts i ∧ st.block_size = 8 + np + dataOff x parts i ∧
  (∀ a, a < dp + 8 ∨ (dp + 8 + i ≤ a ∧ a < dp + 8 + np) ∨ dp + 8 + np + dataOff x parts i ≤ a →
    st.mem a = m0 a) ∧
  (∀ j, j < i → st.mem (dp + 8 + j) = ctrlByte x parts j) ∧
  (∀ j, j < i → ∀ e, e < partLen parts j →
    getBits st.mem (dp + 8 + np + dataOff x parts j) (e * partWidth x parts j) (partWidth x parts j)
      = x (parts j + e))

/-- The invariant of the partition loop of `UncompressBlock` after `i`
partitions, `buf0` being the destination memory the loop starts with. -/
def UncompressBlock.Inv (x : Nat → Nat) (parts : Mem) (buf0 : Mem) (sp bdp n np : Nat) (i : Nat)
    (st : UBState) : Prop :=
  st.ok = true ∧ st.data = sp + 8 + np + dataOff x parts i ∧ st.dp = bdp + parts i ∧
  st.ctrl = sp + 8 + i ∧ (∀ e, e < parts i → st.mem (bdp + e) = x e) ∧
  (∀ a, a < bdp ∨ bdp + n ≤ a → st.mem a = buf0 a)

/-- The layout of a frame of `W` bytes at offset `0` of `m` that holds the `n`
values `x`: the magic number, then one block for every `block_num` values, the
block `j` at `offs j`, and a last block for the remaining values. -/
def FrameLayout (m : Mem) (x : Nat → Nat) (n W : Nat) (offs : Nat → Nat) : Prop :=
  DecodeUint64 m 0 = VP64_MAGICNUM ∧ offs 0 = 8 ∧
  (∀ j, j < n / block_num → offs j < offs (j + 1) ∧
    BlockLayout m (offs j) (fun i => x (block_num * j + i)) block_num (offs (j + 1) - offs j)) ∧
  (if n % block_num = 0 then W = offs (n / block_num)
   else offs (n / block_num) < W ∧
     BlockLayout m (offs (n / block_num)) (fun i => x (block_num * (n / block_num) + i))
       (n % block_num) (W - offs (n / block_num)))

/-- The invariant of the block loop of `Compress` after `k` full blocks: the
block `j` lies at `offs j`, and the magic number stands at the start. -/
def Compress.Inv (x : Nat → Nat) (dst : Mem) (k : Nat) (st : Option CState) : Prop :=
  ∃ (offs : Nat → Nat) (s : CState), st = some s ∧ s.ok = true ∧ s.sp = block_num * k ∧
    s.dp = offs k ∧ s.wsize = offs k ∧ offs 0 = 8 ∧ 8 ≤ offs k ∧
    offs k + 8 * k ≤ 8 + 9 * (block_num * k) ∧
    (∀ j, j < k → offs j < offs (j + 1) ∧ offs (j + 1) ≤ offs k ∧
      BlockLayout s.mem (offs j) (fun i => x (block_num * j + i)) block_num
        (offs (j + 1) - offs j)) ∧
    (∀ y, y < 8 → s.mem y = SetUint64 dst 0 VP64_MAGICNUM y) ∧
    (∀ y, offs k ≤ y → s.mem y = dst y)

/-- The invariant of the block loop of `Uncompress` after `k` full blocks that
lie at the offsets `offs`. -/
def Uncompress.Inv (x : Nat → Nat) (offs : Nat → Nat) (buf : Mem) (k : Nat)
    (st : UState) : Prop :=
  st.ok = true ∧ st.sp = offs k ∧ st.dp = block_num * k ∧ st.rsize = offs k ∧
  (∀ e, e < block_num * k → st.mem e = x e) ∧ (∀ a, block_num * k ≤ a → st.mem a = buf a)

/-! ## Further notions for the tables and the partitioner -/

/-- The unpacker the source names after the width `w`: `Unpack0`, …, `Unpack12`,
`Unpack16`, `Unpack32`, `Unpack64`. -/
def unpackerNamed (w : Nat) : Mem → Nat → Nat → Mem → Nat → Nat → Nat → Int × Mem :=
  match w with
  | 1 => Unpack1
  | 2 => Unpack2
  | 3 => Unpack3
  | 4 => Unpack4
  | 5 => Unpack5
  | 6 => Unpack6
  | 7 => Unpack7
  | 8 => Unpack8
  | 9 => Unpack9
  | 10 => Unpack10
  | 11 => Unpack11
  | 12 => Unpack12
  | 16 => Unpack16
  | 32 => Unpack32
  | 64 => Unpack64
  | _ => Unpack0

/-- The variable `maxb` of the inner loop of `ComputePartition` at position `i`
once the candidates `partition_length[0..j]` have been handled. -/
def ComputePartition.maxbAt (src : Nat → Nat) (i j : Nat) : Nat :=
  forLoop (j + 1) (fun j' maxb =>
    let b := roundup_bits.getD (usedBits (src (i - partition_length.getD j' 0))) 0
    if maxb < b then b else maxb) 0

/-- The cost `c` the inner loop of `ComputePartition` evaluates at position `i`
for the candidate `partition_length[j]`, `costs` being the array `costs[]`. -/
def ComputePartition.candCost (src : Nat → Nat) (costs : Nat → Nat) (i j : Nat) : Nat :=
  let bp := i - partition_length.getD j 0
  costs bp + VP64_DIV_ROUNDUP ((i - bp) * ComputePartition.maxbAt src i j) 8

/-- What the inner loop of `ComputePartition` has made of position `i` after the
candidates below `k`: `costs[i]` is the least of their costs and `refs[i]` is the
last candidate that has this cost. -/
def ComputePartition.Best (src : Nat → Nat) (costs : Nat → Nat) (i k : Nat) (t : DPState) : Prop :=
  ∃ js, js < k ∧ t.costs i = ComputePartition.candCost src costs i js ∧
    t.refs i = ((i - partition_length.getD js 0 : Nat) : Int) ∧
    (∀ j, j < k → t.costs i ≤ ComputePartition.candCost src costs i j) ∧
    (∀ j, js < j → j < k → t.costs i < ComputePartition.candCost src costs i j)

/-- A block whose two control bytes stand for 128 and 16 elements of width 0,
followed by 128 bytes `0x11`. -/
def corruptBlock : Mem := fun i =>
  ([0, 0, 0, 138, 0, 0, 0, 10, 0xf0, 0xc0] ++ List.replicate 128 0x11).getD i 0

/-! ## The loops of the decoder, step by step -/

/-- The number `nloop` of iterations of the partition loop of
`UncompressBlock(src + sp, …)`: the distance from `ctrl` to `data`, as an `int`. -/
def UncompressBlock.nloop (src : Mem) (sp : Nat) : Nat :=
  (toInt32 (((sp + DecodeUint32 src (sp + 4) : Nat) : Int) - ((sp + 8 : Nat) : Int))).toNat

/-- The local variables of the partition loop of
`UncompressBlock(src + sp, dst + dp, n)` after `i` iterations. -/
def UncompressBlock.loop (src : Mem) (sp : Nat) (dst : Mem) (dp n i : Nat) : UBState :=
  forLoop i (UncompressBlock.step src (sp + DecodeUint32 src sp) (dp + n))
    { ok := true, mem := dst, data := sp + DecodeUint32 src (sp + 4), dp := dp, ctrl := sp + 8 }

/-- The unpacker call of an iteration of the partition loop of `UncompressBlock`
that starts with the local variables `st`: the unpacker and the length are those
of the control byte at `ctrl`. -/
def UncompressBlock.call (src : Mem) (slimit dlimit : Nat) (st : UBState) : Int × Mem :=
  (unpackers.getD (src st.ctrl &&& 0x0f) Unpack0) src st.data slimit st.mem st.dp dlimit
    (partition_length.getD ((src st.ctrl >>> 4) &&& 0x0f) 0)

/-- The local variables of the block loop of `Uncompress(src, dst, n)` after `k`
full blocks. -/
def Uncompress.loop (src : Mem) (dst : Mem) (k : Nat) : UState :=
  forLoop k (fun _ st => Uncompress.block src block_num st)
    { ok := true, mem := dst, sp := 8, dp := 0, rsize := 8 }

/-- A block header with size 0 and data offset 9, and one control byte that
stands for one element of width 1. -/
def truncatedBlock : Mem := fun i => [0, 0, 0, 0, 0, 0, 0, 9, 0x01].getD i 0

/-! ## The loops of the encoder, step by step -/

/-- The local variables of the partition loop of
`CompressBlock(src, n, dst + dp, dst + dlimit)` after `i` iterations, `np` and
`parts` being what `ComputePartition` has returned. -/
def CompressBlock.loop (src : Nat → Nat) (np : Nat) (parts : Mem) (dst : Mem) (dp dlimit i : Nat) :
    CBState :=
  forLoop i (CompressBlock.step src parts dlimit)
    { ok := true, mem := SetUint32 dst (dp + 4) ((np + 8) % 2 ^ 32), sp := 0,
      data := dp + (np + 8) % 2 ^ 32, ctrl := dp + 8, block_size := (np + 8) % 2 ^ 32 }

/-- The `WriteBits` call of the `i`-th iteration of the partition loop of
`CompressBlock` that starts with the local variables `st`. -/
def CompressBlock.call (src : Nat → Nat) (parts : Mem) (dlimit i : Nat) (st : CBState) :
    Int × Mem :=
  WriteBits (fun j => src (st.sp + j)) (CompressBlock.maxb src st.sp (parts (i + 1) - parts i))
    (parts (i + 1) - parts i) st.mem st.data dlimit

/-- The local variables of the block loop of `Compress(src, dst, n)` after `k`
full blocks. -/
def Compress.loop (src : Nat → Nat) (dst : Mem) (n k : Nat) : Option CState :=
  forLoop k (fun _ st => Compress.block src block_num (CompressBound n) st)
    (some { ok := true, mem := SetUint64 dst 0 VP64_MAGICNUM, sp := 0, dp := 8, wsize := 8 })

/-! ## The range of the `int` arithmetic of the unpackers

The count `n` of an unpacker is an `int` in the source, and `nloop`, the sizes
the guard compares and the returned value are `int` expressions.  The unpackers
above evaluate them as natural numbers, which is what the source computes as
long as none of them leaves the range of `int`.  `UncompressBlock` passes
partition lengths only, at most 128. -/

/-- Whether every `int` expression the unpacker for the width `w` evaluates at
the count `n` stays below `2 ^ 31`: the numerator of `nloop`, the products of
the guard, and the numerator or the product of the returned value, as the source
writes them (`n * 8` is the size `Unpack0` passes to `memset`). -/
def unpackExact (w n : Nat) : Prop :=
  match w with
  | 0 => n * 8 < 2 ^ 31
  | 1 => n + 8 - 1 < 2 ^ 31 ∧ 8 * VP64_DIV_ROUNDUP n 8 < 2 ^ 31
  | 2 => n + 4 - 1 < 2 ^ 31 ∧ 4 * VP64_DIV_ROUNDUP n 4 < 2 ^ 31
  | 3 => n + 8 - 1 < 2 ^ 31 ∧ 3 * VP64_DIV_ROUNDUP n 8 < 2 ^ 31 ∧
      8 * VP64_DIV_ROUNDUP n 8 < 2 ^ 31 ∧ 3 * n + 8 - 1 < 2 ^ 31
  | 4 => n + 2 - 1 < 2 ^ 31 ∧ 2 * VP64_DIV_ROUNDUP n 2 < 2 ^ 31
  | 5 => n + 8 - 1 < 2 ^ 31 ∧ 5 * VP64_DIV_ROUNDUP n 8 < 2 ^ 31 ∧
      8 * VP64_DIV_ROUNDUP n 8 < 2 ^ 31 ∧ 5 * n + 8 - 1 < 2 ^ 31
  | 6 => n + 4 - 1 < 2 ^ 31 ∧ 3 * VP64_DIV_ROUNDUP n 4 < 2 ^ 31 ∧
      4 * VP64_DIV_ROUNDUP n 4 < 2 ^ 31 ∧ 3 * n + 4 - 1 < 2 ^ 31
  | 7 => n + 8 - 1 < 2 ^ 31 ∧ 7 * VP64_DIV_ROUNDUP n 8 < 2 ^ 31 ∧
      8 * VP64_DIV_ROUNDUP n 8 < 2 ^ 31 ∧ 7 * n + 8 - 1 < 2 ^ 31
  | 8 => n < 2 ^ 31
  | 9 => n + 16 - 1 < 2 ^ 31 ∧ 18 * VP64_DIV_ROUNDUP n 16 < 2 ^ 31 ∧
      16 * VP64_DIV_ROUNDUP n 16 < 2 ^ 31 ∧ 9 * n + 8 - 1 < 2 ^ 31
  | 10 => n + 8 - 1 < 2 ^ 31 ∧ 10 * VP64_DIV_ROUNDUP n 8 < 2 ^ 31 ∧
      8 * VP64_DIV_ROUNDUP n 8 < 2 ^ 31 ∧ 5 * n + 4 - 1 < 2 ^ 31
  | 11 => n + 16 - 1 < 2 ^ 31 ∧ 22 * VP64_DIV_ROUNDUP n 16 < 2 ^ 31 ∧
      16 * VP64_DIV_ROUNDUP n 16 < 2 ^ 31 ∧ 11 * n + 8 - 1 < 2 ^ 31
  | 12 => n + 4 - 1 < 2 ^ 31 ∧ 6 * VP64_DIV_ROUNDUP n 4 < 2 ^ 31 ∧
      4 * VP64_DIV_ROUNDUP n 4 < 2 ^ 31 ∧ 3 * n + 2 - 1 < 2 ^ 31
  | 16 => 2 * n < 2 ^ 31
  | 32 => 4 * n < 2 ^ 31
  | 64 => 8 * n < 2 ^ 31
  | _ => n < 2 ^ 31

/-! ## Bit operations as arithmetic -/

theorem and_mask_eq_mod (x k : Nat) : x &&& (2 ^ k - 1) = x % 2 ^ k :=
  Nat.and_pow_two_sub_one_eq_mod x k

theorem and_0xff (x : Nat) : x &&& 0xff = x % 256 := Nat.and_pow_two_sub_one_eq_mod x 8

theorem shl_or_eq_add (v b k : Nat) (h : b < 2 ^ k) : (v <<< k) ||| b = v * 2 ^ k + b := by
  rw [Nat.shiftLeft_eq, Nat.mul_comm v, ← Nat.mul_add_lt_is_or h v]

theorem mul_or_eq_add (v b k : Nat) (h : b < 2 ^ k) : (v * 2 ^ k) ||| b = v * 2 ^ k + b := by
  rw [Nat.mul_comm v, ← Nat.mul_add_lt_is_or h v]

theorem write_same (m : Mem) (a v : Nat) : (m.write a v) a = v := by
  simp [Mem.write]

theorem write_other (m : Mem) (a v x : Nat) (h : x ≠ a) : (m.write a v) x = m x := by
  simp [Mem.write, h]

theorem DecodeUint16_eq (m : Mem) (a : Nat) :
    DecodeUint16 m a = (m a % 256) * 256 + m (a + 1) % 256 := by
  unfold DecodeUint16
  simp only [and_0xff]
  rw [shl_or_eq_add _ _ 8 (by have := Nat.mod_lt (m (a + 1)) (by decide : 256 > 0); omega)]
  have h1 := Nat.mod_lt (m a) (by decide : 256 > 0)
  have h2 := Nat.mod_lt (m (a + 1)) (by decide : 256 > 0)
  omega

theorem decode_step (v b N : Nat) (h : v * 256 + 256 ≤ N) :
    ((v <<< 8) ||| (b % 256)) % N = v * 256 + b % 256 := by
  have hb := Nat.mod_lt b (by decide : 256 > 0)
  rw [shl_or_eq_add _ _ 8 (by simpa using hb)]
  exact Nat.mod_eq_of_lt (by norm_num; omega)

theorem DecodeUint32_eq (m : Mem) (a : Nat) :
    DecodeUint32 m a = (((m a % 256) * 256 + m (a + 1) % 256) * 256 + m (a + 2) % 256) * 256
      + m (a + 3) % 256 := by
  unfold DecodeUint32
  simp only [forLoop, and_0xff]
  have h0 := Nat.mod_lt (m a) (by decide : 256 > 0)
  have h1 := Nat.mod_lt (m (a + 1)) (by decide : 256 > 0)
  have h2 := Nat.mod_lt (m (a + 2)) (by decide : 256 > 0)
  rw [decode_step (m a % 256) (m (a + (0 + 1))) (2 ^ 32) (by norm_num; omega)]
  rw [decode_step _ (m (a + (1 + 1))) (2 ^ 32) (by norm_num; omega)]
  rw [decode_step _ (m (a + (2 + 1))) (2 ^ 32) (by norm_num; omega)]

theorem DecodeUint64_eq (m : Mem) (a : Nat) :
    DecodeUint64 m a = (((((((m a % 256) * 256 + m (a + 1) % 256) * 256 + m (a + 2) % 256) * 256
      + m (a + 3) % 256) * 256 + m (a + 4) % 256) * 256 + m (a + 5) % 256) * 256
      + m (a + 6) % 256) * 256 + m (a + 7) % 256 := by
  unfold DecodeUint64
  simp only [forLoop, and_0xff]
  have h0 := Nat.mod_lt (m a) (by decide : 256 > 0)
  have h1 := Nat.mod_lt (m (a + 1)) (by decide : 256 > 0)
  have h2 := Nat.mod_lt (m (a + 2)) (by decide : 256 > 0)
  have h3 := Nat.mod_lt (m (a + 3)) (by decide : 256 > 0)
  have h4 := Nat.mod_lt (m (a + 4)) (by decide : 256 > 0)
  have h5 := Nat.mod_lt (m (a + 5)) (by decide : 256 > 0)
  have h6 := Nat.mod_lt (m (a + 6)) (by decide : 256 > 0)
  rw [decode_step (m a % 256) (m (a + (0 + 1))) (2 ^ 64) (by norm_num; omega)]
  rw [decode_step _ (m (a + (1 + 1))) (2 ^ 64) (by norm_num; omega)]
  rw [decode_step _ (m (a + (2 + 1))) (2 ^ 64) (by norm_num; omega)]
  rw [decode_step _ (m (a + (3 + 1))) (2 ^ 64) (by norm_num; omega)]
  rw [decode_step _ (m (a + (4 + 1))) (2 ^ 64) (by norm_num; omega)]
  rw [decode_step _ (m (a + (5 + 1))) (2 ^ 64) (by norm_num; omega)]
  rw [decode_step _ (m (a + (6 + 1))) (2 ^ 64) (by norm_num; omega)]

theorem DecodeUint64_beValue (m : Mem) (a : Nat) : DecodeUint64 m a = beValue m a 8 := by
  rw [DecodeUint64_eq]
  simp only [beValue, Nat.add_zero, Nat.zero_mul, Nat.zero_add]

theorem SetUint64_read (m : Mem) (a v x : Nat) :
    SetUint64 m a v x =
      if a ≤ x ∧ x < a + 8 then (v / 2 ^ (8 * (7 - (x - a)))) % 256 else m x := by
  simp only [SetUint64, Mem.write, and_0xff, Nat.shiftRight_eq_div_pow]
  by_cases h7 : x = a + 7
  · subst h7; simp
  by_cases h6 : x = a + 6
  · subst h6; simp
  by_cases h5 : x = a + 5
  · subst h5; simp
  by_cases h4 : x = a + 4
  · subst h4; simp
  by_cases h3 : x = a + 3
  · subst h3; simp
  by_cases h2 : x = a + 2
  · subst h2; simp
  by_cases h1 : x = a + 1
  · subst h1; simp
  by_cases h0 : x = a
  · subst h0; simp
  · have : ¬ (a ≤ x ∧ x < a + 8) := by omega
    simp [h7, h6, h5, h4, h3, h2, h1, h0, this]

theorem SetUint32_read (m : Mem) (a v x : Nat) :
    SetUint32 m a v x =
      if a ≤ x ∧ x < a + 4 then (v / 2 ^ (8 * (3 - (x - a)))) % 256 else m x := by
  simp only [SetUint32, Mem.write, and_0xff, Nat.shiftRight_eq_div_pow]
  by_cases h3 : x = a + 3
  · subst h3; simp
  by_cases h2 : x = a + 2
  · subst h2; simp
  by_cases h1 : x = a + 1
  · subst h1; simp
  by_cases h0 : x = a
  · subst h0; simp
  · have : ¬ (a ≤ x ∧ x < a + 4) := by omega
    simp [h3, h2, h1, h0, this]

theorem DecodeUint64_SetUint64 (m : Mem) (a v : Nat) :
    DecodeUint64 (SetUint64 m a v) a = v % 2 ^ 64 := by
  rw [DecodeUint64_eq]
  simp only [SetUint64_read]
  norm_num
  omega

theorem DecodeUint32_SetUint32 (m : Mem) (a v : Nat) :
    DecodeUint32 (SetUint32 m a v) a = v % 2 ^ 32 := by
  rw [DecodeUint32_eq]
  simp only [SetUint32_read]
  norm_num
  omega

/-! ## The tables of the partitioner -/

theorem max_partition_eq : max_partition = 128 := by decide

theorem partition_length_length : partition_length.length = 16 := by decide

theorem partition_length_mem (j : Nat) (hj : j < 16) :
    partition_length.getD j 0 ∈ partition_length ∧ 1 ≤ partition_length.getD j 0 ∧
      partition_length.getD j 0 ≤ 128 := by
  interval_cases j <;> decide

theorem forLoop_succ {σ : Type} (k : Nat) (body : Nat → σ → σ) (init : σ) :
    forLoop (k + 1) body init = body k (forLoop k body init) := rfl

theorem forLoop_zero {σ : Type} (body : Nat → σ → σ) (init : σ) :
    forLoop 0 body init = init := rfl

/-- A loop invariant rule: what holds at the start and is kept by every
iteration holds at the end. -/
theorem forLoop_inv {σ : Type} (P : Nat → σ → Prop) (n : Nat) (body : Nat → σ → σ) (init : σ)
    (h0 : P 0 init) (hs : ∀ k s, k < n → P k s → P (k + 1) (body k s)) :
    P n (forLoop n body init) := by
  induction n with
  | zero => exact h0
  | succ k ih =>
    rw [forLoop_succ]
    exact hs k _ (Nat.lt_succ_self k) (ih (fun j s hj => hs j s (Nat.lt_succ_of_lt hj)))

theorem init_refs (n i : Nat) (hi : i ≤ n) : (ComputePartition.init n).refs i = -1 := by
  unfold ComputePartition.init
  have := forLoop_inv (fun k (t : DPState) => ∀ x, x < k → t.refs x = -1) (n + 1)
    (fun i t => { refs := fun x => if x = i then -1 else t.refs x,
                  costs := fun x => if x = i then 0 else t.costs x })
    { refs := fun _ => 0, costs := fun _ => 0 }
    (fun x hx => absurd hx (Nat.not_lt_zero x))
    (fun k s _ ih x hx => by
      show (if x = k then (-1 : Int) else s.refs x) = -1
      by_cases hxk : x = k
      · rw [if_pos hxk]
      · rw [if_neg hxk]; exact ih x (by omega))
  exact this i (by omega)

theorem seed_refs (src : Nat → Nat) (t : DPState) (i : Nat) :
    (ComputePartition.seed src t).refs i =
      if 1 ≤ i ∧ i < 128 then ((i - 1 : Nat) : Int) else t.refs i := by
  unfold ComputePartition.seed
  rw [max_partition_eq]
  have := forLoop_inv (fun k (s : DPState) => ∀ x, s.refs x =
      if 1 ≤ x ∧ x < k + 1 then ((x - 1 : Nat) : Int) else t.refs x) (128 - 1)
    (fun k t =>
      let i := k + 1
      { refs := fun x => if x = i then ((i - 1 : Nat) : Int) else t.refs x,
        costs := fun x => if x = i
          then t.costs (i - 1) + VP64_DIV_ROUNDUP (usedBits (src i)) 8 else t.costs x })
    { t with costs := fun x => if x = 0 then VP64_DIV_ROUNDUP (usedBits (src 0)) 8 else t.costs x }
    (fun x => by
      show t.refs x = _
      rw [if_neg (by omega)])
    (fun k s _ ih x => by
      show (if x = k + 1 then ((k + 1 - 1 : Nat) : Int) else s.refs x) = _
      by_cases hxk : x = k + 1
      · rw [if_pos hxk, if_pos (by omega), hxk]
      · rw [if_neg hxk, ih x]
        by_cases hx : 1 ≤ x ∧ x < k + 1
        · rw [if_pos hx, if_pos (by omega)]
        · rw [if_neg hx, if_neg (by omega)])
  exact this i

/-- One candidate of the inner loop changes `refs[]` at position `i` only, and
there only to `i - partition_length[j]`; it does so whenever `refs[i]` is `-1`. -/
theorem inner_refs (src : Nat → Nat) (i j : Nat) (st : Nat × DPState) :
    (∀ x, x ≠ i → (ComputePartition.inner src i j st).2.refs x = st.2.refs x) ∧
    ((ComputePartition.inner src i j st).2.refs i = st.2.refs i ∨
      (ComputePartition.inner src i j st).2.refs i =
        ((i - partition_length.getD j 0 : Nat) : Int)) ∧
    (st.2.refs i = -1 → (ComputePartition.inner src i j st).2.refs i =
        ((i - partition_length.getD j 0 : Nat) : Int)) := by
  unfold ComputePartition.inner
  simp only []
  split_ifs with ha hb hb
  · exact ⟨fun x hx => by simp [hx], Or.inr (by simp), fun _ => by simp⟩
  · exact ⟨fun x _ => rfl, Or.inl rfl, fun h => absurd (Or.inl h) hb⟩
  · exact ⟨fun x hx => by simp [hx], Or.inr (by simp), fun _ => by simp⟩
  · exact ⟨fun x _ => rfl, Or.inl rfl, fun h => absurd (Or.inl h) hb⟩

/-- The inner loop at position `i` changes `refs[]` at `i` only; if `refs[i]`
was `-1`, it is afterwards `i - ℓ` for a partition length `ℓ`. -/
theorem outer_refs (src : Nat → Nat) (i : Nat) (t : DPState) :
    (∀ x, x ≠ i → (ComputePartition.outer src i t).refs x = t.refs x) ∧
    (t.refs i = -1 → ∃ j, j < 16 ∧ (ComputePartition.outer src i t).refs i =
        ((i - partition_length.getD j 0 : Nat) : Int)) := by
  unfold ComputePartition.outer
  rw [partition_length_length]
  have := forLoop_inv (fun k (s : Nat × DPState) =>
      (∀ x, x ≠ i → s.2.refs x = t.refs x) ∧
      (t.refs i = -1 → (k = 0 ∧ s.2.refs i = -1) ∨
        ∃ j, j < k ∧ s.2.refs i = ((i - partition_length.getD j 0 : Nat) : Int)))
    16 (ComputePartition.inner src i) (0, t)
    ⟨fun _ _ => rfl, fun h => Or.inl ⟨rfl, h⟩⟩
    (fun k s _ ih => by
      obtain ⟨h1, h2, h3⟩ := inner_refs src i k s
      refine ⟨fun x hx => (h1 x hx).trans (ih.1 x hx), fun h => Or.inr ?_⟩
      rcases ih.2 h with ⟨_, hm⟩ | ⟨j, hj, he⟩
      · exact ⟨k, Nat.lt_succ_self k, h3 hm⟩
      · rcases h2 with h2 | h2
        · exact ⟨j, Nat.lt_succ_of_lt hj, h2.trans he⟩
        · exact ⟨k, Nat.lt_succ_self k, h2⟩)
  refine ⟨this.1, fun h => ?_⟩
  rcases this.2 h with ⟨h0, _⟩ | h'
  · exact absurd h0 (by decide)
  · exact h'

/-- After the loops of `ComputePartition`, every `refs[i]` with `1 ≤ i ≤ n` is
`i - ℓ` for a partition length `ℓ ≤ i`. -/
theorem table_refs (src : Nat → Nat) (n : Nat) (i : Nat) (h1 : 1 ≤ i) (hi : i ≤ n) :
    ∃ l, l ∈ partition_length ∧ l ≤ i ∧
      (ComputePartition.table src n).refs i = ((i - l : Nat) : Int) := by
  unfold ComputePartition.table
  rw [max_partition_eq]
  have := forLoop_inv (fun k (s : DPState) =>
      (∀ x, 1 ≤ x → x < 128 + k → ∃ l, l ∈ partition_length ∧ l ≤ x ∧
        s.refs x = ((x - l : Nat) : Int)) ∧
      (∀ x, 128 + k ≤ x → x ≤ n → s.refs x = -1))
    (n + 1 - 128) (fun k t => ComputePartition.outer src (128 + k) t)
    (ComputePartition.seed src (ComputePartition.init n))
    ⟨fun x hx1 hx => ⟨1, by decide, hx1, by rw [seed_refs, if_pos ⟨hx1, by omega⟩]⟩,
      fun x hx hxn => by rw [seed_refs, if_neg (by omega), init_refs n x hxn]⟩
    (fun k s hk ih => by
      obtain ⟨ho1, ho2⟩ := outer_refs src (128 + k) s
      refine ⟨fun x hx1 hx => ?_, fun x hx hxn => ?_⟩
      · by_cases hxe : x = 128 + k
        · obtain ⟨j, hj, he⟩ := ho2 (ih.2 (128 + k) (Nat.le_refl _) (by omega))
          obtain ⟨hm, _, hle⟩ := partition_length_mem j hj
          exact ⟨_, hm, by omega, by rw [hxe]; exact he⟩
        · rw [ho1 x hxe]
          exact ih.1 x hx1 (by omega)
      · rw [ho1 x (by omega)]
        exact ih.2 x (by omega) hxn)
  by_cases hn : 128 ≤ n
  · exact this.1 i h1 (by omega)
  · -- the main loop does not run; `i` is below `max_partition`
    have : n + 1 - 128 = 0 := by omega
    rw [this, forLoop_zero]
    exact ⟨1, by decide, h1, by rw [seed_refs, if_pos ⟨h1, by omega⟩]⟩

/-! ## The backtracking loops of the partitioner -/

theorem toSizeT_natCast (k : Nat) : toSizeT (k : Int) = k := by
  unfold toSizeT
  rw [if_neg (by omega)]
  exact Int.toNat_natCast k

theorem whileLoop_zero {σ : Type} (cond : σ → Bool) (body : σ → σ) (s : σ) :
    whileLoop 0 cond body s = if cond s then none else some s := rfl

theorem whileLoop_succ {σ : Type} (k : Nat) (cond : σ → Bool) (body : σ → σ) (s : σ) :
    whileLoop (k + 1) cond body s =
      if cond s then whileLoop k cond body (body s) else some s := rfl

theorem chain_zero (f : Nat → Nat) (fuel : Nat) : chain f fuel 0 = [] := by
  cases fuel <;> simp [chain]

theorem chain_pos (f : Nat → Nat) (k i : Nat) (hi : i ≠ 0) :
    chain f (k + 1) i = i :: chain f k (f i) := by
  simp [chain, hi]

/-- The counting loop `while (next != 0) {next = refs[next]; pnum++;}` ends with
the length of the chain, when `refs[]` leads downwards. -/
theorem walk_count (f : Nat → Nat) (fuel : Nat) : ∀ (c i : Nat), i ≤ fuel →
    (∀ j, 1 ≤ j → j ≤ i → f j < j) →
    whileLoop fuel (fun (st : Nat × Nat) => st.2 ≠ 0) (fun st => (st.1 + 1, f st.2)) (c, i)
      = some (c + (chain f fuel i).length, 0) := by
  induction fuel with
  | zero =>
    intro c i hi _
    have : i = 0 := by omega
    subst this
    simp [whileLoop_zero, chain_zero]
  | succ k ih =>
    intro c i hi hdec
    by_cases h0 : i = 0
    · subst h0
      simp [whileLoop_succ, chain_zero]
    · have hlt := hdec i (by omega) (Nat.le_refl i)
      rw [whileLoop_succ, chain_pos f k i h0]
      simp only [ne_eq, h0, not_false_eq_true, decide_True, if_true, List.length_cons]
      rw [ih (c + 1) (f i) (by omega) (fun j h1 hj => hdec j h1 (by omega))]
      congr 2
      omega

/-- The writing loop `while (n != 0) {parts[pidx--] = n; n = refs[n];}` stores
the chain backwards, ending just above `pidx - length`. -/
theorem walk_write (f : Nat → Nat) (fuel : Nat) : ∀ (parts : Mem) (pidx i : Nat), i ≤ fuel →
    (∀ j, 1 ≤ j → j ≤ i → f j < j) → (chain f fuel i).length ≤ pidx →
    whileLoop fuel (fun (st : Mem × Nat × Nat) => st.2.2 ≠ 0)
        (fun st => (st.1.write st.2.1 st.2.2, st.2.1 - 1, f st.2.2)) (parts, pidx, i)
      = some (fun x => if pidx - (chain f fuel i).length < x ∧ x ≤ pidx
            then (chain f fuel i).getD (pidx - x) 0 else parts x,
          pidx - (chain f fuel i).length, 0) := by
  induction fuel with
  | zero =>
    intro parts pidx i hi _ _
    have : i = 0 := by omega
    subst this
    simp only [whileLoop_zero, chain_zero, ne_eq, not_true_eq_false, decide_False,
      Bool.false_eq_true, if_false, List.length_nil, Nat.sub_zero]
    congr 2
    funext x
    rw [if_neg (by omega)]
  | succ k ih =>
    intro parts pidx i hi hdec hlen
    by_cases h0 : i = 0
    · subst h0
      simp only [whileLoop_succ, chain_zero, ne_eq, not_true_eq_false, decide_False,
        Bool.false_eq_true, if_false, List.length_nil, Nat.sub_zero]
      congr 2
      funext x
      rw [if_neg (by omega)]
    · have hlt := hdec i (by omega) (Nat.le_refl i)
      rw [chain_pos f k i h0] at hlen ⊢
      rw [whileLoop_succ]
      simp only [ne_eq, h0, not_false_eq_true, decide_True, if_true, List.length_cons] at hlen ⊢
      rw [ih (parts.write pidx i) (pidx - 1) (f i) (by omega)
        (fun j h1 hj => hdec j h1 (by omega)) (by omega)]
      congr 2
      · funext x
        by_cases hx : x = pidx
        · subst hx
          rw [if_neg (by omega), write_same, if_pos (by omega)]
          simp
        · rw [write_other _ _ _ _ hx]
          by_cases hr : pidx - 1 - (chain f k (f i)).length < x ∧ x ≤ pidx - 1
          · rw [if_pos hr, if_pos (by omega)]
            have : pidx - x = (pidx - 1 - x) + 1 := by omega
            rw [this, List.getD_cons_succ]
          · rw [if_neg hr, if_neg (by omega)]
      · congr 1
        omega

/-- The chain of back references of the table of `ComputePartition`. -/
theorem table_step (src : Nat → Nat) (n : Nat) (j : Nat) (h1 : 1 ≤ j) (hj : j ≤ n) :
    ∃ l, l ∈ partition_length ∧ l ≤ j ∧
      toSizeT ((ComputePartition.table src n).refs j) = j - l := by
  obtain ⟨l, hl, hle, he⟩ := table_refs src n j h1 hj
  exact ⟨l, hl, hle, by rw [he, toSizeT_natCast]⟩

theorem partition_length_pos (l : Nat) (hl : l ∈ partition_length) : 1 ≤ l ∧ l ≤ 128 := by
  revert l
  decide

theorem table_step_lt (src : Nat → Nat) (n : Nat) (j : Nat) (h1 : 1 ≤ j) (hj : j ≤ n) :
    toSizeT ((ComputePartition.table src n).refs j) < j := by
  obtain ⟨l, hl, hle, he⟩ := table_step src n j h1 hj
  have := partition_length_pos l hl
  omega

/-- What `ComputePartition` returns: the length of the chain of back references
from `n`, and `parts[]` holding `0` followed by that chain backwards. -/
theorem ComputePartition_eq (src : Nat → Nat) (n : Nat) (parts0 : Mem) :
    ComputePartition src n parts0 =
      some ((chain (fun i => toSizeT ((ComputePartition.table src n).refs i)) n n).length,
        fun x => if x = 0 then 0
          else if x ≤ (chain (fun i => toSizeT ((ComputePartition.table src n).refs i)) n n).length
          then (chain (fun i => toSizeT ((ComputePartition.table src n).refs i)) n n).getD
            ((chain (fun i => toSizeT ((ComputePartition.table src n).refs i)) n n).length - x) 0
          else parts0 x) := by
  unfold ComputePartition
  simp only []
  rw [walk_count _ n 0 n (Nat.le_refl n) (fun j h1 hj => table_step_lt src n j h1 hj)]
  simp only [Nat.zero_add]
  rw [walk_write _ n parts0 _ n (Nat.le_refl n) (fun j h1 hj => table_step_lt src n j h1 hj)
    (Nat.le_refl _)]
  simp only [Nat.sub_self]
  congr 2
  funext x
  by_cases hx : x = 0
  · subst hx
    simp [Mem.write]
  · rw [write_other _ _ _ _ hx, if_neg hx]
    by_cases hx2 : x ≤ (chain (fun i => toSizeT ((ComputePartition.table src n).refs i)) n n).length
    · rw [if_pos hx2, if_pos ⟨by omega, hx2⟩]
    · rw [if_neg hx2, if_neg (by omega)]

/-! ## The shape of a chain of back references -/

/-- A chain that follows steps `f j = j - ℓ` with `ℓ` a partition length starts
at `i`, descends by partition lengths, and ends with a partition length. -/
theorem chain_shape (f : Nat → Nat) (n : Nat)
    (hf : ∀ j, 1 ≤ j → j ≤ n → ∃ l, l ∈ partition_length ∧ l ≤ j ∧ f j = j - l)
    (fuel : Nat) : ∀ i, 1 ≤ i → i ≤ fuel → i ≤ n →
      1 ≤ (chain f fuel i).length ∧ (chain f fuel i).getD 0 0 = i ∧
      (∀ k, k + 1 < (chain f fuel i).length →
        (chain f fuel i).getD (k + 1) 0 < (chain f fuel i).getD k 0 ∧
        (chain f fuel i).getD k 0 - (chain f fuel i).getD (k + 1) 0 ∈ partition_length) ∧
      (chain f fuel i).getD ((chain f fuel i).length - 1) 0 ∈ partition_length := by
  induction fuel with
  | zero => intro i h1 hi _; omega
  | succ k ih =>
    intro i h1 hi hn
    obtain ⟨l, hl, hle, he⟩ := hf i h1 hn
    have hlp := partition_length_pos l hl
    rw [chain_pos f k i (by omega)]
    by_cases h0 : f i = 0
    · rw [h0, chain_zero]
      have hil : i = l := by omega
      refine ⟨by simp, by simp, fun k hk => ?_, ?_⟩
      · simp at hk
      · simpa [hil] using hl
    · obtain ⟨a1, a2, a3, a4⟩ := ih (f i) (by omega) (by omega) (by omega)
      refine ⟨by simp, by simp, fun j hj => ?_, ?_⟩
      · cases j with
        | zero =>
          simp only [Nat.zero_add, List.getD_cons_succ, List.getD_cons_zero, a2]
          refine ⟨by omega, ?_⟩
          have : i - f i = l := by omega
          rw [this]; exact hl
        | succ j =>
          simp only [List.getD_cons_succ]
          exact a3 j (by simpa using hj)
      · simp only [List.length_cons, Nat.add_sub_cancel]
        have : (chain f k (f i)).length = ((chain f k (f i)).length - 1) + 1 := by omega
        rw [this, List.getD_cons_succ]
        exact a4

/-- For `n ≥ 1`, `ComputePartition` returns boundaries that split `[0, n)` into
partitions whose lengths are partition lengths. -/
theorem ComputePartition_PartShape (src : Nat → Nat) (n : Nat) (parts0 : Mem) (hn : 1 ≤ n) :
    ∃ p parts, ComputePartition src n parts0 = some (p, parts) ∧ PartShape n p parts := by
  obtain ⟨h1, h2, h3, h4⟩ := chain_shape (fun i => toSizeT ((ComputePartition.table src n).refs i))
    n (fun j hj1 hjn => table_step src n j hj1 hjn) n n (by omega) (Nat.le_refl n) (Nat.le_refl n)
  rw [ComputePartition_eq]
  generalize hC : chain (fun i => toSizeT ((ComputePartition.table src n).refs i)) n n = C
    at h1 h2 h3 h4
  have hval : ∀ x, 1 ≤ x → x ≤ C.length →
      (fun x => if x = 0 then 0 else if x ≤ C.length then C.getD (C.length - x) 0
        else parts0 x) x = C.getD (C.length - x) 0 := by
    intro x hx1 hx2
    have hx0 : ¬ x = 0 := by omega
    simp only [hx0, hx2, if_true, if_false]
  have hzero : (fun x => if x = 0 then 0 else if x ≤ C.length then C.getD (C.length - x) 0
        else parts0 x) 0 = 0 := by
    simp only [if_true]
  generalize (fun x => if x = 0 then 0 else if x ≤ C.length then C.getD (C.length - x) 0
        else parts0 x) = P at hval hzero
  have hstep : ∀ i, i < C.length → P i < P (i + 1) ∧ P (i + 1) - P i ∈ partition_length := by
    intro i hi
    rw [hval (i + 1) (by omega) (by omega)]
    by_cases hi0 : i = 0
    · subst hi0
      rw [hzero]
      simp only [Nat.zero_add, Nat.sub_zero]
      have := partition_length_pos _ h4
      exact ⟨by omega, h4⟩
    · rw [hval i (by omega) (by omega)]
      have := h3 (C.length - (i + 1)) (by omega)
      have he : C.length - (i + 1) + 1 = C.length - i := by omega
      rw [he] at this
      exact this
  refine ⟨_, _, rfl, h1, hzero, ?_, fun i hi => (hstep i hi).1, fun i hi => (hstep i hi).2⟩
  rw [hval C.length h1 (Nat.le_refl _), Nat.sub_self]
  exact h2


/-! ## The partitioner on the test input of the source -/

theorem chain_golden_160 :
    chain (fun i => toSizeT ((ComputePartition.table (fun i => goldenInput.getD i 0) 160).refs i))
      160 160 = [160, 158, 157, 150, 149, 143, 142, 138, 137, 129, 128] := by
  decide!

theorem chain_golden_128 :
    chain (fun i => toSizeT ((ComputePartition.table (fun i => goldenInput.getD i 0) 128).refs i))
      128 128 = [128] := by
  decide!

theorem chain_spike_128 :
    chain (fun i => toSizeT ((ComputePartition.table spikeInput 128).refs i)) 128 128 = [128] := by
  decide!

/-! ## Fields of big-endian numbers -/

theorem two_pow_pos' (k : Nat) : 0 < 2 ^ k := Nat.pow_pos (by decide)

/-- Dividing away low bits: the part below `2 ^ t` does not reach the quotient. -/
theorem div_drop_low (x z t c : Nat) (hz : z < 2 ^ t) :
    (x * 2 ^ t + z) / 2 ^ (t + c) = x / 2 ^ c := by
  rw [Nat.pow_add, ← Nat.div_div_eq_div_mul]
  congr 1
  rw [Nat.add_comm, Nat.add_mul_div_right _ _ (two_pow_pos' t), Nat.div_eq_of_lt hz, Nat.zero_add]

/-- Bits above `2 ^ M` do not reach a field that lies below. -/
theorem mod_drop_high (a y c len M : Nat) (h : c + len ≤ M) :
    (a * 2 ^ M + y) / 2 ^ c % 2 ^ len = y / 2 ^ c % 2 ^ len := by
  have hM : M = c + (len + (M - c - len)) := by omega
  have e1 : a * 2 ^ M = (a * 2 ^ (M - c - len) * 2 ^ len) * 2 ^ c := by
    conv_lhs => rw [hM]
    rw [Nat.pow_add, Nat.pow_add]
    ring
  rw [e1, Nat.add_comm, Nat.add_mul_div_right _ _ (two_pow_pos' c), Nat.add_mul_mod_self_right]

theorem mod_div_mod (y c len M : Nat) (h : c + len ≤ M) :
    (y % 2 ^ M) / 2 ^ c % 2 ^ len = y / 2 ^ c % 2 ^ len := by
  conv_rhs => rw [← Nat.div_add_mod y (2 ^ M)]
  rw [Nat.mul_comm, mod_drop_high _ _ _ _ _ h]

theorem beValue_lt (m : Mem) (a k : Nat) : beValue m a k < 2 ^ (8 * k) := by
  induction k with
  | zero => simp [beValue]
  | succ k ih =>
    have hb := Nat.mod_lt (m (a + k)) (by decide : 256 > 0)
    have e : 2 ^ (8 * (k + 1)) = 2 ^ (8 * k) * 256 := by
      rw [Nat.mul_add, Nat.pow_add]
    rw [e]
    simp only [beValue]
    have : beValue m a k + 1 ≤ 2 ^ (8 * k) := ih
    calc beValue m a k * 256 + m (a + k) % 256 < (beValue m a k + 1) * 256 := by omega
      _ ≤ 2 ^ (8 * k) * 256 := Nat.mul_le_mul_right 256 this

theorem beValue_add (m : Mem) (a k1 k2 : Nat) :
    beValue m a (k1 + k2) = beValue m a k1 * 2 ^ (8 * k2) + beValue m (a + k1) k2 := by
  induction k2 with
  | zero => simp [beValue]
  | succ k ih =>
    have e : 2 ^ (8 * (k + 1)) = 2 ^ (8 * k) * 256 := by
      rw [Nat.mul_add, Nat.pow_add]
    rw [← Nat.add_assoc]
    simp only [beValue]
    rw [ih, e, Nat.add_assoc a k1 k]
    ring

/-- The value of a byte stream does not depend on memory outside its bytes. -/
theorem beValue_congr (m m' : Mem) (a k : Nat) (h : ∀ x, x < k → m (a + x) = m' (a + x)) :
    beValue m a k = beValue m' a k := by
  induction k with
  | zero => rfl
  | succ k ih =>
    simp only [beValue]
    rw [ih (fun x hx => h x (Nat.lt_succ_of_lt hx)), h k (Nat.lt_succ_self k)]

/-- The bits `[pos, pos + len)` read off any number of bytes that holds them. -/
theorem getBits_eq_field (m : Mem) (a pos len K : Nat) (h : pos + len ≤ 8 * K) :
    getBits m a pos len = field (beValue m a K) (8 * K) pos len := by
  unfold getBits field
  have hq := Nat.div_add_mod pos 8
  generalize hB : bytesFor (pos % 8 + len) = B
  have hB2 : pos % 8 + len ≤ 8 * B ∧ 8 * B < pos % 8 + len + 8 := by
    rw [← hB]; unfold bytesFor; omega
  obtain ⟨t, ht⟩ : ∃ t, K = pos / 8 + (B + t) := ⟨K - pos / 8 - B, by omega⟩
  rw [ht, beValue_add, beValue_add]
  have e1 : 8 * (pos / 8 + (B + t)) - pos - len = 8 * t + (8 * B - pos % 8 - len) := by omega
  rw [e1, ← Nat.add_assoc, Nat.mul_add 8 B t, Nat.pow_add, ← Nat.mul_assoc, ← Nat.add_mul,
    div_drop_low _ _ _ _ (beValue_lt m _ t),
    mod_drop_high _ _ _ _ _ (by omega : 8 * B - pos % 8 - len + len ≤ 8 * B)]

/-- Moving the start of the stream by whole bytes. -/
theorem getBits_shift (m : Mem) (a k p len : Nat) :
    getBits m a (8 * k + p) len = getBits m (a + k) p len := by
  unfold getBits
  have e1 : (8 * k + p) / 8 = k + p / 8 := by omega
  have e2 : (8 * k + p) % 8 = p % 8 := by omega
  rw [e1, e2, Nat.add_assoc]

theorem getBits_lt (m : Mem) (a pos len : Nat) : getBits m a pos len < 2 ^ len := by
  unfold getBits field
  exact Nat.mod_lt _ (two_pow_pos' len)

/-- The bits of a stream do not depend on memory outside the bytes that hold them. -/
theorem getBits_congr (m m' : Mem) (a pos len K : Nat) (h : pos + len ≤ 8 * K)
    (hm : ∀ x, x < K → m (a + x) = m' (a + x)) : getBits m a pos len = getBits m' a pos len := by
  rw [getBits_eq_field m a pos len K h, getBits_eq_field m' a pos len K h,
    beValue_congr m m' a K hm]

/-! ## The concatenation of fixed-width values -/

theorem catValue_lt (v : Nat → Nat) (w n : Nat) : catValue v w n < 2 ^ (n * w) := by
  induction n with
  | zero => simp [catValue]
  | succ n ih =>
    simp only [catValue]
    have hr := Nat.mod_lt (v n) (two_pow_pos' w)
    have e : 2 ^ ((n + 1) * w) = 2 ^ (n * w) * 2 ^ w := by
      rw [Nat.add_mul, Nat.one_mul, Nat.pow_add]
    rw [e]
    have : catValue v w n + 1 ≤ 2 ^ (n * w) := ih
    calc catValue v w n * 2 ^ w + v n % 2 ^ w < (catValue v w n + 1) * 2 ^ w := by
          rw [Nat.add_mul, Nat.one_mul]; omega
      _ ≤ 2 ^ (n * w) * 2 ^ w := Nat.mul_le_mul_right _ this

/-- The `e`-th value is a field of the concatenation. -/
theorem catValue_field (v : Nat → Nat) (w n e : Nat) (he : e < n) :
    catValue v w n / 2 ^ ((n - 1 - e) * w) % 2 ^ w = v e % 2 ^ w := by
  induction n with
  | zero => omega
  | succ n ih =>
    simp only [catValue]
    have hr := Nat.mod_lt (v n) (two_pow_pos' w)
    by_cases hen : e = n
    · subst hen
      have : (e + 1 - 1 - e) * w = 0 := by simp
      rw [this, Nat.pow_zero, Nat.div_one, Nat.mul_comm, Nat.mul_add_mod, Nat.mod_mod]
    · have e1 : (n + 1 - 1 - e) * w = w + (n - 1 - e) * w := by
        have : n + 1 - 1 - e = (n - 1 - e) + 1 := by omega
        rw [this, Nat.add_mul, Nat.one_mul, Nat.add_comm]
      rw [e1, div_drop_low _ _ _ _ hr]
      exact ih (by omega)

/-- Reading the `e`-th field of width `w` from bytes that hold a concatenation,
padded to whole bytes, gives the `e`-th value. -/
theorem getBits_of_catValue (m : Mem) (a : Nat) (v : Nat → Nat) (w n L e : Nat)
    (hL : n * w ≤ 8 * L) (hcat : beValue m a L = catValue v w n * 2 ^ (8 * L - n * w))
    (he : e < n) : getBits m a (e * w) w = v e % 2 ^ w := by
  have hle : e * w + w ≤ n * w := by
    have : (e + 1) * w ≤ n * w := Nat.mul_le_mul_right w he
    rw [Nat.add_mul, Nat.one_mul] at this
    exact this
  rw [getBits_eq_field m a (e * w) w L (by omega)]
  unfold field
  rw [hcat]
  have hsplit : n * w = e * w + w + (n - 1 - e) * w := by
    have : n = e + 1 + (n - 1 - e) := by omega
    conv_lhs => rw [this]
    rw [Nat.add_mul, Nat.add_mul, Nat.one_mul]
  have e1 : 8 * L - e * w - w = (8 * L - n * w) + (n - 1 - e) * w := by omega
  rw [e1]
  have := div_drop_low (catValue v w n) 0 (8 * L - n * w) ((n - 1 - e) * w) (two_pow_pos' _)
  rw [Nat.add_zero] at this
  rw [this]
  exact catValue_field v w n e he

/-! ## Loops that store groups of values -/

theorem writeList_get (vs : List Nat) : ∀ (m : Mem) (a x : Nat),
    (m.writeList a vs) x = if a ≤ x ∧ x < a + vs.length then vs.getD (x - a) 0 else m x := by
  induction vs with
  | nil =>
    intro m a x
    simp only [Mem.writeList, List.length_nil, Nat.add_zero]
    rw [if_neg (by omega)]
  | cons v vs ih =>
    intro m a x
    simp only [Mem.writeList, List.length_cons]
    rw [ih]
    by_cases hx : x = a
    · subst hx
      rw [if_neg (by omega), write_same, if_pos (by omega), Nat.sub_self, List.getD_cons_zero]
    · rw [write_other _ _ _ _ hx]
      by_cases h1 : a + 1 ≤ x ∧ x < a + 1 + vs.length
      · rw [if_pos h1, if_pos (by omega)]
        have : x - a = (x - (a + 1)) + 1 := by omega
        rw [this, List.getD_cons_succ]
      · rw [if_neg h1, if_neg (by omega)]

/-- A loop that stores one list of `G` values in each round. -/
theorem group_loop (G : Nat) (hG : 0 < G) (vals : Nat → List Nat)
    (hlen : ∀ i, (vals i).length = G) (dst : Mem) (dp nloop : Nat) : ∀ x,
    (forLoop nloop (fun i m => m.writeList (dp + G * i) (vals i)) dst) x =
      if dp ≤ x ∧ x < dp + G * nloop then (vals ((x - dp) / G)).getD ((x - dp) % G) 0
      else dst x := by
  induction nloop with
  | zero =>
    intro x
    rw [forLoop_zero, if_neg (by omega)]
  | succ k ih =>
    intro x
    rw [forLoop_succ, writeList_get, hlen, ih]
    have hmul : G * (k + 1) = G * k + G := Nat.mul_succ G k
    by_cases h1 : dp + G * k ≤ x ∧ x < dp + G * k + G
    · rw [if_pos h1, if_pos (by omega)]
      have hx : x - dp = G * k + (x - (dp + G * k)) := by omega
      have hr : x - (dp + G * k) < G := by omega
      rw [hx, Nat.mul_add_div hG, Nat.mul_add_mod, Nat.div_eq_of_lt hr, Nat.mod_eq_of_lt hr,
        Nat.add_zero]
    · rw [if_neg h1]
      by_cases h2 : dp ≤ x ∧ x < dp + G * k
      · rw [if_pos h2, if_pos (by omega)]
      · rw [if_neg h2, if_neg (by omega)]

/-- The loop of a group unpacker stores, at every element index of its rounds,
the bits of the source the element stands for. -/
theorem groupLoop_get (G gb w : Nat) (hG : 0 < G) (hw : 8 * gb = G * w)
    (group : Mem → Nat → List Nat) (src : Mem)
    (hlen : ∀ s, (group src s).length = G)
    (hget : ∀ s e, e < G → (group src s).getD e 0 = getBits src s (e * w) w)
    (sp : Nat) (dst : Mem) (dp nloop : Nat) (x : Nat) :
    groupLoop G gb group src sp dst dp nloop x =
      if dp ≤ x ∧ x < dp + G * nloop then getBits src sp ((x - dp) * w) w else dst x := by
  unfold groupLoop
  rw [group_loop G hG (fun i => group src (sp + gb * i)) (fun i => hlen _)]
  by_cases h : dp ≤ x ∧ x < dp + G * nloop
  · rw [if_pos h, if_pos h, hget _ _ (Nat.mod_lt _ hG), ← getBits_shift]
    congr 1
    have hdm := Nat.div_add_mod (x - dp) G
    generalize (x - dp) / G = q at hdm ⊢
    generalize (x - dp) % G = r at hdm ⊢
    rw [← hdm, ← Nat.mul_assoc, hw, Nat.add_mul]
    congr 1
    ring
  · rw [if_neg h, if_neg h]

/-! ## The values of one round of an unpacker -/

theorem lor_add (k a b : Nat) (ha : a % 2 ^ k = 0) (hb : b < 2 ^ k) : a ||| b = a + b := by
  obtain ⟨c, rfl⟩ := Nat.dvd_of_mod_eq_zero ha
  exact (Nat.mul_add_lt_is_or hb c).symm

theorem and_0x01 (x : Nat) : x &&& 0x01 = x % 2 := Nat.and_pow_two_sub_one_eq_mod x 1

theorem and_0x03 (x : Nat) : x &&& 0x03 = x % 4 := Nat.and_pow_two_sub_one_eq_mod x 2

theorem and_0x07 (x : Nat) : x &&& 0x07 = x % 8 := Nat.and_pow_two_sub_one_eq_mod x 3

theorem and_0x0f (x : Nat) : x &&& 0x0f = x % 16 := Nat.and_pow_two_sub_one_eq_mod x 4

theorem and_0x1f (x : Nat) : x &&& 0x1f = x % 32 := Nat.and_pow_two_sub_one_eq_mod x 5

theorem and_0x3f (x : Nat) : x &&& 0x3f = x % 64 := Nat.and_pow_two_sub_one_eq_mod x 6

theorem and_0x7f (x : Nat) : x &&& 0x7f = x % 128 := Nat.and_pow_two_sub_one_eq_mod x 7

theorem and_0x01ff (x : Nat) : x &&& 0x01ff = x % 512 := Nat.and_pow_two_sub_one_eq_mod x 9

theorem and_0x03ff (x : Nat) : x &&& 0x03ff = x % 1024 := Nat.and_pow_two_sub_one_eq_mod x 10

theorem and_0x07ff (x : Nat) : x &&& 0x07ff = x % 2048 := Nat.and_pow_two_sub_one_eq_mod x 11

theorem and_0x0fff (x : Nat) : x &&& 0x0fff = x % 4096 := Nat.and_pow_two_sub_one_eq_mod x 12

theorem Unpack1_group_length (src : Mem) (s : Nat) : (Unpack1.group src s).length = 8 := rfl

theorem Unpack1_group_get (src : Mem) (s e : Nat) (he : e < 8) :
    (Unpack1.group src s).getD e 0 = getBits src s (e * 1) 1 := by
  interval_cases e <;>
    simp only [Unpack1.group, List.range, List.range.loop, List.map, List.getD_cons_zero,
      List.getD_cons_succ, getBits, field, bytesFor, beValue, DecodeUint16_eq,
      Nat.shiftLeft_eq, Nat.shiftRight_eq_div_pow, and_0x01, and_0x03, and_0x07, and_0x0f, and_0x1f,
      and_0x3f, and_0x7f, and_0x01ff, and_0x03ff, and_0x07ff, and_0x0fff, Nat.add_assoc,
      Nat.reducePow, Nat.reduceMul, Nat.reduceAdd, Nat.reduceDiv, Nat.reduceMod, Nat.reduceSub,
      Nat.zero_mul, Nat.zero_add, Nat.add_zero, Nat.mul_zero, Nat.div_one, Nat.mul_one]
  all_goals try omega

theorem Unpack2_group_length (src : Mem) (s : Nat) : (Unpack2.group src s).length = 4 := rfl

theorem Unpack2_group_get (src : Mem) (s e : Nat) (he : e < 4) :
    (Unpack2.group src s).getD e 0 = getBits src s (e * 2) 2 := by
  interval_cases e <;>
    simp only [Unpack2.group, List.range, List.range.loop, List.map, List.getD_cons_zero,
      List.getD_cons_succ, getBits, field, bytesFor, beValue, DecodeUint16_eq,
      Nat.shiftLeft_eq, Nat.shiftRight_eq_div_pow, and_0x01, and_0x03, and_0x07, and_0x0f, and_0x1f,
      and_0x3f, and_0x7f, and_0x01ff, and_0x03ff, and_0x07ff, and_0x0fff, Nat.add_assoc,
      Nat.reducePow, Nat.reduceMul, Nat.reduceAdd, Nat.reduceDiv, Nat.reduceMod, Nat.reduceSub,
      Nat.zero_mul, Nat.zero_add, Nat.add_zero, Nat.mul_zero, Nat.div_one, Nat.mul_one]
  all_goals try omega

theorem Unpack3_group_length (src : Mem) (s : Nat) : (Unpack3.group src s).length = 8 := rfl

theorem Unpack3_group_get (src : Mem) (s e : Nat) (he : e < 8) :
    (Unpack3.group src s).getD e 0 = getBits src s (e * 3) 3 := by
  interval_cases e <;>
    simp only [Unpack3.group, List.range, List.range.loop, List.map, List.getD_cons_zero,
      List.getD_cons_succ, getBits, field, bytesFor, beValue, DecodeUint16_eq,
      Nat.shiftLeft_eq, Nat.shiftRight_eq_div_pow, and_0x01, and_0x03, and_0x07, and_0x0f, and_0x1f,
      and_0x3f, and_0x7f, and_0x01ff, and_0x03ff, and_0x07ff, and_0x0fff, Nat.add_assoc,
      Nat.reducePow, Nat.reduceMul, Nat.reduceAdd, Nat.reduceDiv, Nat.reduceMod, Nat.reduceSub,
      Nat.zero_mul, Nat.zero_add, Nat.add_zero, Nat.mul_zero, Nat.div_one, Nat.mul_one]
  all_goals try omega
  · rw [lor_add 1 _ _ (by omega) (by omega)]; omega
  · rw [lor_add 2 _ _ (by omega) (by omega)]; omega

theorem Unpack4_group_length (src : Mem) (s : Nat) : (Unpack4.group src s).length = 2 := rfl

theorem Unpack4_group_get (src : Mem) (s e : Nat) (he : e < 2) :
    (Unpack4.group src s).getD e 0 = getBits src s (e * 4) 4 := by
  interval_cases e <;>
    simp only [Unpack4.group, List.range, List.range.loop, List.map, List.getD_cons_zero,
      List.getD_cons_succ, getBits, field, bytesFor, beValue, DecodeUint16_eq,
      Nat.shiftLeft_eq, Nat.shiftRight_eq_div_pow, and_0x01, and_0x03, and_0x07, and_0x0f, and_0x1f,
      and_0x3f, and_0x7f, and_0x01ff, and_0x03ff, and_0x07ff, and_0x0fff, Nat.add_assoc,
      Nat.reducePow, Nat.reduceMul, Nat.reduceAdd, Nat.reduceDiv, Nat.reduceMod, Nat.reduceSub,
      Nat.zero_mul, Nat.zero_add, Nat.add_zero, Nat.mul_zero, Nat.div_one, Nat.mul_one]
  all_goals try omega

theorem Unpack5_group_length (src : Mem) (s : Nat) : (Unpack5.group src s).length = 8 := rfl

theorem Unpack5_group_get (src : Mem) (s e : Nat) (he : e < 8) :
    (Unpack5.group src s).getD e 0 = getBits src s (e * 5) 5 := by
  interval_cases e <;>
    simp only [Unpack5.group, List.range, List.range.loop, List.map, List.getD_cons_zero,
      List.getD_cons_succ, getBits, field, bytesFor, beValue, DecodeUint16_eq,
      Nat.shiftLeft_eq, Nat.shiftRight_eq_div_pow, and_0x01, and_0x03, and_0x07, and_0x0f, and_0x1f,
      and_0x3f, and_0x7f, and_0x01ff, and_0x03ff, and_0x07ff, and_0x0fff, Nat.add_assoc,
      Nat.reducePow, Nat.reduceMul, Nat.reduceAdd, Nat.reduceDiv, Nat.reduceMod, Nat.reduceSub,
      Nat.zero_mul, Nat.zero_add, Nat.add_zero, Nat.mul_zero, Nat.div_one, Nat.mul_one]
  all_goals try omega
  · rw [lor_add 2 _ _ (by omega) (by omega)]; omega
  · rw [lor_add 4 _ _ (by omega) (by omega)]; omega
  · rw [lor_add 1 _ _ (by omega) (by omega)]; omega
  · rw [lor_add 3 _ _ (by omega) (by omega)]; omega

theorem Unpack6_group_length (src : Mem) (s : Nat) : (Unpack6.group src s).length = 4 := rfl

theorem Unpack6_group_get (src : Mem) (s e : Nat) (he : e < 4) :
    (Unpack6.group src s).getD e 0 = getBits src s (e * 6) 6 := by
  interval_cases e <;>
    simp only [Unpack6.group, List.range, List.range.loop, List.map, List.getD_cons_zero,
      List.getD_cons_succ, getBits, field, bytesFor, beValue, DecodeUint16_eq,
      Nat.shiftLeft_eq, Nat.shiftRight_eq_div_pow, and_0x01, and_0x03, and_0x07, and_0x0f, and_0x1f,
      and_0x3f, and_0x7f, and_0x01ff, and_0x03ff, and_0x07ff, and_0x0fff, Nat.add_assoc,
      Nat.reducePow, Nat.reduceMul, Nat.reduceAdd, Nat.reduceDiv, Nat.reduceMod, Nat.reduceSub,
      Nat.zero_mul, Nat.zero_add, Nat.add_zero, Nat.mul_zero, Nat.div_one, Nat.mul_one]
  all_goals try omega
  · rw [lor_add 4 _ _ (by omega) (by omega)]; omega
  · rw [lor_add 2 _ _ (by omega) (by omega)]; omega

theorem Unpack7_group_length (src : Mem) (s : Nat) : (Unpack7.group src s).length = 8 := rfl

theorem Unpack7_group_get (src : Mem) (s e : Nat) (he : e < 8) :
    (Unpack7.group src s).getD e 0 = getBits src s (e * 7) 7 := by
  interval_cases e <;>
    simp only [Unpack7.group, List.range, List.range.loop, List.map, List.getD_cons_zero,
      List.getD_cons_succ, getBits, field, bytesFor, beValue, DecodeUint16_eq,
      Nat.shiftLeft_eq, Nat.shiftRight_eq_div_pow, and_0x01, and_0x03, and_0x07, and_0x0f, and_0x1f,
      and_0x3f, and_0x7f, and_0x01ff, and_0x03ff, and_0x07ff, and_0x0fff, Nat.add_assoc,
      Nat.reducePow, Nat.reduceMul, Nat.reduceAdd, Nat.reduceDiv, Nat.reduceMod, Nat.reduceSub,
      Nat.zero_mul, Nat.zero_add, Nat.add_zero, Nat.mul_zero, Nat.div_one, Nat.mul_one]
  all_goals try omega
  · rw [lor_add 6 _ _ (by omega) (by omega)]; omega
  · rw [lor_add 5 _ _ (by omega) (by omega)]; omega
  · rw [lor_add 4 _ _ (by omega) (by omega)]; omega
  · rw [lor_add 3 _ _ (by omega) (by omega)]; omega
  · rw [lor_add 2 _ _ (by omega) (by omega)]; omega
  · rw [lor_add 1 _ _ (by omega) (by omega)]; omega

theorem Unpack9_group_length (src : Mem) (s : Nat) : (Unpack9.group src s).length = 16 := rfl

theorem Unpack9_group_get (src : Mem) (s e : Nat) (he : e < 16) :
    (Unpack9.group src s).getD e 0 = getBits src s (e * 9) 9 := by
  interval_cases e <;>
    simp only [Unpack9.group, List.range, List.range.loop, List.map, List.getD_cons_zero,
      List.getD_cons_succ, getBits, field, bytesFor, beValue, DecodeUint16_eq,
      Nat.shiftLeft_eq, Nat.shiftRight_eq_div_pow, and_0x01, and_0x03, and_0x07, and_0x0f, and_0x1f,
      and_0x3f, and_0x7f, and_0x01ff, and_0x03ff, and_0x07ff, and_0x0fff, Nat.add_assoc,
      Nat.reducePow, Nat.reduceMul, Nat.reduceAdd, Nat.reduceDiv, Nat.reduceMod, Nat.reduceSub,
      Nat.zero_mul, Nat.zero_add, Nat.add_zero, Nat.mul_zero, Nat.div_one, Nat.mul_one]
  · rw [lor_add 2 _ _ (by omega) (by omega)]; omega
  · rw [lor_add 4 _ _ (by omega) (by omega)]; omega
  · rw [lor_add 6 _ _ (by omega) (by omega)]; omega
  · rw [lor_add 8 _ _ (by omega) (by omega)]; omega
  · rw [lor_add 1 _ _ (by omega) (by omega)]; omega
  · rw [lor_add 3 _ _ (by omega) (by omega)]; omega
  · rw [lor_add 5 _ _ (by omega) (by omega)]; omega
  · rw [lor_add 7 _ _ (by omega) (by omega)]; omega

theorem Unpack10_group_length (src : Mem) (s : Nat) : (Unpack10.group src s).length = 8 := rfl

theorem Unpack10_group_get (src : Mem) (s e : Nat) (he : e < 8) :
    (Unpack10.group src s).getD e 0 = getBits src s (e * 10) 10 := by
  interval_cases e <;>
    simp only [Unpack10.group, List.range, List.range.loop, List.map, List.getD_cons_zero,
      List.getD_cons_succ, getBits, field, bytesFor, beValue, DecodeUint16_eq,
      Nat.shiftLeft_eq, Nat.shiftRight_eq_div_pow, and_0x01, and_0x03, and_0x07, and_0x0f, and_0x1f,
      and_0x3f, and_0x7f, and_0x01ff, and_0x03ff, and_0x07ff, and_0x0fff, Nat.add_assoc,
      Nat.reducePow, Nat.reduceMul, Nat.reduceAdd, Nat.reduceDiv, Nat.reduceMod, Nat.reduceSub,
      Nat.zero_mul, Nat.zero_add, Nat.add_zero, Nat.mul_zero, Nat.div_one, Nat.mul_one]
  · rw [lor_add 4 _ _ (by omega) (by omega)]; omega
  · rw [lor_add 8 _ _ (by omega) (by omega)]; omega
  · rw [lor_add 2 _ _ (by omega) (by omega)]; omega
  · rw [lor_add 6 _ _ (by omega) (by omega)]; omega

theorem Unpack11_group_length (src : Mem) (s : Nat) : (Unpack11.group src s).length = 16 := rfl

theorem Unpack11_group_get (src : Mem) (s e : Nat) (he : e < 16) :
    (Unpack11.group src s).getD e 0 = getBits src s (e * 11) 11 := by
  interval_cases e <;>
    simp only [Unpack11.group, List.range, List.range.loop, List.map, List.getD_cons_zero,
      List.getD_cons_succ, getBits, field, bytesFor, beValue, DecodeUint16_eq,
      Nat.shiftLeft_eq, Nat.shiftRight_eq_div_pow, and_0x01, and_0x03, and_0x07, and_0x0f, and_0x1f,
      and_0x3f, and_0x7f, and_0x01ff, and_0x03ff, and_0x07ff, and_0x0fff, Nat.add_assoc,
      Nat.reducePow, Nat.reduceMul, Nat.reduceAdd, Nat.reduceDiv, Nat.reduceMod, Nat.reduceSub,
      Nat.zero_mul, Nat.zero_add, Nat.add_zero, Nat.mul_zero, Nat.div_one, Nat.mul_one]
  · rw [lor_add 6 _ _ (by omega) (by omega)]; omega
  · rw [lor_add 1 _ _ (by omega) (by omega)]; omega
  · rw [lor_add 7 _ _ (by omega) (by omega)]; omega
  · rw [lor_add 2 _ _ (by omega) (by omega)]; omega
  · rw [lor_add 8 _ _ (by omega) (by omega)]; omega
  · rw [lor_add 3 _ _ (by omega) (by omega)]; omega
  · rw [lor_add 9 _ _ (by omega) (by omega)]; omega
  · rw [lor_add 4 _ _ (by omega) (by omega)]; omega
  · rw [lor_add 10 _ _ (by omega) (by omega)]; omega
  · rw [lor_add 5 _ _ (by omega) (by omega)]; omega

theorem Unpack12_group_length (src : Mem) (s : Nat) : (Unpack12.group src s).length = 4 := rfl

theorem Unpack12_group_get (src : Mem) (s e : Nat) (he : e < 4) :
    (Unpack12.group src s).getD e 0 = getBits src s (e * 12) 12 := by
  interval_cases e <;>
    simp only [Unpack12.group, List.range, List.range.loop, List.map, List.getD_cons_zero,
      List.getD_cons_succ, getBits, field, bytesFor, beValue, DecodeUint16_eq,
      Nat.shiftLeft_eq, Nat.shiftRight_eq_div_pow, and_0x01, and_0x03, and_0x07, and_0x0f, and_0x1f,
      and_0x3f, and_0x7f, and_0x01ff, and_0x03ff, and_0x07ff, and_0x0fff, Nat.add_assoc,
      Nat.reducePow, Nat.reduceMul, Nat.reduceAdd, Nat.reduceDiv, Nat.reduceMod, Nat.reduceSub,
      Nat.zero_mul, Nat.zero_add, Nat.add_zero, Nat.mul_zero, Nat.div_one, Nat.mul_one]
  · rw [lor_add 8 _ _ (by omega) (by omega)]; omega
  · rw [lor_add 4 _ _ (by omega) (by omega)]; omega

/-! ## What the unpackers store -/

/-- A loop that stores one value in each round. -/
theorem simple_loop (f : Nat → Nat) (dst : Mem) (dp n : Nat) : ∀ x,
    (forLoop n (fun i m => m.write (dp + i) (f i)) dst) x =
      if dp ≤ x ∧ x < dp + n then f (x - dp) else dst x := by
  induction n with
  | zero =>
    intro x
    rw [forLoop_zero, if_neg (by omega)]
  | succ k ih =>
    intro x
    rw [forLoop_succ]
    by_cases hx : x = dp + k
    · subst hx
      rw [write_same, if_pos (by omega), Nat.add_sub_cancel_left]
    · rw [write_other _ _ _ _ hx, ih]
      by_cases h : dp ≤ x ∧ x < dp + k
      · rw [if_pos h, if_pos (by omega)]
      · rw [if_neg h, if_neg (by omega)]

theorem getBits_zero_width (m : Mem) (a pos : Nat) : getBits m a pos 0 = 0 := by
  unfold getBits field
  simp [Nat.mod_one]

theorem getBits_byte (m : Mem) (a i : Nat) : getBits m a (i * 8) 8 = m (a + i) &&& 0xff := by
  rw [Nat.mul_comm, ← Nat.add_zero (8 * i), getBits_shift]
  simp only [getBits, field, bytesFor, beValue, and_0xff, Nat.reducePow, Nat.reduceMul,
    Nat.reduceAdd, Nat.reduceDiv, Nat.reduceMod, Nat.reduceSub, Nat.zero_mul, Nat.zero_add,
    Nat.add_zero, Nat.div_one]
  omega

theorem getBits_u16 (m : Mem) (a i : Nat) :
    getBits m a (i * 16) 16 = DecodeUint16 m (a + 2 * i) := by
  have : i * 16 = 8 * (2 * i) + 0 := by omega
  rw [this, getBits_shift, DecodeUint16_eq]
  simp only [getBits, field, bytesFor, beValue, Nat.reducePow, Nat.reduceMul,
    Nat.reduceAdd, Nat.reduceDiv, Nat.reduceMod, Nat.reduceSub, Nat.zero_mul, Nat.zero_add,
    Nat.add_zero, Nat.div_one]
  omega

theorem getBits_u32 (m : Mem) (a i : Nat) :
    getBits m a (i * 32) 32 = DecodeUint32 m (a + 4 * i) := by
  have : i * 32 = 8 * (4 * i) + 0 := by omega
  rw [this, getBits_shift, DecodeUint32_eq]
  simp only [getBits, field, bytesFor, beValue, Nat.reducePow, Nat.reduceMul,
    Nat.reduceAdd, Nat.reduceDiv, Nat.reduceMod, Nat.reduceSub, Nat.zero_mul, Nat.zero_add,
    Nat.add_zero, Nat.div_one]
  omega

theorem getBits_u64 (m : Mem) (a i : Nat) :
    getBits m a (i * 64) 64 = DecodeUint64 m (a + 8 * i) := by
  have : i * 64 = 8 * (8 * i) + 0 := by omega
  rw [this, getBits_shift, DecodeUint64_eq]
  simp only [getBits, field, bytesFor, beValue, Nat.reducePow, Nat.reduceMul,
    Nat.reduceAdd, Nat.reduceDiv, Nat.reduceMod, Nat.reduceSub, Nat.zero_mul, Nat.zero_add,
    Nat.add_zero, Nat.div_one]
  omega

theorem Unpack1_eq (src : Mem) (sp slimit : Nat) (dst : Mem) (dp dlimit n : Nat) :
    Unpack1 src sp slimit dst dp dlimit n =
      if sp + VP64_DIV_ROUNDUP n 8 > slimit ∨ dp + 8 * VP64_DIV_ROUNDUP n 8 > dlimit
      then (-1, dst)
      else (((VP64_DIV_ROUNDUP n 8 : Nat) : Int),
        groupLoop 8 1 Unpack1.group src sp dst dp (VP64_DIV_ROUNDUP n 8)) := by
  unfold Unpack1 groupLoop
  simp only [Nat.one_mul]
  rfl

/-- With room for its rounds, `Unpack1` returns `⌈1n/8⌉` and stores, at every
element index of its rounds, the 1 bits of the source the element stands for. -/
theorem Unpack1_ok (src : Mem) (sp slimit : Nat) (dst : Mem) (dp dlimit n : Nat)
    (hs : sp + VP64_DIV_ROUNDUP n 8 ≤ slimit) (hd : dp + 8 * VP64_DIV_ROUNDUP n 8 ≤ dlimit) :
    (Unpack1 src sp slimit dst dp dlimit n).1 = (bytesFor (n * 1) : Nat) ∧
    ∀ x, (Unpack1 src sp slimit dst dp dlimit n).2 x =
      if dp ≤ x ∧ x < dp + 8 * VP64_DIV_ROUNDUP n 8 then getBits src sp ((x - dp) * 1) 1
      else dst x := by
  rw [Unpack1_eq, if_neg (by omega)]
  refine ⟨?_, fun x => ?_⟩
  · show ((_ : Nat) : Int) = _
    congr 1
    unfold VP64_DIV_ROUNDUP bytesFor
    omega
  · exact groupLoop_get 8 1 1 (by decide) (by decide) Unpack1.group src
      (fun s => Unpack1_group_length src s) (fun s e he => Unpack1_group_get src s e he)
      sp dst dp _ x

theorem Unpack2_eq (src : Mem) (sp slimit : Nat) (dst : Mem) (dp dlimit n : Nat) :
    Unpack2 src sp slimit dst dp dlimit n =
      if sp + VP64_DIV_ROUNDUP n 4 > slimit ∨ dp + 4 * VP64_DIV_ROUNDUP n 4 > dlimit
      then (-1, dst)
      else (((VP64_DIV_ROUNDUP n 4 : Nat) : Int),
        groupLoop 4 1 Unpack2.group src sp dst dp (VP64_DIV_ROUNDUP n 4)) := by
  unfold Unpack2 groupLoop
  simp only [Nat.one_mul]
  rfl

/-- With room for its rounds, `Unpack2` returns `⌈2n/8⌉` and stores, at every
element index of its rounds, the 2 bits of the source the element stands for. -/
theorem Unpack2_ok (src : Mem) (sp slimit : Nat) (dst : Mem) (dp dlimit n : Nat)
    (hs : sp + VP64_DIV_ROUNDUP n 4 ≤ slimit) (hd : dp + 4 * VP64_DIV_ROUNDUP n 4 ≤ dlimit) :
    (Unpack2 src sp slimit dst dp dlimit n).1 = (bytesFor (n * 2) : Nat) ∧
    ∀ x, (Unpack2 src sp slimit dst dp dlimit n).2 x =
      if dp ≤ x ∧ x < dp + 4 * VP64_DIV_ROUNDUP n 4 then getBits src sp ((x - dp) * 2) 2
      else dst x := by
  rw [Unpack2_eq, if_neg (by omega)]
  refine ⟨?_, fun x => ?_⟩
  · show ((_ : Nat) : Int) = _
    congr 1
    unfold VP64_DIV_ROUNDUP bytesFor
    omega
  · exact groupLoop_get 4 1 2 (by decide) (by decide) Unpack2.group src
      (fun s => Unpack2_group_length src s) (fun s e he => Unpack2_group_get src s e he)
      sp dst dp _ x

theorem Unpack3_eq (src : Mem) (sp slimit : Nat) (dst : Mem) (dp dlimit n : Nat) :
    Unpack3 src sp slimit dst dp dlimit n =
      if sp + 3 * VP64_DIV_ROUNDUP n 8 > slimit ∨ dp + 8 * VP64_DIV_ROUNDUP n 8 > dlimit
      then (-1, dst)
      else (((VP64_DIV_ROUNDUP (3 * n) 8 : Nat) : Int),
        groupLoop 8 3 Unpack3.group src sp dst dp (VP64_DIV_ROUNDUP n 8)) := rfl

/-- With room for its rounds, `Unpack3` returns `⌈3n/8⌉` and stores, at every
element index of its rounds, the 3 bits of the source the element stands for. -/
theorem Unpack3_ok (src : Mem) (sp slimit : Nat) (dst : Mem) (dp dlimit n : Nat)
    (hs : sp + 3 * VP64_DIV_ROUNDUP n 8 ≤ slimit) (hd : dp + 8 * VP64_DIV_ROUNDUP n 8 ≤ dlimit) :
    (Unpack3 src sp slimit dst dp dlimit n).1 = (bytesFor (n * 3) : Nat) ∧
    ∀ x, (Unpack3 src sp slimit dst dp dlimit n).2 x =
      if dp ≤ x ∧ x < dp + 8 * VP64_DIV_ROUNDUP n 8 then getBits src sp ((x - dp) * 3) 3
      else dst x := by
  rw [Unpack3_eq, if_neg (by omega)]
  refine ⟨?_, fun x => ?_⟩
  · show ((_ : Nat) : Int) = _
    congr 1
    unfold VP64_DIV_ROUNDUP bytesFor
    omega
  · exact groupLoop_get 8 3 3 (by decide) (by decide) Unpack3.group src
      (fun s => Unpack3_group_length src s) (fun s e he => Unpack3_group_get src s e he)
      sp dst dp _ x

theorem Unpack4_eq (src : Mem) (sp slimit : Nat) (dst : Mem) (dp dlimit n : Nat) :
    Unpack4 src sp slimit dst dp dlimit n =
      if sp + VP64_DIV_ROUNDUP n 2 > slimit ∨ dp + 2 * VP64_DIV_ROUNDUP n 2 > dlimit
      then (-1, dst)
      else (((VP64_DIV_ROUNDUP n 2 : Nat) : Int),
        groupLoop 2 1 Unpack4.group src sp dst dp (VP64_DIV_ROUNDUP n 2)) := by
  unfold Unpack4 groupLoop
  simp only [Nat.one_mul]
  rfl

/-- With room for its rounds, `Unpack4` returns `⌈4n/8⌉` and stores, at every
element index of its rounds, the 4 bits of the source the element stands for. -/
theorem Unpack4_ok (src : Mem) (sp slimit : Nat) (dst : Mem) (dp dlimit n : Nat)
    (hs : sp + VP64_DIV_ROUNDUP n 2 ≤ slimit) (hd : dp + 2 * VP64_DIV_ROUNDUP n 2 ≤ dlimit) :
    (Unpack4 src sp slimit dst dp dlimit n).1 = (bytesFor (n * 4) : Nat) ∧
    ∀ x, (Unpack4 src sp slimit dst dp dlimit n).2 x =
      if dp ≤ x ∧ x < dp + 2 * VP64_DIV_ROUNDUP n 2 then getBits src sp ((x - dp) * 4) 4
      else dst x := by
  rw [Unpack4_eq, if_neg (by omega)]
  refine ⟨?_, fun x => ?_⟩
  · show ((_ : Nat) : Int) = _
    congr 1
    unfold VP64_DIV_ROUNDUP bytesFor
    omega
  · exact groupLoop_get 2 1 4 (by decide) (by decide) Unpack4.group src
      (fun s => Unpack4_group_length src s) (fun s e he => Unpack4_group_get src s e he)
      sp dst dp _ x

theorem Unpack5_eq (src : Mem) (sp slimit : Nat) (dst : Mem) (dp dlimit n : Nat) :
    Unpack5 src sp slimit dst dp dlimit n =
      if sp + 5 * VP64_DIV_ROUNDUP n 8 > slimit ∨ dp + 8 * VP64_DIV_ROUNDUP n 8 > dlimit
      then (-1, dst)
      else (((VP64_DIV_ROUNDUP (5 * n) 8 : Nat) : Int),
        groupLoop 8 5 Unpack5.group src sp dst dp (VP64_DIV_ROUNDUP n 8)) := rfl

/-- With room for its rounds, `Unpack5` returns `⌈5n/8⌉` and stores, at every
element index of its rounds, the 5 bits of the source the element stands for. -/
theorem Unpack5_ok (src : Mem) (sp slimit : Nat) (dst : Mem) (dp dlimit n : Nat)
    (hs : sp + 5 * VP64_DIV_ROUNDUP n 8 ≤ slimit) (hd : dp + 8 * VP64_DIV_ROUNDUP n 8 ≤ dlimit) :
    (Unpack5 src sp slimit dst dp dlimit n).1 = (bytesFor (n * 5) : Nat) ∧
    ∀ x, (Unpack5 src sp slimit dst dp dlimit n).2 x =
      if dp ≤ x ∧ x < dp + 8 * VP64_DIV_ROUNDUP n 8 then getBits src sp ((x - dp) * 5) 5
      else dst x := by
  rw [Unpack5_eq, if_neg (by omega)]
  refine ⟨?_, fun x => ?_⟩
  · show ((_ : Nat) : Int) = _
    congr 1
    unfold VP64_DIV_ROUNDUP bytesFor
    omega
  · exact groupLoop_get 8 5 5 (by decide) (by decide) Unpack5.group src
      (fun s => Unpack5_group_length src s) (fun s e he => Unpack5_group_get src s e he)
      sp dst dp _ x

theorem Unpack6_eq (src : Mem) (sp slimit : Nat) (dst : Mem) (dp dlimit n : Nat) :
    Unpack6 src sp slimit dst dp dlimit n =
      if sp + 3 * VP64_DIV_ROUNDUP n 4 > slimit ∨ dp + 4 * VP64_DIV_ROUNDUP n 4 > dlimit
      then (-1, dst)
      else (((VP64_DIV_ROUNDUP (3 * n) 4 : Nat) : Int),
        groupLoop 4 3 Unpack6.group src sp dst dp (VP64_DIV_ROUNDUP n 4)) := rfl

/-- With room for its rounds, `Unpack6` returns `⌈6n/8⌉` and stores, at every
element index of its rounds, the 6 bits of the source the element stands for. -/
theorem Unpack6_ok (src : Mem) (sp slimit : Nat) (dst : Mem) (dp dlimit n : Nat)
    (hs : sp + 3 * VP64_DIV_ROUNDUP n 4 ≤ slimit) (hd : dp + 4 * VP64_DIV_ROUNDUP n 4 ≤ dlimit) :
    (Unpack6 src sp slimit dst dp dlimit n).1 = (bytesFor (n * 6) : Nat) ∧
    ∀ x, (Unpack6 src sp slimit dst dp dlimit n).2 x =
      if dp ≤ x ∧ x < dp + 4 * VP64_DIV_ROUNDUP n 4 then getBits src sp ((x - dp) * 6) 6
      else dst x := by
  rw [Unpack6_eq, if_neg (by omega)]
  refine ⟨?_, fun x => ?_⟩
  · show ((_ : Nat) : Int) = _
    congr 1
    unfold VP64_DIV_ROUNDUP bytesFor
    omega
  · exact groupLoop_get 4 3 6 (by decide) (by decide) Unpack6.group src
      (fun s => Unpack6_group_length src s) (fun s e he => Unpack6_group_get src s e he)
      sp dst dp _ x

theorem Unpack7_eq (src : Mem) (sp slimit : Nat) (dst : Mem) (dp dlimit n : Nat) :
    Unpack7 src sp slimit dst dp dlimit n =
      if sp + 7 * VP64_DIV_ROUNDUP n 8 > slimit ∨ dp + 8 * VP64_DIV_ROUNDUP n 8 > dlimit
      then (-1, dst)
      else (((VP64_DIV_ROUNDUP (7 * n) 8 : Nat) : Int),
        groupLoop 8 7 Unpack7.group src sp dst dp (VP64_DIV_ROUNDUP n 8)) := rfl

/-- With room for its rounds, `Unpack7` returns `⌈7n/8⌉` and stores, at every
element index of its rounds, the 7 bits of the source the element stands for. -/
theorem Unpack7_ok (src : Mem) (sp slimit : Nat) (dst : Mem) (dp dlimit n : Nat)
    (hs : sp + 7 * VP64_DIV_ROUNDUP n 8 ≤ slimit) (hd : dp + 8 * VP64_DIV_ROUNDUP n 8 ≤ dlimit) :
    (Unpack7 src sp slimit dst dp dlimit n).1 = (bytesFor (n * 7) : Nat) ∧
    ∀ x, (Unpack7 src sp slimit dst dp dlimit n).2 x =
      if dp ≤ x ∧ x < dp + 8 * VP64_DIV_ROUNDUP n 8 then getBits src sp ((x - dp) * 7) 7
      else dst x := by
  rw [Unpack7_eq, if_neg (by omega)]
  refine ⟨?_, fun x => ?_⟩
  · show ((_ : Nat) : Int) = _
    congr 1
    unfold VP64_DIV_ROUNDUP bytesFor
    omega
  · exact groupLoop_get 8 7 7 (by decide) (by decide) Unpack7.group src
      (fun s => Unpack7_group_length src s) (fun s e he => Unpack7_group_get src s e he)
      sp dst dp _ x

theorem Unpack9_eq (src : Mem) (sp slimit : Nat) (dst : Mem) (dp dlimit n : Nat) :
    Unpack9 src sp slimit dst dp dlimit n =
      if sp + 18 * VP64_DIV_ROUNDUP n 16 > slimit ∨ dp + 16 * VP64_DIV_ROUNDUP n 16 > dlimit
      then (-1, dst)
      else (((VP64_DIV_ROUNDUP (9 * n) 8 : Nat) : Int),
        groupLoop 16 18 Unpack9.group src sp dst dp (VP64_DIV_ROUNDUP n 16)) := rfl

/-- With room for its rounds, `Unpack9` returns `⌈9n/8⌉` and stores, at every
element index of its rounds, the 9 bits of the source the element stands for. -/
theorem Unpack9_ok (src : Mem) (sp slimit : Nat) (dst : Mem) (dp dlimit n : Nat)
    (hs : sp + 18 * VP64_DIV_ROUNDUP n 16 ≤ slimit) (hd : dp + 16 * VP64_DIV_ROUNDUP n 16 ≤ dlimit) :
    (Unpack9 src sp slimit dst dp dlimit n).1 = (bytesFor (n * 9) : Nat) ∧
    ∀ x, (Unpack9 src sp slimit dst dp dlimit n).2 x =
      if dp ≤ x ∧ x < dp + 16 * VP64_DIV_ROUNDUP n 16 then getBits src sp ((x - dp) * 9) 9
      else dst x := by
  rw [Unpack9_eq, if_neg (by omega)]
  refine ⟨?_, fun x => ?_⟩
  · show ((_ : Nat) : Int) = _
    congr 1
    unfold VP64_DIV_ROUNDUP bytesFor
    omega
  · exact groupLoop_get 16 18 9 (by decide) (by decide) Unpack9.group src
      (fun s => Unpack9_group_length src s) (fun s e he => Unpack9_group_get src s e he)
      sp dst dp _ x

theorem Unpack10_eq (src : Mem) (sp slimit : Nat) (dst : Mem) (dp dlimit n : Nat) :
    Unpack10 src sp slimit dst dp dlimit n =
      if sp + 10 * VP64_DIV_ROUNDUP n 8 > slimit ∨ dp + 8 * VP64_DIV_ROUNDUP n 8 > dlimit
      then (-1, dst)
      else (((VP64_DIV_ROUNDUP (5 * n) 4 : Nat) : Int),
        groupLoop 8 10 Unpack10.group src sp dst dp (VP64_DIV_ROUNDUP n 8)) := rfl

/-- With room for its rounds, `Unpack10` returns `⌈10n/8⌉` and stores, at every
element index of its rounds, the 10 bits of the source the element stands for. -/
theorem Unpack10_ok (src : Mem) (sp slimit : Nat) (dst : Mem) (dp dlimit n : Nat)
    (hs : sp + 10 * VP64_DIV_ROUNDUP n 8 ≤ slimit) (hd : dp + 8 * VP64_DIV_ROUNDUP n 8 ≤ dlimit) :
    (Unpack10 src sp slimit dst dp dlimit n).1 = (bytesFor (n * 10) : Nat) ∧
    ∀ x, (Unpack10 src sp slimit dst dp dlimit n).2 x =
      if dp ≤ x ∧ x < dp + 8 * VP64_DIV_ROUNDUP n 8 then getBits src sp ((x - dp) * 10) 10
      else dst x := by
  rw [Unpack10_eq, if_neg (by omega)]
  refine ⟨?_, fun x => ?_⟩
  · show ((_ : Nat) : Int) = _
    congr 1
    unfold VP64_DIV_ROUNDUP bytesFor
    omega
  · exact groupLoop_get 8 10 10 (by decide) (by decide) Unpack10.group src
      (fun s => Unpack10_group_length src s) (fun s e he => Unpack10_group_get src s e he)
      sp dst dp _ x

theorem Unpack11_eq (src : Mem) (sp slimit : Nat) (dst : Mem) (dp dlimit n : Nat) :
    Unpack11 src sp slimit dst dp dlimit n =
      if sp + 22 * VP64_DIV_ROUNDUP n 16 > slimit ∨ dp + 16 * VP64_DIV_ROUNDUP n 16 > dlimit
      then (-1, dst)
      else (((VP64_DIV_ROUNDUP (11 * n) 8 : Nat) : Int),
        groupLoop 16 22 Unpack11.group src sp dst dp (VP64_DIV_ROUNDUP n 16)) := rfl

/-- With room for its rounds, `Unpack11` returns `⌈11n/8⌉` and stores, at every
element index of its rounds, the 11 bits of the source the element stands for. -/
theorem Unpack11_ok (src : Mem) (sp slimit : Nat) (dst : Mem) (dp dlimit n : Nat)
    (hs : sp + 22 * VP64_DIV_ROUNDUP n 16 ≤ slimit) (hd : dp + 16 * VP64_DIV_ROUNDUP n 16 ≤ dlimit) :
    (Unpack11 src sp slimit dst dp dlimit n).1 = (bytesFor (n * 11) : Nat) ∧
    ∀ x, (Unpack11 src sp slimit dst dp dlimit n).2 x =
      if dp ≤ x ∧ x < dp + 16 * VP64_DIV_ROUNDUP n 16 then getBits src sp ((x - dp) * 11) 11
      else dst x := by
  rw [Unpack11_eq, if_neg (by omega)]
  refine ⟨?_, fun x => ?_⟩
  · show ((_ : Nat) : Int) = _
    congr 1
    unfold VP64_DIV_ROUNDUP bytesFor
    omega
  · exact groupLoop_get 16 22 11 (by decide) (by decide) Unpack11.group src
      (fun s => Unpack11_group_length src s) (fun s e he => Unpack11_group_get src s e he)
      sp dst dp _ x

theorem Unpack12_eq (src : Mem) (sp slimit : Nat) (dst : Mem) (dp dlimit n : Nat) :
    Unpack12 src sp slimit dst dp dlimit n =
      if sp + 6 * VP64_DIV_ROUNDUP n 4 > slimit ∨ dp + 4 * VP64_DIV_ROUNDUP n 4 > dlimit
      then (-1, dst)
      else (((VP64_DIV_ROUNDUP (3 * n) 2 : Nat) : Int),
        groupLoop 4 6 Unpack12.group src sp dst dp (VP64_DIV_ROUNDUP n 4)) := rfl

/-- With room for its rounds, `Unpack12` returns `⌈12n/8⌉` and stores, at every
element index of its rounds, the 12 bits of the source the element stands for. -/
theorem Unpack12_ok (src : Mem) (sp slimit : Nat) (dst : Mem) (dp dlimit n : Nat)
    (hs : sp + 6 * VP64_DIV_ROUNDUP n 4 ≤ slimit) (hd : dp + 4 * VP64_DIV_ROUNDUP n 4 ≤ dlimit) :
    (Unpack12 src sp slimit dst dp dlimit n).1 = (bytesFor (n * 12) : Nat) ∧
    ∀ x, (Unpack12 src sp slimit dst dp dlimit n).2 x =
      if dp ≤ x ∧ x < dp + 4 * VP64_DIV_ROUNDUP n 4 then getBits src sp ((x - dp) * 12) 12
      else dst x := by
  rw [Unpack12_eq, if_neg (by omega)]
  refine ⟨?_, fun x => ?_⟩
  · show ((_ : Nat) : Int) = _
    congr 1
    unfold VP64_DIV_ROUNDUP bytesFor
    omega
  · exact groupLoop_get 4 6 12 (by decide) (by decide) Unpack12.group src
      (fun s => Unpack12_group_length src s) (fun s e he => Unpack12_group_get src s e he)
      sp dst dp _ x

/-- With room for `n` elements, `Unpack0` returns 0 and stores `n` zeros. -/
theorem Unpack0_ok (src : Mem) (sp slimit : Nat) (dst : Mem) (dp dlimit n : Nat)
    (hd : dp + n ≤ dlimit) :
    (Unpack0 src sp slimit dst dp dlimit n).1 = (bytesFor (n * 0) : Nat) ∧
    ∀ x, (Unpack0 src sp slimit dst dp dlimit n).2 x =
      if dp ≤ x ∧ x < dp + n then getBits src sp ((x - dp) * 0) 0 else dst x := by
  unfold Unpack0
  rw [if_neg (by omega)]
  refine ⟨by simp [bytesFor], fun x => ?_⟩
  show (forLoop n (fun i m => m.write (dp + i) 0x00) dst) x = _
  rw [simple_loop (fun _ => 0x00) dst dp n x]
  simp only [getBits_zero_width]

/-- With room for `n` elements, `Unpack8` returns `n` and stores the `n` bytes. -/
theorem Unpack8_ok (src : Mem) (sp slimit : Nat) (dst : Mem) (dp dlimit n : Nat)
    (hs : sp + n ≤ slimit) (hd : dp + n ≤ dlimit) :
    (Unpack8 src sp slimit dst dp dlimit n).1 = (bytesFor (n * 8) : Nat) ∧
    ∀ x, (Unpack8 src sp slimit dst dp dlimit n).2 x =
      if dp ≤ x ∧ x < dp + n then getBits src sp ((x - dp) * 8) 8 else dst x := by
  unfold Unpack8
  rw [if_neg (by omega)]
  refine ⟨?_, fun x => ?_⟩
  · show ((n : Nat) : Int) = _
    congr 1
    unfold bytesFor
    omega
  · show (forLoop n (fun i m => m.write (dp + i) (src (sp + i) &&& 0xff)) dst) x = _
    rw [simple_loop (fun i => src (sp + i) &&& 0xff) dst dp n x]
    simp only [getBits_byte]

/-- With room for `n` elements, `Unpack16` returns `2n` and stores the `n`
big-endian values. -/
theorem Unpack16_ok (src : Mem) (sp slimit : Nat) (dst : Mem) (dp dlimit n : Nat)
    (hs : sp + 2 * n ≤ slimit) (hd : dp + n ≤ dlimit) :
    (Unpack16 src sp slimit dst dp dlimit n).1 = (bytesFor (n * 16) : Nat) ∧
    ∀ x, (Unpack16 src sp slimit dst dp dlimit n).2 x =
      if dp ≤ x ∧ x < dp + n then getBits src sp ((x - dp) * 16) 16 else dst x := by
  unfold Unpack16
  rw [if_neg (by omega)]
  refine ⟨?_, fun x => ?_⟩
  · show ((2 * n : Nat) : Int) = _
    congr 1
    unfold bytesFor
    omega
  · show (forLoop n (fun i m => m.write (dp + i) (DecodeUint16 src (sp + 2 * i))) dst) x = _
    rw [simple_loop (fun i => DecodeUint16 src (sp + 2 * i)) dst dp n x]
    simp only [getBits_u16]

/-- With room for `n` elements, `Unpack32` returns `4n` and stores the `n`
big-endian values. -/
theorem Unpack32_ok (src : Mem) (sp slimit : Nat) (dst : Mem) (dp dlimit n : Nat)
    (hs : sp + 4 * n ≤ slimit) (hd : dp + n ≤ dlimit) :
    (Unpack32 src sp slimit dst dp dlimit n).1 = (bytesFor (n * 32) : Nat) ∧
    ∀ x, (Unpack32 src sp slimit dst dp dlimit n).2 x =
      if dp ≤ x ∧ x < dp + n then getBits src sp ((x - dp) * 32) 32 else dst x := by
  unfold Unpack32
  rw [if_neg (by omega)]
  refine ⟨?_, fun x => ?_⟩
  · show ((4 * n : Nat) : Int) = _
    congr 1
    unfold bytesFor
    omega
  · show (forLoop n (fun i m => m.write (dp + i) (DecodeUint32 src (sp + 4 * i))) dst) x = _
    rw [simple_loop (fun i => DecodeUint32 src (sp + 4 * i)) dst dp n x]
    simp only [getBits_u32]

/-- With room for `n` elements, `Unpack64` returns `8n` and stores the `n`
big-endian values. -/
theorem Unpack64_ok (src : Mem) (sp slimit : Nat) (dst : Mem) (dp dlimit n : Nat)
    (hs : sp + 8 * n ≤ slimit) (hd : dp + n ≤ dlimit) :
    (Unpack64 src sp slimit dst dp dlimit n).1 = (bytesFor (n * 64) : Nat) ∧
    ∀ x, (Unpack64 src sp slimit dst dp dlimit n).2 x =
      if dp ≤ x ∧ x < dp + n then getBits src sp ((x - dp) * 64) 64 else dst x := by
  unfold Unpack64
  rw [if_neg (by omega)]
  refine ⟨?_, fun x => ?_⟩
  · show ((8 * n : Nat) : Int) = _
    congr 1
    unfold bytesFor
    omega
  · show (forLoop n (fun i m => m.write (dp + i) (DecodeUint64 src (sp + 8 * i))) dst) x = _
    rw [simple_loop (fun i => DecodeUint64 src (sp + 8 * i)) dst dp n x]
    simp only [getBits_u64]

/-! ## The unpacker of a width -/

theorem div_roundup_one (n : Nat) : VP64_DIV_ROUNDUP n 1 = n := by
  unfold VP64_DIV_ROUNDUP
  simp

/-- With room for its rounds, the unpacker that stands in the table for a width
`w` of `bits_length[]` returns `⌈n·w/8⌉`, stores in each of the first `n`
elements the `w` bits of the source the element stands for, and changes nothing
outside the elements of its rounds. -/
theorem unpackerFor_ok (w : Nat) (hw : w ∈ bits_length) (src : Mem) (sp slimit : Nat) (dst : Mem)
    (dp dlimit n : Nat)
    (hs : sp + (unpackGroup w).1 * VP64_DIV_ROUNDUP n (unpackGroup w).2 ≤ slimit)
    (hd : dp + (unpackGroup w).2 * VP64_DIV_ROUNDUP n (unpackGroup w).2 ≤ dlimit) :
    (unpackerFor w src sp slimit dst dp dlimit n).1 = (bytesFor (n * w) : Nat) ∧
    (∀ i, i < n → (unpackerFor w src sp slimit dst dp dlimit n).2 (dp + i)
      = getBits src sp (i * w) w) ∧
    (∀ x, x < dp ∨ dp + (unpackGroup w).2 * VP64_DIV_ROUNDUP n (unpackGroup w).2 ≤ x →
      (unpackerFor w src sp slimit dst dp dlimit n).2 x = dst x) := by
  simp only [bits_length, List.mem_cons, List.mem_singleton, List.mem_nil_iff, or_false] at hw
  rcases hw with rfl | rfl | rfl | rfl | rfl | rfl | rfl | rfl | rfl | rfl | rfl | rfl | rfl | rfl | rfl | rfl
  · have hs' : sp + 0 * n ≤ slimit := by
      have := hs
      simp only [unpackGroup, div_roundup_one] at this
      exact this
    have hd' : dp + 1 * n ≤ dlimit := by
      have := hd
      simp only [unpackGroup, div_roundup_one] at this
      exact this
    obtain ⟨h1, h2⟩ := Unpack0_ok src sp slimit dst dp dlimit n (by omega)
    refine ⟨h1, fun i hi => ?_, fun x hx => ?_⟩
    · have := h2 (dp + i)
      rw [if_pos (by omega), Nat.add_sub_cancel_left] at this
      exact this
    · have hx' : x < dp ∨ dp + 1 * n ≤ x := by
        have := hx
        simp only [unpackGroup, div_roundup_one] at this
        exact this
      have := h2 x
      rw [if_neg (by omega)] at this
      exact this
  · obtain ⟨h1, h2⟩ := Unpack1_ok src sp slimit dst dp dlimit n (by simpa [unpackGroup] using hs) hd
    refine ⟨h1, fun i hi => ?_, fun x hx => ?_⟩
    · have hle : n ≤ 8 * VP64_DIV_ROUNDUP n 8 := by unfold VP64_DIV_ROUNDUP; omega
      have := h2 (dp + i)
      rw [if_pos (by omega), Nat.add_sub_cancel_left] at this
      exact this
    · have hx' : x < dp ∨ dp + 8 * VP64_DIV_ROUNDUP n 8 ≤ x := hx
      have := h2 x
      rw [if_neg (by omega)] at this
      exact this
  · obtain ⟨h1, h2⟩ := Unpack2_ok src sp slimit dst dp dlimit n (by simpa [unpackGroup] using hs) hd
    refine ⟨h1, fun i hi => ?_, fun x hx => ?_⟩
    · have hle : n ≤ 4 * VP64_DIV_ROUNDUP n 4 := by unfold VP64_DIV_ROUNDUP; omega
      have := h2 (dp + i)
      rw [if_pos (by omega), Nat.add_sub_cancel_left] at this
      exact this
    · have hx' : x < dp ∨ dp + 4 * VP64_DIV_ROUNDUP n 4 ≤ x := hx
      have := h2 x
      rw [if_neg (by omega)] at this
      exact this
  · obtain ⟨h1, h2⟩ := Unpack3_ok src sp slimit dst dp dlimit n (by simpa [unpackGroup] using hs) hd
    refine ⟨h1, fun i hi => ?_, fun x hx => ?_⟩
    · have hle : n ≤ 8 * VP64_DIV_ROUNDUP n 8 := by unfold VP64_DIV_ROUNDUP; omega
      have := h2 (dp + i)
      rw [if_pos (by omega), Nat.add_sub_cancel_left] at this
      exact this
    · have hx' : x < dp ∨ dp + 8 * VP64_DIV_ROUNDUP n 8 ≤ x := hx
      have := h2 x
      rw [if_neg (by omega)] at this
      exact this
  · obtain ⟨h1, h2⟩ := Unpack4_ok src sp slimit dst dp dlimit n (by simpa [unpackGroup] using hs) hd
    refine ⟨h1, fun i hi => ?_, fun x hx => ?_⟩
    · have hle : n ≤ 2 * VP64_DIV_ROUNDUP n 2 := by unfold VP64_DIV_ROUNDUP; omega
      have := h2 (dp + i)
      rw [if_pos (by omega), Nat.add_sub_cancel_left] at this
      exact this
    · have hx' : x < dp ∨ dp + 2 * VP64_DIV_ROUNDUP n 2 ≤ x := hx
      have := h2 x
      rw [if_neg (by omega)] at this
      exact this
  · obtain ⟨h1, h2⟩ := Unpack5_ok src sp slimit dst dp dlimit n (by simpa [unpackGroup] using hs) hd
    refine ⟨h1, fun i hi => ?_, fun x hx => ?_⟩
    · have hle : n ≤ 8 * VP64_DIV_ROUNDUP n 8 := by unfold VP64_DIV_ROUNDUP; omega
      have := h2 (dp + i)
      rw [if_pos (by omega), Nat.add_sub_cancel_left] at this
      exact this
    · have hx' : x < dp ∨ dp + 8 * VP64_DIV_ROUNDUP n 8 ≤ x := hx
      have := h2 x
      rw [if_neg (by omega)] at this
      exact this
  · obtain ⟨h1, h2⟩ := Unpack6_ok src sp slimit dst dp dlimit n (by simpa [unpackGroup] using hs) hd
    refine ⟨h1, fun i hi => ?_, fun x hx => ?_⟩
    · have hle : n ≤ 4 * VP64_DIV_ROUNDUP n 4 := by unfold VP64_DIV_ROUNDUP; omega
      have := h2 (dp + i)
      rw [if_pos (by omega), Nat.add_sub_cancel_left] at this
      exact this
    · have hx' : x < dp ∨ dp + 4 * VP64_DIV_ROUNDUP n 4 ≤ x := hx
      have := h2 x
      rw [if_neg (by omega)] at this
      exact this
  · obtain ⟨h1, h2⟩ := Unpack7_ok src sp slimit dst dp dlimit n (by simpa [unpackGroup] using hs) hd
    refine ⟨h1, fun i hi => ?_, fun x hx => ?_⟩
    · have hle : n ≤ 8 * VP64_DIV_ROUNDUP n 8 := by unfold VP64_DIV_ROUNDUP; omega
      have := h2 (dp + i)
      rw [if_pos (by omega), Nat.add_sub_cancel_left] at this
      exact this
    · have hx' : x < dp ∨ dp + 8 * VP64_DIV_ROUNDUP n 8 ≤ x := hx
      have := h2 x
      rw [if_neg (by omega)] at this
      exact this
  · have hs' : sp + 1 * n ≤ slimit := by
      have := hs
      simp only [unpackGroup, div_roundup_one] at this
      exact this
    have hd' : dp + 1 * n ≤ dlimit := by
      have := hd
      simp only [unpackGroup, div_roundup_one] at this
      exact this
    obtain ⟨h1, h2⟩ := Unpack8_ok src sp slimit dst dp dlimit n (by omega) (by omega)
    refine ⟨h1, fun i hi => ?_, fun x hx => ?_⟩
    · have := h2 (dp + i)
      rw [if_pos (by omega), Nat.add_sub_cancel_left] at this
      exact this
    · have hx' : x < dp ∨ dp + 1 * n ≤ x := by
        have := hx
        simp only [unpackGroup, div_roundup_one] at this
        exact this
      have := h2 x
      rw [if_neg (by omega)] at this
      exact this
  · obtain ⟨h1, h2⟩ := Unpack9_ok src sp slimit dst dp dlimit n (by simpa [unpackGroup] using hs) hd
    refine ⟨h1, fun i hi => ?_, fun x hx => ?_⟩
    · have hle : n ≤ 16 * VP64_DIV_ROUNDUP n 16 := by unfold VP64_DIV_ROUNDUP; omega
      have := h2 (dp + i)
      rw [if_pos (by omega), Nat.add_sub_cancel_left] at this
      exact this
    · have hx' : x < dp ∨ dp + 16 * VP64_DIV_ROUNDUP n 16 ≤ x := hx
      have := h2 x
      rw [if_neg (by omega)] at this
      exact this
  · obtain ⟨h1, h2⟩ := Unpack10_ok src sp slimit dst dp dlimit n (by simpa [unpackGroup] using hs) hd
    refine ⟨h1, fun i hi => ?_, fun x hx => ?_⟩
    · have hle : n ≤ 8 * VP64_DIV_ROUNDUP n 8 := by unfold VP64_DIV_ROUNDUP; omega
      have := h2 (dp + i)
      rw [if_pos (by omega), Nat.add_sub_cancel_left] at this
      exact this
    · have hx' : x < dp ∨ dp + 8 * VP64_DIV_ROUNDUP n 8 ≤ x := hx
      have := h2 x
      rw [if_neg (by omega)] at this
      exact this
  · obtain ⟨h1, h2⟩ := Unpack11_ok src sp slimit dst dp dlimit n (by simpa [unpackGroup] using hs) hd
    refine ⟨h1, fun i hi => ?_, fun x hx => ?_⟩
    · have hle : n ≤ 16 * VP64_DIV_ROUNDUP n 16 := by unfold VP64_DIV_ROUNDUP; omega
      have := h2 (dp + i)
      rw [if_pos (by omega), Nat.add_sub_cancel_left] at this
      exact this
    · have hx' : x < dp ∨ dp + 16 * VP64_DIV_ROUNDUP n 16 ≤ x := hx
      have := h2 x
      rw [if_neg (by omega)] at this
      exact this
  · obtain ⟨h1, h2⟩ := Unpack12_ok src sp slimit dst dp dlimit n (by simpa [unpackGroup] using hs) hd
    refine ⟨h1, fun i hi => ?_, fun x hx => ?_⟩
    · have hle : n ≤ 4 * VP64_DIV_ROUNDUP n 4 := by unfold VP64_DIV_ROUNDUP; omega
      have := h2 (dp + i)
      rw [if_pos (by omega), Nat.add_sub_cancel_left] at this
      exact this
    · have hx' : x < dp ∨ dp + 4 * VP64_DIV_ROUNDUP n 4 ≤ x := hx
      have := h2 x
      rw [if_neg (by omega)] at this
      exact this
  · have hs' : sp + 2 * n ≤ slimit := by
      have := hs
      simp only [unpackGroup, div_roundup_one] at this
      exact this
    have hd' : dp + 1 * n ≤ dlimit := by
      have := hd
      simp only [unpackGroup, div_roundup_one] at this
      exact this
    obtain ⟨h1, h2⟩ := Unpack16_ok src sp slimit dst dp dlimit n (by omega) (by omega)
    refine ⟨h1, fun i hi => ?_, fun x hx => ?_⟩
    · have := h2 (dp + i)
      rw [if_pos (by omega), Nat.add_sub_cancel_left] at this
      exact this
    · have hx' : x < dp ∨ dp + 1 * n ≤ x := by
        have := hx
        simp only [unpackGroup, div_roundup_one] at this
        exact this
      have := h2 x
      rw [if_neg (by omega)] at this
      exact this
  · have hs' : sp + 4 * n ≤ slimit := by
      have := hs
      simp only [unpackGroup, div_roundup_one] at this
      exact this
    have hd' : dp + 1 * n ≤ dlimit := by
      have := hd
      simp only [unpackGroup, div_roundup_one] at this
      exact this
    obtain ⟨h1, h2⟩ := Unpack32_ok src sp slimit dst dp dlimit n (by omega) (by omega)
    refine ⟨h1, fun i hi => ?_, fun x hx => ?_⟩
    · have := h2 (dp + i)
      rw [if_pos (by omega), Nat.add_sub_cancel_left] at this
      exact this
    · have hx' : x < dp ∨ dp + 1 * n ≤ x := by
        have := hx
        simp only [unpackGroup, div_roundup_one] at this
        exact this
      have := h2 x
      rw [if_neg (by omega)] at this
      exact this
  · have hs' : sp + 8 * n ≤ slimit := by
      have := hs
      simp only [unpackGroup, div_roundup_one] at this
      exact this
    have hd' : dp + 1 * n ≤ dlimit := by
      have := hd
      simp only [unpackGroup, div_roundup_one] at this
      exact this
    obtain ⟨h1, h2⟩ := Unpack64_ok src sp slimit dst dp dlimit n (by omega) (by omega)
    refine ⟨h1, fun i hi => ?_, fun x hx => ?_⟩
    · have := h2 (dp + i)
      rw [if_pos (by omega), Nat.add_sub_cancel_left] at this
      exact this
    · have hx' : x < dp ∨ dp + 1 * n ≤ x := by
        have := hx
        simp only [unpackGroup, div_roundup_one] at this
        exact this
      have := h2 x
      rw [if_neg (by omega)] at this
      exact this

/-! ## The guard of an unpacker -/

/-- The unpacker for a width `w` of `bits_length[]` fails, and leaves the
destination alone, when the source has no room for the bytes of its rounds (no
source is read for `w = 0`) or the destination has no room for their
elements. -/
theorem unpackerFor_fail (w : Nat) (hw : w ∈ bits_length) (src : Mem) (sp slimit : Nat) (dst : Mem)
    (dp dlimit n : Nat)
    (h : (w ≠ 0 ∧ sp + (unpackGroup w).1 * VP64_DIV_ROUNDUP n (unpackGroup w).2 > slimit) ∨
      dp + (unpackGroup w).2 * VP64_DIV_ROUNDUP n (unpackGroup w).2 > dlimit) :
    unpackerFor w src sp slimit dst dp dlimit n = (-1, dst) := by
  simp only [bits_length, List.mem_cons, List.mem_singleton, List.mem_nil_iff, or_false] at hw
  rcases hw with rfl | rfl | rfl | rfl | rfl | rfl | rfl | rfl | rfl | rfl | rfl | rfl | rfl | rfl | rfl | rfl
  · simp only [unpackGroup, div_roundup_one] at h
    show Unpack0 src sp slimit dst dp dlimit n = _
    unfold Unpack0
    rw [if_pos (by omega)]
  · simp only [unpackGroup] at h
    show Unpack1 src sp slimit dst dp dlimit n = _
    rw [Unpack1_eq, if_pos (by omega)]
  · simp only [unpackGroup] at h
    show Unpack2 src sp slimit dst dp dlimit n = _
    rw [Unpack2_eq, if_pos (by omega)]
  · simp only [unpackGroup] at h
    show Unpack3 src sp slimit dst dp dlimit n = _
    rw [Unpack3_eq, if_pos (by omega)]
  · simp only [unpackGroup] at h
    show Unpack4 src sp slimit dst dp dlimit n = _
    rw [Unpack4_eq, if_pos (by omega)]
  · simp only [unpackGroup] at h
    show Unpack5 src sp slimit dst dp dlimit n = _
    rw [Unpack5_eq, if_pos (by omega)]
  · simp only [unpackGroup] at h
    show Unpack6 src sp slimit dst dp dlimit n = _
    rw [Unpack6_eq, if_pos (by omega)]
  · simp only [unpackGroup] at h
    show Unpack7 src sp slimit dst dp dlimit n = _
    rw [Unpack7_eq, if_pos (by omega)]
  · simp only [unpackGroup, div_roundup_one] at h
    show Unpack8 src sp slimit dst dp dlimit n = _
    unfold Unpack8
    rw [if_pos (by omega)]
  · simp only [unpackGroup] at h
    show Unpack9 src sp slimit dst dp dlimit n = _
    rw [Unpack9_eq, if_pos (by omega)]
  · simp only [unpackGroup] at h
    show Unpack10 src sp slimit dst dp dlimit n = _
    rw [Unpack10_eq, if_pos (by omega)]
  · simp only [unpackGroup] at h
    show Unpack11 src sp slimit dst dp dlimit n = _
    rw [Unpack11_eq, if_pos (by omega)]
  · simp only [unpackGroup] at h
    show Unpack12 src sp slimit dst dp dlimit n = _
    rw [Unpack12_eq, if_pos (by omega)]
  · simp only [unpackGroup, div_roundup_one] at h
    show Unpack16 src sp slimit dst dp dlimit n = _
    unfold Unpack16
    rw [if_pos (by omega)]
  · simp only [unpackGroup, div_roundup_one] at h
    show Unpack32 src sp slimit dst dp dlimit n = _
    unfold Unpack32
    rw [if_pos (by omega)]
  · simp only [unpackGroup, div_roundup_one] at h
    show Unpack64 src sp slimit dst dp dlimit n = _
    unfold Unpack64
    rw [if_pos (by omega)]

/-- The rounds of the unpacker for a width `w` cover the `n` elements and their
`⌈n·w/8⌉` bytes. -/
theorem group_cover (w : Nat) (hw : w ∈ bits_length) (n : Nat) :
    bytesFor (n * w) ≤ (unpackGroup w).1 * VP64_DIV_ROUNDUP n (unpackGroup w).2 ∧
    n ≤ (unpackGroup w).2 * VP64_DIV_ROUNDUP n (unpackGroup w).2 := by
  simp only [bits_length, List.mem_cons, List.mem_singleton, List.mem_nil_iff, or_false] at hw
  rcases hw with rfl | rfl | rfl | rfl | rfl | rfl | rfl | rfl | rfl | rfl | rfl | rfl | rfl | rfl | rfl | rfl <;>
    simp only [unpackGroup, VP64_DIV_ROUNDUP, bytesFor] <;> omega

/-- A field of whole bytes at a multiple of its length is the big-endian value of
its bytes. -/
theorem getBits_aligned (m : Mem) (a i k : Nat) :
    getBits m a (i * (8 * k)) (8 * k) = beValue m (a + i * k) k := by
  have e : i * (8 * k) = 8 * (i * k) + 0 := by
    rw [Nat.add_zero, Nat.mul_left_comm]
  rw [e, getBits_shift, getBits_eq_field m _ 0 (8 * k) k (by omega)]
  unfold field
  rw [Nat.sub_zero, Nat.sub_self, Nat.pow_zero, Nat.div_one]
  exact Nat.mod_eq_of_lt (beValue_lt m _ k)

/-! ## What `WriteBits` writes -/

theorem beValue_SetUint32 (m : Mem) (a v : Nat) : beValue (SetUint32 m a v) a 4 = v % 2 ^ 32 := by
  simp only [beValue, SetUint32_read, Nat.zero_mul, Nat.zero_add, Nat.add_zero]
  norm_num
  omega

theorem beValue_SetUint64 (m : Mem) (a v : Nat) : beValue (SetUint64 m a v) a 8 = v % 2 ^ 64 := by
  rw [← DecodeUint64_beValue, DecodeUint64_SetUint64]

theorem mul_pow_mod (a k j : Nat) : (a * 2 ^ k) % 2 ^ (j + k) = (a % 2 ^ j) * 2 ^ k := by
  rw [Nat.pow_add, Nat.mul_mod_mul_right]

theorem mod_mod_pow (a j k : Nat) (h : j ≤ k) : (a % 2 ^ k) % 2 ^ j = a % 2 ^ j :=
  Nat.mod_mod_of_dvd a (Nat.pow_dvd_pow 2 h)

theorem add_mod_pow (a r j k : Nat) (hr : r < 2 ^ k) :
    (a * 2 ^ k + r) % 2 ^ (j + k) = (a % 2 ^ j) * 2 ^ k + r := by
  have h1 : (a % 2 ^ j) * 2 ^ k + r < 2 ^ (j + k) := by
    rw [Nat.pow_add]
    have : a % 2 ^ j + 1 ≤ 2 ^ j := Nat.mod_lt a (two_pow_pos' j)
    calc (a % 2 ^ j) * 2 ^ k + r < (a % 2 ^ j + 1) * 2 ^ k := by
          rw [Nat.add_mul, Nat.one_mul]; omega
      _ ≤ 2 ^ j * 2 ^ k := Nat.mul_le_mul_right _ this
  have h2 : a * 2 ^ k + r = ((a % 2 ^ j) * 2 ^ k + r) + 2 ^ (j + k) * (a / 2 ^ j) := by
    conv_lhs => rw [← Nat.div_add_mod a (2 ^ j)]
    rw [Nat.pow_add]
    ring
  rw [h2, Nat.add_mul_mod_self_left, Nat.mod_eq_of_lt h1]

/-- The buffer update of `WriteBits`: the `nused + w` low bits of the new buffer
are the `nused` low bits of the old one followed by the `w` low bits of the
element. -/
theorem buf_step (buf v w nused : Nat) (h : nused + w ≤ 64) :
    (((buf <<< w) % 2 ^ 64) ||| (v &&& ((1 <<< w) - 1))) % 2 ^ (nused + w)
      = (buf % 2 ^ nused) * 2 ^ w + v % 2 ^ w := by
  have hr := Nat.mod_lt v (two_pow_pos' w)
  have e64 : 64 = (64 - w) + w := by omega
  rw [Nat.shiftLeft_eq, Nat.shiftLeft_eq, Nat.one_mul, and_mask_eq_mod]
  conv_lhs => rw [e64, mul_pow_mod]
  rw [mul_or_eq_add _ _ _ hr, add_mod_pow _ _ _ _ hr, mod_mod_pow _ _ _ (by omega)]

/-- The word `WriteBits` flushes and the bits that stay buffered make up the low
bits of the buffer. -/
theorem flush_word (buf nu : Nat) (h : 32 ≤ nu) :
    ((buf >>> (nu - 32)) &&& ((1 <<< 32) - 1)) * 2 ^ (nu - 32) + buf % 2 ^ (nu - 32)
      = buf % 2 ^ nu := by
  rw [Nat.shiftRight_eq_div_pow, Nat.shiftLeft_eq, Nat.one_mul, and_mask_eq_mod]
  have e : nu = (nu - 32) + 32 := by omega
  conv_rhs => rw [e, Nat.pow_add, Nat.mod_mul]
  rw [Nat.mul_comm, Nat.add_comm]

theorem flush_word_lt (buf nu : Nat) :
    (buf >>> (nu - 32)) &&& ((1 <<< 32) - 1) < 2 ^ 32 := by
  rw [Nat.shiftLeft_eq, Nat.one_mul, and_mask_eq_mod]
  exact Nat.mod_lt _ (two_pow_pos' 32)

theorem WriteBits_step_inv (src : Nat → Nat) (w : Nat) (hw : w ≤ 32) (dst : Mem) (dp k : Nat)
    (st : WBState) (h : WriteBits.Inv src w dst dp k st) :
    WriteBits.Inv src w dst dp (k + 1) (WriteBits.step src w k st) := by
  obtain ⟨f, h1, h2, h3, h4, h5⟩ := h
  have hk : (k + 1) * w = k * w + w := by rw [Nat.add_mul, Nat.one_mul]
  have hb := buf_step st.buf (src k) w st.nused (by omega)
  unfold WriteBits.step
  simp only []
  by_cases hf : st.nused + w ≥ 32
  · rw [if_pos hf]
    refine ⟨f + 1, ?_, ?_, ?_, ?_, ?_⟩
    · show st.dp + 4 = _
      omega
    · show st.nused + w - 32 < 32
      omega
    · show 32 * (f + 1) + (st.nused + w - 32) = _
      omega
    · show beValue (SetUint32 st.mem st.dp _) dp (4 * (f + 1)) * 2 ^ (st.nused + w - 32)
        + _ % 2 ^ (st.nused + w - 32) = catValue src w (k + 1)
      have e1 : 4 * (f + 1) = 4 * f + 4 := by omega
      rw [e1, beValue_add, h1, beValue_SetUint32,
        beValue_congr (SetUint32 st.mem (dp + 4 * f) _) st.mem dp (4 * f)
          (fun x hx => by rw [SetUint32_read, if_neg (by omega)]),
        Nat.mod_eq_of_lt (flush_word_lt _ _), Nat.add_mul, Nat.add_assoc,
        flush_word _ _ hf, hb]
      simp only [catValue]
      rw [← h4, Nat.add_mul, Nat.mul_assoc, Nat.mul_assoc, ← Nat.pow_add, ← Nat.pow_add]
      have e2 : 8 * 4 + (st.nused + w - 32) = st.nused + w := by omega
      rw [e2, Nat.add_assoc]
    · intro x hx
      show SetUint32 st.mem st.dp _ x = dst x
      rw [SetUint32_read, if_neg (by omega)]
      exact h5 x (by omega)
  · rw [if_neg hf]
    refine ⟨f, h1, by show st.nused + w < 32; omega, by show 32 * f + (st.nused + w) = _; omega,
      ?_, h5⟩
    show beValue st.mem dp (4 * f) * 2 ^ (st.nused + w) + _ % 2 ^ (st.nused + w) = _
    rw [hb]
    simp only [catValue]
    rw [← h4, Nat.add_mul, Nat.pow_add, Nat.mul_assoc, Nat.add_assoc]

theorem WriteBits_loop_inv (src : Nat → Nat) (w : Nat) (hw : w ≤ 32) (dst : Mem) (dp n : Nat) :
    WriteBits.Inv src w dst dp n
      (forLoop n (WriteBits.step src w) { mem := dst, dp := dp, nused := 0, buf := 0 }) := by
  apply forLoop_inv (WriteBits.Inv src w dst dp)
  · exact ⟨0, rfl, Nat.zero_lt_succ 31, by simp, by simp [beValue, catValue], fun _ _ => rfl⟩
  · intro k s _ h
    exact WriteBits_step_inv src w hw dst dp k s h

/-- The left-aligned word of the final flush. -/
theorem flush_w32 (buf nused : Nat) (h : nused ≤ 32) :
    ((buf <<< (32 - nused)) % 2 ^ 64) &&& ((1 <<< 32) - 1)
      = (buf % 2 ^ nused) * 2 ^ (32 - nused) := by
  rw [Nat.shiftLeft_eq, Nat.shiftLeft_eq, Nat.one_mul, and_mask_eq_mod,
    mod_mod_pow _ _ _ (by decide : 32 ≤ 64)]
  rw [show (2 : Nat) ^ 32 = 2 ^ (nused + (32 - nused)) from by congr 1; omega, mul_pow_mod]

/-- The final flush writes the `⌈nused / 8⌉` leading bytes of the left-aligned
word of the buffered bits, and nothing else. -/
theorem WriteBits_flush_ok (st : WBState) (hn : st.nused < 32) :
    beValue (WriteBits.flush st) st.dp (bytesFor st.nused)
      = (st.buf % 2 ^ st.nused) * 2 ^ (8 * bytesFor st.nused - st.nused) ∧
    (∀ x, x < st.dp ∨ st.dp + bytesFor st.nused ≤ x → WriteBits.flush st x = st.mem x) := by
  unfold WriteBits.flush
  by_cases h0 : st.nused = 0
  · rw [if_neg (by omega), h0]
    exact ⟨by simp [bytesFor, beValue, Nat.mod_one], fun _ _ => rfl⟩
  · rw [if_pos (by omega)]
    simp only []
    rw [flush_w32 _ _ (by omega)]
    have hr : st.buf % 2 ^ st.nused < 2 ^ st.nused := Nat.mod_lt _ (two_pow_pos' _)
    generalize st.buf % 2 ^ st.nused = r at hr ⊢
    have hnc : VP64_DIV_ROUNDUP st.nused 8 = bytesFor st.nused := by
      unfold VP64_DIV_ROUNDUP bytesFor; omega
    rw [hnc]
    have hb : 1 ≤ bytesFor st.nused ∧ bytesFor st.nused ≤ 4 ∧
        st.nused ≤ 8 * bytesFor st.nused := by
      unfold bytesFor; omega
    generalize bytesFor st.nused = nc at hb ⊢
    -- the word is a multiple of `2 ^ (32 - 8 nc)`
    have hw32 : r * 2 ^ (32 - st.nused) = (r * 2 ^ (8 * nc - st.nused)) * 2 ^ (32 - 8 * nc) := by
      rw [Nat.mul_assoc, ← Nat.pow_add]
      congr 2
      omega
    have hlt : r * 2 ^ (8 * nc - st.nused) < 2 ^ (8 * nc) := by
      have e : 8 * nc = st.nused + (8 * nc - st.nused) := by omega
      conv_rhs => rw [e, Nat.pow_add]
      exact Nat.mul_lt_mul_of_pos_right hr (two_pow_pos' _)
    rw [hw32]
    generalize r * 2 ^ (8 * nc - st.nused) = q at hlt ⊢
    obtain ⟨h1, h4, _⟩ := hb
    interval_cases nc
    · refine ⟨?_, fun x hx => ?_⟩
      · simp [beValue, Mem.write, and_0xff, Nat.shiftRight_eq_div_pow]
        omega
      · have h0 : ¬ x = st.dp := by omega
        simp [Mem.write, h0]
    · refine ⟨?_, fun x hx => ?_⟩
      · simp [beValue, Mem.write, and_0xff, Nat.shiftRight_eq_div_pow]
        omega
      · have h0 : ¬ x = st.dp := by omega
        have h1 : ¬ x = st.dp + 1 := by omega
        simp [Mem.write, h0, h1]
    · refine ⟨?_, fun x hx => ?_⟩
      · simp [beValue, Mem.write, and_0xff, Nat.shiftRight_eq_div_pow]
        omega
      · have h0 : ¬ x = st.dp := by omega
        have h1 : ¬ x = st.dp + 1 := by omega
        have h2 : ¬ x = st.dp + 2 := by omega
        simp [Mem.write, h0, h1, h2]
    · refine ⟨?_, fun x hx => ?_⟩
      · simp [beValue, Mem.write, and_0xff, Nat.shiftRight_eq_div_pow]
        omega
      · have h0 : ¬ x = st.dp := by omega
        have h1 : ¬ x = st.dp + 1 := by omega
        have h2 : ¬ x = st.dp + 2 := by omega
        have h3 : ¬ x = st.dp + 3 := by omega
        simp [Mem.write, h0, h1, h2, h3]

theorem beValue_u64_loop (src : Nat → Nat) (dst : Mem) (dp : Nat) : ∀ n,
    beValue (forLoop n (fun i m => SetUint64 m (dp + i * 8) (src i)) dst) dp (8 * n)
      = catValue src 64 n ∧
    (∀ x, x < dp ∨ dp + 8 * n ≤ x →
      (forLoop n (fun i m => SetUint64 m (dp + i * 8) (src i)) dst) x = dst x) := by
  intro n
  induction n with
  | zero => exact ⟨by simp [beValue, catValue], fun _ _ => rfl⟩
  | succ k ih =>
    rw [forLoop_succ]
    refine ⟨?_, fun x hx => ?_⟩
    · have e1 : 8 * (k + 1) = 8 * k + 8 := by omega
      have e2 : dp + k * 8 = dp + 8 * k := by omega
      rw [e1, beValue_add, e2, beValue_SetUint64,
        beValue_congr (SetUint64 _ (dp + 8 * k) _) _ dp (8 * k)
          (fun x hx => by rw [SetUint64_read, if_neg (by omega)]), ih.1]
      simp only [catValue]
    · rw [SetUint64_read, if_neg (by omega)]
      exact ih.2 x (by omega)

theorem catValue_zero_width (src : Nat → Nat) (n : Nat) : catValue src 0 n = 0 := by
  induction n with
  | zero => rfl
  | succ k ih => simp [catValue, ih, Nat.mod_one]

/-- What a successful `WriteBits` does, for a width of at most 32 bits or of 64
bits: it returns `⌈n·w/8⌉`, the bytes it writes are the concatenation of the low
`w` bits of the elements, padded with zero bits to whole bytes, and it changes
no other byte. -/
theorem WriteBits_ok (src : Nat → Nat) (w n : Nat) (dst : Mem) (dp dlimit : Nat)
    (hw : w ≤ 32 ∨ w = 64) (hroom : dp + bytesFor (n * w) ≤ dlimit) :
    (WriteBits src w n dst dp dlimit).1 = (bytesFor (n * w) : Nat) ∧
    beValue (WriteBits src w n dst dp dlimit).2 dp (bytesFor (n * w))
      = catValue src w n * 2 ^ (8 * bytesFor (n * w) - n * w) ∧
    (∀ x, x < dp ∨ dp + bytesFor (n * w) ≤ x → (WriteBits src w n dst dp dlimit).2 x = dst x) := by
  have hc : VP64_DIV_ROUNDUP (w * n) 8 = bytesFor (n * w) := by
    unfold VP64_DIV_ROUNDUP bytesFor
    rw [Nat.mul_comm w n]
    omega
  unfold WriteBits
  simp only [hc]
  rw [if_neg (by omega)]
  by_cases hw0 : w = 0
  · rw [if_pos hw0]
    subst hw0
    have hcat : catValue src 0 n = 0 := catValue_zero_width src n
    exact ⟨by simp [bytesFor], by simp [bytesFor, beValue, hcat], fun _ _ => rfl⟩
  · rw [if_neg hw0]
    by_cases hw64 : w = 64
    · rw [if_pos hw64]
      subst hw64
      have hb : bytesFor (n * 64) = 8 * n := by unfold bytesFor; omega
      obtain ⟨h1, h2⟩ := beValue_u64_loop src dst dp n
      rw [hb]
      refine ⟨?_, ?_, h2⟩
      · show ((n * 8 : Nat) : Int) = _
        congr 1
        omega
      · show beValue (forLoop n _ dst) dp (8 * n) = _
        rw [h1]
        have : 8 * (8 * n) - n * 64 = 0 := by omega
        rw [this, Nat.pow_zero, Nat.mul_one]
    · rw [if_neg hw64]
      have hw32 : w ≤ 32 := by omega
      obtain ⟨f, h1, h2, h3, h4, h5⟩ := WriteBits_loop_inv src w hw32 dst dp n
      generalize forLoop n (WriteBits.step src w)
        { mem := dst, dp := dp, nused := 0, buf := 0 } = st at h1 h2 h3 h4 h5
      obtain ⟨g1, g2⟩ := WriteBits_flush_ok st h2
      have hL : bytesFor (n * w) = 4 * f + bytesFor st.nused := by
        rw [← h3]; unfold bytesFor; omega
      refine ⟨rfl, ?_, fun x hx => ?_⟩
      · show beValue (WriteBits.flush st) dp _ = _
        rw [hL, beValue_add, ← h1, g1,
          beValue_congr (WriteBits.flush st) st.mem dp (4 * f)
            (fun x hx => g2 (dp + x) (by omega)), ← h4, Nat.add_mul]
        have e1 : 8 * (4 * f + bytesFor st.nused) - n * w = 8 * bytesFor st.nused - st.nused := by
          rw [← h3]; omega
        have e2 : st.nused ≤ 8 * bytesFor st.nused := by unfold bytesFor; omega
        rw [e1, Nat.mul_assoc, ← Nat.pow_add]
        congr 3
        omega
      · show WriteBits.flush st x = dst x
        rw [g2 x (by omega)]
        exact h5 x (by omega)

/-! ## Unpacking what `WriteBits` has written -/

theorem WriteBits_no_room (src : Nat → Nat) (w n : Nat) (dst : Mem) (dp dlimit : Nat)
    (h : dp + bytesFor (n * w) > dlimit) : (WriteBits src w n dst dp dlimit).1 = -1 := by
  have hc : VP64_DIV_ROUNDUP (w * n) 8 = bytesFor (n * w) := by
    unfold VP64_DIV_ROUNDUP bytesFor
    rw [Nat.mul_comm w n]
    omega
  unfold WriteBits
  simp only [hc]
  rw [if_pos h]

theorem beValue_translate (m m' : Mem) (a a' L : Nat)
    (h : ∀ k, k < L → m (a + k) = m' (a' + k)) : beValue m a L = beValue m' a' L := by
  induction L with
  | zero => rfl
  | succ k ih =>
    simp only [beValue]
    rw [ih (fun x hx => h x (Nat.lt_succ_of_lt hx)), h k (Nat.lt_succ_self k)]

theorem bits_length_le (w : Nat) (hw : w ∈ bits_length) : w ≤ 32 ∨ w = 64 := by
  revert w
  decide

/-- The bits a source holds where `WriteBits` has written `n` values of a width
`w`: the `i`-th field of `w` bits is the `i`-th value. -/
theorem getBits_written (v : Nat → Nat) (w n : Nat) (hw : w ≤ 32 ∨ w = 64) (buf : Mem)
    (bp blimit : Nat) (hroom : bp + bytesFor (n * w) ≤ blimit) (src : Mem) (sp : Nat)
    (hsrc : ∀ k, k < bytesFor (n * w) → src (sp + k) = (WriteBits v w n buf bp blimit).2 (bp + k))
    (i : Nat) (hi : i < n) : getBits src sp (i * w) w = v i % 2 ^ w := by
  obtain ⟨_, h2, _⟩ := WriteBits_ok v w n buf bp blimit hw hroom
  have hL : n * w ≤ 8 * bytesFor (n * w) := by unfold bytesFor; omega
  exact getBits_of_catValue src sp v w n (bytesFor (n * w)) i hL
    (by rw [beValue_translate src _ sp bp _ hsrc, h2]) hi

/-! ## The frame of `WriteBits` for every width -/

/-- The packing loop of `WriteBits`, for any width: after `k` elements `f` words
have been written, and nothing outside them. -/
theorem WriteBits_loop_frame (src : Nat → Nat) (w : Nat) (dst : Mem) (dp n : Nat) :
    ∃ f, (forLoop n (WriteBits.step src w) { mem := dst, dp := dp, nused := 0, buf := 0 }).dp
        = dp + 4 * f ∧
      32 * f + (forLoop n (WriteBits.step src w)
        { mem := dst, dp := dp, nused := 0, buf := 0 }).nused = n * w ∧
      ∀ x, x < dp ∨ dp + 4 * f ≤ x →
        (forLoop n (WriteBits.step src w) { mem := dst, dp := dp, nused := 0, buf := 0 }).mem x
          = dst x := by
  apply forLoop_inv (fun k (st : WBState) => ∃ f, st.dp = dp + 4 * f ∧ 32 * f + st.nused = k * w ∧
    ∀ x, x < dp ∨ dp + 4 * f ≤ x → st.mem x = dst x)
  · exact ⟨0, rfl, by simp, fun _ _ => rfl⟩
  · intro k st _ h
    obtain ⟨f, h1, h2, h3⟩ := h
    have hk : (k + 1) * w = k * w + w := by rw [Nat.add_mul, Nat.one_mul]
    unfold WriteBits.step
    simp only []
    by_cases hf : st.nused + w ≥ 32
    · rw [if_pos hf]
      refine ⟨f + 1, ?_, ?_, ?_⟩
      · show st.dp + 4 = _
        omega
      · show 32 * (f + 1) + (st.nused + w - 32) = _
        omega
      · intro x hx
        show SetUint32 st.mem st.dp _ x = _
        rw [SetUint32_read, if_neg (by omega)]
        exact h3 x (by omega)
    · rw [if_neg hf]
      exact ⟨f, h1, by show 32 * f + (st.nused + w) = _; omega, h3⟩

/-- The final flush of `WriteBits` writes within the `⌈nused / 8⌉` bytes at its
pointer, whatever the number of buffered bits. -/
theorem WriteBits_flush_frame (st : WBState) (x : Nat)
    (hx : x < st.dp ∨ st.dp + bytesFor st.nused ≤ x) : WriteBits.flush st x = st.mem x := by
  have hnc : VP64_DIV_ROUNDUP st.nused 8 = bytesFor st.nused := by
    unfold VP64_DIV_ROUNDUP bytesFor; omega
  unfold WriteBits.flush
  simp only [hnc]
  split_ifs <;> first | rfl | (repeat rw [write_other _ _ _ _ (by omega)])

/-- The function `WriteBits` writes within the `⌈n·w/8⌉` bytes at its pointer,
for every width. -/
theorem WriteBits_frame_all (src : Nat → Nat) (w n : Nat) (dst : Mem) (dp dlimit : Nat) (x : Nat)
    (hx : x < dp ∨ dp + bytesFor (n * w) ≤ x) : (WriteBits src w n dst dp dlimit).2 x = dst x := by
  have hc : VP64_DIV_ROUNDUP (w * n) 8 = bytesFor (n * w) := by
    unfold VP64_DIV_ROUNDUP bytesFor
    rw [Nat.mul_comm w n]
    omega
  unfold WriteBits
  simp only [hc]
  by_cases h1 : dp + bytesFor (n * w) > dlimit
  · rw [if_pos h1]
  rw [if_neg h1]
  by_cases h2 : w = 0
  · rw [if_pos h2]
  rw [if_neg h2]
  by_cases h3 : w = 64
  · rw [if_pos h3]
    subst h3
    have hb : bytesFor (n * 64) = 8 * n := by unfold bytesFor; omega
    exact (beValue_u64_loop src dst dp n).2 x (by omega)
  rw [if_neg h3]
  obtain ⟨f, f1, f2, f3⟩ := WriteBits_loop_frame src w dst dp n
  show WriteBits.flush _ x = dst x
  have hb : bytesFor (n * w) = 4 * f + bytesFor
      (forLoop n (WriteBits.step src w) { mem := dst, dp := dp, nused := 0, buf := 0 }).nused := by
    rw [← f2]; unfold bytesFor; omega
  rw [WriteBits_flush_frame _ x (by omega)]
  exact f3 x (by omega)

/-! ## Bit lengths and widths -/

theorem VP64_MSB64_steps (x : Nat) :
    VP64_MSB64 x =
      if (msbStep 2 (msbStep 4 (msbStep 8 (msbStep 16 (msbStep 32 (64, x)))))).2 >>> 1 ≠ 0
      then (msbStep 2 (msbStep 4 (msbStep 8 (msbStep 16 (msbStep 32 (64, x)))))).1 - 2
      else (msbStep 2 (msbStep 4 (msbStep 8 (msbStep 16 (msbStep 32 (64, x)))))).1
        - (msbStep 2 (msbStep 4 (msbStep 8 (msbStep 16 (msbStep 32 (64, x)))))).2 := by
  unfold VP64_MSB64 msbStep
  simp only []

/-- A halving step keeps the position and the shifted value in line: the value
is `x / 2 ^ s` for the `s` with `pos = 64 - s`, and fits the halved width. -/
theorem msbStep_inv (x k s : Nat) (st : Nat × Nat)
    (h1 : st.1 = 64 - s) (h2 : st.2 = x / 2 ^ s) (h3 : st.2 < 2 ^ (k + k)) (h4 : s + (k + k) ≤ 64) :
    ∃ s', (msbStep k st).1 = 64 - s' ∧ (msbStep k st).2 = x / 2 ^ s' ∧
      (msbStep k st).2 < 2 ^ k ∧ s' + k ≤ 64 := by
  unfold msbStep
  rw [Nat.shiftRight_eq_div_pow]
  by_cases h : st.2 / 2 ^ k ≠ 0
  · rw [if_pos h]
    refine ⟨s + k, by simp only []; omega, ?_, ?_, by omega⟩
    · simp only []
      rw [h2, Nat.div_div_eq_div_mul, ← Nat.pow_add]
    · simp only []
      rw [Nat.div_lt_iff_lt_mul (two_pow_pos' k), ← Nat.pow_add]
      exact h3
  · rw [if_neg h]
    refine ⟨s, h1, h2, ?_, by omega⟩
    simp only [ne_eq, Decidable.not_not] at h
    exact (Nat.div_eq_zero_iff (two_pow_pos' k)).mp h

/-- A 64-bit value is below `2` to the power of its used bit length, which is at
most 64. -/
theorem usedBits_spec (x : Nat) (hx : x < 2 ^ 64) : usedBits x ≤ 64 ∧ x < 2 ^ usedBits x := by
  unfold usedBits
  rw [VP64_MSB64_steps]
  obtain ⟨s1, a1, a2, a3, a4⟩ := msbStep_inv x 32 0 (64, x) rfl (by simp) hx (by decide)
  obtain ⟨s2, b1, b2, b3, b4⟩ := msbStep_inv x 16 s1 _ a1 a2 a3 a4
  obtain ⟨s3, c1, c2, c3, c4⟩ := msbStep_inv x 8 s2 _ b1 b2 b3 b4
  obtain ⟨s4, d1, d2, d3, d4⟩ := msbStep_inv x 4 s3 _ c1 c2 c3 c4
  obtain ⟨s5, e1, e2, e3, e4⟩ := msbStep_inv x 2 s4 _ d1 d2 d3 d4
  generalize msbStep 2 (msbStep 4 (msbStep 8 (msbStep 16 (msbStep 32 (64, x))))) = st
    at e1 e2 e3 e4
  rw [Nat.shiftRight_eq_div_pow, e1]
  have hdm := Nat.div_add_mod x (2 ^ s5)
  have hm := Nat.mod_lt x (two_pow_pos' s5)
  rw [← e2] at hdm
  by_cases h : st.2 / 2 ^ 1 ≠ 0
  · rw [if_pos h]
    refine ⟨by omega, ?_⟩
    have e : 64 - (64 - s5 - 2) = s5 + 2 := by omega
    rw [e, Nat.pow_add]
    have h4 : st.2 < 4 := e3
    calc x = 2 ^ s5 * st.2 + x % 2 ^ s5 := hdm.symm
      _ < 2 ^ s5 * st.2 + 2 ^ s5 := by omega
      _ = 2 ^ s5 * (st.2 + 1) := by ring
      _ ≤ 2 ^ s5 * 2 ^ 2 := Nat.mul_le_mul_left _ (by omega)
  · rw [if_neg h]
    have h01 : st.2 = 0 ∨ st.2 = 1 := by omega
    refine ⟨by omega, ?_⟩
    have e : 64 - (64 - s5 - st.2) = s5 + st.2 := by omega
    rw [e, Nat.pow_add]
    rcases h01 with h0 | h1
    · rw [h0] at hdm ⊢
      simp only [Nat.mul_zero, Nat.zero_add] at hdm
      rw [Nat.pow_zero, Nat.mul_one]
      omega
    · rw [h1] at hdm ⊢
      simp only [Nat.mul_one] at hdm
      rw [Nat.pow_one]
      omega

theorem roundup_bits_spec (b : Nat) (hb : b ≤ 64) :
    roundup_bits.getD b 0 ∈ bits_length ∧ b ≤ roundup_bits.getD b 0 := by
  interval_cases b <;> decide

/-- The width `CompressBlock` computes for a partition is a width of
`bits_length[]`, and every element of the partition is below `2` to that width. -/
theorem maxb_spec (src : Nat → Nat) (sp : Nat) : ∀ plen,
    (∀ j, j < plen → src (sp + j) < 2 ^ 64) →
    CompressBlock.maxb src sp plen ∈ bits_length ∧
    ∀ j, j < plen → src (sp + j) < 2 ^ CompressBlock.maxb src sp plen := by
  intro plen
  induction plen with
  | zero =>
    intro _
    exact ⟨by show 0 ∈ bits_length; decide, fun j hj => absurd hj (Nat.not_lt_zero j)⟩
  | succ k ih =>
    intro hx
    obtain ⟨h1, h2⟩ := ih (fun j hj => hx j (Nat.lt_succ_of_lt hj))
    obtain ⟨u1, u2⟩ := usedBits_spec (src (sp + k)) (hx k (Nat.lt_succ_self k))
    obtain ⟨r1, r2⟩ := roundup_bits_spec _ u1
    unfold CompressBlock.maxb
    rw [forLoop_succ]
    show (if CompressBlock.maxb src sp k < roundup_bits.getD (usedBits (src (sp + k))) 0
      then roundup_bits.getD (usedBits (src (sp + k))) 0 else CompressBlock.maxb src sp k)
        ∈ bits_length ∧
      ∀ j, j < k + 1 → src (sp + j) < 2 ^ (if CompressBlock.maxb src sp k
          < roundup_bits.getD (usedBits (src (sp + k))) 0
        then roundup_bits.getD (usedBits (src (sp + k))) 0 else CompressBlock.maxb src sp k)
    by_cases hlt : CompressBlock.maxb src sp k < roundup_bits.getD (usedBits (src (sp + k))) 0
    · rw [if_pos hlt]
      refine ⟨r1, fun j hj => ?_⟩
      by_cases hjk : j = k
      · subst hjk
        exact Nat.lt_of_lt_of_le u2 (Nat.pow_le_pow_right (by decide) r2)
      · exact Nat.lt_of_lt_of_le (h2 j (by omega))
          (Nat.pow_le_pow_right (by decide) (Nat.le_of_lt hlt))
    · rw [if_neg hlt]
      refine ⟨h1, fun j hj => ?_⟩
      by_cases hjk : j = k
      · subst hjk
        exact Nat.lt_of_lt_of_le u2 (Nat.pow_le_pow_right (by decide) (by omega))
      · exact h2 j (by omega)

/-- The control byte of a width and a length gives both back to the decoder. -/
theorem ctrl_byte_decode : ∀ w ∈ bits_length, ∀ l ∈ partition_length,
    partition_length.getD (((ctrl_bit.getD w 0 ||| ctrl_partition.getD l 0) >>> 4) &&& 0x0f) 0 = l ∧
    (ctrl_bit.getD w 0 ||| ctrl_partition.getD l 0) &&& 0x0f = ctrl_bit.getD w 0 := by
  decide

/-- The rounds of an unpacker stay within 128 bytes and 15 elements of the
partition they unpack. -/
theorem overrun_bound : ∀ w ∈ bits_length, ∀ l ∈ partition_length,
    (unpackGroup w).1 * VP64_DIV_ROUNDUP l (unpackGroup w).2 ≤ bytesFor (l * w) + 128 ∧
    (unpackGroup w).2 * VP64_DIV_ROUNDUP l (unpackGroup w).2 ≤ l + 15 := by
  decide

theorem bytesFor_le (l w : Nat) (hw : w ∈ bits_length) : bytesFor (l * w) ≤ 8 * l := by
  have : w ≤ 64 := by
    revert w
    decide
  unfold bytesFor
  have : l * w ≤ l * 64 := Nat.mul_le_mul_left l this
  omega

/-! ## What `CompressBlock` writes -/

theorem parts_mono (n np : Nat) (parts : Mem) (h : PartShape n np parts) :
    ∀ i, i ≤ np → parts i ≤ n ∧ i ≤ parts i := by
  obtain ⟨_, h0, hn, hlt, _⟩ := h
  have hup : ∀ i, i ≤ np → i ≤ parts i := by
    intro i
    induction i with
    | zero => intro _; omega
    | succ k ih =>
      intro hk
      have := ih (by omega)
      have := hlt k (by omega)
      omega
  have hdown : ∀ d i, i + d = np → parts i ≤ n := by
    intro d
    induction d with
    | zero =>
      intro i hi
      have : i = np := by omega
      rw [this, hn]
    | succ d ih =>
      intro i hi
      have := ih (i + 1) (by omega)
      have := hlt i (by omega)
      omega
  intro i hi
  exact ⟨hdown (np - i) i (by omega), hup i hi⟩

theorem partWidth_spec (x : Nat → Nat) (n np : Nat) (parts : Mem) (h : PartShape n np parts)
    (hx : ∀ i, i < n → x i < 2 ^ 64) (i : Nat) (hi : i < np) :
    partWidth x parts i ∈ bits_length ∧ partLen parts i ∈ partition_length ∧
    parts i + partLen parts i = parts (i + 1) ∧
    ∀ e, e < partLen parts i → x (parts i + e) < 2 ^ partWidth x parts i := by
  have hm := parts_mono n np parts h
  obtain ⟨_, _, _, hlt, hmem⟩ := h
  have h1 := hlt i hi
  have h2 := (hm (i + 1) (by omega)).1
  obtain ⟨m1, m2⟩ := maxb_spec x (parts i) (partLen parts i)
    (fun j hj => hx _ (by unfold partLen at hj; omega))
  exact ⟨m1, hmem i hi, by unfold partLen; omega, m2⟩

theorem dataOff_le (x : Nat → Nat) (n np : Nat) (parts : Mem) (h : PartShape n np parts)
    (hx : ∀ i, i < n → x i < 2 ^ 64) : ∀ i, i ≤ np → dataOff x parts i ≤ 8 * parts i := by
  intro i
  induction i with
  | zero => intro _; simp [dataOff]
  | succ k ih =>
    intro hk
    have := ih (by omega)
    obtain ⟨w1, _, w3, _⟩ := partWidth_spec x n np parts h hx k (by omega)
    have := bytesFor_le (partLen parts k) _ w1
    simp only [dataOff]
    omega

theorem dataOff_mono (x : Nat → Nat) (parts : Mem) : ∀ d i, dataOff x parts i ≤ dataOff x parts (i + d) := by
  intro d
  induction d with
  | zero => intro i; exact Nat.le_refl _
  | succ d ih =>
    intro i
    have := ih i
    rw [← Nat.add_assoc]
    simp only [dataOff]
    omega

/-- One iteration of the partition loop of `CompressBlock` keeps the invariant. -/
theorem CompressBlock_step_inv (x : Nat → Nat) (n np : Nat) (parts : Mem)
    (h : PartShape n np parts) (hx : ∀ i, i < n → x i < 2 ^ 64) (m0 : Mem) (dp dlimit : Nat)
    (hwrap : 8 + np + 8 * n < 2 ^ 32) (i : Nat) (hi : i < np)
    (hroom : dp + 8 + np + dataOff x parts (i + 1) ≤ dlimit)
    (st : CBState) (hinv : CompressBlock.Inv x parts m0 dp np i st) :
    CompressBlock.Inv x parts m0 dp np (i + 1) (CompressBlock.step x parts dlimit i st) := by
  obtain ⟨i1, i2, i3, i4, i5, i6, i7, i8⟩ := hinv
  obtain ⟨w1, w2, w3, w4⟩ := partWidth_spec x n np parts h hx i hi
  have hm := parts_mono n np parts h
  have hd1 := dataOff_le x n np parts h hx (i + 1) (by omega)
  have hp1 := (hm (i + 1) (by omega)).1
  have hdo : dataOff x parts (i + 1)
      = dataOff x parts i + bytesFor (partLen parts i * partWidth x parts i) := rfl
  obtain ⟨r1, r2, r3⟩ := WriteBits_ok (fun j => x (st.sp + j)) (partWidth x parts i)
    (partLen parts i) st.mem st.data dlimit (bits_length_le _ w1) (by omega)
  have hgb : ∀ e, e < partLen parts i →
      getBits (WriteBits (fun j => x (st.sp + j)) (partWidth x parts i) (partLen parts i)
        st.mem st.data dlimit).2 st.data (e * partWidth x parts i) (partWidth x parts i)
        = x (parts i + e) := by
    intro e he
    rw [getBits_written (fun j => x (st.sp + j)) _ _ (bits_length_le _ w1) st.mem st.data dlimit
      (by omega) _ st.data (fun _ _ => rfl) e he, i2, Nat.mod_eq_of_lt (w4 e he)]
  unfold CompressBlock.step
  rw [if_pos i1]
  show CompressBlock.Inv x parts m0 dp np (i + 1)
    (if (WriteBits (fun j => x (st.sp + j)) (CompressBlock.maxb x st.sp (parts (i + 1) - parts i))
        (parts (i + 1) - parts i) st.mem st.data dlimit).1 < 0 then _ else _)
  have e1 : CompressBlock.maxb x st.sp (parts (i + 1) - parts i) = partWidth x parts i := by
    rw [i2]; rfl
  have e2 : parts (i + 1) - parts i = partLen parts i := rfl
  rw [e1, e2, r1, if_neg (by omega)]
  simp only [Int.toNat_ofNat]
  generalize hL : bytesFor (partLen parts i * partWidth x parts i) = L at *
  generalize (WriteBits (fun j => x (st.sp + j)) (partWidth x parts i) (partLen parts i)
        st.mem st.data dlimit).2 = m1 at *
  refine ⟨rfl, ?_, ?_, ?_, ?_, ?_, ?_, ?_⟩
  · show st.sp + partLen parts i = parts (i + 1)
    omega
  · show st.ctrl + 1 = _
    omega
  · show st.data + L = _
    omega
  · show (st.block_size + L) % 2 ^ 32 = _
    rw [Nat.mod_eq_of_lt (by omega)]
    omega
  · intro a ha
    show (m1.write st.ctrl _) a = m0 a
    rw [write_other _ _ _ _ (by omega), r3 a (by omega)]
    exact i6 a (by omega)
  · intro j hj
    show (m1.write st.ctrl _) (dp + 8 + j) = _
    by_cases hji : j = i
    · subst hji
      rw [i3, write_same]
      rfl
    · rw [write_other _ _ _ _ (by omega), r3 _ (by omega)]
      exact i7 j (by omega)
  · intro j hj e he
    show getBits (m1.write st.ctrl _) _ _ _ = _
    by_cases hji : j = i
    · subst hji
      rw [← hgb e he, i4]
      have hle : e * partWidth x parts j + partWidth x parts j
          ≤ partLen parts j * partWidth x parts j := by
        have : (e + 1) * partWidth x parts j ≤ partLen parts j * partWidth x parts j :=
          Nat.mul_le_mul_right _ he
        rw [Nat.add_mul, Nat.one_mul] at this
        exact this
      have hL8 : partLen parts j * partWidth x parts j ≤ 8 * L := by
        rw [← hL]; unfold bytesFor; omega
      exact getBits_congr _ _ _ _ _ L (by omega)
        (fun k hk => write_other _ _ _ _ (by omega))
    · have hj' : j < i := by omega
      obtain ⟨_, _, _, _⟩ := partWidth_spec x n np parts h hx j (by omega)
      rw [← i8 j hj' e he]
      have hle : e * partWidth x parts j + partWidth x parts j
          ≤ partLen parts j * partWidth x parts j := by
        have : (e + 1) * partWidth x parts j ≤ partLen parts j * partWidth x parts j :=
          Nat.mul_le_mul_right _ he
        rw [Nat.add_mul, Nat.one_mul] at this
        exact this
      have hL8 : partLen parts j * partWidth x parts j
          ≤ 8 * bytesFor (partLen parts j * partWidth x parts j) := by
        unfold bytesFor; omega
      have hmono := dataOff_mono x parts (i - (j + 1)) (j + 1)
      have hji2 : j + 1 + (i - (j + 1)) = i := by omega
      rw [hji2] at hmono
      have hdj : dataOff x parts (j + 1)
          = dataOff x parts j + bytesFor (partLen parts j * partWidth x parts j) := rfl
      exact getBits_congr _ _ _ _ _ (bytesFor (partLen parts j * partWidth x parts j)) (by omega)
        (fun k hk => by
          rw [write_other _ _ _ _ (by omega), r3 _ (by omega)])

theorem DecodeUint64_congr (m m' : Mem) (a : Nat) (h : ∀ k, k < 8 → m (a + k) = m' (a + k)) :
    DecodeUint64 m a = DecodeUint64 m' a := by
  rw [DecodeUint64_beValue, DecodeUint64_beValue, beValue_congr m m' a 8 h]

theorem DecodeUint32_congr (m m' : Mem) (a : Nat) (h : ∀ k, k < 4 → m (a + k) = m' (a + k)) :
    DecodeUint32 m a = DecodeUint32 m' a := by
  rw [DecodeUint32_eq, DecodeUint32_eq]
  have h0 := h 0 (by decide)
  rw [Nat.add_zero] at h0
  rw [h0, h 1 (by decide), h 2 (by decide), h 3 (by decide)]

/-- A loop that stores `k` big-endian 64-bit values. -/
theorem u64_loop_get (f : Nat → Nat) (m : Mem) (a : Nat) : ∀ k,
    (∀ t, t < k → DecodeUint64 (forLoop k (fun i m => SetUint64 m (a + i * 8) (f i)) m)
      (a + 8 * t) = f t % 2 ^ 64) ∧
    (∀ y, y < a ∨ a + 8 * k ≤ y →
      (forLoop k (fun i m => SetUint64 m (a + i * 8) (f i)) m) y = m y) := by
  intro k
  induction k with
  | zero => exact ⟨fun t ht => absurd ht (Nat.not_lt_zero t), fun _ _ => rfl⟩
  | succ k ih =>
    rw [forLoop_succ]
    refine ⟨fun t ht => ?_, fun y hy => ?_⟩
    · by_cases htk : t = k
      · subst htk
        rw [Nat.mul_comm t 8, DecodeUint64_SetUint64]
      · rw [← ih.1 t (by omega)]
        exact DecodeUint64_congr _ _ _
          (fun j hj => by rw [SetUint64_read, if_neg (by omega)])
    · rw [SetUint64_read, if_neg (by omega)]
      exact ih.2 y (by omega)

theorem max_overrun_eq : MAX_UNPACK_OVERRUN_NUM = 16 := rfl

/-- A block of fewer than 144 elements is the elements as big-endian values. -/
theorem CompressBlock_raw (x : Nat → Nat) (n : Nat) (dst : Mem) (dp dlimit : Nat)
    (hn : n < 144) (hx : ∀ i, i < n → x i < 2 ^ 64) :
    ∃ out, CompressBlock x n dst dp dlimit = some (8 * n, out) ∧
      BlockLayout out dp x n (8 * n) ∧
      (∀ a, a < dp ∨ dp + 8 * n ≤ a → out a = dst a) := by
  have hloop : (fun i (m : Mem) => SetUint64 m (dp + 8 * i) (x i))
      = (fun i (m : Mem) => SetUint64 m (dp + i * 8) (x i)) := by
    funext i m
    rw [Nat.mul_comm]
  obtain ⟨g1, g2⟩ := u64_loop_get x dst dp n
  unfold CompressBlock
  rw [if_pos (by rw [max_partition_eq, max_overrun_eq]; omega), hloop]
  refine ⟨_, ?_, ?_, g2⟩
  · congr 2
    omega
  · unfold BlockLayout
    rw [if_pos hn]
    exact ⟨rfl, fun i hi => by rw [g1 i hi, Nat.mod_eq_of_lt (hx i hi)]⟩

/-- The partition loop of `CompressBlock` as long as no `WriteBits` has failed:
the packed data so far fit before `dlimit`, and the invariant holds. -/
theorem CompressBlock_loop_ok (x : Nat → Nat) (n np : Nat) (parts : Mem)
    (h : PartShape n np parts) (hx : ∀ i, i < n → x i < 2 ^ 64) (m0 : Mem) (dp dlimit : Nat)
    (hwrap : 8 + np + 8 * n < 2 ^ 32) (K : Nat) (hK : K ≤ np) :
    (forLoop K (CompressBlock.step x parts dlimit)
      { ok := true, mem := m0, sp := 0, data := dp + (np + 8), ctrl := dp + 8,
        block_size := np + 8 }).ok = true →
    (K = 0 ∨ dp + 8 + np + dataOff x parts K ≤ dlimit) ∧
    CompressBlock.Inv x parts m0 dp np K
      (forLoop K (CompressBlock.step x parts dlimit)
        { ok := true, mem := m0, sp := 0, data := dp + (np + 8), ctrl := dp + 8,
          block_size := np + 8 }) := by
  apply forLoop_inv (fun k (st : CBState) => k ≤ np → st.ok = true →
    (k = 0 ∨ dp + 8 + np + dataOff x parts k ≤ dlimit) ∧ CompressBlock.Inv x parts m0 dp np k st)
    K _ _ _ _ hK
  · intro _ _
    exact ⟨Or.inl rfl, rfl, h.2.1.symm, rfl, by show dp + (np + 8) = dp + 8 + np + 0; omega,
      by show np + 8 = 8 + np + 0; omega, fun _ _ => rfl,
      fun j hj => absurd hj (Nat.not_lt_zero j), fun j hj => absurd hj (Nat.not_lt_zero j)⟩
  · intro k st _ ih hk hok
    have hst : st.ok = true := by
      by_contra hc
      unfold CompressBlock.step at hok
      rw [if_neg hc] at hok
      exact hc hok
    obtain ⟨_, hinv⟩ := ih (by omega) hst
    have hroom : dp + 8 + np + dataOff x parts (k + 1) ≤ dlimit := by
      by_contra hc
      obtain ⟨_, i2, _, i4, _⟩ := hinv
      have hno := WriteBits_no_room (fun j => x (st.sp + j)) (partWidth x parts k)
        (partLen parts k) st.mem st.data dlimit (by
          have hdo : dataOff x parts (k + 1)
            = dataOff x parts k + bytesFor (partLen parts k * partWidth x parts k) := rfl
          omega)
      have e1 : CompressBlock.maxb x st.sp (parts (k + 1) - parts k) = partWidth x parts k := by
        rw [i2]; rfl
      have e2 : parts (k + 1) - parts k = partLen parts k := rfl
      have key : (CompressBlock.step x parts dlimit k st).ok = false := by
        unfold CompressBlock.step
        rw [if_pos hst]
        show CBState.ok (if (WriteBits (fun j => x (st.sp + j))
            (CompressBlock.maxb x st.sp (parts (k + 1) - parts k))
            (parts (k + 1) - parts k) st.mem st.data dlimit).1 < 0 then _ else _) = false
        rw [e1, e2, hno, if_pos (by decide)]
      rw [key] at hok
      exact Bool.false_ne_true hok
    exact ⟨Or.inr hroom,
      CompressBlock_step_inv x n np parts h hx m0 dp dlimit hwrap k (by omega) hroom st hinv⟩

/-- The partition loop of `CompressBlock` with room for the packed data: no
`WriteBits` fails, and the invariant holds. -/
theorem CompressBlock_loop_room (x : Nat → Nat) (n np : Nat) (parts : Mem)
    (h : PartShape n np parts) (hx : ∀ i, i < n → x i < 2 ^ 64) (m0 : Mem) (dp dlimit : Nat)
    (hwrap : 8 + np + 8 * n < 2 ^ 32) (hroom : dp + 8 + np + dataOff x parts np ≤ dlimit) :
    CompressBlock.Inv x parts m0 dp np np
      (forLoop np (CompressBlock.step x parts dlimit)
        { ok := true, mem := m0, sp := 0, data := dp + (np + 8), ctrl := dp + 8,
          block_size := np + 8 }) := by
  apply forLoop_inv (CompressBlock.Inv x parts m0 dp np)
  · exact ⟨rfl, h.2.1.symm, rfl, by show dp + (np + 8) = dp + 8 + np + 0; omega,
      by show np + 8 = 8 + np + 0; omega, fun _ _ => rfl,
      fun j hj => absurd hj (Nat.not_lt_zero j), fun j hj => absurd hj (Nat.not_lt_zero j)⟩
  · intro k st hk hinv
    have hmono := dataOff_mono x parts (np - (k + 1)) (k + 1)
    have e : k + 1 + (np - (k + 1)) = np := by omega
    rw [e] at hmono
    exact CompressBlock_step_inv x n np parts h hx m0 dp dlimit hwrap k hk (by omega) st hinv

/-- A block of at least 144 elements whose packed data fit before `dlimit`,
`parts[0..np]` being the partition of its first `n - 16` elements: the size, the
header, the control bytes, the packed partitions and the tail. -/
theorem CompressBlock_framed_parts (x : Nat → Nat) (n : Nat) (dst : Mem) (dp dlimit : Nat)
    (hn : 144 ≤ n) (hx : ∀ i, i < n → x i < 2 ^ 64) (hwrap : 9 * n < 2 ^ 32)
    (np : Nat) (parts : Mem) (hcp : ComputePartition x (n - 16) (fun _ => 0) = some (np, parts))
    (hshape : PartShape (n - 16) np parts)
    (hroom : dp + 8 + np + dataOff x parts np ≤ dlimit) :
    ∃ out, CompressBlock x n dst dp dlimit = some (8 + np + dataOff x parts np + 128, out) ∧
      DecodeUint32 out dp = 8 + np + dataOff x parts np + 128 ∧
      DecodeUint32 out (dp + 4) = np + 8 ∧
      (∀ i, i < np → out (dp + 8 + i) = ctrlByte x parts i) ∧
      (∀ i, i < np → ∀ e, e < partLen parts i →
        getBits out (dp + 8 + np + dataOff x parts i) (e * partWidth x parts i)
          (partWidth x parts i) = x (parts i + e)) ∧
      (∀ t, t < 16 → DecodeUint64 out (dp + 8 + np + dataOff x parts np + 8 * t)
        = x (n - 16 + t)) ∧
      (∀ a, a < dp ∨ dp + (8 + np + dataOff x parts np + 128) ≤ a → out a = dst a) := by
  have hx' : ∀ i, i < n - 16 → x i < 2 ^ 64 := fun i hi => hx i (by omega)
  have hm := parts_mono (n - 16) np parts hshape
  have hnp := (hm np (Nat.le_refl np)).2
  have hpn : parts np = n - 16 := hshape.2.2.1
  have hdo := dataOff_le x (n - 16) np parts hshape hx' np (Nat.le_refl np)
  have hoff : (np + 8) % 2 ^ 32 = np + 8 := Nat.mod_eq_of_lt (by omega)
  -- the partition loop
  have hinv := CompressBlock_loop_room x (n - 16) np parts hshape hx'
    (SetUint32 dst (dp + 4) (np + 8)) dp dlimit (by omega) hroom
  unfold CompressBlock
  rw [if_neg (by rw [max_partition_eq, max_overrun_eq]; omega)]
  simp only [max_overrun_eq, hcp, hoff]
  generalize forLoop np (CompressBlock.step x parts dlimit)
    { ok := true, mem := SetUint32 dst (dp + 4) (np + 8), sp := 0, data := dp + (np + 8),
      ctrl := dp + 8, block_size := np + 8 } = st at hinv
  obtain ⟨i1, i2, i3, i4, i5, i6, i7, i8⟩ := hinv
  rw [if_pos i1]
  obtain ⟨t1, t2⟩ := u64_loop_get (fun i => x (st.sp + i)) st.mem st.data 16
  have hbs : (st.block_size + 8 * 16) % 2 ^ 32 = 8 + np + dataOff x parts np + 128 := by
    rw [i5, Nat.mod_eq_of_lt (by omega)]
  rw [hbs]
  generalize hR : 8 + np + dataOff x parts np + 128 = R
  generalize hm1 : forLoop 16 (fun i m => SetUint64 m (st.data + i * 8) (x (st.sp + i))) st.mem
    = m1 at t1 t2
  have hout : ∀ a, dp + 4 ≤ a → SetUint32 m1 dp R a = m1 a := by
    intro a ha
    rw [SetUint32_read, if_neg (by omega)]
  have hnp1 : 1 ≤ np := hshape.1
  refine ⟨_, rfl, ?_, ?_, ?_, ?_, ?_, ?_⟩
  · rw [DecodeUint32_SetUint32, Nat.mod_eq_of_lt (by omega)]
  · rw [DecodeUint32_congr _ (SetUint32 dst (dp + 4) (np + 8)) (dp + 4)
      (fun k hk => by
        rw [hout _ (by omega), t2 _ (by omega)]
        exact i6 _ (by omega)),
      DecodeUint32_SetUint32, Nat.mod_eq_of_lt (by omega)]
  · intro i hi
    rw [hout _ (by omega), t2 _ (by omega)]
    exact i7 i hi
  · intro i hi e he
    rw [← i8 i hi e he]
    have hle : e * partWidth x parts i + partWidth x parts i
        ≤ partLen parts i * partWidth x parts i := by
      have : (e + 1) * partWidth x parts i ≤ partLen parts i * partWidth x parts i :=
        Nat.mul_le_mul_right _ he
      rw [Nat.add_mul, Nat.one_mul] at this
      exact this
    have hL8 : partLen parts i * partWidth x parts i
        ≤ 8 * bytesFor (partLen parts i * partWidth x parts i) := by
      unfold bytesFor; omega
    have hmono := dataOff_mono x parts (np - (i + 1)) (i + 1)
    have hji2 : i + 1 + (np - (i + 1)) = np := by omega
    rw [hji2] at hmono
    have hdj : dataOff x parts (i + 1)
        = dataOff x parts i + bytesFor (partLen parts i * partWidth x parts i) := rfl
    exact getBits_congr _ _ _ _ _ (bytesFor (partLen parts i * partWidth x parts i)) (by omega)
      (fun k hk => by rw [hout _ (by omega), t2 _ (by omega)])
  · intro t ht
    rw [DecodeUint64_congr _ m1 _ (fun k hk => hout _ (by omega)), ← i4, t1 t ht, i2, hpn,
      Nat.mod_eq_of_lt (hx _ (by omega))]
  · intro a ha
    rw [SetUint32_read, if_neg (by omega), t2 a (by omega), i6 a (by omega), SetUint32_read,
      if_neg (by omega)]

/-- A block of at least 144 elements whose packed data do not fit before
`dlimit`: `CompressBlock` returns 0. -/
theorem CompressBlock_framed_fail (x : Nat → Nat) (n : Nat) (dst : Mem) (dp dlimit : Nat)
    (hn : 144 ≤ n) (hx : ∀ i, i < n → x i < 2 ^ 64) (hwrap : 9 * n < 2 ^ 32)
    (np : Nat) (parts : Mem) (hcp : ComputePartition x (n - 16) (fun _ => 0) = some (np, parts))
    (hshape : PartShape (n - 16) np parts)
    (hroom : ¬ dp + 8 + np + dataOff x parts np ≤ dlimit) :
    ∃ out, CompressBlock x n dst dp dlimit = some (0, out) := by
  have hx' : ∀ i, i < n - 16 → x i < 2 ^ 64 := fun i hi => hx i (by omega)
  have hm := parts_mono (n - 16) np parts hshape
  have hnp := (hm np (Nat.le_refl np)).2
  have hpn : parts np = n - 16 := hshape.2.2.1
  have hoff : (np + 8) % 2 ^ 32 = np + 8 := Nat.mod_eq_of_lt (by omega)
  have hnp1 : 1 ≤ np := hshape.1
  have hok := CompressBlock_loop_ok x (n - 16) np parts hshape hx'
    (SetUint32 dst (dp + 4) (np + 8)) dp dlimit (by omega) np (Nat.le_refl np)
  unfold CompressBlock
  rw [if_neg (by rw [max_partition_eq, max_overrun_eq]; omega)]
  simp only [max_overrun_eq, hcp, hoff]
  generalize forLoop np (CompressBlock.step x parts dlimit)
    { ok := true, mem := SetUint32 dst (dp + 4) (np + 8), sp := 0, data := dp + (np + 8),
      ctrl := dp + 8, block_size := np + 8 } = st at hok
  have hf : ¬ st.ok = true := by
    intro hc
    obtain ⟨h1, _⟩ := hok hc
    omega
  rw [if_neg hf]
  exact ⟨_, rfl⟩

/-- A block of at least 144 elements with room for `9 n` bytes is laid out as a
block, and is shorter than that by 8 bytes at least. -/
theorem CompressBlock_framed (x : Nat → Nat) (n : Nat) (dst : Mem) (dp dlimit : Nat)
    (hn : 144 ≤ n) (hx : ∀ i, i < n → x i < 2 ^ 64) (hroom : dp + 9 * n ≤ dlimit)
    (hwrap : 9 * n < 2 ^ 32) :
    ∃ R out, CompressBlock x n dst dp dlimit = some (R, out) ∧
      BlockLayout out dp x n R ∧ 136 < R ∧ R + 8 ≤ 9 * n ∧
      (∀ a, a < dp ∨ dp + R ≤ a → out a = dst a) := by
  obtain ⟨np, parts, hcp, hshape⟩ := ComputePartition_PartShape x (n - 16) (fun _ => 0) (by omega)
  have hx' : ∀ i, i < n - 16 → x i < 2 ^ 64 := fun i hi => hx i (by omega)
  have hm := parts_mono (n - 16) np parts hshape
  have hnp := (hm np (Nat.le_refl np)).2
  have hpn : parts np = n - 16 := hshape.2.2.1
  have hdo := dataOff_le x (n - 16) np parts hshape hx' np (Nat.le_refl np)
  have hnp1 : 1 ≤ np := hshape.1
  obtain ⟨out, h1, h2, h3, h4, h5, h6, h7⟩ := CompressBlock_framed_parts x n dst dp dlimit hn hx
    hwrap np parts hcp hshape (by omega)
  refine ⟨_, out, h1, ?_, by omega, by omega, h7⟩
  unfold BlockLayout
  rw [if_neg (by omega)]
  exact ⟨np, parts, hshape, rfl, h2, h3, h4, h5, h6⟩

/-! ## What the result of `CompressBlock` depends on -/

theorem forLoop_congr {σ : Type} (n : Nat) (f g : Nat → σ → σ) (init : σ)
    (h : ∀ k, k < n → ∀ s, f k s = g k s) : forLoop n f init = forLoop n g init := by
  induction n with
  | zero => rw [forLoop_zero, forLoop_zero]
  | succ k ih =>
    rw [forLoop_succ, forLoop_succ, ih (fun j hj s => h j (Nat.lt_succ_of_lt hj) s),
      h k (Nat.lt_succ_self k)]

/-- The rounded width of `b` bits is the least width of `bits_length[]` that
holds them. -/
theorem roundup_bits_least (b : Nat) (hb : b ≤ 64) :
    ∀ w ∈ bits_length, b ≤ w → roundup_bits.getD b 0 ≤ w := by
  interval_cases b <;> decide

theorem roundup_bits_mono (a b : Nat) (hab : a ≤ b) (hb : b ≤ 64) :
    roundup_bits.getD a 0 ≤ roundup_bits.getD b 0 := by
  obtain ⟨h1, h2⟩ := roundup_bits_spec b hb
  exact roundup_bits_least a (by omega) _ h1 (by omega)

theorem usedBits_le (x : Nat) : usedBits x ≤ 64 := by
  unfold usedBits
  omega

theorem foldl_max_range_succ (f : Nat → Nat) (k : Nat) :
    ((List.range (k + 1)).map f).foldl max 0 = max (((List.range k).map f).foldl max 0) (f k) := by
  rw [List.range_succ, List.map_append, List.foldl_append]
  rfl

theorem foldl_max_le (f : Nat → Nat) (B : Nat) (h : ∀ j, f j ≤ B) :
    ∀ k, ((List.range k).map f).foldl max 0 ≤ B := by
  intro k
  induction k with
  | zero => exact Nat.zero_le B
  | succ k ih =>
    rw [foldl_max_range_succ]
    exact Nat.max_le.mpr ⟨ih, h k⟩

/-- The width `CompressBlock` computes for a partition is the rounded width of the
largest used bit length of its elements. -/
theorem maxb_eq_runWidth (src : Nat → Nat) (sp plen : Nat) :
    CompressBlock.maxb src sp plen = runWidth src sp (sp + plen) := by
  unfold runWidth
  rw [Nat.add_sub_cancel_left]
  induction plen with
  | zero => rfl
  | succ k ih =>
    unfold CompressBlock.maxb at ih ⊢
    rw [forLoop_succ, ih, foldl_max_range_succ]
    simp only []
    have hM := foldl_max_le (fun j => usedBits (src (sp + j))) 64 (fun j => usedBits_le _) k
    have hu := usedBits_le (src (sp + k))
    generalize ((List.range k).map (fun j => usedBits (src (sp + j)))).foldl max 0 = M at hM
    generalize usedBits (src (sp + k)) = u at hu
    by_cases hMu : M ≤ u
    · have := roundup_bits_mono M u hMu hu
      rw [Nat.max_eq_right hMu]
      split_ifs <;> omega
    · have := roundup_bits_mono u M (by omega) hM
      rw [Nat.max_eq_left (by omega)]
      split_ifs <;> omega

theorem maxb_congr (x x' : Nat → Nat) (sp plen : Nat) (h : ∀ j, j < plen → x (sp + j) = x' (sp + j)) :
    CompressBlock.maxb x sp plen = CompressBlock.maxb x' sp plen := by
  unfold CompressBlock.maxb
  exact forLoop_congr plen _ _ 0 (fun k hk s => by simp only [h k hk])

/-- The function `WriteBits` reads the `n` elements it packs and no other. -/
theorem WriteBits_congr (src src' : Nat → Nat) (w n : Nat) (dst : Mem) (dp dlimit : Nat)
    (h : ∀ i, i < n → src i = src' i) :
    WriteBits src w n dst dp dlimit = WriteBits src' w n dst dp dlimit := by
  unfold WriteBits
  rw [forLoop_congr n (fun i m => SetUint64 m (dp + i * 8) (src i))
      (fun i m => SetUint64 m (dp + i * 8) (src' i)) dst (fun k hk s => by simp only [h k hk]),
    forLoop_congr n (WriteBits.step src w) (WriteBits.step src' w) _
      (fun k hk s => by unfold WriteBits.step; simp only [h k hk])]

theorem partition_length_getD_pos (j : Nat) (hj : j < 16) : 1 ≤ partition_length.getD j 0 := by
  interval_cases j <;> decide

/-- The arrays of `ComputePartition` depend on the first `n` elements only. -/
theorem table_congr (x x' : Nat → Nat) (n : Nat) (hn : 128 ≤ n) (h : ∀ i, i < n → x i = x' i) :
    ComputePartition.table x n = ComputePartition.table x' n := by
  have hseed : ∀ t, ComputePartition.seed x t = ComputePartition.seed x' t := by
    intro t
    unfold ComputePartition.seed
    rw [max_partition_eq]
    simp only [h 0 (by omega)]
    exact forLoop_congr _ _ _ _ (fun k hk s => by simp only [h (k + 1) (by omega)])
  unfold ComputePartition.table
  rw [hseed, max_partition_eq]
  apply forLoop_congr
  intro k hk t
  unfold ComputePartition.outer
  rw [partition_length_length]
  refine congrArg Prod.snd ?_
  apply forLoop_congr
  intro j hj st
  have := partition_length_getD_pos j hj
  unfold ComputePartition.inner
  simp only [h (128 + k - partition_length.getD j 0) (by omega)]

theorem ComputePartition_congr (x x' : Nat → Nat) (n : Nat) (hn : 128 ≤ n)
    (h : ∀ i, i < n → x i = x' i) (parts0 : Mem) :
    ComputePartition x n parts0 = ComputePartition x' n parts0 := by
  rw [ComputePartition_eq, ComputePartition_eq, table_congr x x' n hn h]

/-- The partition loop of `CompressBlock` reads the partitioned elements only. -/
theorem CompressBlock_loop_congr (x x' : Nat → Nat) (n np : Nat) (parts : Mem)
    (hs : PartShape n np parts) (hx : ∀ i, i < n → x i < 2 ^ 64) (h : ∀ i, i < n → x i = x' i)
    (m0 : Mem) (dp dlimit : Nat) (hwrap : 8 + np + 8 * n < 2 ^ 32) (K : Nat) (hK : K ≤ np) :
    forLoop K (CompressBlock.step x parts dlimit)
      { ok := true, mem := m0, sp := 0, data := dp + (np + 8), ctrl := dp + 8,
        block_size := np + 8 } =
    forLoop K (CompressBlock.step x' parts dlimit)
      { ok := true, mem := m0, sp := 0, data := dp + (np + 8), ctrl := dp + 8,
        block_size := np + 8 } := by
  induction K with
  | zero => rw [forLoop_zero, forLoop_zero]
  | succ k ih =>
    rw [forLoop_succ, forLoop_succ, ← ih (by omega)]
    have hok := CompressBlock_loop_ok x n np parts hs hx m0 dp dlimit hwrap k (by omega)
    generalize forLoop k (CompressBlock.step x parts dlimit)
      { ok := true, mem := m0, sp := 0, data := dp + (np + 8), ctrl := dp + 8,
        block_size := np + 8 } = st at hok
    unfold CompressBlock.step
    by_cases hst : st.ok = true
    · obtain ⟨_, _, i2, _⟩ := hok hst
      have hm := (parts_mono n np parts hs (k + 1) (by omega)).1
      have hlt := hs.2.2.2.1 k (by omega)
      have hidx : ∀ j, j < parts (k + 1) - parts k → x (st.sp + j) = x' (st.sp + j) :=
        fun j hj => h _ (by omega)
      simp only [maxb_congr x x' st.sp _ hidx,
        WriteBits_congr (fun j => x (st.sp + j)) (fun j => x' (st.sp + j)) _ _ _ _ _ hidx]
    · rw [if_neg hst, if_neg hst]

/-- A call of `CompressBlock` on at least 144 elements that returns a size other
than 0: the partition of the first `n - 16` elements, whose packed data fit
before `dlimit`, the size, and what the block holds. -/
theorem CompressBlock_success (x : Nat → Nat) (n : Nat) (dst : Mem) (dp dlimit : Nat)
    (hn : 144 ≤ n) (hx : ∀ i, i < n → x i < 2 ^ 64) (hwrap : 9 * n < 2 ^ 32)
    (R : Nat) (out : Mem) (hs : CompressBlock x n dst dp dlimit = some (R, out)) (hR : R ≠ 0) :
    ∃ np parts, ComputePartition x (n - 16) (fun _ => 0) = some (np, parts) ∧
      PartShape (n - 16) np parts ∧
      dp + 8 + np + dataOff x parts np ≤ dlimit ∧
      R = 8 + np + dataOff x parts np + 128 ∧
      DecodeUint32 out dp = R ∧
      DecodeUint32 out (dp + 4) = np + 8 ∧
      (∀ i, i < np → out (dp + 8 + i) = ctrlByte x parts i) ∧
      (∀ i, i < np → ∀ e, e < partLen parts i →
        getBits out (dp + 8 + np + dataOff x parts i) (e * partWidth x parts i)
          (partWidth x parts i) = x (parts i + e)) ∧
      (∀ t, t < 16 → DecodeUint64 out (dp + 8 + np + dataOff x parts np + 8 * t)
        = x (n - 16 + t)) ∧
      (∀ a, a < dp ∨ dp + R ≤ a → out a = dst a) := by
  obtain ⟨np, parts, hcp, hshape⟩ := ComputePartition_PartShape x (n - 16) (fun _ => 0) (by omega)
  by_cases hroom : dp + 8 + np + dataOff x parts np ≤ dlimit
  · obtain ⟨out', h1, h2, h3, h4, h5, h6, h7⟩ := CompressBlock_framed_parts x n dst dp dlimit hn
      hx hwrap np parts hcp hshape hroom
    rw [h1] at hs
    injection hs with hs
    injection hs with e1 e2
    subst e1 e2
    exact ⟨np, parts, hcp, hshape, hroom, rfl, h2, h3, h4, h5, h6, h7⟩
  · obtain ⟨out', h1⟩ := CompressBlock_framed_fail x n dst dp dlimit hn hx hwrap np parts hcp
      hshape hroom
    rw [h1] at hs
    injection hs with hs
    injection hs with e1 e2
    exact absurd e1.symm hR

/-- The last 16 elements of a block of at least 144 elements take no part in the
partition and in the packed data: with other last 16 elements `CompressBlock`
returns the same size and writes the same bytes before the last 128 bytes of the
block. -/
theorem CompressBlock_prefix (x x' : Nat → Nat) (n : Nat) (dst : Mem) (dp dlimit : Nat)
    (hn : 144 ≤ n) (hx : ∀ i, i < n → x i < 2 ^ 64)
    (hwrap : 9 * n < 2 ^ 32) (h : ∀ i, i < n - 16 → x i = x' i)
    (R : Nat) (out : Mem) (hs : CompressBlock x n dst dp dlimit = some (R, out)) (hR : R ≠ 0) :
    ComputePartition x' (n - 16) (fun _ => 0) = ComputePartition x (n - 16) (fun _ => 0) ∧
    ∃ out', CompressBlock x' n dst dp dlimit = some (R, out') ∧
      ∀ a, a < dp + R - 128 ∨ dp + R ≤ a → out' a = out a := by
  have hcong := ComputePartition_congr x x' (n - 16) (by omega) h (fun _ => 0)
  obtain ⟨np, parts, hcp, hshape, hroom, hRe, _⟩ := CompressBlock_success x n dst dp dlimit hn hx
    hwrap R out hs hR
  have hxs : ∀ i, i < n - 16 → x i < 2 ^ 64 := fun i hi => hx i (by omega)
  have hm := parts_mono (n - 16) np parts hshape
  have hnp := (hm np (Nat.le_refl np)).2
  have hpn : parts np = n - 16 := hshape.2.2.1
  have hdo := dataOff_le x (n - 16) np parts hshape hxs np (Nat.le_refl np)
  have hoff : (np + 8) % 2 ^ 32 = np + 8 := Nat.mod_eq_of_lt (by omega)
  have hloop := CompressBlock_loop_congr x x' (n - 16) np parts hshape hxs h
    (SetUint32 dst (dp + 4) (np + 8)) dp dlimit (by omega) np (Nat.le_refl np)
  have hinv := CompressBlock_loop_room x (n - 16) np parts hshape hxs
    (SetUint32 dst (dp + 4) (np + 8)) dp dlimit (by omega) hroom
  refine ⟨hcong.symm, ?_⟩
  unfold CompressBlock at hs ⊢
  rw [if_neg (by rw [max_partition_eq, max_overrun_eq]; omega)] at hs ⊢
  simp only [max_overrun_eq, hcp, hoff, ← hcong, ← hloop] at hs ⊢
  generalize forLoop np (CompressBlock.step x parts dlimit)
    { ok := true, mem := SetUint32 dst (dp + 4) (np + 8), sp := 0, data := dp + (np + 8),
      ctrl := dp + 8, block_size := np + 8 } = st at hinv hs ⊢
  obtain ⟨i1, i2, i3, i4, i5, i6, i7, i8⟩ := hinv
  rw [if_pos i1] at hs ⊢
  injection hs with hs
  injection hs with e1 e2
  rw [e1]
  refine ⟨_, rfl, ?_⟩
  intro a ha
  obtain ⟨_, t2⟩ := u64_loop_get (fun i => x (st.sp + i)) st.mem st.data 16
  obtain ⟨_, t2'⟩ := u64_loop_get (fun i => x' (st.sp + i)) st.mem st.data 16
  rw [← e2, SetUint32_read, SetUint32_read, t2 a (by omega), t2' a (by omega), e1]

/-! ## What `UncompressBlock` reads -/

theorem toInt32_small (k : Nat) (hk : k < 2 ^ 31) : toInt32 (k : Int) = k := by
  unfold toInt32
  omega

/-- One iteration of the partition loop of `UncompressBlock` keeps the
invariant, on a source that holds a block. -/
theorem UncompressBlock_step_inv (m : Mem) (sp : Nat) (x : Nat → Nat) (n np : Nat) (parts : Mem)
    (hn : 16 ≤ n) (hshape : PartShape (n - 16) np parts) (hx : ∀ i, i < n - 16 → x i < 2 ^ 64)
    (hctrl : ∀ i, i < np → m (sp + 8 + i) = ctrlByte x parts i)
    (hbits : ∀ i, i < np → ∀ e, e < partLen parts i →
      getBits m (sp + 8 + np + dataOff x parts i) (e * partWidth x parts i) (partWidth x parts i)
        = x (parts i + e))
    (buf0 : Mem) (bdp : Nat) (i : Nat) (hi : i < np) (st : UBState)
    (hinv : UncompressBlock.Inv x parts buf0 sp bdp n np i st) :
    UncompressBlock.Inv x parts buf0 sp bdp n np (i + 1)
      (UncompressBlock.step m (sp + (8 + np + dataOff x parts np + 128)) (bdp + n) i st) := by
  obtain ⟨i1, i2, i3, i4, i5, i6⟩ := hinv
  obtain ⟨w1, w2, w3, w4⟩ := partWidth_spec x (n - 16) np parts hshape hx i hi
  have hm := parts_mono (n - 16) np parts hshape
  have hp1 := (hm (i + 1) (by omega)).1
  obtain ⟨c1, c2⟩ := ctrl_byte_decode _ w1 _ w2
  obtain ⟨o1, o2⟩ := overrun_bound _ w1 _ w2
  have hmono := dataOff_mono x parts (np - (i + 1)) (i + 1)
  have hji2 : i + 1 + (np - (i + 1)) = np := by omega
  rw [hji2] at hmono
  have hdo : dataOff x parts (i + 1)
      = dataOff x parts i + bytesFor (partLen parts i * partWidth x parts i) := rfl
  obtain ⟨u1, u2, u3⟩ := unpackerFor_ok (partWidth x parts i) w1 m st.data
    (sp + (8 + np + dataOff x parts np + 128)) st.mem st.dp (bdp + n) (partLen parts i)
    (by omega) (by omega)
  unfold UncompressBlock.step
  rw [if_pos i1]
  have hc : m st.ctrl = ctrlByte x parts i := by rw [i4]; exact hctrl i hi
  rw [hc]
  unfold ctrlByte
  rw [c1, c2]
  have hU : unpackers.getD (ctrl_bit.getD (partWidth x parts i) 0) Unpack0
    = unpackerFor (partWidth x parts i) := rfl
  simp only [hU, u1, Int.toNat_ofNat]
  rw [if_neg (by omega)]
  refine ⟨rfl, ?_, ?_, ?_, ?_, ?_⟩
  · show st.data + bytesFor (partLen parts i * partWidth x parts i) = _
    omega
  · show st.dp + partLen parts i = _
    omega
  · show st.ctrl + 1 = _
    omega
  · intro e he
    show (unpackerFor (partWidth x parts i) m st.data _ st.mem st.dp (bdp + n)
      (partLen parts i)).2 (bdp + e) = x e
    by_cases hlt : e < parts i
    · rw [u3 _ (by omega)]
      exact i5 e hlt
    · have he' : bdp + e = st.dp + (e - parts i) := by omega
      rw [he', u2 _ (by omega), i2, hbits i hi _ (by omega)]
      congr 1
      omega
  · intro a ha
    show (unpackerFor (partWidth x parts i) m st.data _ st.mem st.dp (bdp + n)
      (partLen parts i)).2 a = buf0 a
    rw [u3 a (by omega)]
    exact i6 a ha

/-- On a source that holds a block of `n` elements `x`, `UncompressBlock` returns
the size of the block, stores `x` in the `n` destination elements and changes
no other element. -/
theorem UncompressBlock_of_layout (m : Mem) (sp : Nat) (x : Nat → Nat) (n R : Nat)
    (hx : ∀ i, i < n → x i < 2 ^ 64) (hn : n < 2 ^ 28) (hlay : BlockLayout m sp x n R)
    (buf : Mem) (bdp : Nat) :
    (UncompressBlock m sp buf bdp n).1 = R ∧
    (∀ i, i < n → (UncompressBlock m sp buf bdp n).2 (bdp + i) = x i) ∧
    (∀ a, a < bdp ∨ bdp + n ≤ a → (UncompressBlock m sp buf bdp n).2 a = buf a) := by
  unfold BlockLayout at hlay
  unfold UncompressBlock
  by_cases h144 : n < 144
  · rw [if_pos h144] at hlay
    obtain ⟨hR, hdec⟩ := hlay
    rw [if_pos (by rw [max_partition_eq, max_overrun_eq]; omega)]
    refine ⟨?_, fun i hi => ?_, fun a ha => ?_⟩
    · show n * 8 % 2 ^ 32 = R
      omega
    · show (forLoop n (fun i m' => m'.write (bdp + i) (DecodeUint64 m (sp + 8 * i))) buf)
        (bdp + i) = x i
      rw [simple_loop (fun i => DecodeUint64 m (sp + 8 * i)) buf bdp n, if_pos (by omega),
        Nat.add_sub_cancel_left]
      exact hdec i hi
    · show (forLoop n (fun i m' => m'.write (bdp + i) (DecodeUint64 m (sp + 8 * i))) buf) a
        = buf a
      rw [simple_loop (fun i => DecodeUint64 m (sp + 8 * i)) buf bdp n, if_neg (by omega)]
  · rw [if_neg h144] at hlay
    obtain ⟨np, parts, hshape, hR, hd1, hd2, hctrl, hbits, htail⟩ := hlay
    have hx' : ∀ i, i < n - 16 → x i < 2 ^ 64 := fun i hi => hx i (by omega)
    have hm := parts_mono (n - 16) np parts hshape
    have hnp := (hm np (Nat.le_refl np)).2
    have hpn : parts np = n - 16 := hshape.2.2.1
    rw [if_neg (by rw [max_partition_eq, max_overrun_eq]; omega)]
    simp only [hd1, hd2, max_overrun_eq]
    have hnl : toInt32 (((sp + (np + 8) : Nat) : Int) - ((sp + 8 : Nat) : Int)) = (np : Int) := by
      rw [← toInt32_small np (by omega)]
      congr 1
      omega
    rw [hnl]
    simp only [Int.toNat_ofNat]
    have hinv := forLoop_inv (UncompressBlock.Inv x parts buf sp bdp n np) np
      (UncompressBlock.step m (sp + R) (bdp + n))
      { ok := true, mem := buf, data := sp + (np + 8), dp := bdp, ctrl := sp + 8 }
      ⟨rfl, by show sp + (np + 8) = sp + 8 + np + 0; omega,
        by show bdp = bdp + parts 0; rw [hshape.2.1]; rfl, rfl,
        fun e he => by rw [hshape.2.1] at he; exact absurd he (Nat.not_lt_zero e),
        fun _ _ => rfl⟩
      (fun k s hk hs => by
        rw [hR]
        exact UncompressBlock_step_inv m sp x n np parts (by omega) hshape hx' hctrl hbits buf bdp
          k hk s hs)
    generalize forLoop np (UncompressBlock.step m (sp + R) (bdp + n))
      { ok := true, mem := buf, data := sp + (np + 8), dp := bdp, ctrl := sp + 8 } = st at hinv
    obtain ⟨i1, i2, i3, i4, i5, i6⟩ := hinv
    rw [if_pos i1]
    refine ⟨rfl, fun i hi => ?_, fun a ha => ?_⟩
    · show (forLoop 16 (fun i m' => m'.write (st.dp + i) (DecodeUint64 m (st.data + 8 * i)))
        st.mem) (bdp + i) = x i
      rw [simple_loop (fun i => DecodeUint64 m (st.data + 8 * i)) st.mem st.dp 16]
      by_cases hlt : i < n - 16
      · rw [if_neg (by omega)]
        exact i5 i (by omega)
      · rw [if_pos (by omega), i2, htail _ (by omega)]
        congr 1
        omega
    · show (forLoop 16 (fun i m' => m'.write (st.dp + i) (DecodeUint64 m (st.data + 8 * i)))
        st.mem) a = buf a
      rw [simple_loop (fun i => DecodeUint64 m (st.data + 8 * i)) st.mem st.dp 16,
        if_neg (by omega)]
      exact i6 a ha

/-! ## The frame driver -/

/-- The layout of a block is a property of the bytes of the block. -/
theorem BlockLayout_congr (m m' : Mem) (a : Nat) (x : Nat → Nat) (n R : Nat)
    (hx : ∀ i, i < n → x i < 2 ^ 64)
    (h : ∀ y, a ≤ y → y < a + R → m' y = m y) (hlay : BlockLayout m a x n R) :
    BlockLayout m' a x n R := by
  unfold BlockLayout at hlay ⊢
  by_cases h144 : n < 144
  · rw [if_pos h144] at hlay ⊢
    obtain ⟨hR, hdec⟩ := hlay
    refine ⟨hR, fun i hi => ?_⟩
    rw [← hdec i hi]
    exact DecodeUint64_congr _ _ _ (fun k hk => h _ (by omega) (by omega))
  · rw [if_neg h144] at hlay ⊢
    obtain ⟨np, parts, hshape, hR, hd1, hd2, hctrl, hbits, htail⟩ := hlay
    have hx' : ∀ i, i < n - 16 → x i < 2 ^ 64 := fun i hi => hx i (by omega)
    refine ⟨np, parts, hshape, hR, ?_, ?_, ?_, ?_, ?_⟩
    · rw [← hd1]
      exact DecodeUint32_congr _ _ _ (fun k hk => h _ (by omega) (by omega))
    · rw [← hd2]
      exact DecodeUint32_congr _ _ _ (fun k hk => h _ (by omega) (by omega))
    · intro i hi
      rw [← hctrl i hi]
      exact h _ (by omega) (by omega)
    · intro i hi e he
      rw [← hbits i hi e he]
      have hle : e * partWidth x parts i + partWidth x parts i
          ≤ partLen parts i * partWidth x parts i := by
        have : (e + 1) * partWidth x parts i ≤ partLen parts i * partWidth x parts i :=
          Nat.mul_le_mul_right _ he
        rw [Nat.add_mul, Nat.one_mul] at this
        exact this
      have hL8 : partLen parts i * partWidth x parts i
          ≤ 8 * bytesFor (partLen parts i * partWidth x parts i) := by
        unfold bytesFor; omega
      have hmono := dataOff_mono x parts (np - (i + 1)) (i + 1)
      have hji2 : i + 1 + (np - (i + 1)) = np := by omega
      rw [hji2] at hmono
      have hdj : dataOff x parts (i + 1)
          = dataOff x parts i + bytesFor (partLen parts i * partWidth x parts i) := rfl
      exact getBits_congr _ _ _ _ _ (bytesFor (partLen parts i * partWidth x parts i)) (by omega)
        (fun k hk => h _ (by omega) (by omega))
    · intro t ht
      rw [← htail t ht]
      exact DecodeUint64_congr _ _ _ (fun k hk => h _ (by omega) (by omega))

/-- The compression of one block inside `Compress`, with room for it. -/
theorem Compress_block_ok (x : Nat → Nat) (k dlimit : Nat) (st : CState) (hok : st.ok = true)
    (hk1 : 1 ≤ k) (hk : k ≤ 65536) (hx : ∀ i, i < k → x (st.sp + i) < 2 ^ 64)
    (hroom : st.dp + 9 * k ≤ dlimit) :
    ∃ R out, 0 < R ∧ R ≤ 9 * k ∧ (144 ≤ k → R + 8 ≤ 9 * k) ∧
      Compress.block x k dlimit (some st)
        = some { ok := true, mem := out, sp := st.sp + k, dp := st.dp + R, wsize := st.wsize + R } ∧
      BlockLayout out st.dp (fun j => x (st.sp + j)) k R ∧
      (∀ a, a < st.dp ∨ st.dp + R ≤ a → out a = st.mem a) ∧
      CompressBlock (fun j => x (st.sp + j)) k st.mem st.dp dlimit = some (R, out) := by
  unfold Compress.block
  simp only []
  rw [if_pos hok]
  by_cases h144 : k < 144
  · obtain ⟨out, h1, h2, h3⟩ := CompressBlock_raw (fun j => x (st.sp + j)) k st.mem st.dp dlimit
      h144 hx
    rw [h1]
    simp only []
    rw [if_neg (by omega)]
    exact ⟨8 * k, out, by omega, by omega, fun h => by omega, rfl, h2, h3, rfl⟩
  · obtain ⟨R, out, h1, h2, h3, h4, h5⟩ := CompressBlock_framed (fun j => x (st.sp + j)) k
      st.mem st.dp dlimit (by omega) hx hroom (by omega)
    rw [h1]
    simp only []
    rw [if_neg (by omega)]
    exact ⟨R, out, by omega, by omega, fun _ => h4, rfl, h2, h5, rfl⟩

theorem block_num_eq : block_num = 65536 := rfl

theorem VP64_MAGICNUM_lt : VP64_MAGICNUM < 2 ^ 64 := by decide

/-- The full blocks of `Compress`: the invariant holds after every block. -/
theorem Compress_loop_inv (x : Nat → Nat) (dst : Mem) (n : Nat)
    (hx : ∀ i, i < n → x i < 2 ^ 64) (K : Nat) (hK : K ≤ n / block_num) :
    Compress.Inv x dst K
      (forLoop K (fun _ st => Compress.block x block_num (CompressBound n) st)
        (some { ok := true, mem := SetUint64 dst 0 VP64_MAGICNUM, sp := 0, dp := 8, wsize := 8 })) := by
  have hdiv : block_num * (n / block_num) ≤ n := Nat.mul_div_le n block_num
  have hbound : 8 + 9 * n ≤ CompressBound n := by
    unfold CompressBound; simp only []; omega
  rw [block_num_eq] at hdiv hK
  apply forLoop_inv (fun k st => k ≤ n / block_num → Compress.Inv x dst k st) K _ _ _ _ hK
  · intro _
    refine ⟨fun _ => 8, _, rfl, rfl, rfl, rfl, rfl, rfl, Nat.le_refl 8, Nat.le_refl 8, ?_,
      fun y _ => rfl, ?_⟩
    · intro j hj
      omega
    · intro y hy
      have hy8 : 8 ≤ y := hy
      show SetUint64 dst 0 VP64_MAGICNUM y = dst y
      rw [SetUint64_read, if_neg (by omega)]
  · intro k st hk ih hk1
    rw [block_num_eq] at hk1
    obtain ⟨offs, s, hst, hok, hsp, hdp, hws, h0, h8, hsz, hblocks, hmagic, hframe⟩ :=
      ih (by rw [block_num_eq]; omega)
    rw [block_num_eq] at hsp hsz
    have hxk : ∀ i, i < block_num → x (s.sp + i) < 2 ^ 64 := by
      intro i hi
      rw [block_num_eq] at hi
      exact hx _ (by omega)
    obtain ⟨R, out, hR0, hR9, hR8, hres, hlay, hfr, _⟩ := Compress_block_ok x block_num
      (CompressBound n) s hok (by decide) (by decide) hxk (by rw [block_num_eq]; omega)
    rw [block_num_eq] at hR9 hR8
    have hR8' := hR8 (by omega)
    subst hst
    refine ⟨fun j => if j ≤ k then offs j else offs k + R, _, hres, rfl, ?_, ?_, ?_, ?_, ?_,
      ?_, ?_, ?_, ?_⟩
    · show s.sp + block_num = block_num * (k + 1)
      rw [block_num_eq]; omega
    · show s.dp + R = _
      simp only []
      rw [if_neg (by omega)]; omega
    · show s.wsize + R = _
      simp only []
      rw [if_neg (by omega)]; omega
    · simp only []
      rw [if_pos (by omega)]; exact h0
    · simp only []
      rw [if_neg (by omega)]; omega
    · simp only []
      rw [if_neg (by omega), block_num_eq]; omega
    · intro j hj
      simp only []
      rw [if_pos (by omega : j ≤ k), if_neg (by omega : ¬ k + 1 ≤ k)]
      by_cases hjk : j < k
      · obtain ⟨b1, b2, b3⟩ := hblocks j hjk
        rw [if_pos (by omega : j + 1 ≤ k)]
        refine ⟨b1, by omega, ?_⟩
        refine BlockLayout_congr s.mem out _ _ _ _ ?_ ?_ b3
        · intro i hi
          rw [block_num_eq] at hi ⊢
          exact hx _ (by omega)
        · intro y hy1 hy2
          exact hfr y (Or.inl (by omega))
      · have hjk' : j = k := by omega
        subst hjk'
        rw [if_neg (by omega : ¬ j + 1 ≤ j)]
        refine ⟨by omega, by omega, ?_⟩
        have e1 : offs j + R - offs j = R := by omega
        rw [e1, ← hdp]
        have e2 : (fun i => x (block_num * j + i)) = (fun i => x (s.sp + i)) := by
          funext i
          rw [hsp, block_num_eq]
        rw [e2]
        exact hlay
    · intro y hy
      show out y = _
      rw [hfr y (Or.inl (by omega))]
      exact hmagic y hy
    · intro y hy
      simp only [] at hy
      rw [if_neg (by omega)] at hy
      show out y = _
      rw [hfr y (Or.inr (by omega))]
      exact hframe y (by omega)

/-- The result of `Compress`: a frame that holds the input, no longer than
`8 + 9 * n` bytes; the bytes behind it are left alone. -/
theorem Compress_layout (x : Nat → Nat) (dst : Mem) (n : Nat)
    (hx : ∀ i, i < n → x i < 2 ^ 64) :
    ∃ W out offs, Compress x dst n = some (W, out) ∧ FrameLayout out x n W offs ∧
      8 ≤ W ∧ W + 8 * (n / block_num) ≤ 8 + 9 * n ∧ (∀ y, W ≤ y → out y = dst y) := by
  have hdiv : block_num * (n / block_num) + n % block_num = n := Nat.div_add_mod n block_num
  have hmod : n % block_num < block_num := Nat.mod_lt n (by decide)
  have hbound : 8 + 9 * n ≤ CompressBound n := by
    unfold CompressBound; simp only []; omega
  obtain ⟨offs, s, hst, hok, hsp, hdp, hws, h0, h8, hsz, hblocks, hmagic, hframe⟩ :=
    Compress_loop_inv x dst n hx (n / block_num) (Nat.le_refl _)
  have hmag : ∀ (m : Mem), (∀ y, y < 8 → m y = SetUint64 dst 0 VP64_MAGICNUM y) →
      DecodeUint64 m 0 = VP64_MAGICNUM := by
    intro m hm
    rw [DecodeUint64_congr m (SetUint64 dst 0 VP64_MAGICNUM) 0
      (fun k hk => hm _ (by omega)), DecodeUint64_SetUint64]
    exact Nat.mod_eq_of_lt VP64_MAGICNUM_lt
  unfold Compress FrameLayout
  simp only []
  rw [hst]
  by_cases hr : n % block_num = 0
  · rw [if_neg (by simpa using hr)]
    simp only [hok, if_true]
    refine ⟨s.wsize, s.mem, offs, rfl, ⟨hmag _ hmagic, h0, ?_, ?_⟩, by omega, ?_, ?_⟩
    · intro j hj
      obtain ⟨b1, _, b3⟩ := hblocks j hj
      exact ⟨b1, b3⟩
    · rw [if_pos hr]; exact hws
    · simp only [block_num_eq] at *; omega
    · intro y hy
      exact hframe y (by omega)
  · rw [if_pos (by simpa using hr)]
    have hxk : ∀ i, i < n % block_num → x (s.sp + i) < 2 ^ 64 := by
      intro i hi
      simp only [block_num_eq] at *
      exact hx _ (by omega)
    obtain ⟨R, out, hR0, hR9, hR8, hres, hlay, hfr, _⟩ := Compress_block_ok x (n % block_num)
      (CompressBound n) s hok (by omega) (by simp only [block_num_eq] at *; omega) hxk
      (by simp only [block_num_eq] at *; omega)
    rw [hres]
    simp only [if_true]
    refine ⟨s.wsize + R, out, offs, rfl, ⟨hmag _ ?_, h0, ?_, ?_⟩, by omega, ?_, ?_⟩
    · intro y hy
      rw [hfr y (Or.inl (by omega))]
      exact hmagic y hy
    · intro j hj
      obtain ⟨b1, b2, b3⟩ := hblocks j hj
      refine ⟨b1, BlockLayout_congr s.mem out _ _ _ _ ?_ ?_ b3⟩
      · intro i hi
        simp only [block_num_eq] at *
        exact hx _ (by omega)
      · intro y hy1 hy2
        exact hfr y (Or.inl (by omega))
    · rw [if_neg hr]
      refine ⟨by omega, ?_⟩
      have e1 : s.wsize + R - offs (n / block_num) = R := by omega
      have e2 : (fun i => x (block_num * (n / block_num) + i)) = (fun i => x (s.sp + i)) := by
        funext i
        rw [hsp]
      rw [e1, e2, ← hdp]
      exact hlay
    · simp only [block_num_eq] at *; omega
    · intro y hy
      rw [hfr y (Or.inr (by omega))]
      exact hframe y (by omega)

/-- The decompression of one block inside `Uncompress`, the block being laid
out at the source pointer. -/
theorem Uncompress_block_ok (m : Mem) (x : Nat → Nat) (k R : Nat) (st : UState)
    (hok : st.ok = true) (hk : k ≤ 65536) (hx : ∀ i, i < k → x i < 2 ^ 64) (hR : 0 < R)
    (hlay : BlockLayout m st.sp x k R) :
    (Uncompress.block m k st).ok = true ∧ (Uncompress.block m k st).sp = st.sp + R ∧
    (Uncompress.block m k st).dp = st.dp + k ∧ (Uncompress.block m k st).rsize = st.rsize + R ∧
    (∀ i, i < k → (Uncompress.block m k st).mem (st.dp + i) = x i) ∧
    (∀ a, a < st.dp ∨ st.dp + k ≤ a → (Uncompress.block m k st).mem a = st.mem a) := by
  obtain ⟨h1, h2, h3⟩ := UncompressBlock_of_layout m st.sp x k R hx (by omega) hlay st.mem st.dp
  unfold Uncompress.block
  simp only []
  rw [if_pos hok, h1, if_neg (by omega)]
  exact ⟨rfl, rfl, rfl, rfl, h2, h3⟩

/-- The full blocks of `Uncompress` on a frame: the invariant holds after every
block. -/
theorem Uncompress_loop_inv (m : Mem) (x : Nat → Nat) (n W : Nat) (offs : Nat → Nat)
    (hx : ∀ i, i < n → x i < 2 ^ 64) (hlay : FrameLayout m x n W offs) (buf : Mem)
    (K : Nat) (hK : K ≤ n / block_num) :
    Uncompress.Inv x offs buf K
      (forLoop K (fun _ st => Uncompress.block m block_num st)
        { ok := true, mem := buf, sp := 8, dp := 0, rsize := 8 }) := by
  have hdiv : block_num * (n / block_num) ≤ n := Nat.mul_div_le n block_num
  obtain ⟨_, h0, hblocks, _⟩ := hlay
  apply forLoop_inv (fun k st => k ≤ n / block_num → Uncompress.Inv x offs buf k st) K _ _ _ _ hK
  · intro _
    refine ⟨rfl, h0.symm, rfl, h0.symm, ?_, fun a _ => rfl⟩
    intro e he
    rw [Nat.mul_zero] at he
    omega
  · intro k st hk ih hk1
    obtain ⟨hok, hsp, hdp, hrs, hel, hfr⟩ := ih (by omega)
    obtain ⟨b1, b3⟩ := hblocks k (by omega)
    rw [← hsp] at b3
    have hxk : ∀ i, i < block_num → (fun i => x (block_num * k + i)) i < 2 ^ 64 := by
      intro i hi
      simp only [block_num_eq] at *
      exact hx _ (by omega)
    obtain ⟨g1, g2, g3, g4, g5, g6⟩ := Uncompress_block_ok m _ block_num _ st hok (by decide) hxk
      (by omega) b3
    refine ⟨g1, by omega, by rw [g3, hdp, Nat.mul_succ], by omega, ?_, ?_⟩
    · intro e he
      by_cases h : e < block_num * k
      · rw [g6 e (Or.inl (by omega))]
        exact hel e h
      · have := g5 (e - block_num * k) (by rw [Nat.mul_succ] at he; omega)
        rw [hdp] at this
        have e1 : block_num * k + (e - block_num * k) = e := by omega
        simp only [e1] at this
        exact this
    · intro a ha
      rw [Nat.mul_succ] at ha
      rw [g6 a (Or.inr (by omega))]
      exact hfr a (by omega)

/-- The decoder on a frame: `Uncompress` returns the size of the frame and
restores the values; what lies behind them in the destination is left alone. -/
theorem Uncompress_of_layout (m : Mem) (x : Nat → Nat) (n W : Nat) (offs : Nat → Nat)
    (hx : ∀ i, i < n → x i < 2 ^ 64) (hlay : FrameLayout m x n W offs) (buf : Mem) :
    (Uncompress m buf n).1 = W ∧ (∀ i, i < n → (Uncompress m buf n).2 i = x i) ∧
    (∀ a, n ≤ a → (Uncompress m buf n).2 a = buf a) := by
  have hdiv : block_num * (n / block_num) + n % block_num = n := Nat.div_add_mod n block_num
  have hmod : n % block_num < block_num := Nat.mod_lt n (by decide)
  obtain ⟨hok, hsp, hdp, hrs, hel, hfr⟩ :=
    Uncompress_loop_inv m x n W offs hx hlay buf (n / block_num) (Nat.le_refl _)
  obtain ⟨hmagic, h0, hblocks, hlast⟩ := hlay
  unfold Uncompress
  rw [if_neg (by rw [hmagic]; exact fun h => h rfl)]
  simp only []
  by_cases hr : n % block_num = 0
  · rw [if_pos hr] at hlast
    simp only [ne_eq, hr, not_true_eq_false, if_false, hok, if_true]
    refine ⟨by omega, fun i hi => hel i (by omega), fun a ha => hfr a (by omega)⟩
  · rw [if_neg hr] at hlast
    simp only [ne_eq, hr, not_false_eq_true, if_true]
    obtain ⟨l1, l2⟩ := hlast
    rw [← hsp] at l2
    have hxk : ∀ i, i < n % block_num → (fun i => x (block_num * (n / block_num) + i)) i
        < 2 ^ 64 := by
      intro i hi
      exact hx _ (by omega)
    obtain ⟨g1, g2, g3, g4, g5, g6⟩ := Uncompress_block_ok m _ (n % block_num) _ _ hok
      (by simp only [block_num_eq] at *; omega) hxk (by omega) l2
    simp only [g1, if_true]
    refine ⟨by omega, ?_, ?_⟩
    · intro e he
      by_cases h : e < block_num * (n / block_num)
      · rw [g6 e (Or.inl (by omega))]
        exact hel e h
      · have := g5 (e - block_num * (n / block_num)) (by omega)
        rw [hdp] at this
        have e1 : block_num * (n / block_num) + (e - block_num * (n / block_num)) = e := by
          omega
        simp only [e1] at this
        exact this
    · intro a ha
      rw [g6 a (Or.inr (by omega))]
      exact hfr a (by omega)

/-- The blocks `Compress` has written: the block `j` is what `CompressBlock`
returns and writes for the `j`-th run of `block_num` values at the place the
blocks before it end, and the blocks after it leave its bytes alone. -/
theorem Compress_trace (x : Nat → Nat) (dst : Mem) (n : Nat)
    (hx : ∀ i, i < n → x i < 2 ^ 64) (K : Nat) (hK : K ≤ n / block_num) :
    ∀ j, j < K → ∃ sj sj1 sK R,
      forLoop j (fun _ st => Compress.block x block_num (CompressBound n) st)
        (some { ok := true, mem := SetUint64 dst 0 VP64_MAGICNUM, sp := 0, dp := 8, wsize := 8 })
        = some sj ∧
      forLoop (j + 1) (fun _ st => Compress.block x block_num (CompressBound n) st)
        (some { ok := true, mem := SetUint64 dst 0 VP64_MAGICNUM, sp := 0, dp := 8, wsize := 8 })
        = some sj1 ∧
      forLoop K (fun _ st => Compress.block x block_num (CompressBound n) st)
        (some { ok := true, mem := SetUint64 dst 0 VP64_MAGICNUM, sp := 0, dp := 8, wsize := 8 })
        = some sK ∧
      R ≠ 0 ∧
      CompressBlock (fun i => x (block_num * j + i)) block_num sj.mem sj.dp (CompressBound n)
        = some (R, sj1.mem) ∧
      sj1.dp = sj.dp + R ∧ sj1.dp ≤ sK.dp ∧ ∀ y, y < sj1.dp → sK.mem y = sj1.mem y := by
  induction K with
  | zero => intro j hj; omega
  | succ k ih =>
    intro j hj
    have hdiv : block_num * (n / block_num) ≤ n := Nat.mul_div_le n block_num
    have hbound : 8 + 9 * n ≤ CompressBound n := by
      unfold CompressBound; simp only []; omega
    obtain ⟨offs, s, hst, hok, hsp, hdp, hws, h0, h8, hsz, hblocks, hmagic, hframe⟩ :=
      Compress_loop_inv x dst n hx k (by omega)
    have hxk : ∀ i, i < block_num → x (s.sp + i) < 2 ^ 64 := by
      intro i hi
      simp only [block_num_eq] at *
      exact hx _ (by omega)
    obtain ⟨R, out, hR0, hR9, hR8, hres, hlay, hfr, hcb⟩ := Compress_block_ok x block_num
      (CompressBound n) s hok (by decide) (by decide) hxk
      (by simp only [block_num_eq] at *; omega)
    have hnext : forLoop (k + 1) (fun _ st => Compress.block x block_num (CompressBound n) st)
        (some { ok := true, mem := SetUint64 dst 0 VP64_MAGICNUM, sp := 0, dp := 8, wsize := 8 })
        = some { ok := true, mem := out, sp := s.sp + block_num, dp := s.dp + R,
                 wsize := s.wsize + R } := by
      rw [forLoop_succ, hst, hres]
    by_cases hjk : j = k
    · subst hjk
      rw [hsp] at hcb
      exact ⟨s, _, _, R, hst, hnext, hnext, by omega, hcb, rfl, Nat.le_refl _, fun _ _ => rfl⟩
    · obtain ⟨sj, sj1, sK, R', t1, t2, t3, t4, t5, t6, t7, t8⟩ := ih (by omega) j (by omega)
      rw [hst] at t3
      injection t3 with t3
      subst t3
      refine ⟨sj, sj1, _, R', t1, t2, hnext, t4, t5, t6, ?_, ?_⟩
      · show sj1.dp ≤ s.dp + R
        omega
      · intro y hy
        show out y = sj1.mem y
        rw [hfr y (Or.inl (by omega))]
        exact t8 y hy

/-! ## Facts for the format of a block -/

theorem DecodeUint32_beValue (m : Mem) (a : Nat) : DecodeUint32 m a = beValue m a 4 := by
  rw [DecodeUint32_eq]
  simp only [beValue, Nat.add_zero, Nat.zero_mul, Nat.zero_add]

/-- The control byte of a width and a length holds the index of the width in
`bits_length[]` in its low 4 bits and the index of the length in
`partition_length[]` in its high 4 bits. -/
theorem ctrl_byte_index : ∀ w ∈ bits_length, ∀ l ∈ partition_length,
    (ctrl_bit.getD w 0 ||| ctrl_partition.getD l 0) < 256 ∧
    bits_length.getD ((ctrl_bit.getD w 0 ||| ctrl_partition.getD l 0) &&& 0x0f) 0 = w ∧
    partition_length.getD ((ctrl_bit.getD w 0 ||| ctrl_partition.getD l 0) >>> 4) 0 = l := by
  decide

/-- The width of a partition is the rounded width of its elements. -/
theorem partWidth_eq_runWidth (x : Nat → Nat) (n np : Nat) (parts : Mem)
    (h : PartShape n np parts) (i : Nat) (hi : i < np) :
    partWidth x parts i = runWidth x (parts i) (parts (i + 1)) := by
  have hlt := h.2.2.2.1 i hi
  unfold partWidth partLen
  rw [maxb_eq_runWidth, Nat.add_sub_cancel' (Nat.le_of_lt hlt)]

/-- The packed data of the first `k` partitions take the sum of their sizes. -/
theorem dataOff_eq_sum (x : Nat → Nat) (n np : Nat) (parts : Mem) (h : PartShape n np parts) :
    ∀ k, k ≤ np → dataOff x parts k = ((List.range k).map (fun i =>
      bytesFor ((parts (i + 1) - parts i) * runWidth x (parts i) (parts (i + 1))))).sum := by
  intro k
  induction k with
  | zero => intro _; rfl
  | succ k ih =>
    intro hk
    rw [List.range_succ, List.map_append, List.sum_append, ← ih (by omega)]
    simp only [dataOff, List.map_cons, List.map_nil, List.sum_cons, List.sum_nil, Nat.add_zero]
    rw [partWidth_eq_runWidth x n np parts h k (by omega)]
    rfl

/-! ## The back references below `max_partition` -/

/-- The main loop leaves `refs[i]` for `1 ≤ i < 128` as the seeding has set it:
`refs[i] = i - 1`. -/
theorem table_refs_low (src : Nat → Nat) (n : Nat) (i : Nat) (h1 : 1 ≤ i) (hi : i < 128) :
    (ComputePartition.table src n).refs i = ((i - 1 : Nat) : Int) := by
  unfold ComputePartition.table
  rw [max_partition_eq]
  apply forLoop_inv (fun _ (s : DPState) => s.refs i = ((i - 1 : Nat) : Int))
  · rw [seed_refs, if_pos ⟨h1, hi⟩]
  · intro k s _ ih
    rw [(outer_refs src (128 + k) s).1 i (by omega)]
    exact ih

/-- The elements of a chain are positive, each is the image of the one before
it, and the last one is sent to `0`. -/
theorem chain_next (f : Nat → Nat) (fuel : Nat) : ∀ i, i ≤ fuel →
    (∀ j, 1 ≤ j → j ≤ i → f j < j) →
    ∀ t, t < (chain f fuel i).length →
      1 ≤ (chain f fuel i).getD t 0 ∧ (chain f fuel i).getD t 0 ≤ i ∧
      (t + 1 < (chain f fuel i).length →
        (chain f fuel i).getD (t + 1) 0 = f ((chain f fuel i).getD t 0)) ∧
      (t + 1 = (chain f fuel i).length → f ((chain f fuel i).getD t 0) = 0) := by
  induction fuel with
  | zero =>
    intro i hi _ t ht
    have : i = 0 := by omega
    subst this
    rw [chain_zero] at ht
    simp at ht
  | succ k ih =>
    intro i hi hdec t ht
    by_cases h0 : i = 0
    · subst h0
      rw [chain_zero] at ht
      simp at ht
    · have hlt := hdec i (by omega) (Nat.le_refl i)
      rw [chain_pos f k i h0] at ht ⊢
      have ih' := ih (f i) (by omega) (fun j h1 hj => hdec j h1 (by omega))
      cases t with
      | zero =>
        simp only [List.getD_cons_zero, List.length_cons, Nat.zero_add, List.getD_cons_succ]
        refine ⟨by omega, Nat.le_refl i, fun h => ?_, fun h => ?_⟩
        · have hpos : 0 < (chain f k (f i)).length := by omega
          by_cases hf0 : f i = 0
          · rw [hf0, chain_zero] at hpos
            simp at hpos
          · cases k with
            | zero => omega
            | succ k' =>
              rw [chain_pos f k' (f i) hf0]
              simp
        · have hlen : (chain f k (f i)).length = 0 := by omega
          by_contra hf0
          cases k with
          | zero => omega
          | succ k' =>
            rw [chain_pos f k' (f i) hf0] at hlen
            simp at hlen
      | succ t =>
        simp only [List.length_cons, List.getD_cons_succ] at ht ⊢
        obtain ⟨a1, a2, a3, a4⟩ := ih' t (by omega)
        exact ⟨a1, by omega, fun h => a3 (by omega), fun h => a4 (by omega)⟩

/-- The boundaries `ComputePartition` returns follow the back references:
`parts[k - 1] = refs[parts[k]]` for `1 ≤ k ≤ p`, with `1 ≤ parts[k] ≤ n`. -/
theorem ComputePartition_follow (src : Nat → Nat) (n : Nat) (parts0 : Mem) (p : Nat) (parts : Mem)
    (h : ComputePartition src n parts0 = some (p, parts)) (k : Nat) (hk1 : 1 ≤ k) (hk : k ≤ p) :
    1 ≤ parts k ∧ parts k ≤ n ∧
    parts (k - 1) = toSizeT ((ComputePartition.table src n).refs (parts k)) := by
  rw [ComputePartition_eq] at h
  injection h with h
  injection h with hp hparts
  generalize hC : chain (fun i => toSizeT ((ComputePartition.table src n).refs i)) n n = C
    at hp hparts
  have hnext := chain_next (fun i => toSizeT ((ComputePartition.table src n).refs i)) n n
    (Nat.le_refl n) (fun j h1 hj => table_step_lt src n j h1 hj)
  rw [hC] at hnext
  subst hp
  obtain ⟨a1, a2, a3, a4⟩ := hnext (C.length - k) (by omega)
  have hk' : parts k = C.getD (C.length - k) 0 := by
    rw [← hparts]
    simp only []
    rw [if_neg (by omega), if_pos hk]
  rw [hk']
  refine ⟨a1, a2, ?_⟩
  by_cases hk2 : k = 1
  · subst hk2
    rw [← hparts]
    simp only [Nat.sub_self, if_true]
    have a4' : toSizeT ((ComputePartition.table src n).refs (C.getD (C.length - 1) 0)) = 0 :=
      a4 (by omega)
    exact a4'.symm
  · have e : C.length - k + 1 = C.length - (k - 1) := by omega
    have a3' : C.getD (C.length - k + 1) 0
        = toSizeT ((ComputePartition.table src n).refs (C.getD (C.length - k) 0)) :=
      a3 (by omega)
    rw [← a3', e, ← hparts]
    simp only []
    rw [if_neg (by omega), if_pos (by omega)]

/-! ## The minimum of the main loop of the partitioner -/

theorem maxbAt_succ (src : Nat → Nat) (i j : Nat) :
    ComputePartition.maxbAt src i (j + 1) =
      if ComputePartition.maxbAt src i j
          < roundup_bits.getD (usedBits (src (i - partition_length.getD (j + 1) 0))) 0
      then roundup_bits.getD (usedBits (src (i - partition_length.getD (j + 1) 0))) 0
      else ComputePartition.maxbAt src i j := by
  unfold ComputePartition.maxbAt
  rw [forLoop_succ]

theorem maxbAt_zero (src : Nat → Nat) (i : Nat) :
    ComputePartition.maxbAt src i 0 =
      if 0 < roundup_bits.getD (usedBits (src (i - partition_length.getD 0 0))) 0
      then roundup_bits.getD (usedBits (src (i - partition_length.getD 0 0))) 0
      else 0 := by
  unfold ComputePartition.maxbAt
  rw [forLoop_succ, forLoop_zero]

theorem candCost_congr (src : Nat → Nat) (c c' : Nat → Nat) (i j : Nat) (hi : 1 ≤ i) (hj : j < 16)
    (h : ∀ x, x < i → c x = c' x) :
    ComputePartition.candCost src c i j = ComputePartition.candCost src c' i j := by
  have := partition_length_getD_pos j hj
  unfold ComputePartition.candCost
  simp only []
  rw [h _ (by omega)]

/-- The inner loop of `ComputePartition` at a position `i` with `refs[i] = -1`:
after `k` candidates. -/
theorem inner_loop_inv (src : Nat → Nat) (i : Nat) (hi : 1 ≤ i) (t : DPState)
    (hr : t.refs i = -1) (k : Nat) (hk : k ≤ 16) :
    (∀ x, x ≠ i → (forLoop k (ComputePartition.inner src i) (0, t)).2.costs x = t.costs x) ∧
    (∀ x, x ≠ i → (forLoop k (ComputePartition.inner src i) (0, t)).2.refs x = t.refs x) ∧
    (k = 0 → (forLoop k (ComputePartition.inner src i) (0, t)).1 = 0 ∧
      (forLoop k (ComputePartition.inner src i) (0, t)).2.refs i = -1) ∧
    (1 ≤ k → (forLoop k (ComputePartition.inner src i) (0, t)).1
        = ComputePartition.maxbAt src i (k - 1) ∧
      ComputePartition.Best src t.costs i k (forLoop k (ComputePartition.inner src i) (0, t)).2) := by
  induction k with
  | zero =>
    rw [forLoop_zero]
    exact ⟨fun _ _ => rfl, fun _ _ => rfl, fun _ => ⟨rfl, hr⟩, fun h => absurd h (by omega)⟩
  | succ k ih =>
    obtain ⟨h1, h2, h3, h4⟩ := ih (by omega)
    have hpos := partition_length_getD_pos k (by omega)
    rw [forLoop_succ]
    generalize forLoop k (ComputePartition.inner src i) (0, t) = s at h1 h2 h3 h4
    have hbp : i - partition_length.getD k 0 ≠ i := by omega
    -- the new value of `maxb` and the cost of the candidate
    have hmaxb : (if s.1 < roundup_bits.getD (usedBits (src (i - partition_length.getD k 0))) 0
        then roundup_bits.getD (usedBits (src (i - partition_length.getD k 0))) 0 else s.1)
        = ComputePartition.maxbAt src i k := by
      by_cases hk0 : k = 0
      · subst hk0
        rw [(h3 rfl).1, maxbAt_zero]
      · obtain ⟨m1, _⟩ := h4 (by omega)
        have e : k = (k - 1) + 1 := by omega
        rw [m1]
        conv_rhs => rw [e, maxbAt_succ]
        rw [← e]
    have hc : s.2.costs (i - partition_length.getD k 0)
        + VP64_DIV_ROUNDUP ((i - (i - partition_length.getD k 0)) *
          (if s.1 < roundup_bits.getD (usedBits (src (i - partition_length.getD k 0))) 0
            then roundup_bits.getD (usedBits (src (i - partition_length.getD k 0))) 0 else s.1)) 8
        = ComputePartition.candCost src t.costs i k := by
      rw [hmaxb, h1 _ hbp]
      rfl
    unfold ComputePartition.inner
    simp only []
    rw [hc, hmaxb]
    by_cases hupd : s.2.refs i = -1 ∨ ComputePartition.candCost src t.costs i k ≤ s.2.costs i
    · rw [if_pos hupd]
      refine ⟨fun x hx => ?_, fun x hx => ?_, fun h => absurd h (by omega), fun _ => ⟨rfl, ?_⟩⟩
      · show (if x = i then _ else s.2.costs x) = _
        rw [if_neg hx]; exact h1 x hx
      · show (if x = i then _ else s.2.refs x) = _
        rw [if_neg hx]; exact h2 x hx
      · refine ⟨k, Nat.lt_succ_self k, ?_, ?_, ?_, ?_⟩
        · show (if i = i then _ else s.2.costs i) = _
          rw [if_pos rfl]
        · show (if i = i then _ else s.2.refs i) = _
          rw [if_pos rfl]
        · intro j hj
          show (if i = i then _ else s.2.costs i) ≤ _
          rw [if_pos rfl]
          by_cases hjk : j = k
          · subst hjk; exact Nat.le_refl _
          · have hk1 : 1 ≤ k := by omega
            obtain ⟨_, js, b1, b2, b3, b4, b5⟩ := h4 hk1
            rcases hupd with hu | hu
            · rw [b3] at hu
              omega
            · exact Nat.le_trans hu (b4 j (by omega))
        · intro j hj1 hj2
          omega
    · rw [if_neg hupd]
      have hk1 : 1 ≤ k := by
        by_contra hc0
        have hk0 : k = 0 := by omega
        exact hupd (Or.inl (h3 hk0).2)
      obtain ⟨_, js, b1, b2, b3, b4, b5⟩ := h4 hk1
      refine ⟨h1, h2, fun h => absurd h (by omega), fun _ => ⟨rfl, js, by omega, b2, b3, ?_, ?_⟩⟩
      · intro j hj
        show s.2.costs i ≤ _
        by_cases hjk : j = k
        · subst hjk
          have : ¬ ComputePartition.candCost src t.costs i j ≤ s.2.costs i :=
            fun h => hupd (Or.inr h)
          omega
        · exact b4 j (by omega)
      · intro j hj1 hj2
        show s.2.costs i < _
        by_cases hjk : j = k
        · subst hjk
          have : ¬ ComputePartition.candCost src t.costs i j ≤ s.2.costs i :=
            fun h => hupd (Or.inr h)
          omega
        · exact b5 j hj1 (by omega)

theorem Best_congr (src : Nat → Nat) (c c' : Nat → Nat) (i k : Nat) (t : DPState) (hi : 1 ≤ i)
    (hk : k ≤ 16) (h : ∀ x, x < i → c x = c' x) (hb : ComputePartition.Best src c i k t) :
    ComputePartition.Best src c' i k t := by
  obtain ⟨js, b1, b2, b3, b4, b5⟩ := hb
  refine ⟨js, b1, ?_, b3, fun j hj => ?_, fun j hj1 hj2 => ?_⟩
  · rw [← candCost_congr src c c' i js hi (by omega) h]; exact b2
  · rw [← candCost_congr src c c' i j hi (by omega) h]; exact b4 j hj
  · rw [← candCost_congr src c c' i j hi (by omega) h]; exact b5 j hj1 hj2

theorem outer_costs (src : Nat → Nat) (i : Nat) (t : DPState) :
    ∀ x, x ≠ i → (ComputePartition.outer src i t).costs x = t.costs x := by
  unfold ComputePartition.outer
  rw [partition_length_length]
  have := forLoop_inv (fun _ (s : Nat × DPState) => ∀ x, x ≠ i → s.2.costs x = t.costs x)
    16 (ComputePartition.inner src i) (0, t) (fun _ _ => rfl)
    (fun k s _ ih x hx => by
      rw [← ih x hx]
      unfold ComputePartition.inner
      simp only []
      split_ifs <;> simp [hx])
  exact this

/-- After the loops of `ComputePartition`, at every position `i` of the main loop
`costs[i]` is the least cost of the 16 candidates and `refs[i]` is the last
candidate with this cost, the costs being evaluated on the final `costs[]`. -/
theorem table_best (src : Nat → Nat) (n : Nat) (i : Nat) (hi : 128 ≤ i) (hin : i ≤ n) :
    ComputePartition.Best src (ComputePartition.table src n).costs i 16
      (ComputePartition.table src n) := by
  unfold ComputePartition.table
  rw [max_partition_eq]
  have := forLoop_inv (fun k (s : DPState) =>
      (∀ x, 128 + k ≤ x → x ≤ n → s.refs x = -1) ∧
      (∀ y, 128 ≤ y → y < 128 + k → ComputePartition.Best src s.costs y 16 s))
    (n + 1 - 128) (fun k t => ComputePartition.outer src (128 + k) t)
    (ComputePartition.seed src (ComputePartition.init n))
    ⟨fun x hx hxn => by rw [seed_refs, if_neg (by omega), init_refs n x hxn],
      fun y hy1 hy2 => absurd hy2 (by omega)⟩
    (fun k s hk ih => by
      obtain ⟨ho1, _⟩ := outer_refs src (128 + k) s
      have hoc := outer_costs src (128 + k) s
      beta_reduce
      refine ⟨fun x hx hxn => ?_, fun y hy1 hy2 => ?_⟩
      · rw [ho1 x (by omega)]
        exact ih.1 x (by omega) hxn
      · by_cases hyk : y = 128 + k
        · subst hyk
          obtain ⟨_, _, _, h4⟩ := inner_loop_inv src (128 + k) (by omega) s
            (ih.1 (128 + k) (Nat.le_refl _) (by omega)) 16 (Nat.le_refl 16)
          have hb := (h4 (by decide)).2
          have hout : ComputePartition.outer src (128 + k) s
              = (forLoop 16 (ComputePartition.inner src (128 + k)) (0, s)).2 := by
            unfold ComputePartition.outer
            rw [partition_length_length]
          rw [hout]
          rw [hout] at hoc
          exact Best_congr src _ _ _ 16 _ (by omega) (Nat.le_refl 16)
            (fun x hx => (hoc x (by omega)).symm) hb
        · obtain ⟨js, b1, b2, b3, b4, b5⟩ := Best_congr src s.costs
            (ComputePartition.outer src (128 + k) s).costs y 16 s (by omega) (Nat.le_refl 16)
            (fun x hx => (hoc x (by omega)).symm) (ih.2 y hy1 (by omega))
          exact ⟨js, b1, by rw [hoc y hyk]; exact b2, by rw [ho1 y hyk]; exact b3,
            fun j hj => by rw [hoc y hyk]; exact b4 j hj,
            fun j hj1 hj2 => by rw [hoc y hyk]; exact b5 j hj1 hj2⟩)
  exact this.2 i hi (by omega)

theorem partition_length_mono : ∀ j', j' < 16 → ∀ j, j ≤ j' →
    partition_length.getD j 0 ≤ partition_length.getD j' 0 := by
  decide

theorem chain_zeros_129 :
    chain (fun i => toSizeT ((ComputePartition.table (fun _ => 0) 129).refs i)) 129 129
      = [129, 1] := by
  decide!

/-! ## Facts for the byte order and the tables -/

theorem SetUint32_cells (m : Mem) (a v : Nat) :
    SetUint32 m a v a = v / 2 ^ 24 % 256 ∧ SetUint32 m a v (a + 1) = v / 2 ^ 16 % 256 ∧
    SetUint32 m a v (a + 2) = v / 2 ^ 8 % 256 ∧ SetUint32 m a v (a + 3) = v % 256 := by
  refine ⟨?_, ?_, ?_, ?_⟩
  · rw [SetUint32_read, if_pos (by omega), show 8 * (3 - (a - a)) = 24 from by omega]
  · rw [SetUint32_read, if_pos (by omega), show 8 * (3 - (a + 1 - a)) = 16 from by omega]
  · rw [SetUint32_read, if_pos (by omega), show 8 * (3 - (a + 2 - a)) = 8 from by omega]
  · rw [SetUint32_read, if_pos (by omega), show 8 * (3 - (a + 3 - a)) = 0 from by omega,
      Nat.pow_zero, Nat.div_one]

theorem DecodeUint16_SetUint32 (m : Mem) (a v : Nat) (hv : v < 2 ^ 32) :
    DecodeUint16 (SetUint32 m a v) a = v / 2 ^ 16 ∧
    DecodeUint16 (SetUint32 m a v) (a + 2) = v % 2 ^ 16 := by
  obtain ⟨c0, c1, c2, c3⟩ := SetUint32_cells m a v
  rw [DecodeUint16_eq, DecodeUint16_eq, c0, c1, c2, show a + 2 + 1 = a + 3 from rfl, c3]
  omega

theorem unpackers_named : ∀ w ∈ bits_length,
    unpackers.getD (ctrl_bit.getD w 0) Unpack0 = unpackerNamed w := by
  intro w hw
  simp only [bits_length, List.mem_cons, List.mem_singleton, List.mem_nil_iff, or_false] at hw
  rcases hw with rfl | rfl | rfl | rfl | rfl | rfl | rfl | rfl | rfl | rfl | rfl | rfl | rfl |
    rfl | rfl | rfl <;> rfl

theorem msbStep_ne_zero (k : Nat) (st : Nat × Nat) (h : st.2 ≠ 0) : (msbStep k st).2 ≠ 0 := by
  unfold msbStep
  by_cases h1 : st.2 >>> k ≠ 0
  · rw [if_pos h1]; exact h1
  · rw [if_neg h1]; exact h

/-- The portable bit count is exact: the value is below `2 ^ (64 - VP64_MSB64 x)`,
a non-zero value reaches `2 ^ (63 - VP64_MSB64 x)`, and at the last step the
position is above the remaining value. -/
theorem VP64_MSB64_exact (x : Nat) (hx : x < 2 ^ 64) :
    ((msbStep 2 (msbStep 4 (msbStep 8 (msbStep 16 (msbStep 32 (64, x)))))).2 >>> 1 = 0 →
      (msbStep 2 (msbStep 4 (msbStep 8 (msbStep 16 (msbStep 32 (64, x)))))).2 <
        (msbStep 2 (msbStep 4 (msbStep 8 (msbStep 16 (msbStep 32 (64, x)))))).1) ∧
    VP64_MSB64 x ≤ 64 ∧ x < 2 ^ (64 - VP64_MSB64 x) ∧
    (x ≠ 0 → VP64_MSB64 x ≤ 63 ∧ 2 ^ (63 - VP64_MSB64 x) ≤ x) := by
  rw [VP64_MSB64_steps]
  obtain ⟨s1, a1, a2, a3, a4⟩ := msbStep_inv x 32 0 (64, x) rfl (by simp) hx (by decide)
  obtain ⟨s2, b1, b2, b3, b4⟩ := msbStep_inv x 16 s1 _ a1 a2 a3 a4
  obtain ⟨s3, c1, c2, c3, c4⟩ := msbStep_inv x 8 s2 _ b1 b2 b3 b4
  obtain ⟨s4, d1, d2, d3, d4⟩ := msbStep_inv x 4 s3 _ c1 c2 c3 c4
  obtain ⟨s5, e1, e2, e3, e4⟩ := msbStep_inv x 2 s4 _ d1 d2 d3 d4
  have hnz : x ≠ 0 →
      (msbStep 2 (msbStep 4 (msbStep 8 (msbStep 16 (msbStep 32 (64, x)))))).2 ≠ 0 := fun h =>
    msbStep_ne_zero _ _ (msbStep_ne_zero _ _ (msbStep_ne_zero _ _ (msbStep_ne_zero _ _
      (msbStep_ne_zero _ _ h))))
  generalize msbStep 2 (msbStep 4 (msbStep 8 (msbStep 16 (msbStep 32 (64, x))))) = st
    at e1 e2 e3 e4 hnz
  rw [Nat.shiftRight_eq_div_pow, e1]
  have hdm := Nat.div_add_mod x (2 ^ s5)
  have hm := Nat.mod_lt x (two_pow_pos' s5)
  rw [← e2] at hdm
  have h4 : st.2 < 4 := e3
  have hp := two_pow_pos' s5
  by_cases h : st.2 / 2 ^ 1 ≠ 0
  · rw [if_pos h]
    have h2 : 2 ≤ st.2 := by omega
    have hlo : 2 ^ s5 * 2 ≤ 2 ^ s5 * st.2 := Nat.mul_le_mul_left _ h2
    have hhi : 2 ^ s5 * st.2 ≤ 2 ^ s5 * 3 := Nat.mul_le_mul_left _ (by omega)
    refine ⟨fun h0 => absurd h0 h, by omega, ?_, fun _ => ⟨by omega, ?_⟩⟩
    · have e : 64 - (64 - s5 - 2) = s5 + 2 := by omega
      rw [e, Nat.pow_add]
      omega
    · have e : 63 - (64 - s5 - 2) = s5 + 1 := by omega
      rw [e, Nat.pow_add]
      omega
  · rw [if_neg h]
    have h01 : st.2 = 0 ∨ st.2 = 1 := by omega
    refine ⟨fun _ => by omega, by omega, ?_, fun hx0 => ?_⟩
    · have e : 64 - (64 - s5 - st.2) = s5 + st.2 := by omega
      rw [e, Nat.pow_add]
      rcases h01 with h0 | h1
      · rw [h0] at hdm ⊢
        simp only [Nat.mul_zero, Nat.zero_add] at hdm
        rw [Nat.pow_zero, Nat.mul_one]
        omega
      · rw [h1] at hdm ⊢
        simp only [Nat.mul_one] at hdm
        rw [Nat.pow_one]
        omega
    · have h1 : st.2 = 1 := by
        rcases h01 with h0 | h1
        · exact absurd h0 (hnz hx0)
        · exact h1
      rw [h1] at hdm ⊢
      simp only [Nat.mul_one] at hdm
      have e : 63 - (64 - s5 - 1) = s5 := by omega
      rw [e]
      omega

/-- Every width of `bits_length[]` and every length of `partition_length[]` is an
index of its control table with a defined nibble. -/
theorem ctrl_tables_defined :
    (∀ w, w ∈ bits_length → w < ctrl_bit.length ∧ ctrl_bit.getD w 0 ≠ 0xff) ∧
    (∀ l, l ∈ partition_length → l < ctrl_partition.length ∧ ctrl_partition.getD l 0 ≠ 0xff) := by
  decide!

/-- While no `WriteBits` has failed, the source pointer of the partition loop of
`CompressBlock` stands at the start of the current partition. -/
theorem CompressBlock_loop_sp (x : Nat → Nat) (n np : Nat) (parts : Mem)
    (h : PartShape n np parts) (dlimit : Nat) (init : CBState) (h0 : init.sp = 0)
    (K : Nat) (hK : K ≤ np) :
    (forLoop K (CompressBlock.step x parts dlimit) init).ok = true →
    (forLoop K (CompressBlock.step x parts dlimit) init).sp = parts K := by
  apply forLoop_inv (fun k (st : CBState) => k ≤ np → st.ok = true → st.sp = parts k)
    K _ _ _ _ hK
  · intro _ _
    rw [h0, h.2.1]
  · intro k s hk ih hk1
    unfold CompressBlock.step
    by_cases hok : s.ok = true
    · rw [if_pos hok]
      simp only []
      split_ifs with hneg
      · intro hf
        exact absurd hf (by simp)
      · intro _
        have := ih (by omega) hok
        have := h.2.2.2.1 k (by omega)
        simp only []
        omega
    · rw [if_neg hok]
      intro hf
      exact absurd hf hok


/-- With room for its rounds (no source room is asked for `w = 0`), the unpacker
for a width `w` of `bits_length[]` returns `⌈n·w/8⌉` and leaves a destination
that holds, at every element of its rounds, the `w` bits of the source the
element stands for, and the old value everywhere else. -/
theorem unpackerFor_full (w : Nat) (hw : w ∈ bits_length) (src : Mem) (sp slimit : Nat) (dst : Mem)
    (dp dlimit n : Nat)
    (hs : w ≠ 0 → sp + (unpackGroup w).1 * VP64_DIV_ROUNDUP n (unpackGroup w).2 ≤ slimit)
    (hd : dp + (unpackGroup w).2 * VP64_DIV_ROUNDUP n (unpackGroup w).2 ≤ dlimit) :
    (unpackerFor w src sp slimit dst dp dlimit n).1 = (bytesFor (n * w) : Nat) ∧
    ∀ x, (unpackerFor w src sp slimit dst dp dlimit n).2 x =
      if dp ≤ x ∧ x < dp + (unpackGroup w).2 * VP64_DIV_ROUNDUP n (unpackGroup w).2
      then getBits src sp ((x - dp) * w) w else dst x := by
  simp only [bits_length, List.mem_cons, List.mem_singleton, List.mem_nil_iff, or_false] at hw
  rcases hw with rfl | rfl | rfl | rfl | rfl | rfl | rfl | rfl | rfl | rfl | rfl | rfl | rfl | rfl | rfl | rfl
  · have e : (unpackGroup 0).2 * VP64_DIV_ROUNDUP n (unpackGroup 0).2 = n := by
      simp only [unpackGroup, div_roundup_one, Nat.one_mul]
    rw [e] at hd ⊢
    exact Unpack0_ok src sp slimit dst dp dlimit n hd
  · exact Unpack1_ok src sp slimit dst dp dlimit n
      (by simpa [unpackGroup] using hs (by decide)) hd
  · exact Unpack2_ok src sp slimit dst dp dlimit n
      (by simpa [unpackGroup] using hs (by decide)) hd
  · exact Unpack3_ok src sp slimit dst dp dlimit n (hs (by decide)) hd
  · exact Unpack4_ok src sp slimit dst dp dlimit n
      (by simpa [unpackGroup] using hs (by decide)) hd
  · exact Unpack5_ok src sp slimit dst dp dlimit n (hs (by decide)) hd
  · exact Unpack6_ok src sp slimit dst dp dlimit n (hs (by decide)) hd
  · exact Unpack7_ok src sp slimit dst dp dlimit n (hs (by decide)) hd
  · have e : (unpackGroup 8).2 * VP64_DIV_ROUNDUP n (unpackGroup 8).2 = n := by
      simp only [unpackGroup, div_roundup_one, Nat.one_mul]
    have hs' : sp + 1 * n ≤ slimit := by
      have := hs (by decide)
      simp only [unpackGroup, div_roundup_one] at this
      exact this
    rw [e] at hd ⊢
    exact Unpack8_ok src sp slimit dst dp dlimit n (by omega) hd
  · exact Unpack9_ok src sp slimit dst dp dlimit n (hs (by decide)) hd
  · exact Unpack10_ok src sp slimit dst dp dlimit n (hs (by decide)) hd
  · exact Unpack11_ok src sp slimit dst dp dlimit n (hs (by decide)) hd
  · exact Unpack12_ok src sp slimit dst dp dlimit n (hs (by decide)) hd
  · have e : (unpackGroup 16).2 * VP64_DIV_ROUNDUP n (unpackGroup 16).2 = n := by
      simp only [unpackGroup, div_roundup_one, Nat.one_mul]
    have hs' : sp + 2 * n ≤ slimit := by
      have := hs (by decide)
      simp only [unpackGroup, div_roundup_one] at this
      exact this
    rw [e] at hd ⊢
    exact Unpack16_ok src sp slimit dst dp dlimit n (by omega) hd
  · have e : (unpackGroup 32).2 * VP64_DIV_ROUNDUP n (unpackGroup 32).2 = n := by
      simp only [unpackGroup, div_roundup_one, Nat.one_mul]
    have hs' : sp + 4 * n ≤ slimit := by
      have := hs (by decide)
      simp only [unpackGroup, div_roundup_one] at this
      exact this
    rw [e] at hd ⊢
    exact Unpack32_ok src sp slimit dst dp dlimit n (by omega) hd
  · have e : (unpackGroup 64).2 * VP64_DIV_ROUNDUP n (unpackGroup 64).2 = n := by
      simp only [unpackGroup, div_roundup_one, Nat.one_mul]
    have hs' : sp + 8 * n ≤ slimit := by
      have := hs (by decide)
      simp only [unpackGroup, div_roundup_one] at this
      exact this
    rw [e] at hd ⊢
    exact Unpack64_ok src sp slimit dst dp dlimit n (by omega) hd

/-- The unpacker for a width `w` of `bits_length[]` returns `-1` exactly when the
source has no room for the bytes of its rounds (no source room is asked for
`w = 0`) or the destination has no room for their elements. -/
theorem unpackerFor_fail_iff (w : Nat) (hw : w ∈ bits_length) (src : Mem) (sp slimit : Nat)
    (dst : Mem) (dp dlimit n : Nat) :
    (unpackerFor w src sp slimit dst dp dlimit n).1 = -1 ↔
      ((w ≠ 0 ∧ sp + (unpackGroup w).1 * VP64_DIV_ROUNDUP n (unpackGroup w).2 > slimit) ∨
        dp + (unpackGroup w).2 * VP64_DIV_ROUNDUP n (unpackGroup w).2 > dlimit) := by
  constructor
  · intro h
    by_contra hc
    have hs : w ≠ 0 → sp + (unpackGroup w).1 * VP64_DIV_ROUNDUP n (unpackGroup w).2 ≤ slimit := by
      intro h0
      by_contra h1
      exact hc (Or.inl ⟨h0, by omega⟩)
    have hd : dp + (unpackGroup w).2 * VP64_DIV_ROUNDUP n (unpackGroup w).2 ≤ dlimit := by
      by_contra h1
      exact hc (Or.inr (by omega))
    have := (unpackerFor_full w hw src sp slimit dst dp dlimit n hs hd).1
    rw [this] at h
    omega
  · intro h
    rw [unpackerFor_fail w hw src sp slimit dst dp dlimit n h]


/-- `UncompressBlock` on at least 144 elements, in terms of its partition loop. -/
theorem UncompressBlock_framed_eq (src : Mem) (sp : Nat) (dst : Mem) (dp n : Nat) (hn : 144 ≤ n) :
    UncompressBlock src sp dst dp n =
      if (UncompressBlock.loop src sp dst dp n (UncompressBlock.nloop src sp)).ok
      then (DecodeUint32 src sp, forLoop MAX_UNPACK_OVERRUN_NUM
        (fun i m => m.write ((UncompressBlock.loop src sp dst dp n
            (UncompressBlock.nloop src sp)).dp + i)
          (DecodeUint64 src ((UncompressBlock.loop src sp dst dp n
            (UncompressBlock.nloop src sp)).data + 8 * i)))
        (UncompressBlock.loop src sp dst dp n (UncompressBlock.nloop src sp)).mem)
      else (0, (UncompressBlock.loop src sp dst dp n (UncompressBlock.nloop src sp)).mem) := by
  unfold UncompressBlock
  rw [if_neg (by rw [max_partition_eq, max_overrun_eq]; omega)]
  rfl

/-- One iteration of the partition loop of `UncompressBlock`, in terms of its
unpacker call. -/
theorem UncompressBlock_step_eq (src : Mem) (slimit dlimit i : Nat) (st : UBState) :
    UncompressBlock.step src slimit dlimit i st =
      if st.ok then
        if (UncompressBlock.call src slimit dlimit st).1 < 0
        then { st with ok := false, mem := (UncompressBlock.call src slimit dlimit st).2 }
        else { ok := true, mem := (UncompressBlock.call src slimit dlimit st).2,
               data := st.data + (UncompressBlock.call src slimit dlimit st).1.toNat,
               dp := st.dp + partition_length.getD ((src st.ctrl >>> 4) &&& 0x0f) 0,
               ctrl := st.ctrl + 1 }
      else st := rfl

/-- Once an unpacker call has failed, the partition loop of `UncompressBlock`
stays failed. -/
theorem UncompressBlock_loop_failed (src : Mem) (sp : Nat) (dst : Mem) (dp n i : Nat)
    (h : (UncompressBlock.loop src sp dst dp n i).ok = false) :
    ∀ d, (UncompressBlock.loop src sp dst dp n (i + d)).ok = false := by
  intro d
  induction d with
  | zero => exact h
  | succ k ih =>
    have e : UncompressBlock.loop src sp dst dp n (i + (k + 1)) =
        UncompressBlock.step src (sp + DecodeUint32 src sp) (dp + n) (i + k)
          (UncompressBlock.loop src sp dst dp n (i + k)) := by
      unfold UncompressBlock.loop
      rw [← Nat.add_assoc, forLoop_succ]
    rw [e, UncompressBlock_step_eq, if_neg (by rw [ih]; exact Bool.false_ne_true)]
    exact ih

/-- An iteration of the partition loop of `UncompressBlock` whose unpacker call
fails leaves the loop failed. -/
theorem UncompressBlock_loop_fails (src : Mem) (sp : Nat) (dst : Mem) (dp n i : Nat)
    (hok : (UncompressBlock.loop src sp dst dp n i).ok = true)
    (hf : (UncompressBlock.call src (sp + DecodeUint32 src sp) (dp + n)
      (UncompressBlock.loop src sp dst dp n i)).1 < 0) :
    (UncompressBlock.loop src sp dst dp n (i + 1)).ok = false := by
  have e : UncompressBlock.loop src sp dst dp n (i + 1) =
      UncompressBlock.step src (sp + DecodeUint32 src sp) (dp + n) i
        (UncompressBlock.loop src sp dst dp n i) := by
    unfold UncompressBlock.loop
    rw [forLoop_succ]
  rw [e, UncompressBlock_step_eq, hok, if_pos rfl, if_pos hf]

/-- `Uncompress` in terms of its block loop. -/
theorem Uncompress_eq (src : Mem) (dst : Mem) (n : Nat) :
    Uncompress src dst n =
      if VP64_MAGICNUM ≠ DecodeUint64 src 0 then (0, dst)
      else if (if n % block_num ≠ 0
          then Uncompress.block src (n % block_num) (Uncompress.loop src dst (n / block_num))
          else Uncompress.loop src dst (n / block_num)).ok
        then ((if n % block_num ≠ 0
            then Uncompress.block src (n % block_num) (Uncompress.loop src dst (n / block_num))
            else Uncompress.loop src dst (n / block_num)).rsize,
          (if n % block_num ≠ 0
            then Uncompress.block src (n % block_num) (Uncompress.loop src dst (n / block_num))
            else Uncompress.loop src dst (n / block_num)).mem)
        else (0, (if n % block_num ≠ 0
            then Uncompress.block src (n % block_num) (Uncompress.loop src dst (n / block_num))
            else Uncompress.loop src dst (n / block_num)).mem) := rfl

/-- A failed state of the block loop of `Uncompress` stays failed. -/
theorem Uncompress_block_failed (src : Mem) (k : Nat) (st : UState) (h : st.ok = false) :
    (Uncompress.block src k st).ok = false := by
  unfold Uncompress.block
  rw [h]
  exact h

/-- A block of `Uncompress` whose `UncompressBlock` returns 0 leaves the loop
failed. -/
theorem Uncompress_block_fails (src : Mem) (k : Nat) (st : UState)
    (h : (UncompressBlock src st.sp st.mem st.dp k).1 = 0) :
    (Uncompress.block src k st).ok = false := by
  unfold Uncompress.block
  by_cases hok : st.ok = true
  · rw [if_pos hok]
    simp only []
    rw [if_pos h]
  · rw [if_neg hok]
    simpa using hok

theorem Uncompress_loop_failed (src : Mem) (dst : Mem) (k : Nat)
    (h : (Uncompress.loop src dst k).ok = false) :
    ∀ d, (Uncompress.loop src dst (k + d)).ok = false := by
  intro d
  induction d with
  | zero => exact h
  | succ j ih =>
    have e : Uncompress.loop src dst (k + (j + 1)) =
        Uncompress.block src block_num (Uncompress.loop src dst (k + j)) := by
      unfold Uncompress.loop
      rw [← Nat.add_assoc, forLoop_succ]
    rw [e]
    exact Uncompress_block_failed src _ _ ih

/-- `Uncompress` returns 0 when its block loop ends failed. -/
theorem Uncompress_failed (src : Mem) (dst : Mem) (n : Nat)
    (h : (if n % block_num ≠ 0
        then Uncompress.block src (n % block_num) (Uncompress.loop src dst (n / block_num))
        else Uncompress.loop src dst (n / block_num)).ok = false) :
    (Uncompress src dst n).1 = 0 := by
  rw [Uncompress_eq]
  by_cases hm : VP64_MAGICNUM ≠ DecodeUint64 src 0
  · rw [if_pos hm]
  · rw [if_neg hm, if_neg (by rw [h]; exact Bool.false_ne_true)]

/-- The rounds of an unpacker cover a partition and stay within 15 elements and
less than 128 bytes of it. -/
theorem overrun_strict : ∀ w ∈ bits_length, ∀ l ∈ partition_length,
    l ≤ (unpackGroup w).2 * VP64_DIV_ROUNDUP l (unpackGroup w).2 ∧
    (unpackGroup w).2 * VP64_DIV_ROUNDUP l (unpackGroup w).2 - l ≤ 15 ∧
    bytesFor (l * w) ≤ (unpackGroup w).1 * VP64_DIV_ROUNDUP l (unpackGroup w).2 ∧
    (unpackGroup w).1 * VP64_DIV_ROUNDUP l (unpackGroup w).2 - bytesFor (l * w) < 128 := by
  decide

/-- On a source that holds a block, the unpacker call of the `i`-th iteration of
the partition loop of `UncompressBlock` returns the number of bytes of the
`i`-th partition. -/
theorem UncompressBlock_call_ok (m : Mem) (sp : Nat) (x : Nat → Nat) (n np : Nat) (parts : Mem)
    (hn : 16 ≤ n) (hshape : PartShape (n - 16) np parts) (hx : ∀ i, i < n - 16 → x i < 2 ^ 64)
    (hctrl : ∀ i, i < np → m (sp + 8 + i) = ctrlByte x parts i)
    (buf0 : Mem) (bdp : Nat) (i : Nat) (hi : i < np) (st : UBState)
    (hinv : UncompressBlock.Inv x parts buf0 sp bdp n np i st) :
    (UncompressBlock.call m (sp + (8 + np + dataOff x parts np + 128)) (bdp + n) st).1
      = (bytesFor (partLen parts i * partWidth x parts i) : Nat) := by
  obtain ⟨i1, i2, i3, i4, i5, i6⟩ := hinv
  obtain ⟨w1, w2, w3, w4⟩ := partWidth_spec x (n - 16) np parts hshape hx i hi
  have hm := parts_mono (n - 16) np parts hshape
  have hp1 := (hm (i + 1) (by omega)).1
  obtain ⟨c1, c2⟩ := ctrl_byte_decode _ w1 _ w2
  obtain ⟨o1, o2⟩ := overrun_bound _ w1 _ w2
  have hmono := dataOff_mono x parts (np - (i + 1)) (i + 1)
  have hji2 : i + 1 + (np - (i + 1)) = np := by omega
  rw [hji2] at hmono
  have hdo : dataOff x parts (i + 1)
      = dataOff x parts i + bytesFor (partLen parts i * partWidth x parts i) := rfl
  obtain ⟨u1, _, _⟩ := unpackerFor_ok (partWidth x parts i) w1 m st.data
    (sp + (8 + np + dataOff x parts np + 128)) st.mem st.dp (bdp + n) (partLen parts i)
    (by omega) (by omega)
  unfold UncompressBlock.call
  have hc : m st.ctrl = ctrlByte x parts i := by rw [i4]; exact hctrl i hi
  rw [hc]
  unfold ctrlByte
  rw [c1, c2]
  exact u1

/-- On a source that holds a block, the partition loop of `UncompressBlock`
keeps its invariant up to the last partition. -/
theorem UncompressBlock_loop_inv (m : Mem) (sp : Nat) (x : Nat → Nat) (n np : Nat) (parts : Mem)
    (hn : 16 ≤ n) (hshape : PartShape (n - 16) np parts) (hx : ∀ i, i < n - 16 → x i < 2 ^ 64)
    (hd1 : DecodeUint32 m sp = 8 + np + dataOff x parts np + 128)
    (hd2 : DecodeUint32 m (sp + 4) = np + 8)
    (hctrl : ∀ i, i < np → m (sp + 8 + i) = ctrlByte x parts i)
    (hbits : ∀ i, i < np → ∀ e, e < partLen parts i →
      getBits m (sp + 8 + np + dataOff x parts i) (e * partWidth x parts i) (partWidth x parts i)
        = x (parts i + e))
    (buf : Mem) (bdp : Nat) (K : Nat) (hK : K ≤ np) :
    UncompressBlock.Inv x parts buf sp bdp n np K (UncompressBlock.loop m sp buf bdp n K) := by
  unfold UncompressBlock.loop
  rw [hd1, hd2]
  apply forLoop_inv (fun k st => k ≤ np → UncompressBlock.Inv x parts buf sp bdp n np k st) K _ _
    _ _ hK
  · intro _
    exact ⟨rfl, by show sp + (np + 8) = sp + 8 + np + 0; omega,
      by show bdp = bdp + parts 0; rw [hshape.2.1]; rfl, rfl,
      fun e he => by rw [hshape.2.1] at he; exact absurd he (Nat.not_lt_zero e),
      fun _ _ => rfl⟩
  · intro k s hk ih hk1
    exact UncompressBlock_step_inv m sp x n np parts hn hshape hx hctrl hbits buf bdp k
      (by omega) s (ih (by omega))

/-- The chain lists the iterates of `f` from `i` up to the first one that is 0. -/
theorem chain_iterate (f : Nat → Nat) (fuel : Nat) : ∀ i, i ≤ fuel →
    (∀ j, 1 ≤ j → j ≤ i → f j < j) →
    (∀ t, t < (chain f fuel i).length → (chain f fuel i).getD t 0 = f^[t] i) ∧
    f^[(chain f fuel i).length] i = 0 ∧ (chain f fuel i).length ≤ i := by
  induction fuel with
  | zero =>
    intro i hi _
    have : i = 0 := by omega
    subst this
    rw [chain_zero]
    exact ⟨fun t ht => absurd ht (Nat.not_lt_zero t), rfl, Nat.le_refl 0⟩
  | succ k ih =>
    intro i hi hdec
    by_cases h0 : i = 0
    · subst h0
      rw [chain_zero]
      exact ⟨fun t ht => absurd ht (Nat.not_lt_zero t), rfl, Nat.le_refl 0⟩
    · have hfi := hdec i (by omega) (Nat.le_refl i)
      obtain ⟨a1, a2, a3⟩ := ih (f i) (by omega) (fun j h1 hj => hdec j h1 (by omega))
      rw [chain_pos f k i h0]
      refine ⟨fun t ht => ?_, ?_, ?_⟩
      · cases t with
        | zero => rfl
        | succ t =>
          rw [List.length_cons] at ht
          rw [List.getD_cons_succ, a1 t (by omega), Function.iterate_succ_apply]
      · rw [List.length_cons, Function.iterate_succ_apply]
        exact a2
      · rw [List.length_cons]
        omega

/-- The loops of `ComputePartition` leave `refs[0]` at `-1`. -/
theorem table_refs_zero (src : Nat → Nat) (n : Nat) :
    (ComputePartition.table src n).refs 0 = -1 := by
  unfold ComputePartition.table
  rw [max_partition_eq]
  apply forLoop_inv (fun _ (s : DPState) => s.refs 0 = -1)
  · rw [seed_refs, if_neg (by omega), init_refs n 0 (Nat.zero_le n)]
  · intro k s _ ih
    rw [(outer_refs src (128 + k) s).1 0 (by omega)]
    exact ih

theorem zero_width : roundup_bits.getD (usedBits 0) 0 = 0 ∧ VP64_DIV_ROUNDUP (usedBits 0) 8 = 0 := by
  decide

/-- On zeros the seeding leaves every cost at 0. -/
theorem seed_costs_zeros (n x : Nat) :
    (ComputePartition.seed (fun _ => 0) (ComputePartition.init n)).costs x = 0 := by
  have hinit : ∀ y, (ComputePartition.init n).costs y = 0 := by
    unfold ComputePartition.init
    apply forLoop_inv (fun _ (t : DPState) => ∀ y, t.costs y = 0)
    · intro y
      rfl
    · intro k s _ ih y
      show (if y = k then 0 else s.costs y) = 0
      split_ifs
      · rfl
      · exact ih y
  unfold ComputePartition.seed
  simp only []
  revert x
  apply forLoop_inv (fun _ (t : DPState) => ∀ y, t.costs y = 0)
  · intro y
    show (if y = 0 then VP64_DIV_ROUNDUP (usedBits 0) 8 else (ComputePartition.init n).costs y) = 0
    split_ifs
    · exact zero_width.2
    · exact hinit y
  · intro k s _ ih y
    show (if y = k + 1 then s.costs (k + 1 - 1) + VP64_DIV_ROUNDUP (usedBits 0) 8
      else s.costs y) = 0
    split_ifs
    · rw [ih, zero_width.2]
    · exact ih y

/-- On zeros the inner loop keeps `maxb` and every cost at 0. -/
theorem outer_costs_zeros (i : Nat) (t : DPState) (h : ∀ y, t.costs y = 0) :
    ∀ y, (ComputePartition.outer (fun _ => 0) i t).costs y = 0 := by
  unfold ComputePartition.outer
  have := forLoop_inv (fun _ (s : Nat × DPState) => s.1 = 0 ∧ ∀ y, s.2.costs y = 0)
    partition_length.length (ComputePartition.inner (fun _ => 0) i) (0, t) ⟨rfl, h⟩
    (fun k s _ ih => by
      obtain ⟨ih1, ih2⟩ := ih
      unfold ComputePartition.inner
      simp only [zero_width.1, ih1, Nat.lt_irrefl, if_false, Nat.mul_zero, ih2]
      have hz : VP64_DIV_ROUNDUP 0 8 = 0 := by decide
      simp only [hz, Nat.add_zero]
      split_ifs
      · refine ⟨rfl, fun y => ?_⟩
        show (if y = i then 0 else 0) = 0
        split_ifs <;> rfl
      · exact ⟨rfl, ih2⟩)
  exact this.2

/-- On zeros every cost of the table is 0. -/
theorem table_costs_zeros (n x : Nat) : (ComputePartition.table (fun _ => 0) n).costs x = 0 := by
  unfold ComputePartition.table
  revert x
  apply forLoop_inv (fun _ (t : DPState) => ∀ y, t.costs y = 0)
  · exact fun y => seed_costs_zeros n y
  · intro k s _ ih
    exact outer_costs_zeros _ s ih

theorem maxbAt_zeros (i : Nat) : ∀ j, ComputePartition.maxbAt (fun _ => 0) i j = 0 := by
  intro j
  induction j with
  | zero => rw [maxbAt_zero, zero_width.1]; rfl
  | succ k ih => rw [maxbAt_succ, ih, zero_width.1]; rfl

/-- On zeros every candidate of the main loop costs 0, so the last candidate, the
longest length, is taken: `refs[i] = i - 128` for `128 ≤ i ≤ n`. -/
theorem table_refs_zeros (n i : Nat) (hi : 128 ≤ i) (hin : i ≤ n) :
    (ComputePartition.table (fun _ => 0) n).refs i = ((i - 128 : Nat) : Int) := by
  obtain ⟨js, h1, h2, h3, h4, h5⟩ := table_best (fun _ => 0) n i hi hin
  have hc : ∀ j, ComputePartition.candCost (fun _ => 0)
      (ComputePartition.table (fun _ => 0) n).costs i j = 0 := by
    intro j
    unfold ComputePartition.candCost
    simp only [table_costs_zeros, maxbAt_zeros, Nat.mul_zero, Nat.zero_add]
    decide
  have hjs : js = 15 := by
    by_contra hne
    have := h5 15 (by omega) (by decide)
    rw [hc, table_costs_zeros] at this
    exact absurd this (Nat.lt_irrefl 0)
  rw [h3, hjs]
  rfl

/-- One iteration of the partition loop of `CompressBlock`, in terms of its
`WriteBits` call. -/
theorem CompressBlock_step_eq (src : Nat → Nat) (parts : Mem) (dlimit i : Nat) (st : CBState) :
    CompressBlock.step src parts dlimit i st =
      if st.ok then
        if (CompressBlock.call src parts dlimit i st).1 < 0
        then { st with ok := false, mem := (CompressBlock.call src parts dlimit i st).2 }
        else
          { ok := true,
            mem := (CompressBlock.call src parts dlimit i st).2.write st.ctrl
              (ctrl_bit.getD (CompressBlock.maxb src st.sp (parts (i + 1) - parts i)) 0 |||
                ctrl_partition.getD (parts (i + 1) - parts i) 0),
            sp := st.sp + (parts (i + 1) - parts i),
            data := st.data + (CompressBlock.call src parts dlimit i st).1.toNat,
            ctrl := st.ctrl + 1,
            block_size :=
              (st.block_size + (CompressBlock.call src parts dlimit i st).1.toNat) % 2 ^ 32 }
      else st := rfl

/-- With room for the packed data of a block of at least 144 elements, no
`WriteBits` call of the partition loop of `CompressBlock` fails: every iteration
starts with no failure behind it, and its call returns a byte count. -/
theorem CompressBlock_calls_ok (x : Nat → Nat) (n : Nat) (dst : Mem) (dp dlimit : Nat)
    (hn : 144 ≤ n) (hx : ∀ i, i < n → x i < 2 ^ 64) (hwrap : 9 * n < 2 ^ 32)
    (hroom : dp + 9 * n ≤ dlimit) :
    ∃ np parts, ComputePartition x (n - 16) (fun _ => 0) = some (np, parts) ∧
      ∀ i, i < np → (CompressBlock.loop x np parts dst dp dlimit i).ok = true ∧
        (CompressBlock.call x parts dlimit i (CompressBlock.loop x np parts dst dp dlimit i)).1
          = (bytesFor (partLen parts i * partWidth x parts i) : Nat) := by
  obtain ⟨np, parts, hcp, hshape⟩ := ComputePartition_PartShape x (n - 16) (fun _ => 0) (by omega)
  have hx' : ∀ i, i < n - 16 → x i < 2 ^ 64 := fun i hi => hx i (by omega)
  have hm := parts_mono (n - 16) np parts hshape
  have hnp := (hm np (Nat.le_refl np)).2
  have hpn : parts np = n - 16 := hshape.2.2.1
  have hdo := dataOff_le x (n - 16) np parts hshape hx' np (Nat.le_refl np)
  have hoff : (np + 8) % 2 ^ 32 = np + 8 := Nat.mod_eq_of_lt (by omega)
  refine ⟨np, parts, hcp, fun i hi => ?_⟩
  have hmono : ∀ k, k ≤ np → dataOff x parts k ≤ dataOff x parts np := by
    intro k hk
    have := dataOff_mono x parts (np - k) k
    rw [show k + (np - k) = np from by omega] at this
    exact this
  have hinv : CompressBlock.Inv x parts (SetUint32 dst (dp + 4) (np + 8)) dp np i
      (CompressBlock.loop x np parts dst dp dlimit i) := by
    unfold CompressBlock.loop
    rw [hoff]
    apply forLoop_inv (fun k st => k ≤ np →
      CompressBlock.Inv x parts (SetUint32 dst (dp + 4) (np + 8)) dp np k st) i _ _ _ _
      (by omega)
    · intro _
      exact ⟨rfl, hshape.2.1.symm, rfl, by show dp + (np + 8) = dp + 8 + np + 0; omega,
        by show np + 8 = 8 + np + 0; omega, fun _ _ => rfl,
        fun j hj => absurd hj (Nat.not_lt_zero j), fun j hj => absurd hj (Nat.not_lt_zero j)⟩
    · intro k st hk ih hk1
      have := hmono (k + 1) hk1
      exact CompressBlock_step_inv x (n - 16) np parts hshape hx' _ dp dlimit (by omega) k
        (by omega) (by omega) st (ih (by omega))
  obtain ⟨i1, i2, _, i4, _⟩ := hinv
  refine ⟨i1, ?_⟩
  obtain ⟨w1, w2, w3, w4⟩ := partWidth_spec x (n - 16) np parts hshape hx' i hi
  have hdo1 : dataOff x parts (i + 1)
      = dataOff x parts i + bytesFor (partLen parts i * partWidth x parts i) := rfl
  have := hmono (i + 1) (by omega)
  unfold CompressBlock.call
  rw [i2]
  exact (WriteBits_ok _ (partWidth x parts i) (partLen parts i) _ _ dlimit (bits_length_le _ w1)
    (by rw [i4]; omega)).1

/-! ## The range of the `int` arithmetic of the unpackers -/

/-- Within the range of its `int` arithmetic, the count of an unpacker, the sizes
its guard compares and the value it returns are below `2 ^ 31`. -/
theorem unpackExact_fits (w : Nat) (hw : w ∈ bits_length) (n : Nat) (h : unpackExact w n) :
    n < 2 ^ 31 ∧
    (unpackGroup w).1 * VP64_DIV_ROUNDUP n (unpackGroup w).2 < 2 ^ 31 ∧
    (unpackGroup w).2 * VP64_DIV_ROUNDUP n (unpackGroup w).2 < 2 ^ 31 ∧
    bytesFor (n * w) < 2 ^ 31 := by
  simp only [bits_length, List.mem_cons, List.mem_singleton, List.mem_nil_iff, or_false] at hw
  rcases hw with rfl | rfl | rfl | rfl | rfl | rfl | rfl | rfl | rfl | rfl | rfl | rfl | rfl |
    rfl | rfl | rfl <;>
    simp only [unpackExact, unpackGroup, VP64_DIV_ROUNDUP, bytesFor] at h ⊢ <;> omega

/-- Every count up to 128, so every partition length `UncompressBlock` passes,
lies in the range of the `int` arithmetic of every unpacker. -/
theorem unpackExact_of_le (w : Nat) (hw : w ∈ bits_length) (n : Nat) (hn : n ≤ 128) :
    unpackExact w n := by
  simp only [bits_length, List.mem_cons, List.mem_singleton, List.mem_nil_iff, or_false] at hw
  rcases hw with rfl | rfl | rfl | rfl | rfl | rfl | rfl | rfl | rfl | rfl | rfl | rfl | rfl |
    rfl | rfl | rfl <;>
    simp only [unpackExact, VP64_DIV_ROUNDUP] <;> omega

/-! ## The frame driver rejects a wrong magic number -/

/-- C3 (corruption rejection).  For every `n` and every source byte string whose
leading 8 bytes, read big-endian, differ from `VP64_MAGICNUM`, `Uncompress`
returns 0; in particular it returns 0 on any buffer whose first 8 bytes have
been overwritten through `SetUint64` with a 64-bit value `v` other than the
magic number. -/
theorem Uncompress_magic_mismatch (src dst : Mem) (n v : Nat)
    (hv : v < 2 ^ 64) (hm : v ≠ VP64_MAGICNUM) :
    VP64_MAGICNUM = 0x08B5A7033F4CBC3D ∧
    (beValue src 0 8 ≠ VP64_MAGICNUM → (Uncompress src dst n).1 = 0) ∧
    (Uncompress (SetUint64 src 0 v) dst n).1 = 0 := by
  refine ⟨rfl, ?_, ?_⟩
  · intro h
    unfold Uncompress
    rw [if_pos (by rw [DecodeUint64_beValue]; exact fun e => h e.symm)]
  · unfold Uncompress
    rw [if_pos]
    rw [DecodeUint64_SetUint64, Nat.mod_eq_of_lt hv]
    exact fun e => hm e.symm

/-- A run of C3: a zero buffer, and the same buffer after the value
`0x0fbc32ad23902394` of the source's test has been written at its start. -/
theorem Uncompress_magic_mismatch_witness :
    (0x0fbc32ad23902394 < 2 ^ 64) ∧ (0x0fbc32ad23902394 ≠ VP64_MAGICNUM) ∧
    VP64_MAGICNUM = 0x08B5A7033F4CBC3D ∧
    (beValue (fun _ => 0) 0 8 ≠ VP64_MAGICNUM →
      (Uncompress (fun _ => 0) (fun _ => 0) 1).1 = 0) ∧
    (Uncompress (SetUint64 (fun _ => 0) 0 0x0fbc32ad23902394) (fun _ => 0) 1).1 = 0 :=
  ⟨by decide, by decide,
    Uncompress_magic_mismatch (fun _ => 0) (fun _ => 0) 1 0x0fbc32ad23902394
      (by decide) (by decide)⟩

/-! ## The result of `WriteBits` -/

/-- C7 (WriteBits result).  For every width `w ≤ 64` and `n ≤ 128`, `WriteBits`
returns `-1` if and only if the space `dlimit - dst` is smaller than
`⌈n·w/8⌉`; otherwise it returns exactly `⌈n·w/8⌉`, which is `0` when `w = 0` and
`8n` when `w = 64`. -/
theorem WriteBits_result (src : Nat → Nat) (w n : Nat) (dst : Mem) (dp dlimit : Nat)
    (hw : w ≤ 64) (hn : n ≤ 128) :
    ((WriteBits src w n dst dp dlimit).1 = -1 ↔
      (dlimit : Int) - (dp : Int) < (bytesFor (n * w) : Nat)) ∧
    (¬ ((dlimit : Int) - (dp : Int) < (bytesFor (n * w) : Nat)) →
      (WriteBits src w n dst dp dlimit).1 = (bytesFor (n * w) : Nat)) ∧
    (w = 0 → bytesFor (n * w) = 0) ∧ (w = 64 → bytesFor (n * w) = 8 * n) := by
  have _ := hw
  have _ := hn
  have hc : VP64_DIV_ROUNDUP (w * n) 8 = bytesFor (n * w) := by
    unfold VP64_DIV_ROUNDUP bytesFor
    rw [Nat.mul_comm w n]
    omega
  have h64 : w = 64 → bytesFor (n * w) = 8 * n := by
    intro h; subst h; unfold bytesFor; omega
  have h0 : w = 0 → bytesFor (n * w) = 0 := by
    intro h; subst h; simp [bytesFor]
  refine ⟨?_, ?_, h0, h64⟩
  · unfold WriteBits
    simp only [hc]
    by_cases hlim : dp + bytesFor (n * w) > dlimit
    · rw [if_pos hlim]
      simp only [true_iff]
      omega
    · rw [if_neg hlim]
      by_cases hw0 : w = 0
      · rw [if_pos hw0]; simp only [Prod.fst]; omega
      · rw [if_neg hw0]
        by_cases hw64 : w = 64
        · rw [if_pos hw64]; simp only [Prod.fst]; omega
        · rw [if_neg hw64]; simp only [Prod.fst]; omega
  · intro hlim
    unfold WriteBits
    simp only [hc]
    rw [if_neg (by omega)]
    by_cases hw0 : w = 0
    · rw [if_pos hw0]; simp only [Prod.fst, h0 hw0]; rfl
    · rw [if_neg hw0]
      by_cases hw64 : w = 64
      · rw [if_pos hw64]; simp only [Prod.fst, h64 hw64]; congr 1; omega
      · rw [if_neg hw64]

/-- A run of C7: four 16-bit values into 8 bytes, and into no space at all. -/
theorem WriteBits_result_witness :
    16 ≤ 64 ∧ 4 ≤ 128 ∧
    (((WriteBits (fun _ => 5) 16 4 (fun _ => 0) 0 0).1 = -1 ↔
        ((0 : Nat) : Int) - ((0 : Nat) : Int) < (bytesFor (4 * 16) : Nat)) ∧
      (¬ (((0 : Nat) : Int) - ((0 : Nat) : Int) < (bytesFor (4 * 16) : Nat)) →
        (WriteBits (fun _ => 5) 16 4 (fun _ => 0) 0 0).1 = (bytesFor (4 * 16) : Nat)) ∧
      (16 = 0 → bytesFor (4 * 16) = 0) ∧ (16 = 64 → bytesFor (4 * 16) = 8 * 4)) :=
  ⟨by decide, by decide, WriteBits_result (fun _ => 5) 16 4 (fun _ => 0) 0 0 (by decide) (by decide)⟩

/-! ## The shape of the partition -/

/-- C9 (partition shape).  For every `src` and every `n ≥ 128`, `ComputePartition`
returns a count `p ≥ 1` and fills `parts[0..p]` with `parts[0] = 0`,
`parts[p] = n`, `parts` strictly increasing, and every difference
`parts[i+1] - parts[i]` a member of `partition_length[]`, that is of
`{1, …, 12, 16, 32, 64, 128}`. -/
theorem ComputePartition_shape (src : Nat → Nat) (n : Nat) (parts0 : Mem) (hn : 128 ≤ n) :
    ∃ p parts, ComputePartition src n parts0 = some (p, parts) ∧ 1 ≤ p ∧
      parts 0 = 0 ∧ parts p = n ∧
      (∀ i, i < p → parts i < parts (i + 1)) ∧
      (∀ i, i < p → parts (i + 1) - parts i ∈ partition_length) ∧
      (∀ l, l ∈ partition_length ↔ l ∈ [1, 2, 3, 4, 5, 6, 7, 8, 9, 10, 11, 12, 16, 32, 64, 128]) := by
  obtain ⟨p, parts, h1, h2, h3, h4, h5, h6⟩ := ComputePartition_PartShape src n parts0 (by omega)
  exact ⟨p, parts, h1, h2, h3, h4, h5, h6, fun l => by rfl⟩

/-- A run of C9 on 128 zeros. -/
theorem ComputePartition_shape_witness :
    128 ≤ 128 ∧
    ∃ p parts, ComputePartition (fun _ => 0) 128 (fun _ => 0) = some (p, parts) ∧ 1 ≤ p ∧
      parts 0 = 0 ∧ parts p = 128 ∧
      (∀ i, i < p → parts i < parts (i + 1)) ∧
      (∀ i, i < p → parts (i + 1) - parts i ∈ partition_length) ∧
      (∀ l, l ∈ partition_length ↔ l ∈ [1, 2, 3, 4, 5, 6, 7, 8, 9, 10, 11, 12, 16, 32, 64, 128]) :=
  ⟨by decide, ComputePartition_shape (fun _ => 0) 128 (fun _ => 0) (by decide)⟩

/-! ## The partitioner test of the source -/

/-- C10 (partitioner golden vector).  On the 160-element input made of 128 zeros,
a separator, 8 ones, a separator, 4 ones, a separator, 6 ones, a separator,
7 ones, a separator and 2 ones (separator = the all-ones value),
`ComputePartition(src, 160, parts)` returns 11 with the consecutive sub-run
lengths 128, 1, 8, 1, 4, 1, 6, 1, 7, 1, 2; and `ComputePartition(src, 128, parts)`
returns 1 with `parts = [0, 128]`. -/
theorem ComputePartition_golden (parts0 : Mem) :
    goldenInput.length = 160 ∧
    (∃ parts, ComputePartition (fun i => goldenInput.getD i 0) 160 parts0 = some (11, parts) ∧
      (List.range 11).map (fun i => parts (i + 1) - parts i)
        = [128, 1, 8, 1, 4, 1, 6, 1, 7, 1, 2]) ∧
    (∃ parts, ComputePartition (fun i => goldenInput.getD i 0) 128 parts0 = some (1, parts) ∧
      parts 0 = 0 ∧ parts 1 = 128) := by
  refine ⟨by decide!, ?_, ?_⟩
  · rw [ComputePartition_eq, chain_golden_160]
    refine ⟨_, rfl, ?_⟩
    simp only [List.length_cons, List.length_nil]
    norm_num [List.range, List.range.loop]
  · rw [ComputePartition_eq, chain_golden_128]
    exact ⟨_, rfl, rfl, rfl⟩

/-! ## The partitioner is not optimal -/

/-- C8 (partitioner optimality) does not hold of the code.  On the 128 elements
of `spikeInput` (all zero except `src[100] = 2 ^ 63`) `ComputePartition` returns
the single sub-run `[0, 128)`, which takes `⌈128 · 64 / 8⌉ = 1024` bytes, while
the split at 64, 96, 100, 101 and 112, whose lengths 64, 32, 4, 1, 11 and 16 are
all partition lengths, takes 8 bytes. -/
theorem ComputePartition_not_optimal (parts0 : Mem) :
    (∃ parts, ComputePartition spikeInput 128 parts0 = some (1, parts) ∧
      parts 0 = 0 ∧ parts 1 = 128) ∧
    partitionCost spikeInput [0, 128] = 1024 ∧
    validSplit 128 [0, 128] ∧
    validSplit 128 [0, 64, 96, 100, 101, 112, 128] ∧
    partitionCost spikeInput [0, 64, 96, 100, 101, 112, 128] = 8 := by
  refine ⟨?_, by decide!, by decide!, by decide!, by decide!⟩
  rw [ComputePartition_eq, chain_spike_128]
  exact ⟨_, rfl, rfl, rfl⟩

/-! ## The unpackers invert `WriteBits` -/

/-- C5 (unpacker inversion).  For every width `w` of `bits_length[]`, that is of
`{0, …, 12, 16, 32, 64}`, every `n` in `[1, 128]` and every array `v` with
`v[i] < 2 ^ w`: if `WriteBits(v, w, n, buf, …)` succeeds and the unpacker for
`w` is run on a source that starts with the written bytes and has room for the
rounds of the unpacker, into a destination with room for `n` rounded up to
whole rounds, then the unpacker returns `⌈n·w/8⌉` and its first `n` output
elements are `v`. -/
theorem unpack_WriteBits (w n : Nat) (hw : w ∈ bits_length) (hn1 : 1 ≤ n) (hn : n ≤ 128)
    (v : Nat → Nat) (hv : ∀ i, i < n → v i < 2 ^ w)
    (buf : Mem) (bp blimit : Nat) (hsucc : (WriteBits v w n buf bp blimit).1 ≠ -1)
    (src : Mem) (sp slimit : Nat)
    (hsrc : ∀ k, k < bytesFor (n * w) → src (sp + k) = (WriteBits v w n buf bp blimit).2 (bp + k))
    (hs : sp + (unpackGroup w).1 * VP64_DIV_ROUNDUP n (unpackGroup w).2 ≤ slimit)
    (dst : Mem) (dp dlimit : Nat)
    (hd : dp + (unpackGroup w).2 * VP64_DIV_ROUNDUP n (unpackGroup w).2 ≤ dlimit) :
    (unpackerFor w src sp slimit dst dp dlimit n).1 = (bytesFor (n * w) : Nat) ∧
    ∀ i, i < n → (unpackerFor w src sp slimit dst dp dlimit n).2 (dp + i) = v i := by
  have _ := hn1
  have _ := hn
  have hroom : bp + bytesFor (n * w) ≤ blimit := by
    by_contra hc
    exact hsucc (WriteBits_no_room v w n buf bp blimit (by omega))
  obtain ⟨h1, h2, _⟩ := unpackerFor_ok w hw src sp slimit dst dp dlimit n hs hd
  refine ⟨h1, fun i hi => ?_⟩
  rw [h2 i hi, getBits_written v w n (bits_length_le w hw) buf bp blimit hroom src sp hsrc i hi,
    Nat.mod_eq_of_lt (hv i hi)]

/-- A run of C5: three 9-bit values are written into 4 bytes and unpacked by
`Unpack9` from a source of 18 bytes into a destination of 16 elements. -/
theorem unpack_WriteBits_witness :
    9 ∈ bits_length ∧ 1 ≤ 3 ∧ 3 ≤ 128 ∧
    (∀ i, i < 3 → (fun i => [5, 300, 511].getD i 0) i < 2 ^ 9) ∧
    (WriteBits (fun i => [5, 300, 511].getD i 0) 9 3 (fun _ => 0) 0 4).1 ≠ -1 ∧
    (unpackerFor 9 (WriteBits (fun i => [5, 300, 511].getD i 0) 9 3 (fun _ => 0) 0 4).2
        0 18 (fun _ => 0) 0 16 3).1 = (bytesFor (3 * 9) : Nat) ∧
    ∀ i, i < 3 →
      (unpackerFor 9 (WriteBits (fun i => [5, 300, 511].getD i 0) 9 3 (fun _ => 0) 0 4).2
        0 18 (fun _ => 0) 0 16 3).2 (0 + i) = (fun i => [5, 300, 511].getD i 0) i :=
  have hv : ∀ i, i < 3 → (fun i => [5, 300, 511].getD i 0) i < 2 ^ 9 := by
    intro i hi
    interval_cases i <;> decide
  have hsucc : (WriteBits (fun i => [5, 300, 511].getD i 0) 9 3 (fun _ => 0) 0 4).1 ≠ -1 := by
    decide
  ⟨by decide, by decide, by decide, hv, hsucc,
    unpack_WriteBits 9 3 (by decide) (by decide) (by decide) (fun i => [5, 300, 511].getD i 0) hv
      (fun _ => 0) 0 4 hsucc _ 0 18 (fun _ _ => rfl) (by decide) (fun _ => 0) 0 16 (by decide)⟩

/-! ## The round trip of a block -/

/-- C4 (block round trip).  For every `n` in `[1, 65536]` and every `x` of `n`
64-bit values, `CompressBlock(x, n, dst, dlimit)` called with
`dlimit - dst ≥ CompressBound(n)` returns a size `wsz ≠ 0`, and then
`UncompressBlock(dst, buf, n)` returns `wsz` and leaves `buf[i] = x[i]` for every
`i < n`, in the raw mode `n < 144` as in the partitioned mode `n ≥ 144`. -/
theorem block_round_trip (x : Nat → Nat) (n : Nat) (hn1 : 1 ≤ n) (hn : n ≤ 65536)
    (hx : ∀ i, i < n → x i < 2 ^ 64) (dst : Mem) (dp dlimit : Nat)
    (hroom : dp + CompressBound n ≤ dlimit) (buf : Mem) (bdp : Nat) :
    ∃ wsz out, CompressBlock x n dst dp dlimit = some (wsz, out) ∧ wsz ≠ 0 ∧
      (UncompressBlock out dp buf bdp n).1 = wsz ∧
      ∀ i, i < n → (UncompressBlock out dp buf bdp n).2 (bdp + i) = x i := by
  have hb : 9 * n ≤ CompressBound n := by unfold CompressBound; simp only []; omega
  by_cases h144 : n < 144
  · obtain ⟨out, h1, h2, _⟩ := CompressBlock_raw x n dst dp dlimit h144 hx
    obtain ⟨u1, u2, _⟩ := UncompressBlock_of_layout out dp x n (8 * n) hx (by omega) h2 buf bdp
    exact ⟨8 * n, out, h1, by omega, u1, u2⟩
  · obtain ⟨R, out, h1, h2, h3, _, _⟩ := CompressBlock_framed x n dst dp dlimit (by omega) hx
      (by omega) (by omega)
    obtain ⟨u1, u2, _⟩ := UncompressBlock_of_layout out dp x n R hx (by omega) h2 buf bdp
    exact ⟨R, out, h1, by omega, u1, u2⟩

/-- A run of C4 on a block of two elements. -/
theorem block_round_trip_witness :
    1 ≤ 2 ∧ 2 ≤ 65536 ∧ (∀ i, i < 2 → (fun i => [7, 2 ^ 64 - 1].getD i 0) i < 2 ^ 64) ∧
    0 + CompressBound 2 ≤ 34 ∧
    ∃ wsz out, CompressBlock (fun i => [7, 2 ^ 64 - 1].getD i 0) 2 (fun _ => 0) 0 34
        = some (wsz, out) ∧ wsz ≠ 0 ∧
      (UncompressBlock out 0 (fun _ => 0) 0 2).1 = wsz ∧
      ∀ i, i < 2 → (UncompressBlock out 0 (fun _ => 0) 0 2).2 (0 + i)
        = (fun i => [7, 2 ^ 64 - 1].getD i 0) i :=
  have hx : ∀ i, i < 2 → (fun i => [7, 2 ^ 64 - 1].getD i 0) i < 2 ^ 64 := by
    intro i hi
    interval_cases i <;> decide
  ⟨by decide, by decide, hx, by decide,
    block_round_trip (fun i => [7, 2 ^ 64 - 1].getD i 0) 2 (by decide) (by decide) hx
      (fun _ => 0) 0 34 (by decide) (fun _ => 0) 0⟩

/-! ## The round trip of a frame -/

/-- C1 (frame round trip).  For every `n` (so for every `n ≥ 1`) and every `x` of
`n` 64-bit values, `Compress(x, dst, n)`, whose limit is `CompressBound(n)` bytes
behind `dst`, returns a size `wsz ≠ 0` and writes nothing at or behind
`dst + CompressBound(n)`, and then `Uncompress(dst, buf, n)` returns exactly `wsz`
and leaves `buf[i] = x[i]` for every `i < n`. -/
theorem frame_round_trip (x : Nat → Nat) (n : Nat) (hx : ∀ i, i < n → x i < 2 ^ 64)
    (dst buf : Mem) :
    ∃ wsz out, Compress x dst n = some (wsz, out) ∧ wsz ≠ 0 ∧
      (∀ y, CompressBound n ≤ y → out y = dst y) ∧
      (Uncompress out buf n).1 = wsz ∧
      ∀ i, i < n → (Uncompress out buf n).2 i = x i := by
  obtain ⟨W, out, offs, h1, h2, h3, h4, h5⟩ := Compress_layout x dst n hx
  obtain ⟨u1, u2, _⟩ := Uncompress_of_layout out x n W offs hx h2 buf
  have hb : 8 + 9 * n ≤ CompressBound n := by unfold CompressBound; simp only []; omega
  exact ⟨W, out, h1, by omega, fun y hy => h5 y (by omega), u1, u2⟩

/-- A run of C1 on a frame of two elements. -/
theorem frame_round_trip_witness :
    (∀ i, i < 2 → (fun i => [7, 2 ^ 64 - 1].getD i 0) i < 2 ^ 64) ∧
    ∃ wsz out, Compress (fun i => [7, 2 ^ 64 - 1].getD i 0) (fun _ => 0) 2 = some (wsz, out) ∧
      wsz ≠ 0 ∧ (∀ y, CompressBound 2 ≤ y → out y = (fun _ => 0) y) ∧
      (Uncompress out (fun _ => 0) 2).1 = wsz ∧
      ∀ i, i < 2 → (Uncompress out (fun _ => 0) 2).2 i = (fun i => [7, 2 ^ 64 - 1].getD i 0) i :=
  have hx : ∀ i, i < 2 → (fun i => [7, 2 ^ 64 - 1].getD i 0) i < 2 ^ 64 := by
    intro i hi
    interval_cases i <;> decide
  ⟨hx, frame_round_trip (fun i => [7, 2 ^ 64 - 1].getD i 0) 2 hx (fun _ => 0) (fun _ => 0)⟩

/-! ## The size of a frame -/

/-- C2 (size bound).  For every `n` and every `x` of `n` 64-bit values,
`Compress(x, dst, n)` returns a byte count that is at most
`CompressBound(n) = 8 + 8 · ⌈n / 65536⌉ + 9 · n`. -/
theorem Compress_size_bound (x : Nat → Nat) (n : Nat) (hx : ∀ i, i < n → x i < 2 ^ 64)
    (dst : Mem) :
    CompressBound n = 8 + 8 * ((n + 65535) / 65536) + 9 * n ∧
    ∃ wsz out, Compress x dst n = some (wsz, out) ∧ wsz ≤ CompressBound n := by
  obtain ⟨W, out, _, h1, _, _, h4, _⟩ := Compress_layout x dst n hx
  have hb : CompressBound n = 8 + 8 * ((n + 65535) / 65536) + 9 * n := rfl
  exact ⟨hb, W, out, h1, by omega⟩

/-- A run of C2 on three elements. -/
theorem Compress_size_bound_witness :
    (∀ i, i < 3 → (fun i => 2 ^ 64 - 1 - i) i < 2 ^ 64) ∧
    CompressBound 3 = 8 + 8 * ((3 + 65535) / 65536) + 9 * 3 ∧
    ∃ wsz out, Compress (fun i => 2 ^ 64 - 1 - i) (fun _ => 0) 3 = some (wsz, out) ∧
      wsz ≤ CompressBound 3 :=
  have hx : ∀ i, i < 3 → (fun i => 2 ^ 64 - 1 - i) i < 2 ^ 64 := by
    intro i hi
    interval_cases i <;> decide
  ⟨hx, Compress_size_bound (fun i => 2 ^ 64 - 1 - i) 3 hx (fun _ => 0)⟩

/-! ## `WriteBits` with a width between 33 and 63 -/

/-- C6 (WriteBits reference packing) fails on the code for the width 63.  With
`src = {2, 0}`, `nbits = 63`, `n = 2` and 16 bytes of room `WriteBits` returns 16;
the byte 7 of the reference bit string is `0x04`, but the code stores `0` there,
and it stores nothing in the bytes 8 to 15, which are zero in the reference bit
string and keep their former value `0xAA`. -/
theorem WriteBits_width_63 :
    (WriteBits (fun i => [2, 0].getD i 0) 63 2 (fun _ => 0xAA) 0 16).1 = 16 ∧
    packedByte (fun i => [2, 0].getD i 0) 63 2 7 = 4 ∧
    (WriteBits (fun i => [2, 0].getD i 0) 63 2 (fun _ => 0xAA) 0 16).2 7 = 0 ∧
    (∀ k, 8 ≤ k → k < 16 →
      packedByte (fun i => [2, 0].getD i 0) 63 2 k = 0 ∧
      (WriteBits (fun i => [2, 0].getD i 0) 63 2 (fun _ => 0xAA) 0 16).2 k = 0xAA) := by
  refine ⟨by decide, by decide, by decide, ?_⟩
  intro k h1 h2
  interval_cases k <;> exact ⟨by decide, by decide⟩

/-! ## The failure of an unpacker -/

/-- C16 (unpacker failure).  For every width `w` of `bits_length[]` and every
count `n` in the range of the `int` arithmetic of the unpacker (`n` and `⌈n·w/8⌉`
are then below `2 ^ 31`), the unpacker for `w` returns `-1` whenever fewer than
`⌈n·w/8⌉` source bytes lie before `slimit`, and returns `-1` whenever fewer than
`n` destination elements lie before `dlimit`.  (The number of bytes before a
limit is the distance to it, `0` if the limit lies before the pointer.) -/
theorem unpacker_no_room (w : Nat) (hw : w ∈ bits_length) (n : Nat) (hn : unpackExact w n)
    (src : Mem) (sp slimit : Nat) (dst : Mem) (dp dlimit : Nat) :
    (slimit - sp < bytesFor (n * w) → (unpackerFor w src sp slimit dst dp dlimit n).1 = -1) ∧
    (dlimit - dp < n → (unpackerFor w src sp slimit dst dp dlimit n).1 = -1) ∧
    (n < 2 ^ 31 ∧ bytesFor (n * w) < 2 ^ 31) := by
  obtain ⟨c1, c2⟩ := group_cover w hw n
  obtain ⟨f1, _, _, f4⟩ := unpackExact_fits w hw n hn
  refine ⟨?_, ?_, f1, f4⟩
  · intro h
    rw [unpackerFor_fail w hw src sp slimit dst dp dlimit n (Or.inl ⟨?_, by omega⟩)]
    intro h0
    subst h0
    simp [bytesFor] at h
  · intro h
    rw [unpackerFor_fail w hw src sp slimit dst dp dlimit n (Or.inr (by omega))]

/-- A run of C16: `Unpack3` for 16 elements with 5 source bytes, and with 15
destination elements. -/
theorem unpacker_no_room_witness :
    (3 ∈ bits_length ∧ unpackExact 3 16) ∧
    (5 - 0 < bytesFor (16 * 3) ∧
      (unpackerFor 3 unpack3Input 0 5 (fun _ => 0) 0 16 16).1 = -1) ∧
    (15 - 0 < 16 ∧ (unpackerFor 3 unpack3Input 0 6 (fun _ => 0) 0 15 16).1 = -1) :=
  ⟨⟨by decide, by unfold unpackExact; decide⟩,
    ⟨by decide,
      (unpacker_no_room 3 (by decide) 16 (by unfold unpackExact; decide) unpack3Input 0 5
        (fun _ => 0) 0 16).1 (by decide)⟩,
    ⟨by decide,
      (unpacker_no_room 3 (by decide) 16 (by unfold unpackExact; decide) unpack3Input 0 6
        (fun _ => 0) 0 15).2.1 (by decide)⟩⟩

/-! ## The unpackers read the bit stream -/

/-- C17 (byte-oriented unpackers).  For every width `w` in `1..8`, every count
`n` in the range of the `int` arithmetic of the unpacker (`⌈n·w/8⌉` is then below
`2 ^ 31`) and every source and destination with room for the rounds of the
unpacker, `Unpack_w` (the entry of the unpacker table for `w`) returns `⌈n·w/8⌉`
and sets `dst[i]`,
for every `i < n`, to the unsigned value of the source bits `[i·w, (i+1)·w)`,
the bit 0 being the most significant bit of the byte 0; `Unpack3` on
`3A 94 FF 0A D3 22` with `n = 16` returns 6 and yields
`1,6,5,1,2,3,7,7,0,2,5,5,1,4,4,2`. -/
theorem byte_unpackers_decode (w : Nat) (hw1 : 1 ≤ w) (hw8 : w ≤ 8) (n : Nat)
    (hn : unpackExact w n) (src : Mem) (sp slimit : Nat) (dst : Mem) (dp dlimit : Nat)
    (hs : sp + (unpackGroup w).1 * VP64_DIV_ROUNDUP n (unpackGroup w).2 ≤ slimit)
    (hd : dp + (unpackGroup w).2 * VP64_DIV_ROUNDUP n (unpackGroup w).2 ≤ dlimit) :
    ((unpackerFor w src sp slimit dst dp dlimit n).1 = (bytesFor (n * w) : Nat) ∧
      ∀ i, i < n → (unpackerFor w src sp slimit dst dp dlimit n).2 (dp + i)
        = getBits src sp (i * w) w) ∧
    (unpackerFor 1 = Unpack1 ∧ unpackerFor 2 = Unpack2 ∧ unpackerFor 3 = Unpack3 ∧
      unpackerFor 4 = Unpack4 ∧ unpackerFor 5 = Unpack5 ∧ unpackerFor 6 = Unpack6 ∧
      unpackerFor 7 = Unpack7 ∧ unpackerFor 8 = Unpack8) ∧
    ((Unpack3 unpack3Input 0 6 (fun _ => 0) 0 16 16).1 = 6 ∧
      (List.range 16).map (Unpack3 unpack3Input 0 6 (fun _ => 0) 0 16 16).2
        = [1, 6, 5, 1, 2, 3, 7, 7, 0, 2, 5, 5, 1, 4, 4, 2]) ∧
    bytesFor (n * w) < 2 ^ 31 := by
  have hw : w ∈ bits_length := by
    interval_cases w <;> decide
  obtain ⟨h1, h2, _⟩ := unpackerFor_ok w hw src sp slimit dst dp dlimit n hs hd
  exact ⟨⟨h1, h2⟩, ⟨rfl, rfl, rfl, rfl, rfl, rfl, rfl, rfl⟩, ⟨by decide, by decide⟩,
    (unpackExact_fits w hw n hn).2.2.2⟩

/-- A run of C17: `Unpack5` for 3 elements of the test bytes. -/
theorem byte_unpackers_decode_witness :
    (1 ≤ 5 ∧ 5 ≤ 8 ∧ unpackExact 5 3 ∧
      0 + (unpackGroup 5).1 * VP64_DIV_ROUNDUP 3 (unpackGroup 5).2 ≤ 6 ∧
      0 + (unpackGroup 5).2 * VP64_DIV_ROUNDUP 3 (unpackGroup 5).2 ≤ 8) ∧
    ((unpackerFor 5 unpack3Input 0 6 (fun _ => 0) 0 8 3).1 = (bytesFor (3 * 5) : Nat) ∧
      ∀ i, i < 3 → (unpackerFor 5 unpack3Input 0 6 (fun _ => 0) 0 8 3).2 (0 + i)
        = getBits unpack3Input 0 (i * 5) 5) :=
  ⟨⟨by decide, by decide, by unfold unpackExact; decide, by decide, by decide⟩,
    (byte_unpackers_decode 5 (by decide) (by decide) 3 (by unfold unpackExact; decide)
      unpack3Input 0 6 (fun _ => 0) 0 8 (by decide) (by decide)).1⟩

/-- C18 (u16-gathering unpackers).  For every width `w` in `9..12`, every count
`n` in the range of the `int` arithmetic of the unpacker (`⌈n·w/8⌉` is then below
`2 ^ 31`) and every source and destination with room for the rounds of the
unpacker, `Unpack_w` returns `⌈n·w/8⌉` and sets `dst[i]`, for every `i < n`, to the unsigned value of
the source bits `[i·w, (i+1)·w)` read most significant bit first; `Unpack9` on
the 36 bytes of the test with `n = 32` returns 36, with
`dst[0..7] = 343,8,409,67,85,291,197,0` and `dst[31] = 306`. -/
theorem u16_unpackers_decode (w : Nat) (hw9 : 9 ≤ w) (hw12 : w ≤ 12) (n : Nat)
    (hn : unpackExact w n) (src : Mem) (sp slimit : Nat) (dst : Mem) (dp dlimit : Nat)
    (hs : sp + (unpackGroup w).1 * VP64_DIV_ROUNDUP n (unpackGroup w).2 ≤ slimit)
    (hd : dp + (unpackGroup w).2 * VP64_DIV_ROUNDUP n (unpackGroup w).2 ≤ dlimit) :
    ((unpackerFor w src sp slimit dst dp dlimit n).1 = (bytesFor (n * w) : Nat) ∧
      ∀ i, i < n → (unpackerFor w src sp slimit dst dp dlimit n).2 (dp + i)
        = getBits src sp (i * w) w) ∧
    (unpackerFor 9 = Unpack9 ∧ unpackerFor 10 = Unpack10 ∧ unpackerFor 11 = Unpack11 ∧
      unpackerFor 12 = Unpack12) ∧
    ((Unpack9 unpack9Input 0 36 (fun _ => 0) 0 32 32).1 = 36 ∧
      (List.range 8).map (Unpack9 unpack9Input 0 36 (fun _ => 0) 0 32 32).2
        = [343, 8, 409, 67, 85, 291, 197, 0] ∧
      (Unpack9 unpack9Input 0 36 (fun _ => 0) 0 32 32).2 31 = 306) ∧
    bytesFor (n * w) < 2 ^ 31 := by
  have hw : w ∈ bits_length := by
    interval_cases w <;> decide
  obtain ⟨h1, h2, _⟩ := unpackerFor_ok w hw src sp slimit dst dp dlimit n hs hd
  exact ⟨⟨h1, h2⟩, ⟨rfl, rfl, rfl, rfl⟩, ⟨by decide, by decide, by decide⟩,
    (unpackExact_fits w hw n hn).2.2.2⟩

/-- A run of C18: `Unpack12` for 5 elements of the test bytes. -/
theorem u16_unpackers_decode_witness :
    (9 ≤ 12 ∧ 12 ≤ 12 ∧ unpackExact 12 5 ∧
      0 + (unpackGroup 12).1 * VP64_DIV_ROUNDUP 5 (unpackGroup 12).2 ≤ 36 ∧
      0 + (unpackGroup 12).2 * VP64_DIV_ROUNDUP 5 (unpackGroup 12).2 ≤ 8) ∧
    ((unpackerFor 12 unpack9Input 0 36 (fun _ => 0) 0 8 5).1 = (bytesFor (5 * 12) : Nat) ∧
      ∀ i, i < 5 → (unpackerFor 12 unpack9Input 0 36 (fun _ => 0) 0 8 5).2 (0 + i)
        = getBits unpack9Input 0 (i * 12) 12) :=
  ⟨⟨by decide, by decide, by unfold unpackExact; decide, by decide, by decide⟩,
    (u16_unpackers_decode 12 (by decide) (by decide) 5 (by unfold unpackExact; decide)
      unpack9Input 0 36 (fun _ => 0) 0 8 (by decide) (by decide)).1⟩

/-- C19 (whole-element unpackers).  For every width `w` in `{0, 16, 32, 64}` and
every count `n` in the range of the `int` arithmetic of the unpacker (`n·w/8` is
then below `2 ^ 31`) with at least `n·w/8` source bytes before `slimit` and `n`
destination elements before `dlimit`, `Unpack_w` returns `n·w/8` and sets `dst[i]`, for every
`i < n`, to the big-endian value of the `w/8` source bytes at the offset
`i·w/8`; for `w = 0` that is `0`, and the source is not read; no element at an
index `≥ n` is written. -/
theorem whole_unpackers_decode (w : Nat) (hw : w = 0 ∨ w = 16 ∨ w = 32 ∨ w = 64) (n : Nat)
    (hn : unpackExact w n) (src : Mem) (sp slimit : Nat) (dst : Mem) (dp dlimit : Nat)
    (hs : sp + n * w / 8 ≤ slimit) (hd : dp + n ≤ dlimit) :
    (unpackerFor w src sp slimit dst dp dlimit n).1 = ((n * w / 8 : Nat) : Int) ∧
    (∀ i, i < n → (unpackerFor w src sp slimit dst dp dlimit n).2 (dp + i)
      = beValue src (sp + i * (w / 8)) (w / 8)) ∧
    (∀ i, i < n → w = 0 → (unpackerFor w src sp slimit dst dp dlimit n).2 (dp + i) = 0) ∧
    (∀ a, a < dp ∨ dp + n ≤ a → (unpackerFor w src sp slimit dst dp dlimit n).2 a = dst a) ∧
    (∀ (src' : Mem) (sp' slimit' : Nat),
      unpackerFor 0 src' sp' slimit' dst dp dlimit n = unpackerFor 0 src sp slimit dst dp dlimit n) ∧
    (unpackerFor 0 = Unpack0 ∧ unpackerFor 16 = Unpack16 ∧ unpackerFor 32 = Unpack32 ∧
      unpackerFor 64 = Unpack64) ∧
    (n < 2 ^ 31 ∧ n * w / 8 < 2 ^ 31) := by
  have hmem : w ∈ bits_length := by
    rcases hw with rfl | rfl | rfl | rfl <;> decide
  have hg : unpackGroup w = (w / 8, 1) := by
    rcases hw with rfl | rfl | rfl | rfl <;> rfl
  have hb : n * w / 8 = w / 8 * n ∧ bytesFor (n * w) = n * w / 8 := by
    rcases hw with rfl | rfl | rfl | rfl <;> simp only [bytesFor] <;> omega
  have hw8 : w = 8 * (w / 8) := by
    rcases hw with rfl | rfl | rfl | rfl <;> rfl
  obtain ⟨h1, h2, h3⟩ := unpackerFor_ok w hmem src sp slimit dst dp dlimit n
    (by rw [hg, div_roundup_one]; show sp + w / 8 * n ≤ slimit; omega)
    (by rw [hg, div_roundup_one]; show dp + 1 * n ≤ dlimit; omega)
  rw [hg, div_roundup_one] at h3
  refine ⟨by rw [h1, hb.2], fun i hi => ?_, fun i hi h0 => ?_, fun a ha => h3 a (by
    show a < dp ∨ dp + 1 * n ≤ a; omega), fun _ _ _ => rfl, ⟨rfl, rfl, rfl, rfl⟩,
    (unpackExact_fits w hmem n hn).1, by
      rw [← hb.2]
      exact (unpackExact_fits w hmem n hn).2.2.2⟩
  · rw [h2 i hi]
    conv_lhs => rw [hw8]
    exact getBits_aligned src sp i (w / 8)
  · rw [h2 i hi, h0]
    exact getBits_zero_width src sp _

/-- A run of C19: `Unpack16` for 3 elements of the test bytes. -/
theorem whole_unpackers_decode_witness :
    ((16 = 0 ∨ 16 = 16 ∨ 16 = 32 ∨ 16 = 64) ∧ unpackExact 16 3 ∧ 0 + 3 * 16 / 8 ≤ 6 ∧
      0 + 3 ≤ 3) ∧
    (unpackerFor 16 unpack3Input 0 6 (fun _ => 0) 0 3 3).1 = ((3 * 16 / 8 : Nat) : Int) :=
  ⟨⟨by decide, by unfold unpackExact; decide, by decide, by decide⟩,
    (whole_unpackers_decode 16 (by decide) 3 (by unfold unpackExact; decide) unpack3Input 0 6
      (fun _ => 0) 0 3 (by decide) (by decide)).1⟩

/-! ## The frame of `WriteBits` -/

/-- C20 (WriteBits frame).  For every width `w ≤ 64`, every `n ≤ 128` and every
destination, a successful `WriteBits` leaves every destination byte at an offset
`≥ ⌈n·w/8⌉` unchanged, with `w = 0` it leaves the whole buffer unchanged, and a
failing `WriteBits` (`-1`) leaves the whole buffer unchanged. -/
theorem WriteBits_frame (src : Nat → Nat) (w n : Nat) (dst : Mem) (dp dlimit : Nat)
    (hw : w ≤ 64) (hn : n ≤ 128) :
    ((WriteBits src w n dst dp dlimit).1 ≠ -1 →
      ∀ x, dp + bytesFor (n * w) ≤ x → (WriteBits src w n dst dp dlimit).2 x = dst x) ∧
    ((WriteBits src w n dst dp dlimit).1 ≠ -1 → w = 0 →
      (WriteBits src w n dst dp dlimit).2 = dst) ∧
    ((WriteBits src w n dst dp dlimit).1 = -1 → (WriteBits src w n dst dp dlimit).2 = dst) := by
  have _ := hw
  have _ := hn
  refine ⟨fun _ x hx => WriteBits_frame_all src w n dst dp dlimit x (Or.inr hx), ?_, ?_⟩
  · intro _ h0
    subst h0
    unfold WriteBits
    simp only []
    split_ifs <;> rfl
  · intro h
    by_cases h1 : dp + bytesFor (n * w) > dlimit
    · have hc : VP64_DIV_ROUNDUP (w * n) 8 = bytesFor (n * w) := by
        unfold VP64_DIV_ROUNDUP bytesFor
        rw [Nat.mul_comm w n]
        omega
      unfold WriteBits
      simp only [hc]
      rw [if_pos h1]
    · exfalso
      have hc : VP64_DIV_ROUNDUP (w * n) 8 = bytesFor (n * w) := by
        unfold VP64_DIV_ROUNDUP bytesFor
        rw [Nat.mul_comm w n]
        omega
      unfold WriteBits at h
      simp only [hc] at h
      rw [if_neg h1] at h
      split_ifs at h

/-- A run of C20: four values of 3 bits into a buffer of 10 bytes. -/
theorem WriteBits_frame_witness :
    (3 ≤ 64 ∧ 4 ≤ 128 ∧ (WriteBits (fun i => i) 3 4 (fun _ => 0xAA) 0 10).1 ≠ -1) ∧
    ∀ x, 0 + bytesFor (4 * 3) ≤ x →
      (WriteBits (fun i => i) 3 4 (fun _ => 0xAA) 0 10).2 x = (fun _ => 0xAA) x :=
  ⟨⟨by decide, by decide, by decide⟩,
    (WriteBits_frame (fun i => i) 3 4 (fun _ => 0xAA) 0 10 (by decide) (by decide)).1
      (by decide)⟩

/-! ## The format of a block -/

/-- C12 (raw small blocks).  For every `n` with `1 ≤ n < 144`, `CompressBlock`
returns `8 n` and writes only the `n` elements, in order, as 8-byte big-endian
values: the bytes `[8 i, 8 i + 8)` of the block are the element `i`, so there is
no header and no control byte; and `UncompressBlock` for such an `n` returns
`8 n` and sets `dst[i]` to the big-endian value of the source bytes
`[8 i, 8 i + 8)`. -/
theorem raw_small_block (x : Nat → Nat) (n : Nat) (hn1 : 1 ≤ n) (hn : n < 144)
    (hx : ∀ i, i < n → x i < 2 ^ 64) (dst : Mem) (dp dlimit : Nat)
    (src : Mem) (sp : Nat) (buf : Mem) (bdp : Nat) :
    (∃ out, CompressBlock x n dst dp dlimit = some (8 * n, out) ∧
      (∀ i, i < n → beValue out (dp + 8 * i) 8 = x i) ∧
      (∀ a, a < dp ∨ dp + 8 * n ≤ a → out a = dst a)) ∧
    ((UncompressBlock src sp buf bdp n).1 = 8 * n ∧
      (∀ i, i < n → (UncompressBlock src sp buf bdp n).2 (bdp + i) = beValue src (sp + 8 * i) 8) ∧
      (∀ a, a < bdp ∨ bdp + n ≤ a → (UncompressBlock src sp buf bdp n).2 a = buf a)) := by
  have _ := hn1
  constructor
  · obtain ⟨out, h1, h2, h3⟩ := CompressBlock_raw x n dst dp dlimit hn hx
    unfold BlockLayout at h2
    rw [if_pos hn] at h2
    exact ⟨out, h1, fun i hi => by rw [← DecodeUint64_beValue]; exact h2.2 i hi, h3⟩
  · have hlay : BlockLayout src sp (fun i => beValue src (sp + 8 * i) 8) n (8 * n) := by
      unfold BlockLayout
      rw [if_pos hn]
      exact ⟨rfl, fun i _ => DecodeUint64_beValue src _⟩
    exact UncompressBlock_of_layout src sp _ n (8 * n) (fun i _ => beValue_lt src _ 8)
      (by omega) hlay buf bdp

/-- A run of C12 on a block of two elements. -/
theorem raw_small_block_witness :
    (1 ≤ 2 ∧ 2 < 144 ∧ (∀ i, i < 2 → (fun i => [7, 2 ^ 64 - 1].getD i 0) i < 2 ^ 64)) ∧
    ∃ out, CompressBlock (fun i => [7, 2 ^ 64 - 1].getD i 0) 2 (fun _ => 0) 0 16
        = some (8 * 2, out) ∧
      (∀ i, i < 2 → beValue out (0 + 8 * i) 8 = (fun i => [7, 2 ^ 64 - 1].getD i 0) i) ∧
      (∀ a, a < 0 ∨ 0 + 8 * 2 ≤ a → out a = (fun _ => 0) a) :=
  have hx : ∀ i, i < 2 → (fun i => [7, 2 ^ 64 - 1].getD i 0) i < 2 ^ 64 := by
    intro i hi
    interval_cases i <;> decide
  ⟨⟨by decide, by decide, hx⟩,
    (raw_small_block (fun i => [7, 2 ^ 64 - 1].getD i 0) 2 (by decide) (by decide) hx
      (fun _ => 0) 0 16 (fun _ => 0) 0 (fun _ => 0) 0).1⟩

/-- C13 (block header).  For every `n ≥ 144` (with `9 n < 2 ^ 32`, so that the
sizes fit the 32-bit fields) on which `CompressBlock` succeeds with the size `R`,
`p` being the partition count `ComputePartition` returns for the first `n - 16`
elements: `R = 8 + p + Σᵢ ⌈ℓᵢ·wᵢ/8⌉ + 128`, the bytes `[0, 4)` of the block hold
`R` big-endian and the bytes `[4, 8)` hold `p + 8` big-endian. -/
theorem block_header (x : Nat → Nat) (n : Nat) (dst : Mem) (dp dlimit : Nat)
    (hn : 144 ≤ n) (hx : ∀ i, i < n → x i < 2 ^ 64) (hwrap : 9 * n < 2 ^ 32)
    (R : Nat) (out : Mem) (hs : CompressBlock x n dst dp dlimit = some (R, out)) (hR : R ≠ 0) :
    ∃ p parts, ComputePartition x (n - 16) (fun _ => 0) = some (p, parts) ∧
      R = 8 + p + ((List.range p).map (fun i =>
        bytesFor ((parts (i + 1) - parts i) * runWidth x (parts i) (parts (i + 1))))).sum + 128 ∧
      beValue out dp 4 = R ∧ beValue out (dp + 4) 4 = p + 8 := by
  obtain ⟨np, parts, hcp, hshape, _, h1, h2, h3, _⟩ := CompressBlock_success x n dst dp dlimit hn hx
    hwrap R out hs hR
  refine ⟨np, parts, hcp, ?_, ?_, ?_⟩
  · rw [← dataOff_eq_sum x (n - 16) np parts hshape np (Nat.le_refl np)]
    exact h1
  · rw [← DecodeUint32_beValue]; exact h2
  · rw [← DecodeUint32_beValue]; exact h3

/-- A run of C13 on a block of 144 elements. -/
theorem block_header_witness :
    (144 ≤ 144 ∧ (∀ i, i < 144 → (fun _ => 5) i < 2 ^ 64) ∧ 9 * 144 < 2 ^ 32) ∧
    ∃ R out, CompressBlock (fun _ => 5) 144 (fun _ => 0) 0 1296 = some (R, out) ∧ R ≠ 0 ∧
      ∃ p parts, ComputePartition (fun _ => 5) (144 - 16) (fun _ => 0) = some (p, parts) ∧
        R = 8 + p + ((List.range p).map (fun i =>
          bytesFor ((parts (i + 1) - parts i) *
            runWidth (fun _ => 5) (parts i) (parts (i + 1))))).sum + 128 ∧
        beValue out 0 4 = R ∧ beValue out (0 + 4) 4 = p + 8 := by
  obtain ⟨R, out, h1, _, h3, _, _⟩ := CompressBlock_framed (fun _ => 5) 144 (fun _ => 0) 0 1296 (by decide)
    (fun _ _ => (by decide : (5 : Nat) < 2 ^ 64)) (by decide) (by decide)
  exact ⟨⟨by decide, fun _ _ => (by decide : (5 : Nat) < 2 ^ 64), by decide⟩, R, out, h1,
    by omega,
    block_header (fun _ => 5) 144 (fun _ => 0) 0 1296 (by decide)
      (fun _ _ => (by decide : (5 : Nat) < 2 ^ 64)) (by decide) R out h1 (by omega)⟩

/-- C14 (control bytes).  For every `n ≥ 144` (with `9 n < 2 ^ 32`) and every
partition `i` of a successfully compressed block, the control byte at the offset
`8 + i` has in its low 4 bits the index in `bits_length[]` of
`wᵢ = round_up(max bits_needed)` over the elements of the partition and in its
high 4 bits the index in `partition_length[]` of the length `ℓᵢ`; and the
partition is packed with that width: the `e`-th field of `wᵢ` bits of its data is
its `e`-th element. -/
theorem control_bytes (x : Nat → Nat) (n : Nat) (dst : Mem) (dp dlimit : Nat)
    (hn : 144 ≤ n) (hx : ∀ i, i < n → x i < 2 ^ 64) (hwrap : 9 * n < 2 ^ 32)
    (R : Nat) (out : Mem) (hs : CompressBlock x n dst dp dlimit = some (R, out)) (hR : R ≠ 0) :
    ∃ p parts, ComputePartition x (n - 16) (fun _ => 0) = some (p, parts) ∧
      ∀ i, i < p →
        runWidth x (parts i) (parts (i + 1)) ∈ bits_length ∧
        parts (i + 1) - parts i ∈ partition_length ∧
        out (dp + 8 + i) < 256 ∧
        bits_length.getD (out (dp + 8 + i) &&& 0x0f) 0 = runWidth x (parts i) (parts (i + 1)) ∧
        partition_length.getD (out (dp + 8 + i) >>> 4) 0 = parts (i + 1) - parts i ∧
        ∀ e, e < parts (i + 1) - parts i →
          getBits out (dp + 8 + p + dataOff x parts i)
            (e * runWidth x (parts i) (parts (i + 1))) (runWidth x (parts i) (parts (i + 1)))
            = x (parts i + e) := by
  obtain ⟨np, parts, hcp, hshape, _, _, _, _, h4, h5, _⟩ := CompressBlock_success x n dst dp dlimit
    hn hx hwrap R out hs hR
  refine ⟨np, parts, hcp, fun i hi => ?_⟩
  obtain ⟨w1, w2, _, _⟩ := partWidth_spec x (n - 16) np parts hshape
    (fun i hi => hx i (by omega)) i hi
  have hw := partWidth_eq_runWidth x (n - 16) np parts hshape i hi
  obtain ⟨c1, c2, c3⟩ := ctrl_byte_index _ w1 _ w2
  have h5' := h5 i hi
  rw [hw] at w1 c1 c2 c3 h5'
  rw [h4 i hi]
  unfold ctrlByte
  rw [hw]
  exact ⟨w1, w2, c1, c2, c3, h5'⟩

/-- A run of C14 on a block of 144 elements. -/
theorem control_bytes_witness :
    (144 ≤ 144 ∧ (∀ i, i < 144 → (fun _ => 5) i < 2 ^ 64) ∧ 9 * 144 < 2 ^ 32) ∧
    ∃ R out, CompressBlock (fun _ => 5) 144 (fun _ => 0) 0 1296 = some (R, out) ∧ R ≠ 0 ∧
      ∃ p parts, ComputePartition (fun _ => 5) (144 - 16) (fun _ => 0) = some (p, parts) ∧
        ∀ i, i < p →
          runWidth (fun _ => 5) (parts i) (parts (i + 1)) ∈ bits_length ∧
          parts (i + 1) - parts i ∈ partition_length ∧
          out (0 + 8 + i) < 256 ∧
          bits_length.getD (out (0 + 8 + i) &&& 0x0f) 0
            = runWidth (fun _ => 5) (parts i) (parts (i + 1)) ∧
          partition_length.getD (out (0 + 8 + i) >>> 4) 0 = parts (i + 1) - parts i ∧
          ∀ e, e < parts (i + 1) - parts i →
            getBits out (0 + 8 + p + dataOff (fun _ => 5) parts i)
              (e * runWidth (fun _ => 5) (parts i) (parts (i + 1)))
              (runWidth (fun _ => 5) (parts i) (parts (i + 1)))
              = (fun _ => 5) (parts i + e) := by
  obtain ⟨R, out, h1, _, h3, _, _⟩ := CompressBlock_framed (fun _ => 5) 144 (fun _ => 0) 0 1296 (by decide)
    (fun _ _ => (by decide : (5 : Nat) < 2 ^ 64)) (by decide) (by decide)
  exact ⟨⟨by decide, fun _ _ => (by decide : (5 : Nat) < 2 ^ 64), by decide⟩, R, out, h1,
    by omega,
    control_bytes (fun _ => 5) 144 (fun _ => 0) 0 1296 (by decide)
      (fun _ _ => (by decide : (5 : Nat) < 2 ^ 64)) (by decide) R out h1 (by omega)⟩

/-- C15 (uncompressed tail).  For every `n ≥ 144` (with `9 n < 2 ^ 32`) on which
`CompressBlock` succeeds with the size `R`, the last 128 bytes `[R - 128, R)` of
the block are the 8-byte big-endian values of the last 16 elements
`src[n - 16 .. n)` in order, and these elements take no part in the partition or
in the packed data: the partition ends at `n - 16`, and with other last 16
elements the partition, the size and the bytes before `R - 128` are the same. -/
theorem block_tail (x : Nat → Nat) (n : Nat) (dst : Mem) (dp dlimit : Nat)
    (hn : 144 ≤ n) (hx : ∀ i, i < n → x i < 2 ^ 64) (hwrap : 9 * n < 2 ^ 32)
    (R : Nat) (out : Mem) (hs : CompressBlock x n dst dp dlimit = some (R, out)) (hR : R ≠ 0) :
    128 ≤ R ∧
    (∀ t, t < 16 → beValue out (dp + (R - 128) + 8 * t) 8 = x (n - 16 + t)) ∧
    (∃ p parts, ComputePartition x (n - 16) (fun _ => 0) = some (p, parts) ∧ parts p = n - 16) ∧
    ∀ x' : Nat → Nat, (∀ i, i < n - 16 → x i = x' i) →
      ComputePartition x' (n - 16) (fun _ => 0) = ComputePartition x (n - 16) (fun _ => 0) ∧
      ∃ out', CompressBlock x' n dst dp dlimit = some (R, out') ∧
        ∀ a, a < dp + (R - 128) → out' a = out a := by
  obtain ⟨np, parts, hcp, hshape, _, h1, _, _, _, _, h6, _⟩ := CompressBlock_success x n dst dp
    dlimit hn hx hwrap R out hs hR
  refine ⟨by omega, fun t ht => ?_, ⟨np, parts, hcp, hshape.2.2.1⟩, fun x' hagree => ?_⟩
  · rw [← DecodeUint64_beValue, ← h6 t ht,
      show dp + (R - 128) + 8 * t = dp + 8 + np + dataOff x parts np + 8 * t from by omega]
  · obtain ⟨p1, out', p2, p3⟩ := CompressBlock_prefix x x' n dst dp dlimit hn hx hwrap hagree R out
      hs hR
    exact ⟨p1, out', p2, fun a ha => p3 a (Or.inl (by omega))⟩

/-- A run of C15 on a block of 144 elements. -/
theorem block_tail_witness :
    (144 ≤ 144 ∧ (∀ i, i < 144 → (fun _ => 5) i < 2 ^ 64) ∧ 9 * 144 < 2 ^ 32) ∧
    ∃ R out, CompressBlock (fun _ => 5) 144 (fun _ => 0) 0 1296 = some (R, out) ∧ R ≠ 0 ∧
      (128 ≤ R ∧
        (∀ t, t < 16 → beValue out (0 + (R - 128) + 8 * t) 8 = (fun _ => 5) (144 - 16 + t)) ∧
        (∃ p parts, ComputePartition (fun _ => 5) (144 - 16) (fun _ => 0) = some (p, parts) ∧
          parts p = 144 - 16) ∧
        ∀ x' : Nat → Nat, (∀ i, i < 144 - 16 → (fun _ => 5) i = x' i) →
          ComputePartition x' (144 - 16) (fun _ => 0)
            = ComputePartition (fun _ => 5) (144 - 16) (fun _ => 0) ∧
          ∃ out', CompressBlock x' 144 (fun _ => 0) 0 1296 = some (R, out') ∧
            ∀ a, a < 0 + (R - 128) → out' a = out a) := by
  obtain ⟨R, out, h1, _, h3, _, _⟩ := CompressBlock_framed (fun _ => 5) 144 (fun _ => 0) 0 1296 (by decide)
    (fun _ _ => (by decide : (5 : Nat) < 2 ^ 64)) (by decide) (by decide)
  exact ⟨⟨by decide, fun _ _ => (by decide : (5 : Nat) < 2 ^ 64), by decide⟩, R, out, h1,
    by omega,
    block_tail (fun _ => 5) 144 (fun _ => 0) 0 1296 (by decide)
      (fun _ _ => (by decide : (5 : Nat) < 2 ^ 64)) (by decide) R out h1 (by omega)⟩

/-! ## The format of a frame -/

/-- C11 (stream format).  For every `n` and `x`, the output of `Compress` is the 8
bytes `08 B5 A7 03 3F 4C BC 3D` followed by the outputs of `CompressBlock` for the
`⌊n / 65536⌋` consecutive runs of 65536 elements of `x` and then, when
`n mod 65536 ≠ 0`, for the remaining `n mod 65536` elements: the block `j`
starts at `offs j`, where the block before it ends (`offs 0 = 8`), it is what
`CompressBlock` returns (`sz j` bytes) and writes there, `ms j` being the buffer
before the call, and its bytes are left alone afterwards; the size returned is
the end of the last block, 8 plus the sum of the block sizes, which is 8 for
`n = 0`. -/
theorem stream_format (x : Nat → Nat) (n : Nat) (hx : ∀ i, i < n → x i < 2 ^ 64) (dst : Mem) :
    ∃ (W : Nat) (out : Mem) (offs sz : Nat → Nat) (ms : Nat → Mem),
      Compress x dst n = some (W, out) ∧
      (∀ k, k < 8 → out k = [0x08, 0xB5, 0xA7, 0x03, 0x3F, 0x4C, 0xBC, 0x3D].getD k 0) ∧
      offs 0 = 8 ∧ ms 0 = SetUint64 dst 0 VP64_MAGICNUM ∧
      (∀ j, j < n / 65536 →
        CompressBlock (fun i => x (65536 * j + i)) 65536 (ms j) (offs j) (CompressBound n)
          = some (sz j, ms (j + 1)) ∧
        sz j ≠ 0 ∧ offs (j + 1) = offs j + sz j ∧
        ∀ y, offs j ≤ y → y < offs (j + 1) → out y = ms (j + 1) y) ∧
      (n % 65536 = 0 → W = offs (n / 65536) ∧ out = ms (n / 65536)) ∧
      (n % 65536 ≠ 0 →
        CompressBlock (fun i => x (65536 * (n / 65536) + i)) (n % 65536) (ms (n / 65536))
          (offs (n / 65536)) (CompressBound n) = some (sz (n / 65536), out) ∧
        sz (n / 65536) ≠ 0 ∧ W = offs (n / 65536) + sz (n / 65536)) ∧
      (n = 0 → W = 8) := by
  have hdiv : block_num * (n / block_num) + n % block_num = n := Nat.div_add_mod n block_num
  have hmod : n % block_num < block_num := Nat.mod_lt n (by decide)
  have hbound : 8 + 9 * n ≤ CompressBound n := by
    unfold CompressBound; simp only []; omega
  obtain ⟨offs0, s, hst, hok, hsp, hdp, hws, h0, h8, hsz, hblocks, hmagic, hframe⟩ :=
    Compress_loop_inv x dst n hx (n / block_num) (Nat.le_refl _)
  have htrace := Compress_trace x dst n hx (n / block_num) (Nat.le_refl _)
  have hbytes : ∀ (m : Mem), (∀ y, y < 8 → m y = SetUint64 dst 0 VP64_MAGICNUM y) →
      ∀ k, k < 8 → m k = [0x08, 0xB5, 0xA7, 0x03, 0x3F, 0x4C, 0xBC, 0x3D].getD k 0 := by
    intro m hm k hk
    rw [hm k hk, SetUint64_read]
    interval_cases k <;> rfl
  -- the state after `j` blocks
  obtain ⟨init, hinit⟩ : ∃ i : CState,
      { ok := true, mem := SetUint64 dst 0 VP64_MAGICNUM, sp := 0, dp := 8, wsize := 8 } = i :=
    ⟨_, rfl⟩
  rw [hinit] at hst htrace
  obtain ⟨stf, hstf⟩ : ∃ f : Nat → CState, ∀ j, f j =
      (forLoop j (fun _ st => Compress.block x block_num (CompressBound n) st)
        (some init)).getD init := ⟨_, fun _ => rfl⟩
  have hs0 : stf 0 = init := by rw [hstf]; rfl
  have hsN : stf (n / 65536) = s := by
    rw [hstf]
    show Option.getD (forLoop (n / block_num) _ _) init = s
    rw [hst]
    rfl
  have hfull : ∀ (out : Mem), (∀ y, y < s.dp → out y = s.mem y) → ∀ j, j < n / 65536 →
      CompressBlock (fun i => x (65536 * j + i)) 65536 (stf j).mem (stf j).dp (CompressBound n)
        = some ((stf (j + 1)).dp - (stf j).dp, (stf (j + 1)).mem) ∧
      (stf (j + 1)).dp - (stf j).dp ≠ 0 ∧
      (stf (j + 1)).dp = (stf j).dp + ((stf (j + 1)).dp - (stf j).dp) ∧
      ∀ y, (stf j).dp ≤ y → y < (stf (j + 1)).dp → out y = (stf (j + 1)).mem y := by
    intro out hout j hj
    obtain ⟨sj, sj1, sK, R, t1, t2, t3, t4, t5, t6, t7, t8⟩ := htrace j hj
    rw [hst] at t3
    injection t3 with t3
    subst t3
    rw [hstf j, hstf (j + 1), t1, t2]
    simp only [Option.getD_some]
    have e : sj1.dp - sj.dp = R := by omega
    rw [e]
    exact ⟨t5, t4, t6, fun y _ hy => by rw [hout y (by omega)]; exact t8 y hy⟩
  unfold Compress
  simp only []
  rw [hinit, hst]
  by_cases hr : n % block_num = 0
  · simp only [ne_eq, hr, not_true_eq_false, if_false, hok, if_true]
    refine ⟨s.wsize, s.mem, fun j => (stf j).dp, fun j => (stf (j + 1)).dp - (stf j).dp,
      fun j => (stf j).mem, rfl, hbytes _ hmagic, ?_, ?_, hfull s.mem (fun _ _ => rfl), ?_, ?_, ?_⟩
    · show (stf 0).dp = 8
      rw [hs0, ← hinit]
    · show (stf 0).mem = _
      rw [hs0, ← hinit]
    · intro _
      show s.wsize = (stf (n / 65536)).dp ∧ s.mem = (stf (n / 65536)).mem
      rw [hsN]
      exact ⟨by rw [hws, hdp], rfl⟩
    · intro h
      exact absurd hr h
    · intro hn0
      subst hn0
      rw [hws]
      exact h0
  · simp only [ne_eq, hr, not_false_eq_true, if_true]
    have hxk : ∀ i, i < n % block_num → x (s.sp + i) < 2 ^ 64 := by
      intro i hi
      simp only [block_num_eq] at *
      exact hx _ (by omega)
    obtain ⟨R, out, hR0, hR9, hR8, hres, hlay, hfr, hcb⟩ := Compress_block_ok x (n % block_num)
      (CompressBound n) s hok (by omega) (by simp only [block_num_eq] at *; omega) hxk
      (by simp only [block_num_eq] at *; omega)
    rw [hres]
    simp only [if_true]
    refine ⟨s.wsize + R, out, fun j => (stf j).dp,
      fun j => if j = n / 65536 then R else (stf (j + 1)).dp - (stf j).dp,
      fun j => (stf j).mem, rfl,
      hbytes _ (fun y hy => by rw [hfr y (Or.inl (by omega))]; exact hmagic y hy),
      ?_, ?_, ?_, ?_, ?_, ?_⟩
    · show (stf 0).dp = 8
      rw [hs0, ← hinit]
    · show (stf 0).mem = _
      rw [hs0, ← hinit]
    · intro j hj
      simp only []
      rw [if_neg (by omega)]
      exact hfull out (fun y hy => hfr y (Or.inl hy)) j hj
    · intro h
      exact absurd h hr
    · intro _
      show CompressBlock _ _ (stf (n / 65536)).mem (stf (n / 65536)).dp _
          = some (if n / 65536 = n / 65536 then R else _, out) ∧
        (if n / 65536 = n / 65536 then R else _) ≠ 0 ∧
        _ = (stf (n / 65536)).dp + (if n / 65536 = n / 65536 then R else _)
      rw [if_pos rfl, hsN]
      rw [hsp] at hcb
      exact ⟨hcb, by omega, by omega⟩
    · intro hn0
      subst hn0
      exact absurd rfl hr

/-- A run of C11 on a frame of two elements. -/
theorem stream_format_witness :
    (∀ i, i < 2 → (fun i => [7, 2 ^ 64 - 1].getD i 0) i < 2 ^ 64) ∧
    ∃ (W : Nat) (out : Mem) (offs sz : Nat → Nat) (ms : Nat → Mem),
      Compress (fun i => [7, 2 ^ 64 - 1].getD i 0) (fun _ => 0) 2 = some (W, out) ∧
      (∀ k, k < 8 → out k = [0x08, 0xB5, 0xA7, 0x03, 0x3F, 0x4C, 0xBC, 0x3D].getD k 0) ∧
      offs 0 = 8 ∧ ms 0 = SetUint64 (fun _ => 0) 0 VP64_MAGICNUM ∧
      (∀ j, j < 2 / 65536 →
        CompressBlock (fun i => (fun i => [7, 2 ^ 64 - 1].getD i 0) (65536 * j + i)) 65536
          (ms j) (offs j) (CompressBound 2) = some (sz j, ms (j + 1)) ∧
        sz j ≠ 0 ∧ offs (j + 1) = offs j + sz j ∧
        ∀ y, offs j ≤ y → y < offs (j + 1) → out y = ms (j + 1) y) ∧
      (2 % 65536 = 0 → W = offs (2 / 65536) ∧ out = ms (2 / 65536)) ∧
      (2 % 65536 ≠ 0 →
        CompressBlock (fun i => (fun i => [7, 2 ^ 64 - 1].getD i 0) (65536 * (2 / 65536) + i))
          (2 % 65536) (ms (2 / 65536)) (offs (2 / 65536)) (CompressBound 2)
          = some (sz (2 / 65536), out) ∧
        sz (2 / 65536) ≠ 0 ∧ W = offs (2 / 65536) + sz (2 / 65536)) ∧
      (2 = 0 → W = 8) :=
  have hx : ∀ i, i < 2 → (fun i => [7, 2 ^ 64 - 1].getD i 0) i < 2 ^ 64 := by
    intro i hi
    interval_cases i <;> decide
  ⟨hx, stream_format (fun i => [7, 2 ^ 64 - 1].getD i 0) 2 hx (fun _ => 0)⟩

/-! ## The byte order -/

/-- C21 (endian round trip).  `DecodeUint32` applied to the 4 bytes written by
`SetUint32(v)` returns `v` for every 32-bit `v`, and `DecodeUint64` applied to the
8 bytes written by `SetUint64(u)` returns `u` for every 64-bit `u`;
`SetUint64(90285902385930821)` writes `01 40 C2 8C C3 F0 62 45`, from which
`DecodeUint64` recovers the value. -/
theorem endian_round_trip (m : Mem) (a v u : Nat) (hv : v < 2 ^ 32) (hu : u < 2 ^ 64) :
    DecodeUint32 (SetUint32 m a v) a = v ∧ DecodeUint64 (SetUint64 m a u) a = u ∧
    ((List.range 8).map (SetUint64 m 0 90285902385930821)
        = [0x01, 0x40, 0xc2, 0x8c, 0xc3, 0xf0, 0x62, 0x45] ∧
      DecodeUint64 (SetUint64 m 0 90285902385930821) 0 = 90285902385930821) := by
  refine ⟨?_, ?_, ?_, ?_⟩
  · rw [DecodeUint32_SetUint32, Nat.mod_eq_of_lt hv]
  · rw [DecodeUint64_SetUint64, Nat.mod_eq_of_lt hu]
  · rfl
  · rw [DecodeUint64_SetUint64]
    decide

/-- A run of C21 on the values of the test of the source. -/
theorem endian_round_trip_witness :
    (2169682782 < 2 ^ 32 ∧ 2546335145698555275 < 2 ^ 64) ∧
    DecodeUint32 (SetUint32 (fun _ => 0) 0 2169682782) 0 = 2169682782 ∧
    DecodeUint64 (SetUint64 (fun _ => 0) 0 2546335145698555275) 0 = 2546335145698555275 :=
  ⟨⟨by decide, by decide⟩,
    (endian_round_trip (fun _ => 0) 0 2169682782 2546335145698555275 (by decide) (by decide)).1,
    (endian_round_trip (fun _ => 0) 0 2169682782 2546335145698555275 (by decide) (by decide)).2.1⟩

/-- C22 (big-endian layout).  For every 32-bit `v`, `SetUint32` writes the byte
`k` as `(v >> (24 - 8k)) mod 256` for `k = 0..3`, and on these bytes `DecodeUint16`
returns `v >> 16` at the offset 0 and `v mod 65536` at the offset 2
(`v = 2169682782` gives the bytes `81 52 BB 5E` and the halves 33106 and 47966);
for every 64-bit `u`, `SetUint64` writes the byte `k` as `(u >> (56 - 8k)) mod 256`
for `k = 0..7`. -/
theorem big_endian_layout (m : Mem) (a v u : Nat) (hv : v < 2 ^ 32) (hu : u < 2 ^ 64) :
    (∀ k, k < 4 → SetUint32 m a v (a + k) = (v >>> (24 - 8 * k)) % 256) ∧
    DecodeUint16 (SetUint32 m a v) a = v >>> 16 ∧
    DecodeUint16 (SetUint32 m a v) (a + 2) = v % 65536 ∧
    ((List.range 4).map (SetUint32 m 0 2169682782) = [0x81, 0x52, 0xbb, 0x5e] ∧
      DecodeUint16 (SetUint32 m 0 2169682782) 0 = 33106 ∧
      DecodeUint16 (SetUint32 m 0 2169682782) 2 = 47966) ∧
    (∀ k, k < 8 → SetUint64 m a u (a + k) = (u >>> (56 - 8 * k)) % 256) := by
  have _ := hu
  obtain ⟨h1, h2⟩ := DecodeUint16_SetUint32 m a v hv
  obtain ⟨g1, g2⟩ := DecodeUint16_SetUint32 m 0 2169682782 (by decide)
  refine ⟨fun k hk => ?_, ?_, h2, ⟨rfl, ?_, ?_⟩, fun k hk => ?_⟩
  · rw [SetUint32_read, if_pos (by omega), Nat.shiftRight_eq_div_pow]
    congr 3
    omega
  · rw [h1, Nat.shiftRight_eq_div_pow]
  · rw [g1]
    decide
  · rw [show (2 : Nat) = 0 + 2 from rfl, g2]
    decide
  · rw [SetUint64_read, if_pos (by omega), Nat.shiftRight_eq_div_pow]
    congr 3
    omega

/-- A run of C22 on a value of the test of the source. -/
theorem big_endian_layout_witness :
    (973589125 < 2 ^ 32 ∧ 2546335145698555275 < 2 ^ 64) ∧
    DecodeUint16 (SetUint32 (fun _ => 0) 0 973589125) 0 = 973589125 >>> 16 ∧
    DecodeUint16 (SetUint32 (fun _ => 0) 0 973589125) (0 + 2) = 973589125 % 65536 :=
  ⟨⟨by decide, by decide⟩,
    (big_endian_layout (fun _ => 0) 0 973589125 2546335145698555275 (by decide)
      (by decide)).2.1,
    (big_endian_layout (fun _ => 0) 0 973589125 2546335145698555275 (by decide)
      (by decide)).2.2.1⟩

/-! ## The bound and the tables -/

/-- C23 (CompressBound formula).  For every `n`,
`CompressBound(n) = 8 + 8 · ⌈n / 65536⌉ + 9 · n`, where `⌈n / 65536⌉` is
`(n + 65535) / 65536`, the least `k` with `n ≤ 65536 · k`; for `n < 2 ^ 60` no
value of the computation reaches `2 ^ 64`. -/
theorem CompressBound_formula (n : Nat) :
    CompressBound n = 8 + 8 * ((n + 65535) / 65536) + 9 * n ∧
    (65536 * ((n + 65535) / 65536 - 1) < n ∨ n = 0) ∧ n ≤ 65536 * ((n + 65535) / 65536) ∧
    (n < 2 ^ 60 → n + 65536 - 1 < 2 ^ 64 ∧ CompressBound n < 2 ^ 64) := by
  have h : CompressBound n = 8 + 8 * ((n + 65535) / 65536) + 9 * n := rfl
  refine ⟨h, by omega, by omega, fun hn => ⟨by omega, by rw [h]; omega⟩⟩

/-- A run of C23 on 65537 elements. -/
theorem CompressBound_formula_witness :
    65537 < 2 ^ 60 ∧ CompressBound 65537 = 8 + 8 * 2 + 9 * 65537 ∧ CompressBound 65537 < 2 ^ 64 :=
  ⟨by decide, (CompressBound_formula 65537).1,
    ((CompressBound_formula 65537).2.2.2 (by decide)).2⟩

/-- C24 (round-up table).  For every `b` in `[0, 64]`, `roundup_bits[b]` is the
least element of `bits_length[] = {0, 1, …, 12, 16, 32, 64}` that is `≥ b`: it is
a member, it is `≥ b`, and every member `≥ b` is at least as large. -/
theorem roundup_bits_table (b : Nat) (hb : b ≤ 64) :
    bits_length = [0, 1, 2, 3, 4, 5, 6, 7, 8, 9, 10, 11, 12, 16, 32, 64] ∧
    roundup_bits.length = 65 ∧
    roundup_bits.getD b 0 ∈ bits_length ∧ b ≤ roundup_bits.getD b 0 ∧
    ∀ w ∈ bits_length, b ≤ w → roundup_bits.getD b 0 ≤ w := by
  obtain ⟨h1, h2⟩ := roundup_bits_spec b hb
  exact ⟨rfl, rfl, h1, h2, roundup_bits_least b hb⟩

/-- A run of C24 on 13 bits. -/
theorem roundup_bits_table_witness :
    13 ≤ 64 ∧ roundup_bits.getD 13 0 ∈ bits_length ∧ 13 ≤ roundup_bits.getD 13 0 ∧
    ∀ w ∈ bits_length, 13 ≤ w → roundup_bits.getD 13 0 ≤ w :=
  ⟨by decide, (roundup_bits_table 13 (by decide)).2.2⟩

/-- C25 (control-byte tables).  For every `k` in `[0, 16)`,
`ctrl_bit[bits_length[k]] = k` and `ctrl_partition[partition_length[k]]` has the
high nibble `k` and the low nibble 0; so for every width `w` of `bits_length[]` and
length `ℓ` of `partition_length[]` the byte `c = ctrl_bit[w] | ctrl_partition[ℓ]`
has `bits_length[c & 0x0f] = w` and `partition_length[(c >> 4) & 0x0f] = ℓ`, and
the entry `c & 0x0f` of the unpacker table is the unpacker named after `w`; every
other index of either table holds `0xff`. -/
theorem ctrl_tables_invert :
    (ctrl_bit.length = 65 ∧ ctrl_partition.length = 129 ∧ unpackers.length = 16) ∧
    (∀ k, k < 16 → ctrl_bit.getD (bits_length.getD k 0) 0 = k ∧
      ((ctrl_partition.getD (partition_length.getD k 0) 0) >>> 4) &&& 0x0f = k ∧
      (ctrl_partition.getD (partition_length.getD k 0) 0) &&& 0x0f = 0) ∧
    (∀ w ∈ bits_length, ∀ l ∈ partition_length,
      bits_length.getD ((ctrl_bit.getD w 0 ||| ctrl_partition.getD l 0) &&& 0x0f) 0 = w ∧
      partition_length.getD (((ctrl_bit.getD w 0 ||| ctrl_partition.getD l 0) >>> 4) &&& 0x0f) 0
        = l ∧
      unpackers.getD ((ctrl_bit.getD w 0 ||| ctrl_partition.getD l 0) &&& 0x0f) Unpack0
        = unpackerNamed w) ∧
    (∀ i, i < 65 → i ∉ bits_length → ctrl_bit.getD i 0 = 0xff) ∧
    (∀ i, i < 129 → i ∉ partition_length → ctrl_partition.getD i 0 = 0xff) := by
  refine ⟨⟨rfl, rfl, rfl⟩, by decide, ?_, by decide, by decide⟩
  intro w hw l hl
  obtain ⟨d1, d2⟩ := ctrl_byte_decode w hw l hl
  obtain ⟨c1, c2, c3⟩ := ctrl_byte_index w hw l hl
  exact ⟨c2, d1, by rw [d2]; exact unpackers_named w hw⟩

/-- A run of C25 on the index 13, the width 16 and the length 32. -/
theorem ctrl_tables_invert_witness :
    (13 < 16 ∧ 16 ∈ bits_length ∧ 32 ∈ partition_length) ∧
    (ctrl_bit.getD (bits_length.getD 13 0) 0 = 13 ∧
      ((ctrl_partition.getD (partition_length.getD 13 0) 0) >>> 4) &&& 0x0f = 13 ∧
      (ctrl_partition.getD (partition_length.getD 13 0) 0) &&& 0x0f = 0) ∧
    (bits_length.getD ((ctrl_bit.getD 16 0 ||| ctrl_partition.getD 32 0) &&& 0x0f) 0 = 16 ∧
      partition_length.getD (((ctrl_bit.getD 16 0 ||| ctrl_partition.getD 32 0) >>> 4) &&& 0x0f) 0
        = 32 ∧
      unpackers.getD ((ctrl_bit.getD 16 0 ||| ctrl_partition.getD 32 0) &&& 0x0f) Unpack0
        = unpackerNamed 16) :=
  ⟨⟨by decide, by decide, by decide⟩, ctrl_tables_invert.2.1 13 (by decide),
    ctrl_tables_invert.2.2.1 16 (by decide) 32 (by decide)⟩

/-! ## The main loop of the partitioner -/

/-- C26 (DP transition width) fails on the code.  On `spikeInput` (128 elements,
all zero except `src[100] = 2 ^ 63`) at the position `i = 128`, for the candidate
`ℓ = partition_length[15] = 128` the variable `maxb` is 0 although the rounded
width of `src[0 .. 128)` is 64: the cost the code evaluates is
`costs[0] + ⌈128 · 0 / 8⌉ = 0`, not `costs[0] + ⌈128 · 64 / 8⌉ = 1024`, and the
loop ends with `costs[128] = 0` and `refs[128] = 0`. -/
theorem dp_width_sampled :
    partition_length.getD 15 0 = 128 ∧
    ComputePartition.maxbAt spikeInput 128 15 = 0 ∧ runWidth spikeInput (128 - 128) 128 = 64 ∧
    ComputePartition.candCost spikeInput (ComputePartition.table spikeInput 128).costs 128 15 = 0 ∧
    (ComputePartition.table spikeInput 128).costs (128 - 128)
      + bytesFor (128 * runWidth spikeInput (128 - 128) 128) = 1024 ∧
    (ComputePartition.table spikeInput 128).costs 128 = 0 ∧
    (ComputePartition.table spikeInput 128).refs 128 = 0 := by
  refine ⟨by decide, by decide!, by decide!, by decide!, by decide!, by decide!, by decide!⟩

/-- C27 (DP tie-break).  In `ComputePartition`, for every position `i` in
`[128, n]`, the cost evaluated for the candidate `ℓ = partition_length[j]` being
`costs[i - ℓ] + ⌈ℓ · maxb / 8⌉` with the value `maxb` has at this candidate,
`costs[i]` is the minimum of the costs of the 16 candidates, and
`refs[i] = i - ℓ*`, where `ℓ*` is the largest length whose cost is this
minimum. -/
theorem dp_tie_break (src : Nat → Nat) (n i : Nat) (hi : 128 ≤ i) (hin : i ≤ n) :
    (∀ j, j < 16 → ComputePartition.candCost src (ComputePartition.table src n).costs i j
      = (ComputePartition.table src n).costs (i - partition_length.getD j 0)
        + bytesFor (partition_length.getD j 0 * ComputePartition.maxbAt src i j)) ∧
    ∃ js, js < 16 ∧
      (ComputePartition.table src n).costs i
        = ComputePartition.candCost src (ComputePartition.table src n).costs i js ∧
      (∀ j, j < 16 → (ComputePartition.table src n).costs i
        ≤ ComputePartition.candCost src (ComputePartition.table src n).costs i j) ∧
      (ComputePartition.table src n).refs i = ((i - partition_length.getD js 0 : Nat) : Int) ∧
      (∀ j, j < 16 → ComputePartition.candCost src (ComputePartition.table src n).costs i j
          = (ComputePartition.table src n).costs i →
        partition_length.getD j 0 ≤ partition_length.getD js 0) := by
  obtain ⟨js, b1, b2, b3, b4, b5⟩ := table_best src n i hi hin
  refine ⟨fun j hj => ?_, js, b1, b2, b4, b3, fun j hj he => ?_⟩
  · obtain ⟨_, _, h128⟩ := partition_length_mem j hj
    unfold ComputePartition.candCost VP64_DIV_ROUNDUP bytesFor
    simp only []
    rw [show i - (i - partition_length.getD j 0) = partition_length.getD j 0 from by omega]
    rfl
  · by_cases hjs : j ≤ js
    · exact partition_length_mono js b1 j hjs
    · have := b5 j (by omega) hj
      omega

/-- A run of C27 on 128 zeros, at the position 128. -/
theorem dp_tie_break_witness :
    (128 ≤ 128 ∧ 128 ≤ 128) ∧
    ∃ js, js < 16 ∧
      (ComputePartition.table (fun _ => 0) 128).costs 128
        = ComputePartition.candCost (fun _ => 0) (ComputePartition.table (fun _ => 0) 128).costs
          128 js ∧
      (∀ j, j < 16 → (ComputePartition.table (fun _ => 0) 128).costs 128
        ≤ ComputePartition.candCost (fun _ => 0) (ComputePartition.table (fun _ => 0) 128).costs
          128 j) ∧
      (ComputePartition.table (fun _ => 0) 128).refs 128
        = ((128 - partition_length.getD js 0 : Nat) : Int) ∧
      (∀ j, j < 16 →
        ComputePartition.candCost (fun _ => 0) (ComputePartition.table (fun _ => 0) 128).costs
            128 j = (ComputePartition.table (fun _ => 0) 128).costs 128 →
        partition_length.getD j 0 ≤ partition_length.getD js 0) :=
  ⟨⟨by decide, by decide⟩, (dp_tie_break (fun _ => 0) 128 128 (by decide) (by decide)).2⟩

/-- C28 (seeding quirk).  For every `src` and `n ≥ 128`, if the partition returned
by `ComputePartition` has a boundary `parts[k]` with `0 < parts[k] < 128`, then
`parts[i] = i` for every `i ≤ k`: every sub-run that ends below the position 128
has the length 1. -/
theorem seeding_quirk (src : Nat → Nat) (n : Nat) (parts0 : Mem) (hn : 128 ≤ n)
    (p : Nat) (parts : Mem) (h : ComputePartition src n parts0 = some (p, parts))
    (k : Nat) (hk : k ≤ p) (h0 : 0 < parts k) (h128 : parts k < 128) :
    ∀ i, i ≤ k → parts i = i := by
  obtain ⟨p', parts', e, hshape⟩ := ComputePartition_PartShape src n parts0 (by omega)
  rw [h] at e
  injection e with e
  injection e with e1 e2
  subst e1 e2
  have hm := parts_mono n p parts hshape
  induction k with
  | zero =>
    intro i hi
    have : i = 0 := by omega
    subst this
    exact hshape.2.1
  | succ k ih =>
    obtain ⟨f1, f2, f3⟩ := ComputePartition_follow src n parts0 p parts h (k + 1) (by omega) hk
    rw [table_refs_low src n (parts (k + 1)) f1 h128, toSizeT_natCast, Nat.add_sub_cancel] at f3
    have hk0 := (hm k (by omega)).2
    by_cases hz : parts k = 0
    · have hkz : k = 0 := by omega
      intro i hi
      by_cases hik : i = k + 1
      · subst hik; omega
      · have : i = 0 := by omega
        subst this
        exact hshape.2.1
    · have ih' := ih (by omega) (by omega) (by omega)
      have hkk := ih' k (Nat.le_refl k)
      intro i hi
      by_cases hik : i = k + 1
      · subst hik; omega
      · exact ih' i (by omega)

/-- A run of C28 on 129 zeros, whose partition is `[0, 1, 129]`. -/
theorem seeding_quirk_witness :
    128 ≤ 129 ∧
    ∃ p parts, ComputePartition (fun _ => 0) 129 (fun _ => 0) = some (p, parts) ∧
      1 ≤ p ∧ 0 < parts 1 ∧ parts 1 < 128 ∧ ∀ i, i ≤ 1 → parts i = i := by
  have h := ComputePartition_eq (fun _ => 0) 129 (fun _ => 0)
  rw [chain_zeros_129] at h
  exact ⟨by decide, _, _, h, by decide, by decide, by decide,
    seeding_quirk (fun _ => 0) 129 (fun _ => 0) (by decide) _ _ h 1 (by decide) (by decide)
      (by decide)⟩

/-! ## Limits that are not checked -/

/-- C29 (decoder write bound) fails on the code.  For `n = 144` and the block
`corruptBlock`, whose control bytes stand for 128 and 16 elements of width 0,
`UncompressBlock` returns the block size 138 and copies the 16 tail values to
`dst[144 .. 160)`, beyond the `n` elements of the destination: the copy of the
tail is not checked against `dst + n`. -/
theorem UncompressBlock_tail_unchecked :
    (UncompressBlock corruptBlock 0 (fun _ => 0) 0 144).1 = 138 ∧
    ∀ i, i < 16 →
      (UncompressBlock corruptBlock 0 (fun _ => 0) 0 144).2 (144 + i) = 0x1111111111111111 := by
  refine ⟨by decide!, ?_⟩
  intro i hi
  interval_cases i <;> decide!

/-- C30 (encoder buffer too small) fails on the code.  With one element and no
room at all (`dlimit = dst`) `CompressBlock` returns 8 and writes the 8 bytes of
the element; with 144 elements of 3 bits and room for the 57 bytes of the header,
the control byte and the packed data it returns 185 and writes the tail beyond
`dlimit` (the byte 64 is the last byte of the first tail element); with room for
4 bytes it returns 0, but has written the data offset 9 into the bytes 4 to 7. -/
theorem CompressBlock_limit_unchecked :
    (CompressBlock (fun _ => 5) 1 (fun _ => 0xAA) 0 0).map (fun r => (r.1, r.2 7)) = some (8, 5) ∧
    (CompressBlock (fun _ => 5) 144 (fun _ => 0xAA) 0 57).map (fun r => (r.1, r.2 64))
      = some (185, 5) ∧
    (CompressBlock (fun _ => 5) 144 (fun _ => 0xAA) 0 4).map (fun r => (r.1, r.2 7))
      = some (0, 9) := by
  refine ⟨by decide!, by decide!, by decide!⟩

/-- C39 (bits_needed): for a 64-bit `x` the portable `VP64_MSB64` returns the
number of leading zero bits (64 for zero: every bit from position
`64 - VP64_MSB64 x` up is clear and, for a non-zero `x`, the bit just below is
set), so `64 - VP64_MSB64 x` is 0 for zero and `⌊log₂ x⌋ + 1` otherwise, and at
the internal assertion the position is above the remaining value. -/
theorem bits_needed (x : Nat) (hx : x < 2 ^ 64) :
    VP64_MSB64 x = (if x = 0 then 64 else 63 - Nat.log2 x) ∧
    (∀ i, 64 - VP64_MSB64 x ≤ i → x.testBit i = false) ∧
    (x ≠ 0 → x.testBit (63 - VP64_MSB64 x) = true) ∧
    usedBits x = (if x = 0 then 0 else Nat.log2 x + 1) ∧
    ((msbStep 2 (msbStep 4 (msbStep 8 (msbStep 16 (msbStep 32 (64, x)))))).2 >>> 1 = 0 →
      (msbStep 2 (msbStep 4 (msbStep 8 (msbStep 16 (msbStep 32 (64, x)))))).2 <
        (msbStep 2 (msbStep 4 (msbStep 8 (msbStep 16 (msbStep 32 (64, x)))))).1) := by
  obtain ⟨hA, h64, hlt, hge⟩ := VP64_MSB64_exact x hx
  have hlog : x ≠ 0 → Nat.log2 x = 63 - VP64_MSB64 x := by
    intro h0
    obtain ⟨h63, hle⟩ := hge h0
    have u1 : 63 - VP64_MSB64 x ≤ Nat.log2 x := (Nat.le_log2 h0).2 hle
    have u2 : Nat.log2 x < 64 - VP64_MSB64 x := (Nat.log2_lt h0).2 hlt
    omega
  refine ⟨?_, ?_, ?_, ?_, hA⟩
  · by_cases h0 : x = 0
    · rw [if_pos h0, h0]; rfl
    · rw [if_neg h0, hlog h0]
      have := (hge h0).1
      omega
  · intro i hi
    exact Nat.testBit_lt_two_pow (lt_of_lt_of_le hlt (Nat.pow_le_pow_right (by decide) hi))
  · intro h0
    obtain ⟨h63, hle⟩ := hge h0
    rw [Nat.testBit_to_div_mod]
    have e : 64 - VP64_MSB64 x = (63 - VP64_MSB64 x) + 1 := by omega
    rw [e, Nat.pow_succ] at hlt
    have hd : x / 2 ^ (63 - VP64_MSB64 x) = 1 := by
      apply Nat.div_eq_of_lt_le
      · rw [Nat.one_mul]; exact hle
      · rw [Nat.mul_comm] at hlt; exact hlt
    rw [hd]
    rfl
  · unfold usedBits
    by_cases h0 : x = 0
    · rw [if_pos h0, h0]; rfl
    · rw [if_neg h0, hlog h0]
      have := (hge h0).1
      omega

theorem bits_needed_witness :
    (5 : Nat) < 2 ^ 64 ∧ VP64_MSB64 5 = 61 ∧ usedBits 5 = 3 ∧ Nat.testBit 5 2 = true ∧
    usedBits 5 = (if (5 : Nat) = 0 then 0 else Nat.log2 5 + 1) :=
  ⟨by decide, by decide, by decide, by decide, (bits_needed 5 (by decide)).2.2.2.1⟩

/-- C36 (control-byte assertions hold): for a block of `n ≥ 144` elements, at
every partition the loop of `CompressBlock` reaches, the width `maxb` it computes
is an index of `ctrl_bit[]` with `ctrl_bit[maxb] ≠ 0xff` and the length `plen` is
an index of `ctrl_partition[]` with `ctrl_partition[plen] ≠ 0xff`. -/
theorem control_byte_assertions (x : Nat → Nat) (n : Nat) (hn : 144 ≤ n)
    (hx : ∀ i, i < n → x i < 2 ^ 64) (dst : Mem) (dp dlimit : Nat) :
    ∃ np parts, ComputePartition x (n - MAX_UNPACK_OVERRUN_NUM) (fun _ => 0) = some (np, parts) ∧
      ∀ i, i < np →
        (forLoop i (CompressBlock.step x parts dlimit)
          { ok := true, mem := SetUint32 dst (dp + 4) ((np + 8) % 2 ^ 32), sp := 0,
            data := dp + (np + 8) % 2 ^ 32, ctrl := dp + 8,
            block_size := (np + 8) % 2 ^ 32 }).ok = true →
        CompressBlock.maxb x
            (forLoop i (CompressBlock.step x parts dlimit)
              { ok := true, mem := SetUint32 dst (dp + 4) ((np + 8) % 2 ^ 32), sp := 0,
                data := dp + (np + 8) % 2 ^ 32, ctrl := dp + 8,
                block_size := (np + 8) % 2 ^ 32 }).sp
            (parts (i + 1) - parts i) < ctrl_bit.length ∧
        ctrl_bit.getD (CompressBlock.maxb x
            (forLoop i (CompressBlock.step x parts dlimit)
              { ok := true, mem := SetUint32 dst (dp + 4) ((np + 8) % 2 ^ 32), sp := 0,
                data := dp + (np + 8) % 2 ^ 32, ctrl := dp + 8,
                block_size := (np + 8) % 2 ^ 32 }).sp
            (parts (i + 1) - parts i)) 0 ≠ 0xff ∧
        parts (i + 1) - parts i < ctrl_partition.length ∧
        ctrl_partition.getD (parts (i + 1) - parts i) 0 ≠ 0xff := by
  rw [max_overrun_eq]
  obtain ⟨np, parts, hcp, hps⟩ := ComputePartition_PartShape x (n - 16) (fun _ => 0) (by omega)
  refine ⟨np, parts, hcp, fun i hi hok => ?_⟩
  rw [CompressBlock_loop_sp x (n - 16) np parts hps dlimit _ rfl i (by omega) hok]
  obtain ⟨w1, w2, _, _⟩ := partWidth_spec x (n - 16) np parts hps
    (fun j hj => hx j (by omega)) i hi
  obtain ⟨t1, t2⟩ := ctrl_tables_defined
  exact ⟨(t1 _ w1).1, (t1 _ w1).2, (t2 _ w2).1, (t2 _ w2).2⟩

theorem control_byte_assertions_witness :
    144 ≤ 144 ∧ (∀ i, i < 144 → (fun _ => 5) i < 2 ^ 64) ∧
    ∃ np parts, ComputePartition (fun _ => 5) (144 - MAX_UNPACK_OVERRUN_NUM) (fun _ => 0)
        = some (np, parts) ∧
      ∀ i, i < np →
        (forLoop i (CompressBlock.step (fun _ => 5) parts 2000)
          { ok := true, mem := SetUint32 (fun _ => 0) (0 + 4) ((np + 8) % 2 ^ 32), sp := 0,
            data := 0 + (np + 8) % 2 ^ 32, ctrl := 0 + 8,
            block_size := (np + 8) % 2 ^ 32 }).ok = true →
        CompressBlock.maxb (fun _ => 5)
            (forLoop i (CompressBlock.step (fun _ => 5) parts 2000)
              { ok := true, mem := SetUint32 (fun _ => 0) (0 + 4) ((np + 8) % 2 ^ 32), sp := 0,
                data := 0 + (np + 8) % 2 ^ 32, ctrl := 0 + 8,
                block_size := (np + 8) % 2 ^ 32 }).sp
            (parts (i + 1) - parts i) < ctrl_bit.length ∧
        ctrl_bit.getD (CompressBlock.maxb (fun _ => 5)
            (forLoop i (CompressBlock.step (fun _ => 5) parts 2000)
              { ok := true, mem := SetUint32 (fun _ => 0) (0 + 4) ((np + 8) % 2 ^ 32), sp := 0,
                data := 0 + (np + 8) % 2 ^ 32, ctrl := 0 + 8,
                block_size := (np + 8) % 2 ^ 32 }).sp
            (parts (i + 1) - parts i)) 0 ≠ 0xff ∧
        parts (i + 1) - parts i < ctrl_partition.length ∧
        ctrl_partition.getD (parts (i + 1) - parts i) 0 ≠ 0xff :=
  ⟨by decide, (fun _ _ => (by decide : (5 : Nat) < 2 ^ 64)), control_byte_assertions (fun _ => 5) 144 (by decide)
    (fun _ _ => (by decide : (5 : Nat) < 2 ^ 64)) (fun _ => 0) 0 2000⟩

/-- C33 (exact unpacker failure condition): for a width `w` of 1..12 and a count
`n` in the range of the `int` arithmetic of the unpacker (the sizes its guard
compares are then below `2 ^ 31`), with `(gb, g)` the bytes and elements of a
round of its unpacker (the pairs listed), the unpacker returns `-1` if and only
if fewer than `gb·⌈n/g⌉` source bytes lie
before `slimit` or fewer than `g·⌈n/g⌉` destination elements lie before `dlimit`;
so `Unpack9` with `n = 33` fails on a 36-byte source and a 32-element
destination. -/
theorem unpacker_failure_exact (w : Nat) (hw1 : 1 ≤ w) (hw12 : w ≤ 12) (src : Mem)
    (sp slimit : Nat) (dst : Mem) (dp dlimit n : Nat) (hn : unpackExact w n) :
    (List.range 12).map (fun i => unpackGroup (i + 1)) =
      [(1, 8), (1, 4), (3, 8), (1, 2), (5, 8), (3, 4), (7, 8), (1, 1), (18, 16), (10, 8),
        (22, 16), (6, 4)] ∧
    unpackerFor w = unpackerNamed w ∧
    ((unpackerFor w src sp slimit dst dp dlimit n).1 = -1 ↔
      (sp + (unpackGroup w).1 * VP64_DIV_ROUNDUP n (unpackGroup w).2 > slimit ∨
        dp + (unpackGroup w).2 * VP64_DIV_ROUNDUP n (unpackGroup w).2 > dlimit)) ∧
    (Unpack9 src sp (sp + 36) dst dp (dp + 32) 33).1 = -1 ∧
    ((unpackGroup w).1 * VP64_DIV_ROUNDUP n (unpackGroup w).2 < 2 ^ 31 ∧
      (unpackGroup w).2 * VP64_DIV_ROUNDUP n (unpackGroup w).2 < 2 ^ 31) := by
  have hw : w ∈ bits_length := by
    interval_cases w <;> decide
  obtain ⟨_, f2, f3, _⟩ := unpackExact_fits w hw n hn
  refine ⟨by decide, unpackers_named w hw, ?_, ?_, f2, f3⟩
  · rw [unpackerFor_fail_iff w hw]
    have h0 : w ≠ 0 := by omega
    simp only [h0, ne_eq, not_false_eq_true, true_and]
  · rw [Unpack9_eq, if_pos (by unfold VP64_DIV_ROUNDUP; omega)]

theorem unpacker_failure_exact_witness :
    (1 ≤ 9 ∧ 9 ≤ 12 ∧ unpackExact 9 33 ∧ unpackExact 9 32) ∧
    (unpackerFor 9 unpack9Input 0 36 (fun _ => 0) 0 32 33).1 = -1 ∧
    (unpackerFor 9 unpack9Input 0 36 (fun _ => 0) 0 32 32).1 ≠ -1 := by
  have e33 : unpackExact 9 33 := by unfold unpackExact; decide
  have e32 : unpackExact 9 32 := by unfold unpackExact; decide
  have h := (unpacker_failure_exact 9 (by decide) (by decide) unpack9Input 0 36 (fun _ => 0) 0 32
    33 e33).2.2.1
  have h2 := (unpacker_failure_exact 9 (by decide) (by decide) unpack9Input 0 36 (fun _ => 0) 0 32
    32 e32).2.2.1
  refine ⟨⟨by decide, by decide, e33, e32⟩, h.2 (by decide), fun hc => ?_⟩
  have := h2.1 hc
  revert this
  decide

/-- C32 (unpacker write-ahead frame): for a width `w` of `bits_length[]` and a
count `n` in the range of the `int` arithmetic of the unpacker (`g·⌈n/g⌉` is then
below `2 ^ 31`), with `g` the elements of a round of its unpacker (the values
listed), a successful call
stores the unpacked fields of the source in the destination elements with index
in `[0, g·⌈n/g⌉)`, all of which lie before `dlimit`, and leaves every other
element as it was; a failing call leaves the destination as it was. -/
theorem unpacker_write_ahead (w : Nat) (hw : w ∈ bits_length) (src : Mem) (sp slimit : Nat)
    (dst : Mem) (dp dlimit n : Nat) (hn : unpackExact w n) :
    bits_length.map (fun v => (unpackGroup v).2) =
      [1, 8, 4, 8, 2, 8, 4, 8, 1, 16, 8, 16, 4, 1, 1, 1] ∧
    ((unpackerFor w src sp slimit dst dp dlimit n).1 ≠ -1 →
      dp + (unpackGroup w).2 * VP64_DIV_ROUNDUP n (unpackGroup w).2 ≤ dlimit ∧
      (∀ i, i < (unpackGroup w).2 * VP64_DIV_ROUNDUP n (unpackGroup w).2 →
        (unpackerFor w src sp slimit dst dp dlimit n).2 (dp + i) = getBits src sp (i * w) w) ∧
      (∀ x, x < dp ∨ dp + (unpackGroup w).2 * VP64_DIV_ROUNDUP n (unpackGroup w).2 ≤ x →
        (unpackerFor w src sp slimit dst dp dlimit n).2 x = dst x)) ∧
    ((unpackerFor w src sp slimit dst dp dlimit n).1 = -1 →
      (unpackerFor w src sp slimit dst dp dlimit n).2 = dst) ∧
    (unpackGroup w).2 * VP64_DIV_ROUNDUP n (unpackGroup w).2 < 2 ^ 31 := by
  refine ⟨by decide, fun hok => ?_, fun hf => ?_, (unpackExact_fits w hw n hn).2.2.1⟩
  · have hc := mt (unpackerFor_fail_iff w hw src sp slimit dst dp dlimit n).2 hok
    have hs : w ≠ 0 → sp + (unpackGroup w).1 * VP64_DIV_ROUNDUP n (unpackGroup w).2 ≤ slimit := by
      intro h0
      by_contra h1
      exact hc (Or.inl ⟨h0, by omega⟩)
    have hd : dp + (unpackGroup w).2 * VP64_DIV_ROUNDUP n (unpackGroup w).2 ≤ dlimit := by
      by_contra h1
      exact hc (Or.inr (by omega))
    obtain ⟨_, h2⟩ := unpackerFor_full w hw src sp slimit dst dp dlimit n hs hd
    refine ⟨hd, fun i hi => ?_, fun x hx => ?_⟩
    · rw [h2 (dp + i), if_pos (by omega), Nat.add_sub_cancel_left]
    · rw [h2 x, if_neg (by omega)]
  · rw [unpackerFor_fail w hw src sp slimit dst dp dlimit n
      ((unpackerFor_fail_iff w hw src sp slimit dst dp dlimit n).1 hf)]

theorem unpacker_write_ahead_witness :
    (9 ∈ bits_length ∧ unpackExact 9 17) ∧
    (unpackerFor 9 unpack9Input 0 36 (fun _ => 7) 0 40 17).1 = 20 ∧
    (unpackerFor 9 unpack9Input 0 36 (fun _ => 7) 0 40 17).2 31 = 306 ∧
    (unpackerFor 9 unpack9Input 0 36 (fun _ => 7) 0 40 17).2 32 = 7 ∧
    (unpackerFor 9 unpack9Input 0 36 (fun _ => 7) 0 31 17).2 = (fun _ => 7) := by
  have e17 : unpackExact 9 17 := by unfold unpackExact; decide
  have h := unpacker_write_ahead 9 (by decide) unpack9Input 0 36 (fun _ => 7) 0 40 17 e17
  have h1 : (unpackerFor 9 unpack9Input 0 36 (fun _ => 7) 0 40 17).1 = 20 := by decide
  obtain ⟨_, a, b⟩ := h.2.1 (by rw [h1]; decide)
  have hf := (unpacker_write_ahead 9 (by decide) unpack9Input 0 36 (fun _ => 7) 0 31 17
    e17).2.2.1 (by decide)
  refine ⟨⟨by decide, e17⟩, h1, ?_, ?_, hf⟩
  · have := a 31 (by decide)
    rw [Nat.zero_add] at this
    rw [this]
    decide
  · exact b 32 (by decide)

/-- C34 (decode failure propagation): for `n ≥ 144`, if at some iteration the
partition loop of `UncompressBlock` reaches, the unpacker selected by the control
byte returns a negative value (`-1`), then `UncompressBlock` returns 0; and
`Uncompress` returns 0 whenever the `UncompressBlock` of one of its full blocks,
or of its last block, returns 0. -/
theorem decode_failure_propagates (src : Mem) (dst : Mem) (n : Nat) :
    (∀ sp dp i, 144 ≤ n → i < UncompressBlock.nloop src sp →
      (UncompressBlock.loop src sp dst dp n i).ok = true →
      (UncompressBlock.call src (sp + DecodeUint32 src sp) (dp + n)
        (UncompressBlock.loop src sp dst dp n i)).1 < 0 →
      (UncompressBlock src sp dst dp n).1 = 0) ∧
    (∀ k, k < n / block_num →
      (UncompressBlock src (Uncompress.loop src dst k).sp (Uncompress.loop src dst k).mem
        (Uncompress.loop src dst k).dp block_num).1 = 0 →
      (Uncompress src dst n).1 = 0) ∧
    (n % block_num ≠ 0 →
      (UncompressBlock src (Uncompress.loop src dst (n / block_num)).sp
        (Uncompress.loop src dst (n / block_num)).mem
        (Uncompress.loop src dst (n / block_num)).dp (n % block_num)).1 = 0 →
      (Uncompress src dst n).1 = 0) := by
  refine ⟨fun sp dp i hn hi hok hf => ?_, fun k hk h0 => ?_, fun hr h0 => ?_⟩
  · have h1 := UncompressBlock_loop_fails src sp dst dp n i hok hf
    have h2 := UncompressBlock_loop_failed src sp dst dp n (i + 1) h1
      (UncompressBlock.nloop src sp - (i + 1))
    rw [show i + 1 + (UncompressBlock.nloop src sp - (i + 1)) = UncompressBlock.nloop src sp
      from by omega] at h2
    rw [UncompressBlock_framed_eq src sp dst dp n hn, h2]
    rfl
  · have h1 : (Uncompress.loop src dst (k + 1)).ok = false := by
      have e : Uncompress.loop src dst (k + 1) =
          Uncompress.block src block_num (Uncompress.loop src dst k) := by
        unfold Uncompress.loop
        rw [forLoop_succ]
      rw [e]
      exact Uncompress_block_fails src _ _ h0
    have h2 := Uncompress_loop_failed src dst (k + 1) h1 (n / block_num - (k + 1))
    rw [show k + 1 + (n / block_num - (k + 1)) = n / block_num from by omega] at h2
    exact Uncompress_failed src dst n (by
      by_cases hr : n % block_num ≠ 0
      · rw [if_pos hr]
        exact Uncompress_block_failed src _ _ h2
      · rw [if_neg hr]
        exact h2)
  · exact Uncompress_failed src dst n (by
      rw [if_pos hr]
      exact Uncompress_block_fails src _ _ h0)

theorem decode_failure_propagates_witness :
    (144 ≤ 144 ∧ 0 < UncompressBlock.nloop truncatedBlock 0 ∧
      (UncompressBlock.loop truncatedBlock 0 (fun _ => 0) 0 144 0).ok = true ∧
      (UncompressBlock.call truncatedBlock (0 + DecodeUint32 truncatedBlock 0) (0 + 144)
        (UncompressBlock.loop truncatedBlock 0 (fun _ => 0) 0 144 0)).1 < 0 ∧
      (UncompressBlock truncatedBlock 0 (fun _ => 0) 0 144).1 = 0) ∧
    (0 < 65536 / block_num ∧
      (UncompressBlock (SetUint64 (fun _ => 0) 0 VP64_MAGICNUM) 8 (fun _ => 0) 0 block_num).1 = 0 ∧
      (Uncompress (SetUint64 (fun _ => 0) 0 VP64_MAGICNUM) (fun _ => 0) 65536).1 = 0) ∧
    (144 % block_num ≠ 0 ∧
      (UncompressBlock (SetUint64 (fun _ => 0) 0 VP64_MAGICNUM) 8 (fun _ => 0) 0 144).1 = 0 ∧
      (Uncompress (SetUint64 (fun _ => 0) 0 VP64_MAGICNUM) (fun _ => 0) 144).1 = 0) := by
  have h1 : 0 < UncompressBlock.nloop truncatedBlock 0 := by decide
  have h2 : (UncompressBlock.call truncatedBlock (0 + DecodeUint32 truncatedBlock 0) (0 + 144)
      (UncompressBlock.loop truncatedBlock 0 (fun _ => 0) 0 144 0)).1 < 0 := by decide
  have h3 : (UncompressBlock (SetUint64 (fun _ => 0) 0 VP64_MAGICNUM) 8 (fun _ => 0) 0
      block_num).1 = 0 := by decide
  have h4 : (UncompressBlock (SetUint64 (fun _ => 0) 0 VP64_MAGICNUM) 8 (fun _ => 0) 0
      144).1 = 0 := by decide
  exact ⟨⟨by decide, h1, rfl, h2,
      (decode_failure_propagates truncatedBlock (fun _ => 0) 144).1 0 0 0 (by decide) h1 rfl h2⟩,
    ⟨by decide, h3,
      (decode_failure_propagates (SetUint64 (fun _ => 0) 0 VP64_MAGICNUM) (fun _ => 0)
        65536).2.1 0 (by decide) h3⟩,
    ⟨by decide, h4,
      (decode_failure_propagates (SetUint64 (fun _ => 0) 0 VP64_MAGICNUM) (fun _ => 0)
        144).2.2 (by decide) h4⟩⟩

/-- C31 (the overrun suffices): for every width of `bits_length[]` and length of
`partition_length[]` the rounds of the unpacker write at most 15 elements and
read less than 128 bytes beyond the partition; hence on a block `CompressBlock`
has produced for `n ≥ 144` elements, every unpacker call of the partition loop
of `UncompressBlock`, with `slimit` the end of the block and `dlimit` the end of
the `n` destination elements, succeeds: none returns `-1`. -/
theorem overrun_suffices (x : Nat → Nat) (n : Nat) (hn : 144 ≤ n)
    (hx : ∀ i, i < n → x i < 2 ^ 64) (hwrap : 9 * n < 2 ^ 32) (dst : Mem) (dp dlimit : Nat)
    (R : Nat) (out : Mem) (hc : CompressBlock x n dst dp dlimit = some (R, out)) (hR : R ≠ 0)
    (buf : Mem) (bdp : Nat) :
    (∀ w ∈ bits_length, ∀ l ∈ partition_length,
      l ≤ (unpackGroup w).2 * VP64_DIV_ROUNDUP l (unpackGroup w).2 ∧
      (unpackGroup w).2 * VP64_DIV_ROUNDUP l (unpackGroup w).2 - l ≤ 15 ∧
      15 < MAX_UNPACK_OVERRUN_NUM ∧
      bytesFor (l * w) ≤ (unpackGroup w).1 * VP64_DIV_ROUNDUP l (unpackGroup w).2 ∧
      (unpackGroup w).1 * VP64_DIV_ROUNDUP l (unpackGroup w).2 - bytesFor (l * w)
        < 8 * MAX_UNPACK_OVERRUN_NUM) ∧
    DecodeUint32 out dp = R ∧ 1 ≤ UncompressBlock.nloop out dp ∧
    ∀ i, i < UncompressBlock.nloop out dp →
      (UncompressBlock.loop out dp buf bdp n i).ok = true ∧
      (UncompressBlock.call out (dp + DecodeUint32 out dp) (bdp + n)
        (UncompressBlock.loop out dp buf bdp n i)).1 ≠ -1 ∧
      0 ≤ (UncompressBlock.call out (dp + DecodeUint32 out dp) (bdp + n)
        (UncompressBlock.loop out dp buf bdp n i)).1 := by
  obtain ⟨np, parts, hcp, hshape, hroom, hRe, hd1, hd2, hctrl, hbits, htail, hfr⟩ :=
    CompressBlock_success x n dst dp dlimit hn hx hwrap R out hc hR
  have hx' : ∀ i, i < n - 16 → x i < 2 ^ 64 := fun i hi => hx i (by omega)
  have hm := parts_mono (n - 16) np parts hshape
  have hnp := (hm np (Nat.le_refl np)).2
  have hpn : parts np = n - 16 := hshape.2.2.1
  have hnl : UncompressBlock.nloop out dp = np := by
    unfold UncompressBlock.nloop
    rw [hd2]
    have : toInt32 (((dp + (np + 8) : Nat) : Int) - ((dp + 8 : Nat) : Int)) = (np : Int) := by
      rw [← toInt32_small np (by omega)]
      congr 1
      omega
    rw [this]
    rfl
  refine ⟨fun w hw l hl => ?_, hd1, by rw [hnl]; exact hshape.1, fun i hi => ?_⟩
  · obtain ⟨a, b, c, d⟩ := overrun_strict w hw l hl
    exact ⟨a, b, by decide, c, d⟩
  · rw [hnl] at hi
    have hinv := UncompressBlock_loop_inv out dp x n np parts (by omega) hshape hx'
      (by rw [hd1, hRe]) hd2 hctrl hbits buf bdp i (by omega)
    have hcall := UncompressBlock_call_ok out dp x n np parts (by omega) hshape hx' hctrl buf bdp
      i hi _ hinv
    rw [hd1, hRe, hcall]
    exact ⟨hinv.1, by omega, by omega⟩

theorem overrun_suffices_witness :
    (144 ≤ 144 ∧ (∀ i, i < 144 → (fun _ => 5) i < 2 ^ 64) ∧ 9 * 144 < 2 ^ 32) ∧
    ∃ R out, CompressBlock (fun _ => 5) 144 (fun _ => 0) 0 1296 = some (R, out) ∧ R ≠ 0 ∧
      DecodeUint32 out 0 = R ∧ 1 ≤ UncompressBlock.nloop out 0 ∧
      ∀ i, i < UncompressBlock.nloop out 0 →
        (UncompressBlock.loop out 0 (fun _ => 0) 0 144 i).ok = true ∧
        (UncompressBlock.call out (0 + DecodeUint32 out 0) (0 + 144)
          (UncompressBlock.loop out 0 (fun _ => 0) 0 144 i)).1 ≠ -1 ∧
        0 ≤ (UncompressBlock.call out (0 + DecodeUint32 out 0) (0 + 144)
          (UncompressBlock.loop out 0 (fun _ => 0) 0 144 i)).1 := by
  obtain ⟨R, out, h1, _, h3, _, _⟩ := CompressBlock_framed (fun _ => 5) 144 (fun _ => 0) 0 1296
    (by decide) (fun _ _ => (by decide : (5 : Nat) < 2 ^ 64)) (by decide) (by decide)
  exact ⟨⟨by decide, fun _ _ => (by decide : (5 : Nat) < 2 ^ 64), by decide⟩, R, out, h1,
    by omega,
    (overrun_suffices (fun _ => 5) 144 (by decide)
      (fun _ _ => (by decide : (5 : Nat) < 2 ^ 64)) (by decide) (fun _ => 0) 0 1296 R out h1
      (by omega) (fun _ => 0) 0).2⟩

/-- C37 (backtrack termination): after the loops that fill the arrays (`n ≥ 128`),
`refs[i]` lies in `[0, i)` for every `i` in `[1, n]` and `refs[0]` is `-1`; both
backtracking loops end, within `n` iterations, after the same number `p ≤ n` of
steps, which visit the positions `n, refs[n], …` down to the last non-zero one
(never position 0, so `refs[0]` is not read); the second loop stores these
positions in `parts[p], …, parts[1]` and nothing else, and `parts[0] = 0` follows. -/
theorem backtrack_terminates (src : Nat → Nat) (n : Nat) (parts0 : Mem) (hn : 128 ≤ n) :
    (∀ i, 1 ≤ i → i ≤ n → 0 ≤ (ComputePartition.table src n).refs i ∧
      (ComputePartition.table src n).refs i < (i : Int)) ∧
    (ComputePartition.table src n).refs 0 = -1 ∧
    ∃ p parts,
      whileLoop n (fun (st : Nat × Nat) => st.2 ≠ 0)
        (fun st => (st.1 + 1, toSizeT ((ComputePartition.table src n).refs st.2))) (0, n)
        = some (p, 0) ∧
      whileLoop n (fun (st : Mem × Nat × Nat) => st.2.2 ≠ 0)
        (fun st => (st.1.write st.2.1 st.2.2, st.2.1 - 1,
          toSizeT ((ComputePartition.table src n).refs st.2.2))) (parts0, p, n)
        = some (parts, 0, 0) ∧
      ComputePartition src n parts0 = some (p, parts.write 0 0) ∧
      1 ≤ p ∧ p ≤ n ∧
      (fun i => toSizeT ((ComputePartition.table src n).refs i))^[p] n = 0 ∧
      (∀ k, k < p →
        1 ≤ (fun i => toSizeT ((ComputePartition.table src n).refs i))^[k] n ∧
        (fun i => toSizeT ((ComputePartition.table src n).refs i))^[k] n ≤ n ∧
        parts (p - k) = (fun i => toSizeT ((ComputePartition.table src n).refs i))^[k] n) ∧
      (∀ y, y = 0 ∨ p < y → parts y = parts0 y) := by
  refine ⟨fun i h1 hi => ?_, table_refs_zero src n, ?_⟩
  · obtain ⟨l, hl, hle, he⟩ := table_refs src n i h1 hi
    have := partition_length_pos l hl
    rw [he]
    omega
  · have hdec : ∀ j, 1 ≤ j → j ≤ n →
        (fun i => toSizeT ((ComputePartition.table src n).refs i)) j < j :=
      fun j h1 hj => table_step_lt src n j h1 hj
    have hcount := walk_count (fun i => toSizeT ((ComputePartition.table src n).refs i)) n 0 n
      (Nat.le_refl n) hdec
    have hwrite := walk_write (fun i => toSizeT ((ComputePartition.table src n).refs i)) n parts0
      (chain (fun i => toSizeT ((ComputePartition.table src n).refs i)) n n).length n
      (Nat.le_refl n) hdec (Nat.le_refl _)
    obtain ⟨c1, c2, c3⟩ := chain_iterate
      (fun i => toSizeT ((ComputePartition.table src n).refs i)) n n (Nat.le_refl n) hdec
    have hnext := chain_next (fun i => toSizeT ((ComputePartition.table src n).refs i)) n n
      (Nat.le_refl n) hdec
    have hpos : 1 ≤ (chain (fun i => toSizeT ((ComputePartition.table src n).refs i)) n
        n).length := by
      obtain ⟨m, hm⟩ : ∃ m, n = m + 1 := ⟨n - 1, by omega⟩
      rw [hm, chain_pos _ m (m + 1) (by omega), List.length_cons]
      omega
    rw [Nat.zero_add] at hcount
    rw [Nat.sub_self] at hwrite
    generalize hC : chain (fun i => toSizeT ((ComputePartition.table src n).refs i)) n n = C
      at hcount hwrite c1 c2 c3 hnext hpos
    refine ⟨C.length, _, hcount, hwrite, ?_, hpos, c3, c2, fun k hk => ?_, fun y hy => ?_⟩
    · unfold ComputePartition
      simp only []
      rw [hcount]
      simp only []
      rw [hwrite]
    · obtain ⟨n1, n2, _, _⟩ := hnext k hk
      rw [c1 k hk] at n1 n2
      refine ⟨n1, n2, ?_⟩
      show (if 0 < C.length - k ∧ C.length - k ≤ C.length then C.getD (C.length - (C.length - k)) 0
        else parts0 (C.length - k)) = _
      rw [if_pos ⟨by omega, by omega⟩, show C.length - (C.length - k) = k from by omega, c1 k hk]
    · show (if 0 < y ∧ y ≤ C.length then C.getD (C.length - y) 0 else parts0 y) = _
      rw [if_neg (by omega)]

theorem backtrack_terminates_witness :
    128 ≤ 129 ∧
    ∃ (p : Nat) (parts : Mem),
      ComputePartition (fun _ => 0) 129 (fun _ => 7) = some (p, parts.write 0 0) ∧
      1 ≤ p ∧ p ≤ 129 ∧
      (fun i => toSizeT ((ComputePartition.table (fun _ => 0) 129).refs i))^[p] 129 = 0 ∧
      (∀ y, y = 0 ∨ p < y → parts y = 7) := by
  obtain ⟨_, _, p, parts, _, _, h3, h4, h5, h6, _, h8⟩ :=
    backtrack_terminates (fun _ => 0) 129 (fun _ => 7) (by decide)
  exact ⟨by decide, p, parts, h3, h4, h5, h6, h8⟩

/-- C38 (all-zero input): for `n ≥ 128` zeros `ComputePartition` returns
`p = ⌊n/128⌋ + (n mod 128)` partitions: the first `n mod 128` have length 1 and
the remaining `⌊n/128⌋` have length 128 (one partition for `n = 128`). -/
theorem all_zero_partition (src : Nat → Nat) (n : Nat) (parts0 : Mem) (hn : 128 ≤ n)
    (hz : ∀ i, i < n → src i = 0) :
    ∃ parts, ComputePartition src n parts0 = some (n / 128 + n % 128, parts) ∧
      (∀ k, k ≤ n % 128 → parts k = k) ∧
      (∀ m, m ≤ n / 128 → parts (n % 128 + m) = n % 128 + 128 * m) ∧
      (∀ k, k < n % 128 → parts (k + 1) - parts k = 1) ∧
      (∀ m, m < n / 128 → parts (n % 128 + m + 1) - parts (n % 128 + m) = 128) := by
  rw [ComputePartition_congr src (fun _ => 0) n hn hz parts0]
  obtain ⟨p, parts, hcp, hshape⟩ := ComputePartition_PartShape (fun _ => 0) n parts0 (by omega)
  have hfollow := ComputePartition_follow (fun _ => 0) n parts0 p parts hcp
  have hdm := Nat.div_add_mod n 128
  have hml := Nat.mod_lt n (by decide : 0 < 128)
  obtain ⟨hp1, hp0, hpn, _, _⟩ := hshape
  generalize hq : n / 128 = q at hdm
  generalize hr : n % 128 = r at hdm hml
  have hstep : ∀ v, 1 ≤ v → v ≤ n →
      toSizeT ((ComputePartition.table (fun _ => 0) n).refs v)
        = if 128 ≤ v then v - 128 else v - 1 := by
    intro v hv1 hvn
    by_cases h128 : 128 ≤ v
    · rw [if_pos h128, table_refs_zeros n v h128 hvn, toSizeT_natCast]
    · rw [if_neg h128, table_refs_low (fun _ => 0) n v hv1 (by omega), toSizeT_natCast]
  have key : ∀ d, d ≤ p → d ≤ r + q →
      parts (p - d) = if r + q - d ≤ r then r + q - d else r + 128 * (r + q - d - r) := by
    intro d
    induction d with
    | zero =>
      intro _ _
      rw [Nat.sub_zero, hpn, Nat.sub_zero]
      split_ifs <;> omega
    | succ d ih =>
      intro hd1 hd2
      have h := ih (by omega) (by omega)
      obtain ⟨f1, f2, f3⟩ := hfollow (p - d) (by omega) (by omega)
      rw [show p - (d + 1) = p - d - 1 from by omega, f3, hstep _ f1 f2, h]
      split_ifs <;> omega
  have hpe : p = q + r := by
    rcases Nat.lt_trichotomy p (r + q) with hlt | heq | hgt
    · have h := key p (Nat.le_refl p) (by omega)
      rw [Nat.sub_self, hp0] at h
      split_ifs at h <;> omega
    · omega
    · have h := key (r + q) (by omega) (Nat.le_refl _)
      obtain ⟨f1, _, _⟩ := hfollow (p - (r + q)) (by omega) (by omega)
      rw [Nat.sub_self] at h
      rw [if_pos (Nat.zero_le r)] at h
      omega
  have hlow : ∀ k, k ≤ r → parts k = k := by
    intro k hk
    have h := key (p - k) (by omega) (by omega)
    rw [show p - (p - k) = k from by omega, show r + q - (p - k) = k from by omega,
      if_pos hk] at h
    exact h
  have hhigh : ∀ m, m ≤ q → parts (r + m) = r + 128 * m := by
    intro m hm
    have h := key (p - (r + m)) (by omega) (by omega)
    rw [show p - (p - (r + m)) = r + m from by omega,
      show r + q - (p - (r + m)) = r + m from by omega] at h
    rw [h]
    split_ifs <;> omega
  refine ⟨parts, by rw [hcp, hpe], hlow, hhigh, fun k hk => ?_, fun m hm => ?_⟩
  · rw [hlow (k + 1) (by omega), hlow k (by omega)]
    omega
  · rw [show r + m + 1 = r + (m + 1) from by omega, hhigh (m + 1) (by omega), hhigh m (by omega)]
    omega

theorem all_zero_partition_witness :
    128 ≤ 129 ∧ (∀ i, i < 129 → (fun _ => 0) i = 0) ∧
    ∃ parts, ComputePartition (fun _ => 0) 129 (fun _ => 7) = some (2, parts) ∧
      parts 0 = 0 ∧ parts 1 = 1 ∧ parts 2 = 129 := by
  obtain ⟨parts, h1, h2, h3, _, _⟩ :=
    all_zero_partition (fun _ => 0) 129 (fun _ => 7) (by decide) (fun _ _ => rfl)
  exact ⟨by decide, fun _ _ => rfl, parts, h1, h2 0 (by decide), h2 1 (by decide),
    h3 1 (by decide)⟩

/-- C35 (Compress never fails on valid buffers): for every `n` and `x`, with the
`CompressBound(n)` bytes `Compress` takes as the limit of its destination,
`Compress` returns a size that is at least 8 (so never 0), exactly 8 for
`n = 0`; every block starts with no failure behind it and its `CompressBlock`
returns a size other than 0, and in a block of at least 144 elements every
`WriteBits` call of the partition loop returns a byte count, never `-1`. -/
theorem Compress_never_fails (x : Nat → Nat) (n : Nat) (hx : ∀ i, i < n → x i < 2 ^ 64)
    (dst : Mem) :
    (∃ W out, Compress x dst n = some (W, out) ∧ W ≠ 0 ∧ 8 ≤ W ∧ W ≤ CompressBound n ∧
      (n = 0 → W = 8)) ∧
    ∀ j len, (j < n / block_num ∧ len = block_num) ∨
        (j = n / block_num ∧ len = n % block_num ∧ len ≠ 0) →
      ∃ s, Compress.loop x dst n j = some s ∧ s.ok = true ∧
        (∃ R m, CompressBlock (fun i => x (s.sp + i)) len s.mem s.dp (CompressBound n)
          = some (R, m) ∧ R ≠ 0) ∧
        (144 ≤ len →
          ∃ np parts, ComputePartition (fun i => x (s.sp + i)) (len - 16) (fun _ => 0)
              = some (np, parts) ∧
            ∀ i, i < np →
              (CompressBlock.loop (fun i => x (s.sp + i)) np parts s.mem s.dp (CompressBound n)
                i).ok = true ∧
              (CompressBlock.call (fun i => x (s.sp + i)) parts (CompressBound n) i
                (CompressBlock.loop (fun i => x (s.sp + i)) np parts s.mem s.dp
                  (CompressBound n) i)).1 ≠ -1 ∧
              0 ≤ (CompressBlock.call (fun i => x (s.sp + i)) parts (CompressBound n) i
                (CompressBlock.loop (fun i => x (s.sp + i)) np parts s.mem s.dp
                  (CompressBound n) i)).1) := by
  have hdiv : block_num * (n / block_num) + n % block_num = n := Nat.div_add_mod n block_num
  have hmod : n % block_num < block_num := Nat.mod_lt n (by decide)
  have hbound : 8 + 9 * n ≤ CompressBound n := by
    unfold CompressBound; simp only []; omega
  constructor
  · obtain ⟨W, out, offs, h1, h2, h3, h4, _⟩ := Compress_layout x dst n hx
    refine ⟨W, out, h1, by omega, h3, by omega, fun h0 => ?_⟩
    subst h0
    omega
  · intro j len hj
    have hjle : j ≤ n / block_num := by omega
    obtain ⟨offs, s, hst, hok, hsp, hdp, hws, h0, h8, hsz, _, _, _⟩ :=
      Compress_loop_inv x dst n hx j hjle
    have hfacts : 65536 * j + len ≤ n ∧ 1 ≤ len ∧ len ≤ 65536 := by
      simp only [block_num_eq] at *
      omega
    obtain ⟨hjn, hlen1, hlen2⟩ := hfacts
    have hxs : ∀ i, i < len → x (s.sp + i) < 2 ^ 64 := by
      intro i hi
      rw [hsp, block_num_eq]
      exact hx _ (by omega)
    have hroom : s.dp + 9 * len ≤ CompressBound n := by
      rw [hdp]
      simp only [block_num_eq] at hsz
      omega
    refine ⟨s, hst, hok, ?_, fun h144 => ?_⟩
    · obtain ⟨R, out, hR0, _, _, _, _, _, hcb⟩ := Compress_block_ok x len (CompressBound n) s hok
        hlen1 hlen2 hxs hroom
      exact ⟨R, out, hcb, by omega⟩
    · obtain ⟨np, parts, hcp, hcalls⟩ := CompressBlock_calls_ok (fun i => x (s.sp + i)) len s.mem
        s.dp (CompressBound n) h144 hxs (by omega) hroom
      refine ⟨np, parts, hcp, fun i hi => ?_⟩
      obtain ⟨c1, c2⟩ := hcalls i hi
      rw [c2]
      exact ⟨c1, by omega, by omega⟩

theorem Compress_never_fails_witness :
    (∀ i, i < 144 → (fun _ => 5) i < 2 ^ 64) ∧
    ∃ W out, Compress (fun _ => 5) (fun _ => 0) 144 = some (W, out) ∧ W ≠ 0 ∧ 8 ≤ W ∧
      W ≤ CompressBound 144 ∧ (144 = 0 → W = 8) :=
  ⟨fun _ _ => (by decide : (5 : Nat) < 2 ^ 64),
    (Compress_never_fails (fun _ => 5) 144 (fun _ _ => (by decide : (5 : Nat) < 2 ^ 64))
      (fun _ => 0)).1⟩

end vpacker64
